import Mathlib

/-!
# jsonla (ggicci::Json): the parser, the value tree and the serializer

A shallow embedding of `src/gci-json.cc`.

* A `char` of the C string is a `Char`; its code is the value of the unsigned byte.
  The text handed to `Json::Parse` is a `List Char`, and the terminating NUL is what a
  read at index `length` (or beyond a NUL of the list) returns.
* The payload of a Number is a C `double`.  Its type `D` and the library conversion
  `atof : List Char → D` are parameters of the development: every statement holds for
  any interpretation of them.
* The parser object `Json::Assist` is the record `Assist`; every member function is a
  function on that record returning an `Outcome`: a result with the new state, a thrown
  exception with the state at the throw, or fuel exhaustion (`while (true)` loops and
  the recursion are bounded by a fuel argument; `Parse` is proved never to exhaust it).
* A member function of `Json` that reads or changes a value is a function on `Json D`.
  One that can throw returns an `Except`; every throw of these functions comes before the
  first write, so an error stands for the exception with the receiver as it was.  A
  reference `Json&` handed out by `operator[]` is the node it denotes together with the
  receiver after the call, and a write through it is `ObjectData.store` or `List.set`.
* Pointers and lifetimes are not part of the embedding `Json D`: a copy is the value
  `CopyData` computes, and the functions `Json.assign`, `Json.Push` and `Json.AddProperty`
  on values describe the calls whose argument is an object of its own, no part of the
  receiver and not containing it.  The other calls are those of `Node.assign`, `Node.Push`
  and `Node.AddProperty`.
* Where the fields of an object matter, the objects in memory are the type `Node`: an
  address, the field `kind_`, and what the field `data_` points to.  Every `new Json`
  takes the next unused address, which the functions on `Node` pass along, and `none`
  stands for undefined behaviour: a cast of `data_` to a type it does not point to, a
  read through a null `data_`, or a read of an object that has been deleted.  An argument
  `const Json&` is given as the object it refers to before the call; where the code reads
  it after a write to the receiver, the function reads it again (`Node.reread`).
* `Json::ToString` and the two `what()` end in `return oss.str().c_str();`.  The text in
  the stream at that statement is `Json.ToString.oss` and `Exception.what.oss`; the value
  returned is a `CharPtr`, here always `CharPtr.dangling`, the temporary `oss.str()` being
  destroyed at the end of the `return` statement.  `Json.ToString` is the text of the
  documentation: what the statements of the member write when the text of each child is
  written in its place.
* An `int` (a position, a size, an index) is an `Int`: texts and arrays are shorter than
  `2^31`.
* Where every step of a run matters, not only its outcome, the members of `Assist` are
  given once more as `Watched.*`: the same statements with a watch on the cursor, which
  stops the run (`none`) when `NextCharacter` takes its guard, when a read is outside
  `0 .. length`, or when `pos--` leaves `-1 .. length`.
-/

namespace ggicci

/-! ## Definitions -/

/-- The double quote character (code 34). -/
def dquote : Char := Char.ofNat 34

/-- The backslash character (code 92). -/
def bslash : Char := Char.ofNat 92

/-- The terminator of a C string. -/
def NUL : Char := Char.ofNat 0

/-- The C library `isdigit` in the "C" locale. -/
def isdigit (c : Char) : Bool := 48 ≤ c.toNat && c.toNat ≤ 57

/-- The C library `isxdigit` in the "C" locale. -/
def isxdigit (c : Char) : Bool :=
  (48 ≤ c.toNat && c.toNat ≤ 57) || (97 ≤ c.toNat && c.toNat ≤ 102) ||
    (65 ≤ c.toNat && c.toNat ≤ 70)

/-- The C library `iscntrl` in the "C" locale: codes 0..31 and 127. -/
def iscntrl (c : Char) : Bool := c.toNat < 32 || c.toNat == 127

/-- The test of `SkipWhitespaces`: space, tab, line feed, carriage return. -/
def isWhitespace (ch : Char) : Bool := ch == ' ' || ch == '\t' || ch == '\n' || ch == '\r'

/-- A `Json` node: `kind_` together with the payload `data_` it selects.
`ObjectData` is `std::map<std::string, Json*>`, kept as a key-sorted association list;
`ArrayData` is `std::vector<Json*>`. -/
inductive Json (D : Type) where
  | number (d : D)
  | string (s : List Char)
  | bool (b : Bool)
  | null
  | object (m : List (List Char × Json D))
  | array (a : List (Json D))

/-- The enumeration `Json::Kind`. -/
inductive Kind where
  | kNumber | kString | kBool | kNull | kObject | kArray
  deriving DecidableEq, Repr

/-- The type `Json::ObjectData`. -/
abbrev ObjectData (D : Type) := List (List Char × Json D)

/-- The type `Json::ArrayData`. -/
abbrev ArrayData (D : Type) := List (Json D)

/-- The enumeration `IllegalOperationException::OperationKind`. -/
inductive OperationKind where
  | kExtract | kViolateAccess | kPush | kAddProperty | kRemove | kRetriveKeys
  deriving DecidableEq, Repr

/-- The two exception types of the library: `UnexpectedTokenException(ch, pos)` and
`IllegalOperationException(kind, to, from)`. -/
inductive Exception where
  | UnexpectedToken (ch : Char) (pos : Int)
  | IllegalOperation (kind : OperationKind) (to_ : List Char) (from_ : Option (List Char))
  deriving DecidableEq, Repr

/-- The member `Json::DataKind`. -/
def Json.DataKind {D : Type} : Json D → Kind
  | .number _ => .kNumber
  | .string _ => .kString
  | .bool _ => .kBool
  | .null => .kNull
  | .object _ => .kObject
  | .array _ => .kArray

/-- The member `Json::DataTypeName`. -/
def Json.DataTypeName {D : Type} : Json D → List Char
  | .number _ => "Number".data
  | .string _ => "String".data
  | .bool _ => "Bool".data
  | .null => "Null".data
  | .object _ => "Object".data
  | .array _ => "Array".data

/-- The order of `std::string` keys in `std::map`: lexicographic on the unsigned bytes,
a proper prefix first. -/
def strLt : List Char → List Char → Bool
  | [], [] => false
  | [], _ :: _ => true
  | _ :: _, [] => false
  | a :: as, b :: bs => a.toNat < b.toNat || (a.toNat == b.toNat && strLt as bs)

/-- The call `std::map::insert(pair)`: the pair is put at its place in key order when the
key is absent; when the key is present the map is left as it is. -/
def ObjectData.insert {D : Type} (key : List Char) (value : Json D) :
    ObjectData D → ObjectData D
  | [] => [(key, value)]
  | (k, v) :: rest =>
    if strLt key k then (key, value) :: (k, v) :: rest
    else if strLt k key then (k, v) :: ObjectData.insert key value rest
    else (k, v) :: rest

/-- The call `std::map::find(key)`, as the mapped value when there is one. -/
def ObjectData.find {D : Type} (key : List Char) : ObjectData D → Option (Json D)
  | [] => none
  | (k, v) :: rest => if k = key then some v else ObjectData.find key rest

/-- The member `Json::Size`: the element count of an Array, 1 for every other kind. -/
def Json.Size {D : Type} : Json D → Int
  | .array a => (a.length : Int)
  | _ => 1

/-- The member `Json::Contains`. -/
def Json.Contains {D : Type} (j : Json D) (key : List Char) : Bool :=
  match j with
  | .object m => (ObjectData.find key m).isSome
  | _ => false

/-- The member `Json::Keys`. -/
def Json.Keys {D : Type} (j : Json D) : Except Exception (List (List Char)) :=
  match j with
  | .object m => .ok (m.map Prod.fst)
  | _ => .error (.IllegalOperation .kRetriveKeys j.DataTypeName none)

/-- The conversion `Json::operator string`. -/
def Json.toStdString {D : Type} (j : Json D) : Except Exception (List Char) :=
  match j with
  | .string s => .ok s
  | _ => .error (.IllegalOperation .kExtract "String".data (some j.DataTypeName))

/-- The const member `Json::operator[](int)`. -/
def Json.atIndex {D : Type} (j : Json D) (index : Int) : Except Exception (Json D) :=
  match j with
  | .array a =>
    if index ≥ j.Size ∨ index < 0 then
      .error (.IllegalOperation .kViolateAccess "Array Item".data (some j.DataTypeName))
    else
      match a.get? index.toNat with
      | some x => .ok x
      | none => .error (.IllegalOperation .kViolateAccess "Array Item".data (some j.DataTypeName))
  | _ => .error (.IllegalOperation .kExtract "Array Item".data (some j.DataTypeName))

mutual
/-- The text that the documentation of `Json::ToString` shows for a value: what the
statements of the member write to its stream `oss` when, for a child of a container, the
text of that child is written in its place; `dtoa` is the stream insertion of a `double`.
It is not what a caller of the member reads: the member returns a pointer into a destroyed
temporary, and writes a child through such a pointer (`Json.ToString.oss`,
`Json.ToString.returned`). -/
def Json.ToString {D : Type} (dtoa : D → List Char) : Json D → List Char
  | .string s => [dquote] ++ s ++ [dquote]
  | .number d => dtoa d
  | .bool b => if b then ['t', 'r', 'u', 'e'] else ['f', 'a', 'l', 's', 'e']
  | .null => ['n', 'u', 'l', 'l']
  | .object m => ['{', ' '] ++ Json.ToString.objectItems dtoa true m ++ [' ', '}']
  | .array a => ['[', ' '] ++ Json.ToString.arrayItems dtoa true a ++ [' ', ']']
/-- The loop of `ToString` over the entries of an Object; `unique` is its flag. -/
def Json.ToString.objectItems {D : Type} (dtoa : D → List Char) (unique : Bool) :
    List (List Char × Json D) → List Char
  | [] => []
  | (k, v) :: rest =>
    (if unique then [] else [',', ' ']) ++ [dquote] ++ k ++ [dquote, ':', ' ']
      ++ Json.ToString dtoa v ++ Json.ToString.objectItems dtoa false rest
/-- The loop of `ToString` over the elements of an Array; `unique` is its flag. -/
def Json.ToString.arrayItems {D : Type} (dtoa : D → List Char) (unique : Bool) :
    List (Json D) → List Char
  | [] => []
  | v :: rest =>
    (if unique then [] else [',', ' ']) ++ Json.ToString dtoa v
      ++ Json.ToString.arrayItems dtoa false rest
end

/-- A value of type `const char*` as a caller gets it: `live text` points to characters
that are there, `dangling` into a `std::string` that has been destroyed. -/
inductive CharPtr where
  | live (text : List Char)
  | dangling
  deriving DecidableEq

/-- A read of the characters at a `const char*` (by `operator<<`, by `Json::Parse`, by the
constructor of a `std::string`); `none` stands for undefined behaviour, the read of a
destroyed buffer. -/
def CharPtr.read : CharPtr → Option (List Char)
  | .live text => some text
  | .dangling => none

mutual
/-- The member `Json::ToString` up to its `return`: the text in the stream `oss`, with
`none` for undefined behaviour on the way; `dtoa` is the stream insertion of a
`double`. -/
def Json.ToString.oss {D : Type} (dtoa : D → List Char) : Json D → Option (List Char)
  | .string s => some ([dquote] ++ s ++ [dquote])
  | .number d => some (dtoa d)
  | .bool b => some (if b then ['t', 'r', 'u', 'e'] else ['f', 'a', 'l', 's', 'e'])
  | .null => some ['n', 'u', 'l', 'l']
  | .object m =>
    match Json.ToString.oss.objectLoop dtoa true m ['{', ' '] with
    | some oss => some (oss ++ [' ', '}'])
    | none => none
  | .array a =>
    match Json.ToString.oss.arrayLoop dtoa true a ['[', ' '] with
    | some oss => some (oss ++ [' ', ']'])
    | none => none
/-- The loop of `ToString` over the entries of an Object; `unique` is its flag and `oss`
the text in the stream.  The insertion `oss << *cit->second` is `operator<<` for a
`Json`: it runs `ToString` of the child and writes the characters at the pointer that call
returned, which points into the destroyed temporary `oss.str()` of that call. -/
def Json.ToString.oss.objectLoop {D : Type} (dtoa : D → List Char) (unique : Bool) :
    List (List Char × Json D) → List Char → Option (List Char)
  | [], oss => some oss
  | (k, v) :: rest, oss =>
    match Json.ToString.oss dtoa v with
    | none => none
    | some _ =>
      match CharPtr.read CharPtr.dangling with
      | none => none
      | some text =>
        Json.ToString.oss.objectLoop dtoa false rest
          (oss ++ (if unique then [] else [',', ' ']) ++ [dquote] ++ k ++ [dquote, ':', ' ']
            ++ text)
/-- The loop of `ToString` over the elements of an Array; `oss << *(*cit)` is
`operator<<` for a `Json` as in the loop over the entries of an Object. -/
def Json.ToString.oss.arrayLoop {D : Type} (dtoa : D → List Char) (unique : Bool) :
    List (Json D) → List Char → Option (List Char)
  | [], oss => some oss
  | v :: rest, oss =>
    match Json.ToString.oss dtoa v with
    | none => none
    | some _ =>
      match CharPtr.read CharPtr.dangling with
      | none => none
      | some text =>
        Json.ToString.oss.arrayLoop dtoa false rest
          (oss ++ (if unique then [] else [',', ' ']) ++ text)
end

/-- The member `Json::ToString`: the pointer it returns.  The last statement is
`return oss.str().c_str();`: `oss.str()` is a temporary `std::string`, `c_str()` a pointer
into it, and the temporary is destroyed at the end of the statement, before the caller has
the pointer. -/
def Json.ToString.returned {D : Type} (dtoa : D → List Char) (v : Json D) : Option CharPtr :=
  match Json.ToString.oss dtoa v with
  | some _ => some CharPtr.dangling
  | none => none

/-- The friend `operator<<(ostream&, const Json&)`, `outs << rhs.ToString()`: the text of
the stream after the insertion. -/
def Json.insertion {D : Type} (dtoa : D → List Char) (outs : List Char) (rhs : Json D) :
    Option (List Char) :=
  match Json.ToString.returned dtoa rhs with
  | some p =>
    match p.read with
    | some text => some (outs ++ text)
    | none => none
  | none => none

/-- The struct `Json::Assist`. -/
structure Assist where
  source : List Char
  pos : Int
  character : Char
  token : List Char
  deriving DecidableEq, Repr

/-- What a member function of `Assist` does: return `a` in state `st`, throw `e` in state
`st`, or exhaust the fuel of the model. -/
inductive Outcome (α : Type) where
  | ok (a : α) (st : Assist)
  | thrown (e : Exception) (st : Assist)
  | outOfFuel

/-- Sequencing: the continuation runs on a normal return; a throw propagates. -/
def Outcome.andThen {α β : Type} (r : Outcome α) (f : α → Assist → Outcome β) : Outcome β :=
  match r with
  | .ok a st => f a st
  | .thrown e st => .thrown e st
  | .outOfFuel => .outOfFuel

/-- The handler `catch (exception& e) { Destroy...Data(...); UnexpectedToken(); }`:
any exception is replaced by `UnexpectedToken()` raised in the state at the throw. -/
def Outcome.catchRethrow {α : Type} (r : Outcome α) : Outcome α :=
  match r with
  | .thrown _ st => .thrown (.UnexpectedToken st.character st.pos) st
  | r => r

/-- The constructor `Assist::Assist`. -/
def Assist.init (json_string : List Char) : Assist :=
  { source := json_string, pos := -1, character := ' ', token := [] }

/-- The read `*(source + i)` of the NUL-terminated buffer. -/
def charAt (source : List Char) (i : Int) : Char := source.getD i.toNat NUL

/-- The member `Assist::UnexpectedToken`. -/
def UnexpectedToken {α : Type} (st : Assist) : Outcome α :=
  .thrown (.UnexpectedToken st.character st.pos) st

/-- The member `Assist::Concat`. -/
def Concat (st : Assist) : Assist := { st with token := st.token ++ [st.character] }

/-- The member `Assist::Retract`. -/
def Retract (st : Assist) : Assist := { st with pos := st.pos - 1, character := ' ' }

/-- The member `Assist::EOL`. -/
def EOL (st : Assist) : Bool := st.character == NUL

/-- The member `Assist::NextCharacter`. -/
def NextCharacter (st : Assist) : Outcome Char :=
  if st.pos ≥ 0 ∧ charAt st.source st.pos = NUL then UnexpectedToken st
  else
    let c := charAt st.source (st.pos + 1)
    .ok c { st with pos := st.pos + 1, character := c }

/-- The statement `pos--` that ends `SkipWhitespaces`. -/
def StepBack (st : Assist) : Assist := { st with pos := st.pos - 1 }

/-- The member `Assist::SkipWhitespaces`. -/
def SkipWhitespaces : Nat → Assist → Outcome Unit
  | 0, _ => .outOfFuel
  | fuel + 1, st =>
    (NextCharacter st).andThen fun ch st =>
      if isWhitespace ch then SkipWhitespaces fuel st
      else .ok () (StepBack st)

/-- The member `Assist::ConsumeSpecific`. -/
def ConsumeSpecific : List Char → Assist → Outcome Unit
  | [], st => .ok () st
  | c :: str, st =>
    (NextCharacter st).andThen fun ch st =>
      if c ≠ ch then UnexpectedToken st else ConsumeSpecific str st

/-- The member `Assist::KindDetect`. -/
def KindDetect (st : Assist) : Outcome Kind :=
  (NextCharacter st).andThen fun _ st =>
    let kind : Kind :=
      if st.character = dquote then .kString
      else if st.character = 't' ∨ st.character = 'f' then .kBool
      else if st.character = 'n' then .kNull
      else if st.character = '{' then .kObject
      else if st.character = '[' then .kArray
      else .kNumber
    .ok kind (Retract st)

/-- The two `while` loops of `ConsumeNumber` that read digits and push back the first
character that is not one (the integer digits and the exponent digits). -/
def ConsumeNumber.digits : Nat → Assist → Outcome Unit
  | 0, _ => .outOfFuel
  | fuel + 1, st =>
    (NextCharacter st).andThen fun c st =>
      if !isdigit c then .ok () (Retract st)
      else ConsumeNumber.digits fuel (Concat st)

/-- The loop `while (dot)` of `ConsumeNumber`: it reads the digits of the fraction and
leaves the first character that is not one as the current character. -/
def ConsumeNumber.fraction : Nat → Assist → Outcome Unit
  | 0, _ => .outOfFuel
  | fuel + 1, st =>
    (NextCharacter st).andThen fun _ st =>
      if !isdigit st.character then .ok () st
      else ConsumeNumber.fraction fuel (Concat st)

/-- Lines 514-516 of `ConsumeNumber`: read a character and, when it is a minus sign, keep
it and read the next one. -/
def ConsumeNumber.sign (st : Assist) : Outcome Unit :=
  (NextCharacter st).andThen fun _ st =>
    if '-' = st.character then
      (NextCharacter (Concat st)).andThen fun _ st => .ok () st
    else .ok () st

/-- Lines 517-526 of `ConsumeNumber`: the current character must be a digit; it is kept, and
unless it is `0` the following digits are read. -/
def ConsumeNumber.integer (fuel : Nat) (st : Assist) : Outcome Unit :=
  if !isdigit st.character then UnexpectedToken st
  else
    (fun (st : Assist) =>
      if '0' = st.character then Outcome.ok () st
      else ConsumeNumber.digits fuel st) (Concat st)

/-- Lines 527-539 of `ConsumeNumber`: the next character must not be a digit; when it is
a dot, at least one digit must follow, and the digits of the fraction are read. -/
def ConsumeNumber.point (fuel : Nat) (st : Assist) : Outcome Unit :=
  (NextCharacter st).andThen fun c st =>
    if isdigit c then UnexpectedToken st
    else if '.' = st.character then
      (NextCharacter (Concat st)).andThen fun c st =>
        if !isdigit c then UnexpectedToken st
        else ConsumeNumber.fraction fuel (Concat st)
    else .ok () st

/-- Lines 541-562 of `ConsumeNumber`: the exponent, or the push back of the character
that ended the number. -/
def ConsumeNumber.exponent (fuel : Nat) (st : Assist) : Outcome Unit :=
  if 'e' = st.character ∨ 'E' = st.character then
    (NextCharacter (Concat st)).andThen fun _ st =>
    (if '+' = st.character ∨ '-' = st.character then Outcome.ok () (Concat st)
      else if isdigit st.character then Outcome.ok () (Retract st)
      else UnexpectedToken st).andThen fun _ st =>
    (NextCharacter st).andThen fun c st =>
      if !isdigit c then UnexpectedToken st
      else ConsumeNumber.digits fuel (Concat st)
  else .ok () (Retract st)

/-- The member `Assist::ConsumeNumber`; `atof` is the library conversion. -/
def ConsumeNumber {D : Type} (atof : List Char → D) (fuel : Nat) (st : Assist) :
    Outcome (Json D) :=
  (ConsumeNumber.sign { st with token := [] }).andThen fun _ st =>
  (ConsumeNumber.integer fuel st).andThen fun _ st =>
  (ConsumeNumber.point fuel st).andThen fun _ st =>
  (ConsumeNumber.exponent fuel st).andThen fun _ st =>
  .ok (Json.number (atof st.token)) st

/-- The loop `for (int i = 0; i < 4; ++i)` of `ConsumeString`, with `n` rounds to go. -/
def ConsumeString.hex : Nat → Assist → Outcome Unit
  | 0, st => .ok () st
  | n + 1, st =>
    (NextCharacter st).andThen fun c st =>
      if !isxdigit c then UnexpectedToken st
      else ConsumeString.hex n (Concat st)

/-- The `switch` of `ConsumeString` on the character after a backslash. -/
def ConsumeString.escape (st : Assist) : Outcome Unit :=
  if st.character = dquote ∨ st.character = bslash ∨ st.character = '/' ∨
      st.character = 'b' ∨ st.character = 'f' ∨ st.character = 'n' ∨
      st.character = 'r' ∨ st.character = 't' then .ok () (Concat st)
  else if st.character = 'u' then ConsumeString.hex 4 (Concat st)
  else UnexpectedToken st

/-- The loop `while (true)` of `ConsumeString`. -/
def ConsumeString.loop : Nat → Assist → Outcome Unit
  | 0, _ => .outOfFuel
  | fuel + 1, st =>
    (NextCharacter st).andThen fun c st =>
      if dquote = c then .ok () st
      else if bslash = st.character then
        (NextCharacter (Concat st)).andThen fun _ st =>
        (ConsumeString.escape st).andThen fun _ st =>
        ConsumeString.loop fuel st
      else if iscntrl st.character then UnexpectedToken st
      else ConsumeString.loop fuel (Concat st)

/-- The member `Assist::ConsumeString`. -/
def ConsumeString {D : Type} (fuel : Nat) (st : Assist) : Outcome (Json D) :=
  (SkipWhitespaces fuel st).andThen fun _ st =>
  (NextCharacter st).andThen fun c st =>
  if dquote ≠ c then UnexpectedToken st
  else
    (ConsumeString.loop fuel { st with token := [] }).andThen fun _ st =>
    .ok (Json.string st.token) st

/-- The member `Assist::ConsumeBool`. -/
def ConsumeBool {D : Type} (st : Assist) : Outcome (Json D) :=
  (NextCharacter st).andThen fun ch st =>
  (fun (st : Assist) =>
    if 't' = ch then
      (ConsumeSpecific ['t', 'r', 'u', 'e'] st).andThen fun _ st => .ok (Json.bool true) st
    else
      (ConsumeSpecific ['f', 'a', 'l', 's', 'e'] st).andThen fun _ st =>
        .ok (Json.bool false) st) (Retract st)

/-- The member `Assist::ConsumeNull`. -/
def ConsumeNull {D : Type} (st : Assist) : Outcome (Json D) :=
  (ConsumeSpecific ['n', 'u', 'l', 'l'] st).andThen fun _ st => .ok Json.null st

/-- The member `Assist::ConsumePair`.  `ConsumeValue` is the member of that name, called
with its default argument; the key is the parsed String converted by `operator string`. -/
def ConsumePair {D : Type} (ConsumeValue : Assist → Outcome (Json D)) (fuel : Nat)
    (st : Assist) : Outcome (List Char × Json D) :=
  (ConsumeString fuel st).andThen fun (keyJson : Json D) st =>
  match keyJson.toStdString with
  | .error e => .thrown e st
  | .ok key =>
    (SkipWhitespaces fuel st).andThen fun _ st =>
    (ConsumeSpecific [':'] st).andThen fun _ st =>
    (ConsumeValue st).andThen fun value st =>
    .ok (key, value) st

/-- The loop `while (true)` of `ConsumeObject`, with the pairs inserted so far. -/
def ConsumeObject.loop {D : Type} (ConsumeValue : Assist → Outcome (Json D)) (fuel : Nat) :
    Nat → ObjectData D → Assist → Outcome (ObjectData D)
  | 0, _, _ => .outOfFuel
  | n + 1, obj, st =>
    (NextCharacter st).andThen fun c st =>
      if '}' = c then .ok obj st
      else if ',' = st.character then
        (ConsumePair ConsumeValue fuel st).catchRethrow.andThen fun p st =>
        ConsumeObject.loop ConsumeValue fuel n (ObjectData.insert p.1 p.2 obj) st
      else UnexpectedToken st

/-- The member `Assist::ConsumeObject`. -/
def ConsumeObject {D : Type} (ConsumeValue : Assist → Outcome (Json D)) (fuel : Nat)
    (st : Assist) : Outcome (Json D) :=
  (NextCharacter st).andThen fun c st =>
  if '{' ≠ c then UnexpectedToken st
  else
    (SkipWhitespaces fuel st).andThen fun _ st =>
    (NextCharacter st).andThen fun c st =>
    if '}' = c then .ok (Json.object []) st
    else
      (ConsumePair ConsumeValue fuel (Retract st)).catchRethrow.andThen fun p st =>
      (ConsumeObject.loop ConsumeValue fuel fuel (ObjectData.insert p.1 p.2 []) st).andThen
        fun obj st =>
      .ok (Json.object obj) st

/-- The loop `while (true)` of `ConsumeArray`, with the elements pushed so far. -/
def ConsumeArray.loop {D : Type} (ConsumeValue : Assist → Outcome (Json D)) :
    Nat → ArrayData D → Assist → Outcome (ArrayData D)
  | 0, _, _ => .outOfFuel
  | n + 1, arr, st =>
    (NextCharacter st).andThen fun c st =>
      if ']' = c then .ok arr st
      else if ',' = st.character then
        (ConsumeValue st).catchRethrow.andThen fun v st =>
        ConsumeArray.loop ConsumeValue n (arr ++ [v]) st
      else UnexpectedToken st

/-- The member `Assist::ConsumeArray`. -/
def ConsumeArray {D : Type} (ConsumeValue : Assist → Outcome (Json D)) (fuel : Nat)
    (st : Assist) : Outcome (Json D) :=
  (NextCharacter st).andThen fun c st =>
  if '[' ≠ c then UnexpectedToken st
  else
    (SkipWhitespaces fuel st).andThen fun _ st =>
    (NextCharacter st).andThen fun c st =>
    if ']' = c then .ok (Json.array []) st
    else
      (ConsumeValue (Retract st)).catchRethrow.andThen fun v st =>
      (ConsumeArray.loop ConsumeValue fuel [v] st).andThen fun arr st =>
      .ok (Json.array arr) st

/-- Lines 486-499 of `ConsumeValue`: skip whitespace, detect the kind and run the consumer
of that kind.  `ConsumeValue` is the member itself, called with its default argument. -/
def ConsumeValue.consumer {D : Type} (atof : List Char → D)
    (ConsumeValue : Assist → Outcome (Json D)) (fuel : Nat) (st : Assist) :
    Outcome (Json D) :=
  (SkipWhitespaces fuel st).andThen fun _ st =>
  (KindDetect st).andThen fun kind st =>
  match kind with
  | .kNumber => ConsumeNumber atof fuel st
  | .kString => ConsumeString fuel st
  | .kBool => ConsumeBool st
  | .kNull => ConsumeNull st
  | .kObject => ConsumeObject ConsumeValue fuel st
  | .kArray => ConsumeArray ConsumeValue fuel st

/-- Lines 500-507 of `ConsumeValue`: at top level (`sect` false) only whitespace may
follow; inside a container (`sect` true) the whitespace after the value is skipped. -/
def ConsumeValue.finish {D : Type} (fuel : Nat) (sect : Bool) (json : Json D)
    (st : Assist) : Outcome (Json D) :=
  (if !sect && !EOL st then
      (SkipWhitespaces fuel st).andThen fun _ st =>
      (NextCharacter st).andThen fun _ st =>
      if !EOL st then UnexpectedToken st else .ok () st
    else .ok () st).andThen fun _ st =>
  (if sect then SkipWhitespaces fuel st else .ok () st).andThen fun _ st =>
  .ok json st

/-- The member `Assist::ConsumeValue`; `sect` is its parameter `section`.  Each level of
the recursion through `ConsumeObject`, `ConsumePair` and `ConsumeArray` spends one unit
of fuel. -/
def ConsumeValue {D : Type} (atof : List Char → D) : Nat → Bool → Assist → Outcome (Json D)
  | 0, _, _ => .outOfFuel
  | fuel + 1, sect, st =>
    (ConsumeValue.consumer atof (ConsumeValue atof fuel true) (fuel + 1) st).andThen
      fun json st => ConsumeValue.finish (fuel + 1) sect json st

/-- The static member `Json::Parse`.  The fuel `length + 2` is never exhausted. -/
def Parse {D : Type} (atof : List Char → D) (json_string : List Char) : Outcome (Json D) :=
  ConsumeValue atof (json_string.length + 2) false (Assist.init json_string)

/-- The static member `Json::Parse` called with a `const char*` that another call handed
out: the parser reads the characters at the pointer; `none` stands for undefined
behaviour. -/
def Parse.ofPtr {D : Type} (atof : List Char → D) (json_string : CharPtr) :
    Option (Outcome (Json D)) :=
  match json_string.read with
  | some text => some (Parse atof text)
  | none => none

/-- Reading `source[i]` of the NUL-terminated buffer. -/
def peek (src : List Char) (i : Nat) : Char := src.getD i NUL

/-- The parser state whose next read is `src[i]`. -/
def cur (src : List Char) (i : Nat) (ch : Char) (tok : List Char) : Assist :=
  { source := src, pos := (i : Int) - 1, character := ch, token := tok }

/-- A C string holds no NUL before its terminator. -/
def CStr (s : List Char) : Prop := ∀ c ∈ s, c ≠ NUL

/-- Only digits. -/
def Digits (l : List Char) : Prop := ∀ c ∈ l, isdigit c = true

/-- A thrown `UnexpectedTokenException` that carries the character at an offset `p` of
the text with `lo ≤ p ≤ length`, raised in the state that has just read that character. -/
def ThrownAt {α : Type} (src : List Char) (lo : Nat) (r : Outcome α) : Prop :=
  ∃ p tok, lo ≤ p ∧ p ≤ src.length ∧
    r = .thrown (.UnexpectedToken (peek src p) (p : Int)) (cur src (p + 1) (peek src p) tok)

/-- The integer part of a number: the single digit `0`, or a non-zero digit followed by
any digits. -/
def IntPart (l : List Char) : Prop :=
  l = ['0'] ∨ ∃ d ds, l = d :: ds ∧ isdigit d = true ∧ d ≠ '0' ∧ Digits ds

/-- The fractional part of a number, if present: `.` followed by one or more digits. -/
def FracPart (l : List Char) : Prop :=
  l = [] ∨ ∃ d ds, l = '.' :: d :: ds ∧ isdigit d = true ∧ Digits ds

/-- The exponent of a number, if present: `e` or `E`, optionally a sign, then one or
more digits. -/
def ExpPart (l : List Char) : Prop :=
  l = [] ∨ ∃ e sg d ds, l = e :: (sg ++ d :: ds) ∧ (e = 'e' ∨ e = 'E') ∧
    (sg = [] ∨ sg = ['+'] ∨ sg = ['-']) ∧ isdigit d = true ∧ Digits ds

/-- The lexeme of a number: optional `-`, integer part, optional fraction, optional
exponent. -/
def NumberLex (l : List Char) : Prop :=
  ∃ sg ip fp ep, l = sg ++ (ip ++ (fp ++ ep)) ∧ (sg = [] ∨ sg = ['-']) ∧
    IntPart ip ∧ FracPart fp ∧ ExpPart ep

/-- What may follow a number lexeme for `ConsumeNumber` to stop there: a character that is
neither a digit nor one of `.`, `e`, `E`. -/
def NumFollow (c : Char) : Prop := isdigit c = false ∧ c ≠ '.' ∧ c ≠ 'e' ∧ c ≠ 'E'

/-- Only whitespace. -/
def Ws (l : List Char) : Prop := ∀ c ∈ l, isWhitespace c = true

/-- The kind `KindDetect` reads off the next character. -/
def kindOf (c : Char) : Kind :=
  if c = dquote then .kString
  else if c = 't' ∨ c = 'f' then .kBool
  else if c = 'n' then .kNull
  else if c = '{' then .kObject
  else if c = '[' then .kArray
  else .kNumber

/-- The characters that may follow a backslash on their own. -/
def isEscapeChar (c : Char) : Prop :=
  c = dquote ∨ c = bslash ∨ c = '/' ∨ c = 'b' ∨ c = 'f' ∨ c = 'n' ∨ c = 'r' ∨ c = 't'

/-- The body of a string literal (what stands between the quotes): a sequence of items,
each an unescaped character that is not a control character, a quote or a backslash;
or a backslash and one of the escape characters; or a backslash, `u` and four
hexadecimal digits. -/
inductive StringBody : List Char → Prop where
  | nil : StringBody []
  | plain (c : Char) (rest : List Char) : iscntrl c = false → c ≠ dquote → c ≠ bslash →
      StringBody rest → StringBody (c :: rest)
  | escape (c : Char) (rest : List Char) : isEscapeChar c → StringBody rest →
      StringBody (bslash :: c :: rest)
  | unicode (h1 h2 h3 h4 : Char) (rest : List Char) : isxdigit h1 = true →
      isxdigit h2 = true → isxdigit h3 = true → isxdigit h4 = true → StringBody rest →
      StringBody (bslash :: 'u' :: h1 :: h2 :: h3 :: h4 :: rest)

/-- An element of an array as written: whitespace, the lexeme of a value, whitespace;
with the value the lexeme denotes. -/
structure Element (D : Type) where
  pre : List Char
  lex : List Char
  post : List Char
  val : Json D

/-- The text of an element. -/
def Element.text {D : Type} (e : Element D) : List Char := e.pre ++ (e.lex ++ e.post)

/-- A pair of an object as written: whitespace, the quoted key, whitespace, a colon and
the element that is the value. -/
structure Member (D : Type) where
  kpre : List Char
  key : List Char
  kpost : List Char
  elem : Element D

/-- The text of a pair. -/
def Member.text {D : Type} (m : Member D) : List Char :=
  m.kpre ++ dquote :: (m.key ++ dquote :: (m.kpost ++ ':' :: m.elem.text))

/-- The texts of the items after the first one, each behind its comma. -/
def restText : List (List Char) → List Char
  | [] => []
  | t :: ts => ',' :: (t ++ restText ts)

/-- The pairs of an object inserted one after the other, as `ConsumeObject` does. -/
def insertAll {D : Type} (obj : ObjectData D) (ms : List (Member D)) : ObjectData D :=
  ms.foldl (fun o m => ObjectData.insert m.key m.elem.val o) obj

/-- The lexeme `lex` (no whitespace around it) is a JSON value and `ConsumeValue` reads it
as `v`. -/
inductive Denotes {D : Type} (atof : List Char → D) : List Char → Json D → Prop where
  | number (t : List Char) : NumberLex t → Denotes atof t (.number (atof t))
  | string (b : List Char) : StringBody b → Denotes atof (dquote :: (b ++ [dquote])) (.string b)
  | true_ : Denotes atof ['t', 'r', 'u', 'e'] (.bool true)
  | false_ : Denotes atof ['f', 'a', 'l', 's', 'e'] (.bool false)
  | null : Denotes atof ['n', 'u', 'l', 'l'] .null
  | emptyArray (w : List Char) : Ws w → Denotes atof ('[' :: (w ++ [']'])) (.array [])
  | array (first : Element D) (rest : List (Element D)) :
      (∀ e ∈ first :: rest, Ws e.pre ∧ Ws e.post) →
      (∀ e ∈ first :: rest, Denotes atof e.lex e.val) →
      Denotes atof ('[' :: (first.text ++ (restText (rest.map Element.text) ++ [']'])))
        (.array ((first :: rest).map Element.val))
  | emptyObject (w : List Char) : Ws w → Denotes atof ('{' :: (w ++ ['}'])) (.object [])
  | object (first : Member D) (rest : List (Member D)) :
      (∀ m ∈ first :: rest, Ws m.kpre ∧ StringBody m.key ∧ Ws m.kpost ∧
        Ws m.elem.pre ∧ Ws m.elem.post) →
      (∀ m ∈ first :: rest, Denotes atof m.elem.lex m.elem.val) →
      Denotes atof ('{' :: (first.text ++ (restText (rest.map Member.text) ++ ['}'])))
        (.object (insertAll [] (first :: rest)))

/-- A character at which a value inside a container, or at the end of the text, stops:
no whitespace and nothing that continues a number. -/
def StopChar (c : Char) : Prop := isWhitespace c = false ∧ NumFollow c

/-- The parser `value` reads the lexeme `lex`, with any whitespace around it, as `v`, at
every position from `lo` on at which the text continues with it and then stops. -/
def ValueRuns {D : Type} (value : Assist → Outcome (Json D)) (src : List Char) (lo : Nat)
    (lex : List Char) (v : Json D) : Prop :=
  ∀ (k : Nat) (ch : Char) (tok pre post r : List Char), lo ≤ k → k ≤ src.length →
    Ws pre → Ws post →
    src.drop k = pre ++ (lex ++ (post ++ r)) →
    StopChar (peek src (k + pre.length + lex.length + post.length)) →
    ∃ ch2 tok2, value (cur src k ch tok) =
      .ok v (cur src (k + pre.length + lex.length + post.length) ch2 tok2)

/-- The length of the text of a pair after its leading whitespace. -/
def Member.bodyLength {D : Type} (m : Member D) : Nat :=
  1 + m.key.length + 1 + m.kpost.length + 1 + m.elem.text.length

/-- What the main induction proves of a lexeme: `ConsumeValue.consumer` reads it. -/
def ConsumerRuns {D : Type} (atof : List Char → D) (lex : List Char) (v : Json D) : Prop :=
  ∀ (src : List Char), CStr src → ∀ (fuel i : Nat) (ch : Char) (tok pre r : List Char),
    Ws pre → src.drop i = pre ++ (lex ++ r) → i ≤ src.length →
    NumFollow (peek src (i + pre.length + lex.length)) → src.length + 1 ≤ fuel + i →
    ∃ ch2 tok2, ch2 ≠ NUL ∧
      ConsumeValue.consumer atof (ConsumeValue atof fuel true) (fuel + 1) (cur src i ch tok) =
        .ok v (cur src (i + pre.length + lex.length) ch2 tok2)

/-- The parser `value` either reads an element (whitespace, a lexeme, whitespace) and
returns what the lexeme denotes, or throws at an offset of the text; from `lo` on. -/
def ValueBack {D : Type} (atof : List Char → D) (value : Assist → Outcome (Json D))
    (src : List Char) (lo : Nat) : Prop :=
  ∀ (k : Nat) (ch : Char) (tok : List Char), lo ≤ k → k ≤ src.length →
    (∃ (e : Element D) (r : List Char) (ch2 : Char) (tok2 : List Char),
      Ws e.pre ∧ Ws e.post ∧ Denotes atof e.lex e.val ∧ src.drop k = e.text ++ r ∧
      value (cur src k ch tok) = .ok e.val (cur src (k + e.text.length) ch2 tok2)) ∨
    ThrownAt src k (value (cur src k ch tok))

/-- What the induction on the fuel proves: `ConsumeValue.consumer` either reads whitespace
and a lexeme, returning what the lexeme denotes, or throws at an offset of the text. -/
def ConsumerBack {D : Type} (atof : List Char → D) (fuel : Nat) : Prop :=
  ∀ (src : List Char), CStr src → ∀ (i : Nat) (ch : Char) (tok : List Char),
    i ≤ src.length → src.length + 1 ≤ fuel + i →
    (∃ (pre lex : List Char) (v : Json D) (r : List Char) (ch2 : Char) (tok2 : List Char),
      Ws pre ∧ Denotes atof lex v ∧ src.drop i = pre ++ (lex ++ r) ∧ ch2 ≠ NUL ∧
      ConsumeValue.consumer atof (ConsumeValue atof fuel true) (fuel + 1) (cur src i ch tok) =
        .ok v (cur src (i + pre.length + lex.length) ch2 tok2)) ∨
    ThrownAt src i
      (ConsumeValue.consumer atof (ConsumeValue atof fuel true) (fuel + 1) (cur src i ch tok))

/-- An element of an array as written: whitespace, the lexeme of a value, whitespace. -/
structure ElementText where
  pre : List Char
  lex : List Char
  post : List Char

/-- The text of an element. -/
def ElementText.text (e : ElementText) : List Char := e.pre ++ (e.lex ++ e.post)

/-- A pair of an object as written: whitespace, the quoted key, whitespace, a colon and
an element. -/
structure PairText where
  kpre : List Char
  key : List Char
  kpost : List Char
  elem : ElementText

/-- The text of a pair. -/
def PairText.text (m : PairText) : List Char :=
  m.kpre ++ dquote :: (m.key ++ dquote :: (m.kpost ++ ':' :: m.elem.text))

/-- The grammar of the specification, on lexemes.
`Value := Number | String | Bool | Null | Object | Array`,
`Array := '[' (Value (',' Value)*)? ']'`, `Object := '{' (Pair (',' Pair)*)? '}'`,
`Pair := String ':' Value`, with whitespace allowed around every value and structural
token. -/
inductive JsonValue : List Char → Prop where
  | number (t : List Char) : NumberLex t → JsonValue t
  | string (b : List Char) : StringBody b → JsonValue (dquote :: (b ++ [dquote]))
  | true_ : JsonValue ['t', 'r', 'u', 'e']
  | false_ : JsonValue ['f', 'a', 'l', 's', 'e']
  | null : JsonValue ['n', 'u', 'l', 'l']
  | emptyArray (w : List Char) : Ws w → JsonValue ('[' :: (w ++ [']']))
  | array (first : ElementText) (rest : List ElementText) :
      (∀ e ∈ first :: rest, Ws e.pre ∧ Ws e.post) →
      (∀ e ∈ first :: rest, JsonValue e.lex) →
      JsonValue ('[' :: (first.text ++ (restText (rest.map ElementText.text) ++ [']'])))
  | emptyObject (w : List Char) : Ws w → JsonValue ('{' :: (w ++ ['}']))
  | object (first : PairText) (rest : List PairText) :
      (∀ m ∈ first :: rest, Ws m.kpre ∧ StringBody m.key ∧ Ws m.kpost ∧
        Ws m.elem.pre ∧ Ws m.elem.post) →
      (∀ m ∈ first :: rest, JsonValue m.elem.lex) →
      JsonValue ('{' :: (first.text ++ (restText (rest.map PairText.text) ++ ['}'])))

/-- A JSON text: optional whitespace, exactly one value, optional whitespace, and the end
of the input. -/
def JsonText (s : List Char) : Prop :=
  ∃ pre lex post, s = pre ++ (lex ++ post) ∧ Ws pre ∧ Ws post ∧ JsonValue lex

/-- An element without its value. -/
def Element.toText {D : Type} (e : Element D) : ElementText := ⟨e.pre, e.lex, e.post⟩

/-- A pair without its value. -/
def Member.toText {D : Type} (m : Member D) : PairText :=
  ⟨m.kpre, m.key, m.kpost, m.elem.toText⟩

/-- The texts that are one of the literals `true`, `false`, `null` after the whitespace
`pre` and before whitespace only, with the value of the literal. -/
def IsLiteralText {D : Type} (pre s : List Char) (v : Json D) : Prop :=
  ∃ post, Ws post ∧
    ((s = pre ++ (['t', 'r', 'u', 'e'] ++ post) ∧ v = .bool true) ∨
      (s = pre ++ (['f', 'a', 'l', 's', 'e'] ++ post) ∧ v = .bool false) ∨
      (s = pre ++ (['n', 'u', 'l', 'l'] ++ post) ∧ v = .null))

/-- An outcome whose exception, if there is one, is the `UnexpectedTokenException` built
from the current character and position of the state at the throw, which is what
`UnexpectedToken()` raises. -/
def Canon {α : Type} (r : Outcome α) : Prop :=
  ∀ e st, r = .thrown e st → e = .UnexpectedToken st.character st.pos

/-- The texts of the items of a container, separated by commas. -/
def commaSep : List (List Char) → List Char
  | [] => []
  | [t] => t
  | t :: u :: ts => t ++ ',' :: commaSep (u :: ts)

/-- The keys of the map are strictly ascending in the order of `std::string`: what a
`std::map` is. -/
def ObjectData.Sorted {D : Type} (m : ObjectData D) : Prop :=
  List.Pairwise (fun p q => strLt p.1 q.1 = true) m

/-- The pairs inserted one after the other into a map, as `ConsumeObject` does. -/
def insertPairs {D : Type} (obj : ObjectData D) (ps : List (List Char × Json D)) :
    ObjectData D :=
  ps.foldl (fun o p => ObjectData.insert p.1 p.2 o) obj

/-- The text of a pair written without whitespace: the quoted key, a colon, the text of
the value. -/
def pairText (body vtext : List Char) : List Char := dquote :: (body ++ dquote :: ':' :: vtext)

/-- The text of an object written from its pairs, each the body of a key and the text of
a value. -/
def objectText (l : List (List Char × List Char)) : List Char :=
  '{' :: (commaSep (l.map fun p => pairText p.1 p.2) ++ ['}'])

/-- The conversion of a `std::string` to the C string the callee reads (`c_str()` handed to
a `const char*` parameter): the characters before the first NUL. -/
def c_str (s : List Char) : List Char := s.takeWhile fun c => c != NUL

/-- The constructor `Json::Json()`. -/
def Json.mkNull {D : Type} : Json D := .null

/-- The constructor `Json::Json(double)`. -/
def Json.ofDouble {D : Type} (num : D) : Json D := .number num

/-- The constructor `Json::Json(int)`, which delegates to `Json((double)num)`; `toDouble`
is the conversion `(double)num`. -/
def Json.ofInt {D : Type} (toDouble : Int → D) (num : Int) : Json D :=
  Json.ofDouble (toDouble num)

/-- The constructor `Json::Json(const char*)`. -/
def Json.ofCStr {D : Type} (str : List Char) : Json D := .string str

/-- The member `Json::IsNumber`. -/
def Json.IsNumber {D : Type} (j : Json D) : Bool := j.DataKind == .kNumber

/-- The member `Json::IsString`. -/
def Json.IsString {D : Type} (j : Json D) : Bool := j.DataKind == .kString

/-- The member `Json::IsBool`. -/
def Json.IsBool {D : Type} (j : Json D) : Bool := j.DataKind == .kBool

/-- The member `Json::IsNull`. -/
def Json.IsNull {D : Type} (j : Json D) : Bool := j.DataKind == .kNull

/-- The member `Json::IsArray`. -/
def Json.IsArray {D : Type} (j : Json D) : Bool := j.DataKind == .kArray

/-- The member `Json::IsObject`. -/
def Json.IsObject {D : Type} (j : Json D) : Bool := j.DataKind == .kObject

mutual
/-- The member `Json::CopyData`, as the value the copy holds: the deep copy that the copy
constructor `Json(const Json&)` and `operator=(const Json&)` make of `rhs`. -/
def Json.CopyData {D : Type} : Json D → Json D
  | .null => .null
  | .number d => .number d
  | .string s => .string s
  | .bool b => .bool b
  | .object m => .object (Json.CopyData.objectLoop m [])
  | .array a => .array (Json.CopyData.arrayLoop a [])
/-- The loop of `CopyData` over the entries of an Object: each entry is inserted with a
copy of its value into the new map `tmp`. -/
def Json.CopyData.objectLoop {D : Type} :
    List (List Char × Json D) → ObjectData D → ObjectData D
  | [], tmp => tmp
  | (k, v) :: rest, tmp =>
    Json.CopyData.objectLoop rest (ObjectData.insert k (Json.CopyData v) tmp)
/-- The loop of `CopyData` over the elements of an Array: a copy of each element is pushed
back on the new vector `tmp`. -/
def Json.CopyData.arrayLoop {D : Type} : List (Json D) → ArrayData D → ArrayData D
  | [], tmp => tmp
  | v :: rest, tmp => Json.CopyData.arrayLoop rest (tmp ++ [Json.CopyData v])
end

/-- The conversion `Json::operator double`. -/
def Json.toDouble {D : Type} (j : Json D) : Except Exception D :=
  match j with
  | .number d => .ok d
  | _ => .error (.IllegalOperation .kExtract "Number(double)".data (some j.DataTypeName))

/-- The non-const member `Json::operator[](int)`, which casts the result of the const
one. -/
def Json.atIndexMut {D : Type} (j : Json D) (index : Int) : Except Exception (Json D) :=
  j.atIndex index

/-- The const member `Json::operator[](const char*)`: the node the returned reference
denotes, and the receiver after the call (the map behind `data_` is written through a
non-const reference).  With the key absent, `data[key] = new Json()` inserts a Null node
and `*(data[key])` is that node; with the key present `*(data[key])` is the mapped
node. -/
def Json.atKey {D : Type} (j : Json D) (key : List Char) :
    Except Exception (Json D × Json D) :=
  match j with
  | .object data =>
    match ObjectData.find key data with
    | none => .ok (Json.mkNull, .object (ObjectData.insert key Json.mkNull data))
    | some x => .ok (x, .object data)
  | _ => .error (.IllegalOperation .kExtract "Object Item".data (some j.DataTypeName))

/-- The non-const member `Json::operator[](const char*)`, which casts the result of the
const one. -/
def Json.atKeyMut {D : Type} (j : Json D) (key : List Char) :
    Except Exception (Json D × Json D) :=
  j.atKey key

/-- The member `Json::operator=(const Json&)`, `DestroyData(); CopyData(json);`, for a
`json` that is an object of its own: not the receiver, no part of it and not containing
it.  `json` is then the same before and after `DestroyData()`, and the receiver takes the
value of its copy.  The other calls are those of `Node.assign`. -/
def Json.assign {D : Type} (_self : Json D) (json : Json D) : Json D := json.CopyData

/-- The member `Json::operator=(double)`. -/
def Json.assignDouble {D : Type} (self : Json D) (num : D) : Json D :=
  if !self.IsNumber then .number num
  else
    match self with
    | .number _ => .number num
    | other => other

/-- The member `Json::operator=(int)`, which delegates to `operator=((double)num)`. -/
def Json.assignInt {D : Type} (toDouble : Int → D) (self : Json D) (num : Int) : Json D :=
  self.assignDouble (toDouble num)

/-- The member `Json::operator=(const char*)`. -/
def Json.assignCStr {D : Type} (self : Json D) (str : List Char) : Json D :=
  if !self.IsString then .string str
  else
    match self with
    | .string _ => .string str
    | other => other

/-- The member `Json::operator=(const std::string&)`, which delegates to
`operator=(str.c_str())`. -/
def Json.assignStdString {D : Type} (self : Json D) (str : List Char) : Json D :=
  self.assignCStr (c_str str)

/-- The member `Json::operator=(bool)`. -/
def Json.assignBool {D : Type} (self : Json D) (boo : Bool) : Json D :=
  if !self.IsBool then .bool boo
  else
    match self with
    | .bool _ => .bool boo
    | other => other

/-- A write through the reference that `operator[](key)` handed out: the node mapped to
`key` becomes `value`, no other entry of the map is touched. -/
def ObjectData.store {D : Type} (key : List Char) (value : Json D) :
    ObjectData D → ObjectData D
  | [] => []
  | (k, v) :: rest =>
    if k = key then (k, value) :: rest else (k, v) :: ObjectData.store key value rest

/-- The statement `j[key] = ...`: `operator[](key)` hands out the node mapped to `key`
(inserting a Null node first when the key is absent) and the assignment `op` rewrites that
node in place. -/
def Json.assignAtKey {D : Type} (j : Json D) (key : List Char) (op : Json D → Json D) :
    Except Exception (Json D) :=
  match j.atKeyMut key with
  | .error e => .error e
  | .ok (slot, .object data) => .ok (.object (ObjectData.store key (op slot) data))
  | .ok (_, other) => .ok other

/-- The member `Json::Push`: the value of the receiver after the call.  The `default`
label of the switch, which throws, stands for no value of `Kind`.  For an Array the copy
`new Json(rhs)` is made before anything is written.  For another receiver the function
gives the call with an `rhs` that is an object of its own (not the receiver, no part of it
and not containing it), which is the same before and after `DestroyData()`; the other
calls are those of `Node.Push`. -/
def Json.Push {D : Type} (self : Json D) (rhs : Json D) : Except Exception (Json D) :=
  match self with
  | .array data => .ok (.array (data ++ [rhs.CopyData]))
  | old => .ok (.array ([] ++ [old.CopyData] ++ [rhs.CopyData]))

/-- The member `Json::AddProperty`: the value of the receiver after the call, for a
`val` that is an object of its own (not the receiver, no part of it and not containing
it), which the subscript and `DestroyData()` of the slot leave as it is.  The other calls
are those of `Node.AddProperty`. -/
def Json.AddProperty {D : Type} (self : Json D) (key : List Char) (val : Json D) :
    Except Exception (Json D) :=
  if !self.IsObject then
    .error (.IllegalOperation .kAddProperty self.DataTypeName none)
  else
    self.assignAtKey (c_str key) fun slot => slot.assign val

/-- A value tree as the library holds it: every Object is a `std::map`, its keys strictly
ascending, recursively. -/
inductive WellFormed {D : Type} : Json D → Prop where
  | number (d : D) : WellFormed (.number d)
  | string (s : List Char) : WellFormed (.string s)
  | bool (b : Bool) : WellFormed (.bool b)
  | null : WellFormed .null
  | array (a : ArrayData D) : (∀ v ∈ a, WellFormed v) → WellFormed (.array a)
  | object (m : ObjectData D) : ObjectData.Sorted m → (∀ p ∈ m, WellFormed p.2) →
      WellFormed (.object m)

/-- The calls `data->find(key)` and `data->erase(it)` of `Remove(const string&)`: the
entry of `key`, when there is one, leaves the map. -/
def ObjectData.erase {D : Type} (key : List Char) : ObjectData D → ObjectData D
  | [] => []
  | (k, v) :: rest => if k = key then rest else (k, v) :: ObjectData.erase key rest

/-- The member `Json::Remove(const std::string&)`: the receiver after the call. -/
def Json.RemoveKey {D : Type} (self : Json D) (key : List Char) : Except Exception (Json D) :=
  if !self.IsObject then .error (.IllegalOperation .kRemove self.DataTypeName none)
  else
    match self with
    | .object data =>
      match ObjectData.find key data with
      | some _ => .ok (.object (ObjectData.erase key data))
      | none => .ok (.object data)
    | other => .ok other

/-- The member `Json::Remove(int)`: the receiver after the call. -/
def Json.RemoveIndex {D : Type} (self : Json D) (index : Int) : Except Exception (Json D) :=
  if !self.IsArray then .error (.IllegalOperation .kRemove self.DataTypeName none)
  else
    match self with
    | .array data =>
      if index ≥ 0 ∧ index < self.Size then .ok (.array (data.eraseIdx index.toNat))
      else .ok (.array data)
    | other => .ok other

/-- The member `Json::IsEmpty`. -/
def Json.IsEmpty {D : Type} (self : Json D) : Bool :=
  match self with
  | .object data => data.length == 0
  | .array data => data.length == 0
  | _ => false

/-- The C library `isgraph` in the "C" locale: codes 33..126. -/
def isgraph (c : Char) : Bool := 33 ≤ c.toNat && c.toNat ≤ 126

/-- The stream insertion `oss << n` of an `int`: the decimal digits, after a minus sign
when `n` is negative. -/
def decimal (n : Int) : List Char :=
  if n < 0 then '-' :: Nat.toDigits 10 n.natAbs else Nat.toDigits 10 n.toNat

/-- The `switch` of `IllegalOperationException::what` on the operation kind. -/
def OperationKind.text : OperationKind → List Char
  | .kExtract => "extract".data
  | .kViolateAccess => "violate access".data
  | .kPush => "push".data
  | .kAddProperty => "add property".data
  | .kRemove => "remove".data
  | .kRetriveKeys => "retrive keys".data

/-- The members `UnexpectedTokenException::what` and `IllegalOperationException::what` up
to their `return`: the text in the stream `oss`, with `none` where the source does not
fix it.  That is the call `isgraph(ch_)` for a `char` whose code is above 127 (the value
is negative where `char` is signed, and `isgraph` is defined for the values of an
`unsigned char` and `EOF` only), and the insertion `oss << from_` of a null `from_`.  For
a code below 128 the conversion `(int)ch_` is the code. -/
def Exception.what.oss : Exception → Option (List Char)
  | .UnexpectedToken ch pos =>
    if NUL = ch then some "SyntaxError: Unexpected end of input".data
    else if 128 ≤ ch.toNat then none
    else
      some ("SyntaxError: Unexpected token ".data ++
        (if isgraph ch then [ch] else decimal (ch.toNat : Int) ++ "(ASCII)".data) ++
        " at pos ".data ++ decimal pos)
  | .IllegalOperation kind to_ from_ =>
    if kind = .kExtract then
      match from_ with
      | some f =>
        some ("OperationError: Illegal ".data ++ kind.text ++ " opeartion".data ++
          " from ".data ++ f ++ " to ".data ++ to_)
      | none => none
    else
      some ("OperationError: Illegal ".data ++ kind.text ++ " opeartion".data ++
        " on ".data ++ to_)

/-- The members `UnexpectedTokenException::what` and `IllegalOperationException::what`:
the pointer they return.  Both end in `return oss.str().c_str();`, a pointer into the
temporary `oss.str()`, which is destroyed at the end of that statement. -/
def Exception.what (e : Exception) : Option CharPtr :=
  match Exception.what.oss e with
  | some _ => some CharPtr.dangling
  | none => none

/-- A `Json` object in memory.  `addr` is its address (the value of a `Json*` that points
to it) and `kind_` its field of that name; the constructor tells what the field `data_`
points to: nothing (`data_ == 0`), a `double`, a `std::string`, a `bool`, an `ObjectData`
or an `ArrayData`, each `Json*` of a container given as the node it points to. -/
inductive Node (D : Type) where
  | null (addr : Nat) (kind_ : Kind)
  | number (addr : Nat) (kind_ : Kind) (d : D)
  | string (addr : Nat) (kind_ : Kind) (s : List Char)
  | bool (addr : Nat) (kind_ : Kind) (b : Bool)
  | object (addr : Nat) (kind_ : Kind) (m : List (List Char × Node D))
  | array (addr : Nat) (kind_ : Kind) (a : List (Node D))

/-- The type `ObjectData` with the nodes its pointers denote. -/
abbrev NodeMap (D : Type) := List (List Char × Node D)

/-- The address of a node. -/
def Node.addr {D : Type} : Node D → Nat
  | .null a _ => a
  | .number a _ _ => a
  | .string a _ _ => a
  | .bool a _ _ => a
  | .object a _ _ => a
  | .array a _ _ => a

/-- The field `kind_` of a node. -/
def Node.kind_ {D : Type} : Node D → Kind
  | .null _ k => k
  | .number _ k _ => k
  | .string _ k _ => k
  | .bool _ k _ => k
  | .object _ k _ => k
  | .array _ k _ => k

/-- The test `!data_`, which is the member `IsNull` of the second variant of the
library (`v2/gci-json.h`). -/
def Node.IsNullV2 {D : Type} : Node D → Bool
  | .null _ _ => true
  | _ => false

/-- The member `Json::IsNull`. -/
def Node.IsNull {D : Type} (n : Node D) : Bool := n.kind_ == .kNull

/-- The member `Json::IsNumber`. -/
def Node.IsNumber {D : Type} (n : Node D) : Bool := n.kind_ == .kNumber

/-- The member `Json::IsString`. -/
def Node.IsString {D : Type} (n : Node D) : Bool := n.kind_ == .kString

/-- The member `Json::IsBool`. -/
def Node.IsBool {D : Type} (n : Node D) : Bool := n.kind_ == .kBool

/-- The member `Json::IsArray`. -/
def Node.IsArray {D : Type} (n : Node D) : Bool := n.kind_ == .kArray

/-- The member `Json::IsObject`. -/
def Node.IsObject {D : Type} (n : Node D) : Bool := n.kind_ == .kObject

/-- The member `Json::DataTypeName`. -/
def Node.DataTypeName {D : Type} (n : Node D) : List Char :=
  match n.kind_ with
  | .kNumber => "Number".data
  | .kString => "String".data
  | .kBool => "Bool".data
  | .kNull => "Null".data
  | .kObject => "Object".data
  | .kArray => "Array".data

/-- The call `std::map::find(key)` on a map of nodes. -/
def NodeMap.find {D : Type} (key : List Char) : NodeMap D → Option (Node D)
  | [] => none
  | (k, v) :: rest => if k = key then some v else NodeMap.find key rest

/-- The call `std::map::insert(pair)` on a map of nodes. -/
def NodeMap.insert {D : Type} (key : List Char) (value : Node D) : NodeMap D → NodeMap D
  | [] => [(key, value)]
  | (k, v) :: rest =>
    if strLt key k then (key, value) :: (k, v) :: rest
    else if strLt k key then (k, v) :: NodeMap.insert key value rest
    else (k, v) :: rest

/-- The call `std::map::erase(it)` for the entry of `key`. -/
def NodeMap.erase {D : Type} (key : List Char) : NodeMap D → NodeMap D
  | [] => []
  | (k, v) :: rest => if k = key then rest else (k, v) :: NodeMap.erase key rest

/-- A write to the node that the entry of `key` points to. -/
def NodeMap.store {D : Type} (key : List Char) (value : Node D) : NodeMap D → NodeMap D
  | [] => []
  | (k, v) :: rest =>
    if k = key then (k, value) :: rest else (k, v) :: NodeMap.store key value rest

/-- The constructor `Json::Json()`, run for the object at `addr`. -/
def Node.mkNull {D : Type} (addr : Nat) : Node D := .null addr .kNull

/-- The constructor `Json::Json(double)`. -/
def Node.ofDouble {D : Type} (addr : Nat) (num : D) : Node D := .number addr .kNumber num

/-- The constructor `Json::Json(int)`. -/
def Node.ofInt {D : Type} (toDouble : Int → D) (addr : Nat) (num : Int) : Node D :=
  Node.ofDouble addr (toDouble num)

/-- The constructor `Json::Json(const char*)`. -/
def Node.ofCStr {D : Type} (addr : Nat) (str : List Char) : Node D :=
  .string addr .kString str

/-- The private constructor `Json::Json(const ArrayData&)`: the new vector holds the same
pointers. -/
def Node.ofArrayData {D : Type} (addr : Nat) (arr : List (Node D)) : Node D :=
  .array addr .kArray arr

/-- The private constructor `Json::Json(const ObjectData&)`: the new map holds the same
pointers. -/
def Node.ofObjectData {D : Type} (addr : Nat) (obj : NodeMap D) : Node D :=
  .object addr .kObject obj

mutual
/-- The member `Json::CopyData`, run for the object at `addr`: the object after the call
and the next unused address; every `new Json` takes the next unused address `next`.
`none` stands for undefined behaviour: a cast of `rhs.data_` to a type it does not point
to, or a read through a null `data_`. -/
def Node.CopyData {D : Type} : Node D → Nat → Nat → Option (Node D × Nat)
  | .null _ k, addr, next =>
    match k with
    | .kNull => some (.null addr .kNull, next)
    | _ => none
  | .number _ k d, addr, next =>
    match k with
    | .kNull => some (.null addr .kNull, next)
    | .kNumber => some (.number addr .kNumber d, next)
    | _ => none
  | .string _ k s, addr, next =>
    match k with
    | .kNull => some (.null addr .kNull, next)
    | .kString => some (.string addr .kString s, next)
    | _ => none
  | .bool _ k b, addr, next =>
    match k with
    | .kNull => some (.null addr .kNull, next)
    | .kBool => some (.bool addr .kBool b, next)
    | _ => none
  | .object _ k m, addr, next =>
    match k with
    | .kNull => some (.null addr .kNull, next)
    | .kObject =>
      match Node.CopyData.objectLoop m [] next with
      | some (tmp, next2) => some (.object addr .kObject tmp, next2)
      | none => none
    | _ => none
  | .array _ k a, addr, next =>
    match k with
    | .kNull => some (.null addr .kNull, next)
    | .kArray =>
      match Node.CopyData.arrayLoop a [] next with
      | some (tmp, next2) => some (.array addr .kArray tmp, next2)
      | none => none
    | _ => none
/-- The loop of `CopyData` over the entries of an Object: `new Json(*cit->second)` is
made at the next unused address and inserted into `tmp`. -/
def Node.CopyData.objectLoop {D : Type} :
    List (List Char × Node D) → NodeMap D → Nat → Option (NodeMap D × Nat)
  | [], tmp, next => some (tmp, next)
  | (k, c) :: rest, tmp, next =>
    match Node.CopyData c next (next + 1) with
    | some (c2, next2) => Node.CopyData.objectLoop rest (NodeMap.insert k c2 tmp) next2
    | none => none
/-- The loop of `CopyData` over the elements of an Array. -/
def Node.CopyData.arrayLoop {D : Type} :
    List (Node D) → List (Node D) → Nat → Option (List (Node D) × Nat)
  | [], tmp, next => some (tmp, next)
  | c :: rest, tmp, next =>
    match Node.CopyData c next (next + 1) with
    | some (c2, next2) => Node.CopyData.arrayLoop rest (tmp ++ [c2]) next2
    | none => none
end

/-- The expression `new Json(rhs)`: the copy constructor run at the next unused
address. -/
def Node.newCopy {D : Type} (rhs : Node D) (next : Nat) : Option (Node D × Nat) :=
  Node.CopyData rhs next (next + 1)

mutual
/-- The member `Json::DestroyData`: the object after the call.  The children of a
container are deleted, which runs `DestroyData` on each.  `none` stands for undefined
behaviour: a `delete` through a pointer of another type than the payload. -/
def Node.DestroyData {D : Type} : Node D → Option (Node D)
  | .null a k => some (.null a k)
  | .number a k _ =>
    match k with
    | .kNumber => some (.null a k)
    | .kNull => some (.null a k)
    | _ => none
  | .string a k _ =>
    match k with
    | .kString => some (.null a k)
    | .kNull => some (.null a k)
    | _ => none
  | .bool a k _ =>
    match k with
    | .kBool => some (.null a k)
    | .kNull => some (.null a k)
    | _ => none
  | .object a k m =>
    match k with
    | .kObject => if Node.DestroyData.entries m then some (.null a k) else none
    | .kNull => some (.null a k)
    | _ => none
  | .array a k l =>
    match k with
    | .kArray => if Node.DestroyData.elements l then some (.null a k) else none
    | .kNull => some (.null a k)
    | _ => none
/-- The loop `delete it->second` of `DestroyData` over the entries of an Object: whether
every destructor runs with defined behaviour. -/
def Node.DestroyData.entries {D : Type} : List (List Char × Node D) → Bool
  | [] => true
  | (_, c) :: rest => (Node.DestroyData c).isSome && Node.DestroyData.entries rest
/-- The loop `delete *it` of `DestroyData` over the elements of an Array. -/
def Node.DestroyData.elements {D : Type} : List (Node D) → Bool
  | [] => true
  | c :: rest => (Node.DestroyData c).isSome && Node.DestroyData.elements rest
end

mutual
/-- The value a node holds: what its payload is, whatever `kind_` says. -/
def Node.value {D : Type} : Node D → Json D
  | .null _ _ => .null
  | .number _ _ d => .number d
  | .string _ _ s => .string s
  | .bool _ _ b => .bool b
  | .object _ _ m => .object (Node.value.entries m)
  | .array _ _ a => .array (Node.value.elements a)
/-- The values of the entries of a map of nodes. -/
def Node.value.entries {D : Type} : List (List Char × Node D) → List (List Char × Json D)
  | [] => []
  | (k, c) :: rest => (k, Node.value c) :: Node.value.entries rest
/-- The values of the elements of a vector of nodes. -/
def Node.value.elements {D : Type} : List (Node D) → List (Json D)
  | [] => []
  | c :: rest => Node.value c :: Node.value.elements rest
end

mutual
/-- The addresses of the nodes below a node: its children and theirs. -/
def Node.descendants {D : Type} : Node D → List Nat
  | .object _ _ m => Node.descendants.entries m
  | .array _ _ a => Node.descendants.elements a
  | _ => []
/-- The addresses of the nodes of the entries of a map. -/
def Node.descendants.entries {D : Type} : List (List Char × Node D) → List Nat
  | [] => []
  | (_, c) :: rest => (Node.addr c :: Node.descendants c) ++ Node.descendants.entries rest
/-- The addresses of the nodes of the elements of a vector. -/
def Node.descendants.elements {D : Type} : List (Node D) → List Nat
  | [] => []
  | c :: rest => (Node.addr c :: Node.descendants c) ++ Node.descendants.elements rest
end

mutual
/-- The object `root` as a read finds it after a write that left the object at the address
of `n` as `n`: `n` itself where `root` is that object, and otherwise `root` with the object
at that address, where it is one of the tree, replaced by `n`. -/
def Node.reread {D : Type} (n : Node D) : Node D → Node D
  | .null a k => if a = n.addr then n else .null a k
  | .number a k d => if a = n.addr then n else .number a k d
  | .string a k s => if a = n.addr then n else .string a k s
  | .bool a k b => if a = n.addr then n else .bool a k b
  | .object a k m => if a = n.addr then n else .object a k (Node.reread.entries n m)
  | .array a k l => if a = n.addr then n else .array a k (Node.reread.elements n l)
/-- The entries of a map read again after a write to the object at the address of `n`. -/
def Node.reread.entries {D : Type} (n : Node D) :
    List (List Char × Node D) → List (List Char × Node D)
  | [] => []
  | (k, c) :: rest => (k, Node.reread n c) :: Node.reread.entries n rest
/-- The elements of a vector read again after a write to the object at the address of
`n`. -/
def Node.reread.elements {D : Type} (n : Node D) : List (Node D) → List (Node D)
  | [] => []
  | c :: rest => Node.reread n c :: Node.reread.elements n rest
end

/-- The member `Json::operator=(const Json&)`, run for the object `self`.  The guard
`this != &json` compares the two addresses only.  Past it, `DestroyData()` deletes every
object below `self` and leaves `data_` null, and `CopyData(json)` writes
`kind_ = rhs.kind_` before it reads the payload of `json`: an object `json` below `self`
has been deleted when it is read, and an object `json` that contains `self` is read with
`self` as those two writes left it. -/
def Node.assign {D : Type} (self json : Node D) (next : Nat) : Option (Node D × Nat) :=
  if self.addr = json.addr then some (self, next)
  else
    match self.DestroyData with
    | some s =>
      if json.addr ∈ self.descendants then none
      else Node.CopyData (Node.reread (.null s.addr json.kind_) json) s.addr next
    | none => none

/-- The member `Json::operator=(double)`. -/
def Node.assignDouble {D : Type} (self : Node D) (num : D) : Option (Node D) :=
  if !self.IsNumber then
    match self.DestroyData with
    | some s => some (.number s.addr .kNumber num)
    | none => none
  else
    match self with
    | .number a k _ => some (.number a k num)
    | _ => none

/-- The member `Json::operator=(int)`. -/
def Node.assignInt {D : Type} (toDouble : Int → D) (self : Node D) (num : Int) :
    Option (Node D) :=
  self.assignDouble (toDouble num)

/-- The member `Json::operator=(const char*)`. -/
def Node.assignCStr {D : Type} (self : Node D) (str : List Char) : Option (Node D) :=
  if !self.IsString then
    match self.DestroyData with
    | some s => some (.string s.addr .kString str)
    | none => none
  else
    match self with
    | .string a k _ => some (.string a k str)
    | _ => none

/-- The member `Json::operator=(const std::string&)`. -/
def Node.assignStdString {D : Type} (self : Node D) (str : List Char) : Option (Node D) :=
  self.assignCStr (c_str str)

/-- The member `Json::operator=(bool)`. -/
def Node.assignBool {D : Type} (self : Node D) (boo : Bool) : Option (Node D) :=
  if !self.IsBool then
    match self.DestroyData with
    | some s => some (.bool s.addr .kBool boo)
    | none => none
  else
    match self with
    | .bool a k _ => some (.bool a k boo)
    | _ => none

/-- The member `Json::Push`, run for the object `self`: the object after the call and the
next unused address.  For an Array, `new Json(rhs)` is made before anything is written.
For another receiver the statements are `old = new Json(*this)`, `DestroyData()`,
`kind_ = kArray`, `tmp->push_back(old)`, `tmp->push_back(new Json(rhs))` and only then
`data_ = tmp`: `rhs` is read after the objects below `self` were deleted and with `self`
left with the kind Array and a null `data_`. -/
def Node.Push {D : Type} (self rhs : Node D) (next : Nat) : Option (Node D × Nat) :=
  match self.kind_ with
  | .kArray =>
    match self with
    | .array a k data =>
      match Node.newCopy rhs next with
      | some (c, next2) => some (.array a k (data ++ [c]), next2)
      | none => none
    | _ => none
  | _ =>
    match Node.newCopy self next with
    | some (old, next2) =>
      match self.DestroyData with
      | some s =>
        if rhs.addr ∈ self.descendants then none
        else
          match Node.newCopy (Node.reread (.null s.addr .kArray) rhs) next2 with
          | some (c, next3) => some (.array s.addr .kArray ([] ++ [old] ++ [c]), next3)
          | none => none
      | none => none
    | none => none

/-- The member `Json::Size`. -/
def Node.Size {D : Type} (self : Node D) : Option Int :=
  if !self.IsArray then some 1
  else
    match self with
    | .array _ _ data => some (data.length : Int)
    | _ => none

/-- The const member `Json::operator[](int)`: the node the returned reference denotes.
The receiver is not written. -/
def Node.atIndex {D : Type} (self : Node D) (index : Int) :
    Option (Except Exception (Node D)) :=
  if !self.IsArray then
    some (.error (.IllegalOperation .kExtract "Array Item".data (some self.DataTypeName)))
  else
    match self.Size with
    | none => none
    | some size =>
      if index ≥ size ∨ index < 0 then
        some (.error (.IllegalOperation .kViolateAccess "Array Item".data
          (some self.DataTypeName)))
      else
        match self with
        | .array _ _ data =>
          match data.get? index.toNat with
          | some c => some (.ok c)
          | none => none
        | _ => none

/-- The const member `Json::operator[](const char*)`: the node the returned reference
denotes, the receiver after the call and the next unused address. -/
def Node.atKey {D : Type} (self : Node D) (key : List Char) (next : Nat) :
    Option (Except Exception (Node D × Node D × Nat)) :=
  if !self.IsObject then
    some (.error (.IllegalOperation .kExtract "Object Item".data (some self.DataTypeName)))
  else
    match self with
    | .object a k data =>
      match NodeMap.find key data with
      | none =>
        some (.ok (Node.mkNull next, .object a k (NodeMap.insert key (Node.mkNull next) data),
          next + 1))
      | some c => some (.ok (c, .object a k data, next))
    | _ => none

/-- The member `Json::AddProperty`, run for the object `self`: the statement
`(*this)[key.c_str()] = val`.  The subscript runs first and may insert an entry, so that a
`val` which is the receiver, or contains it, is read with that entry in it; the assignment
then is `operator=(const Json&)` of the slot. -/
def Node.AddProperty {D : Type} (self : Node D) (key : List Char) (val : Node D)
    (next : Nat) : Option (Except Exception (Node D × Nat)) :=
  if !self.IsObject then
    some (.error (.IllegalOperation .kAddProperty self.DataTypeName none))
  else
    match self.atKey (c_str key) next with
    | none => none
    | some (.error e) => some (.error e)
    | some (.ok (slot, self2, next2)) =>
      match slot.assign (Node.reread self2 val) next2 with
      | none => none
      | some (slot2, next3) =>
        match self2 with
        | .object a k data => some (.ok (.object a k (NodeMap.store (c_str key) slot2 data), next3))
        | _ => none

/-- The member `Json::Remove(const std::string&)`. -/
def Node.RemoveKey {D : Type} (self : Node D) (key : List Char) :
    Option (Except Exception (Node D)) :=
  if !self.IsObject then some (.error (.IllegalOperation .kRemove self.DataTypeName none))
  else
    match self with
    | .object a k data =>
      match NodeMap.find key data with
      | some c =>
        match c.DestroyData with
        | some _ => some (.ok (.object a k (NodeMap.erase key data)))
        | none => none
      | none => some (.ok (.object a k data))
    | _ => none

/-- The member `Json::Remove(int)`. -/
def Node.RemoveIndex {D : Type} (self : Node D) (index : Int) :
    Option (Except Exception (Node D)) :=
  if !self.IsArray then some (.error (.IllegalOperation .kRemove self.DataTypeName none))
  else
    match self with
    | .array a k data =>
      match self.Size with
      | none => none
      | some size =>
        if index ≥ 0 ∧ index < size then
          match data.get? index.toNat with
          | some c =>
            match c.DestroyData with
            | some _ => some (.ok (.array a k (data.eraseIdx index.toNat)))
            | none => none
          | none => none
        else some (.ok (.array a k data))
    | _ => none

/-- The call `std::find_if(begin, end, ObjectDataValuePred(json))` followed by
`erase(it)`: the first entry whose pointer is `json` leaves the map. -/
def NodeMap.erasePtr {D : Type} (json : Nat) : NodeMap D → NodeMap D
  | [] => []
  | (k, c) :: rest => if c.addr = json then rest else (k, c) :: NodeMap.erasePtr json rest

/-- The call `std::find(begin, end, json)` followed by `erase(it)` on a vector of
pointers. -/
def Node.erasePtr {D : Type} (json : Nat) : List (Node D) → List (Node D)
  | [] => []
  | c :: rest => if c.addr = json then rest else c :: Node.erasePtr json rest

/-- The call `std::find_if(begin, end, ObjectDataValuePred(json))`: the object of the
first entry whose pointer is `json`. -/
def NodeMap.findPtr {D : Type} (json : Nat) : NodeMap D → Option (Node D)
  | [] => none
  | (_, c) :: rest => if c.addr = json then some c else NodeMap.findPtr json rest

/-- The call `std::find(begin, end, json)` on a vector of pointers: the object of the first
element that is `json`. -/
def Node.findPtr {D : Type} (json : Nat) : List (Node D) → Option (Node D)
  | [] => none
  | c :: rest => if c.addr = json then some c else Node.findPtr json rest

/-- The member `Json::Remove(Json*)`; `json` is the pointer.  The result is the receiver
after the call and, where a pointer was erased, the object it points to as the call leaves
it: the call erases the pointer from the container and neither deletes the object nor
writes to it (`// DO NOT delete`). -/
def Node.RemovePtr {D : Type} (self : Node D) (json : Nat) :
    Option (Except Exception (Node D × Option (Node D))) :=
  if self.IsObject then
    match self with
    | .object a k data =>
      some (.ok (.object a k (NodeMap.erasePtr json data), NodeMap.findPtr json data))
    | _ => none
  else if self.IsArray then
    match self with
    | .array a k data =>
      some (.ok (.array a k (Node.erasePtr json data), Node.findPtr json data))
    | _ => none
  else some (.error (.IllegalOperation .kRemove self.DataTypeName none))

/-- Kind and payload agree at every node of the tree: `data_` is null exactly when
`kind_` is `kNull`, and otherwise points to a payload of the type that `kind_` selects. -/
inductive Node.Consistent {D : Type} : Node D → Prop where
  | null (a : Nat) : Node.Consistent (.null a .kNull)
  | number (a : Nat) (d : D) : Node.Consistent (.number a .kNumber d)
  | string (a : Nat) (s : List Char) : Node.Consistent (.string a .kString s)
  | bool (a : Nat) (b : Bool) : Node.Consistent (.bool a .kBool b)
  | object (a : Nat) (m : NodeMap D) : (∀ p ∈ m, Node.Consistent p.2) →
      Node.Consistent (.object a .kObject m)
  | array (a : Nat) (l : List (Node D)) : (∀ c ∈ l, Node.Consistent c) →
      Node.Consistent (.array a .kArray l)

/-- The addresses of the objects of a tree: the node and all nodes below it. -/
def Node.addrs {D : Type} (n : Node D) : List Nat := n.addr :: n.descendants

/-- The trees `a` and `b` have no object in common. -/
def Node.Apart {D : Type} (a b : Node D) : Prop := ∀ x ∈ a.addrs, x ∉ b.addrs

instance Node.decidableApart {D : Type} (a b : Node D) : Decidable (Node.Apart a b) := by
  unfold Node.Apart
  infer_instance

/-- What a call of `CopyData` from a tree `rhs` has to give, whatever the address of the
receiver and the next unused address: a consistent tree of the kind and the value of `rhs`
whose nodes below the root are all new. -/
def Node.CopiesWell {D : Type} (rhs : Node D) : Prop :=
  ∀ addr next : Nat, ∃ out next2, Node.CopyData rhs addr next = some (out, next2) ∧
    out.Consistent ∧ out.addr = addr ∧ out.kind_ = rhs.kind_ ∧
    out.value = rhs.value.CopyData ∧ next ≤ next2 ∧
    ∀ x ∈ out.descendants, next ≤ x ∧ x < next2

/-- The outcome `r2` of a run with more fuel against the outcome `r1` of a run with
less: where `r1` did not exhaust its fuel, `r2` is the same outcome. -/
def Outcome.Extends {α : Type} (r1 r2 : Outcome α) : Prop := r1 = .outOfFuel ∨ r2 = r1

/-- Sequencing of watched runs.  A watched run is a run of the parser with a watch on the
cursor: `none` says that the watch stopped it, `some r` that it ran to the outcome `r`
with the watch silent. -/
def Watched.andThen {α β : Type} (r : Option (Outcome α))
    (f : α → Assist → Option (Outcome β)) : Option (Outcome β) :=
  match r with
  | none => none
  | some (.ok a st) => f a st
  | some (.thrown e st) => some (.thrown e st)
  | some .outOfFuel => some .outOfFuel

/-- The handler `catch (exception& e) { ...; UnexpectedToken(); }` on a watched run. -/
def Watched.catchRethrow {α : Type} (r : Option (Outcome α)) : Option (Outcome α) :=
  r.map Outcome.catchRethrow

/-- The watch on a write to `pos` (`pos--` in `Retract` and `SkipWhitespaces`): the run
goes on in `st` when the cursor is in `-1 .. length`, and stops otherwise. -/
def Watched.moved {α : Type} (st : Assist) (k : Assist → Option (Outcome α)) :
    Option (Outcome α) :=
  if st.pos < -1 ∨ st.pos > (st.source.length : Int) then none else k st

/-- The member `Assist::NextCharacter`, watched: the run stops when the guard at the top
is taken (`pos` on the terminator when a character is asked for), and when the index
`pos + 1` of the read is not in `0 .. length`. -/
def Watched.NextCharacter (st : Assist) : Option (Outcome Char) :=
  if st.pos ≥ 0 ∧ charAt st.source st.pos = NUL then none
  else if st.pos + 1 < 0 ∨ st.pos + 1 > (st.source.length : Int) then none
  else
    let c := charAt st.source (st.pos + 1)
    some (.ok c { st with pos := st.pos + 1, character := c })

/-- The member `Assist::SkipWhitespaces`, watched. -/
def Watched.SkipWhitespaces : Nat → Assist → Option (Outcome Unit)
  | 0, _ => some .outOfFuel
  | fuel + 1, st =>
    Watched.andThen (Watched.NextCharacter st) fun ch st =>
      if isWhitespace ch then Watched.SkipWhitespaces fuel st
      else Watched.moved (StepBack st) fun st => some (.ok () st)

/-- The member `Assist::ConsumeSpecific`, watched. -/
def Watched.ConsumeSpecific : List Char → Assist → Option (Outcome Unit)
  | [], st => some (.ok () st)
  | c :: str, st =>
    Watched.andThen (Watched.NextCharacter st) fun ch st =>
      if c ≠ ch then some (UnexpectedToken st) else Watched.ConsumeSpecific str st

/-- The member `Assist::KindDetect`, watched. -/
def Watched.KindDetect (st : Assist) : Option (Outcome Kind) :=
  Watched.andThen (Watched.NextCharacter st) fun _ st =>
    let kind : Kind :=
      if st.character = dquote then .kString
      else if st.character = 't' ∨ st.character = 'f' then .kBool
      else if st.character = 'n' then .kNull
      else if st.character = '{' then .kObject
      else if st.character = '[' then .kArray
      else .kNumber
    Watched.moved (Retract st) fun st => some (.ok kind st)

/-- The digit loops of `ConsumeNumber`, watched. -/
def Watched.ConsumeNumber.digits : Nat → Assist → Option (Outcome Unit)
  | 0, _ => some .outOfFuel
  | fuel + 1, st =>
    Watched.andThen (Watched.NextCharacter st) fun c st =>
      if !isdigit c then Watched.moved (Retract st) fun st => some (.ok () st)
      else Watched.ConsumeNumber.digits fuel (Concat st)

/-- The loop `while (dot)` of `ConsumeNumber`, watched. -/
def Watched.ConsumeNumber.fraction : Nat → Assist → Option (Outcome Unit)
  | 0, _ => some .outOfFuel
  | fuel + 1, st =>
    Watched.andThen (Watched.NextCharacter st) fun _ st =>
      if !isdigit st.character then some (.ok () st)
      else Watched.ConsumeNumber.fraction fuel (Concat st)

/-- Lines 514-516 of `ConsumeNumber`, watched. -/
def Watched.ConsumeNumber.sign (st : Assist) : Option (Outcome Unit) :=
  Watched.andThen (Watched.NextCharacter st) fun _ st =>
    if '-' = st.character then
      Watched.andThen (Watched.NextCharacter (Concat st)) fun _ st => some (.ok () st)
    else some (.ok () st)

/-- Lines 517-526 of `ConsumeNumber`, watched. -/
def Watched.ConsumeNumber.integer (fuel : Nat) (st : Assist) : Option (Outcome Unit) :=
  if !isdigit st.character then some (UnexpectedToken st)
  else
    (fun (st : Assist) =>
      if '0' = st.character then some (Outcome.ok () st)
      else Watched.ConsumeNumber.digits fuel st) (Concat st)

/-- Lines 527-539 of `ConsumeNumber`, watched. -/
def Watched.ConsumeNumber.point (fuel : Nat) (st : Assist) : Option (Outcome Unit) :=
  Watched.andThen (Watched.NextCharacter st) fun c st =>
    if isdigit c then some (UnexpectedToken st)
    else if '.' = st.character then
      Watched.andThen (Watched.NextCharacter (Concat st)) fun c st =>
        if !isdigit c then some (UnexpectedToken st)
        else Watched.ConsumeNumber.fraction fuel (Concat st)
    else some (.ok () st)

/-- Lines 541-562 of `ConsumeNumber`, watched. -/
def Watched.ConsumeNumber.exponent (fuel : Nat) (st : Assist) : Option (Outcome Unit) :=
  if 'e' = st.character ∨ 'E' = st.character then
    Watched.andThen (Watched.NextCharacter (Concat st)) fun _ st =>
    Watched.andThen
      (if '+' = st.character ∨ '-' = st.character then some (Outcome.ok () (Concat st))
        else if isdigit st.character then
          Watched.moved (Retract st) fun st => some (Outcome.ok () st)
        else some (UnexpectedToken st)) fun _ st =>
    Watched.andThen (Watched.NextCharacter st) fun c st =>
      if !isdigit c then some (UnexpectedToken st)
      else Watched.ConsumeNumber.digits fuel (Concat st)
  else Watched.moved (Retract st) fun st => some (.ok () st)

/-- The member `Assist::ConsumeNumber`, watched. -/
def Watched.ConsumeNumber {D : Type} (atof : List Char → D) (fuel : Nat) (st : Assist) :
    Option (Outcome (Json D)) :=
  Watched.andThen (Watched.ConsumeNumber.sign { st with token := [] }) fun _ st =>
  Watched.andThen (Watched.ConsumeNumber.integer fuel st) fun _ st =>
  Watched.andThen (Watched.ConsumeNumber.point fuel st) fun _ st =>
  Watched.andThen (Watched.ConsumeNumber.exponent fuel st) fun _ st =>
  some (.ok (Json.number (atof st.token)) st)

/-- The loop over the four hexadecimal digits of `ConsumeString`, watched. -/
def Watched.ConsumeString.hex : Nat → Assist → Option (Outcome Unit)
  | 0, st => some (.ok () st)
  | n + 1, st =>
    Watched.andThen (Watched.NextCharacter st) fun c st =>
      if !isxdigit c then some (UnexpectedToken st)
      else Watched.ConsumeString.hex n (Concat st)

/-- The `switch` of `ConsumeString` on the character after a backslash, watched. -/
def Watched.ConsumeString.escape (st : Assist) : Option (Outcome Unit) :=
  if st.character = dquote ∨ st.character = bslash ∨ st.character = '/' ∨
      st.character = 'b' ∨ st.character = 'f' ∨ st.character = 'n' ∨
      st.character = 'r' ∨ st.character = 't' then some (.ok () (Concat st))
  else if st.character = 'u' then Watched.ConsumeString.hex 4 (Concat st)
  else some (UnexpectedToken st)

/-- The loop `while (true)` of `ConsumeString`, watched. -/
def Watched.ConsumeString.loop : Nat → Assist → Option (Outcome Unit)
  | 0, _ => some .outOfFuel
  | fuel + 1, st =>
    Watched.andThen (Watched.NextCharacter st) fun c st =>
      if dquote = c then some (.ok () st)
      else if bslash = st.character then
        Watched.andThen (Watched.NextCharacter (Concat st)) fun _ st =>
        Watched.andThen (Watched.ConsumeString.escape st) fun _ st =>
        Watched.ConsumeString.loop fuel st
      else if iscntrl st.character then some (UnexpectedToken st)
      else Watched.ConsumeString.loop fuel (Concat st)

/-- The member `Assist::ConsumeString`, watched. -/
def Watched.ConsumeString {D : Type} (fuel : Nat) (st : Assist) : Option (Outcome (Json D)) :=
  Watched.andThen (Watched.SkipWhitespaces fuel st) fun _ st =>
  Watched.andThen (Watched.NextCharacter st) fun c st =>
  if dquote ≠ c then some (UnexpectedToken st)
  else
    Watched.andThen (Watched.ConsumeString.loop fuel { st with token := [] }) fun _ st =>
    some (.ok (Json.string st.token) st)

/-- The member `Assist::ConsumeBool`, watched. -/
def Watched.ConsumeBool {D : Type} (st : Assist) : Option (Outcome (Json D)) :=
  Watched.andThen (Watched.NextCharacter st) fun ch st =>
  Watched.moved (Retract st) fun st =>
    if 't' = ch then
      Watched.andThen (Watched.ConsumeSpecific ['t', 'r', 'u', 'e'] st) fun _ st =>
        some (.ok (Json.bool true) st)
    else
      Watched.andThen (Watched.ConsumeSpecific ['f', 'a', 'l', 's', 'e'] st) fun _ st =>
        some (.ok (Json.bool false) st)

/-- The member `Assist::ConsumeNull`, watched. -/
def Watched.ConsumeNull {D : Type} (st : Assist) : Option (Outcome (Json D)) :=
  Watched.andThen (Watched.ConsumeSpecific ['n', 'u', 'l', 'l'] st) fun _ st =>
    some (.ok Json.null st)

/-- The member `Assist::ConsumePair`, watched. -/
def Watched.ConsumePair {D : Type} (ConsumeValue : Assist → Option (Outcome (Json D)))
    (fuel : Nat) (st : Assist) : Option (Outcome (List Char × Json D)) :=
  Watched.andThen (Watched.ConsumeString fuel st) fun (keyJson : Json D) st =>
  match keyJson.toStdString with
  | .error e => some (.thrown e st)
  | .ok key =>
    Watched.andThen (Watched.SkipWhitespaces fuel st) fun _ st =>
    Watched.andThen (Watched.ConsumeSpecific [':'] st) fun _ st =>
    Watched.andThen (ConsumeValue st) fun value st =>
    some (.ok (key, value) st)

/-- The loop `while (true)` of `ConsumeObject`, watched. -/
def Watched.ConsumeObject.loop {D : Type}
    (ConsumeValue : Assist → Option (Outcome (Json D))) (fuel : Nat) :
    Nat → ObjectData D → Assist → Option (Outcome (ObjectData D))
  | 0, _, _ => some .outOfFuel
  | n + 1, obj, st =>
    Watched.andThen (Watched.NextCharacter st) fun c st =>
      if '}' = c then some (.ok obj st)
      else if ',' = st.character then
        Watched.andThen (Watched.catchRethrow (Watched.ConsumePair ConsumeValue fuel st))
          fun p st =>
        Watched.ConsumeObject.loop ConsumeValue fuel n (ObjectData.insert p.1 p.2 obj) st
      else some (UnexpectedToken st)

/-- The member `Assist::ConsumeObject`, watched. -/
def Watched.ConsumeObject {D : Type} (ConsumeValue : Assist → Option (Outcome (Json D)))
    (fuel : Nat) (st : Assist) : Option (Outcome (Json D)) :=
  Watched.andThen (Watched.NextCharacter st) fun c st =>
  if '{' ≠ c then some (UnexpectedToken st)
  else
    Watched.andThen (Watched.SkipWhitespaces fuel st) fun _ st =>
    Watched.andThen (Watched.NextCharacter st) fun c st =>
    if '}' = c then some (.ok (Json.object []) st)
    else
      Watched.andThen
        (Watched.moved (Retract st) fun st =>
          Watched.catchRethrow (Watched.ConsumePair ConsumeValue fuel st)) fun p st =>
      Watched.andThen
        (Watched.ConsumeObject.loop ConsumeValue fuel fuel (ObjectData.insert p.1 p.2 []) st)
        fun obj st =>
      some (.ok (Json.object obj) st)

/-- The loop `while (true)` of `ConsumeArray`, watched. -/
def Watched.ConsumeArray.loop {D : Type} (ConsumeValue : Assist → Option (Outcome (Json D))) :
    Nat → ArrayData D → Assist → Option (Outcome (ArrayData D))
  | 0, _, _ => some .outOfFuel
  | n + 1, arr, st =>
    Watched.andThen (Watched.NextCharacter st) fun c st =>
      if ']' = c then some (.ok arr st)
      else if ',' = st.character then
        Watched.andThen (Watched.catchRethrow (ConsumeValue st)) fun v st =>
        Watched.ConsumeArray.loop ConsumeValue n (arr ++ [v]) st
      else some (UnexpectedToken st)

/-- The member `Assist::ConsumeArray`, watched. -/
def Watched.ConsumeArray {D : Type} (ConsumeValue : Assist → Option (Outcome (Json D)))
    (fuel : Nat) (st : Assist) : Option (Outcome (Json D)) :=
  Watched.andThen (Watched.NextCharacter st) fun c st =>
  if '[' ≠ c then some (UnexpectedToken st)
  else
    Watched.andThen (Watched.SkipWhitespaces fuel st) fun _ st =>
    Watched.andThen (Watched.NextCharacter st) fun c st =>
    if ']' = c then some (.ok (Json.array []) st)
    else
      Watched.andThen
        (Watched.moved (Retract st) fun st => Watched.catchRethrow (ConsumeValue st))
        fun v st =>
      Watched.andThen (Watched.ConsumeArray.loop ConsumeValue fuel [v] st) fun arr st =>
      some (.ok (Json.array arr) st)

/-- Lines 486-499 of `ConsumeValue`, watched. -/
def Watched.ConsumeValue.consumer {D : Type} (atof : List Char → D)
    (ConsumeValue : Assist → Option (Outcome (Json D))) (fuel : Nat) (st : Assist) :
    Option (Outcome (Json D)) :=
  Watched.andThen (Watched.SkipWhitespaces fuel st) fun _ st =>
  Watched.andThen (Watched.KindDetect st) fun kind st =>
  match kind with
  | .kNumber => Watched.ConsumeNumber atof fuel st
  | .kString => Watched.ConsumeString fuel st
  | .kBool => Watched.ConsumeBool st
  | .kNull => Watched.ConsumeNull st
  | .kObject => Watched.ConsumeObject ConsumeValue fuel st
  | .kArray => Watched.ConsumeArray ConsumeValue fuel st

/-- Lines 500-507 of `ConsumeValue`, watched. -/
def Watched.ConsumeValue.finish {D : Type} (fuel : Nat) (sect : Bool) (json : Json D)
    (st : Assist) : Option (Outcome (Json D)) :=
  Watched.andThen
    (if !sect && !EOL st then
      Watched.andThen (Watched.SkipWhitespaces fuel st) fun _ st =>
      Watched.andThen (Watched.NextCharacter st) fun _ st =>
      if !EOL st then some (UnexpectedToken st) else some (.ok () st)
    else some (.ok () st)) fun _ st =>
  Watched.andThen (if sect then Watched.SkipWhitespaces fuel st else some (.ok () st))
    fun _ st =>
  some (.ok json st)

/-- The member `Assist::ConsumeValue`, watched. -/
def Watched.ConsumeValue {D : Type} (atof : List Char → D) :
    Nat → Bool → Assist → Option (Outcome (Json D))
  | 0, _, _ => some .outOfFuel
  | fuel + 1, sect, st =>
    Watched.andThen
      (Watched.ConsumeValue.consumer atof (Watched.ConsumeValue atof fuel true) (fuel + 1) st)
      fun json st => Watched.ConsumeValue.finish (fuel + 1) sect json st

/-- The static member `Json::Parse`, watched. -/
def Watched.Parse {D : Type} (atof : List Char → D) (json_string : List Char) :
    Option (Outcome (Json D)) :=
  Watched.ConsumeValue atof (json_string.length + 2) false (Assist.init json_string)

/-- The cursor of `st` is on the text `src` in front of a character or of the terminator:
the next read is at an index in `0 .. length`. -/
def Watched.Before (src : List Char) (st : Assist) : Prop :=
  st.source = src ∧ -1 ≤ st.pos ∧ st.pos < (src.length : Int)

/-- The state `st` has just read the character under its cursor, at an index in
`0 .. length` of the text `src`. -/
def Watched.After (src : List Char) (st : Assist) : Prop :=
  st.source = src ∧ 0 ≤ st.pos ∧ st.pos ≤ (src.length : Int) ∧
    st.character = charAt src st.pos

/-- The watched run `w` ran to the outcome `r` with the watch silent, and a result of it
satisfies `Q`. -/
def Watched.Agrees {α : Type} (Q : α → Assist → Prop) (w : Option (Outcome α))
    (r : Outcome α) : Prop :=
  w = some r ∧ ∀ a st, r = .ok a st → Q a st

/-! ## Theorems -/

theorem char_eq_iff (c d : Char) : c = d ↔ c.toNat = d.toNat := by
  constructor
  · intro h; rw [h]
  · intro h
    apply Char.ext
    apply UInt32.ext  
    simpa [Char.toNat, UInt32.toNat] using h

theorem peek_lt_ne_NUL {src : List Char} (hc : CStr src) {i : Nat} (hi : i < src.length) :
    peek src i ≠ NUL := by
  unfold peek
  rw [List.getD_eq_getElem _ _ hi]
  exact hc _ (List.getElem_mem _)

theorem peek_ge {src : List Char} {i : Nat} (hi : src.length ≤ i) : peek src i = NUL := by
  unfold peek
  exact List.getD_eq_default _ _ hi

theorem peek_of_drop_cons {src : List Char} {i : Nat} {c : Char} {t : List Char}
    (h : src.drop i = c :: t) : peek src i = c := by
  unfold peek
  have : i < src.length := by
    by_contra hn
    rw [List.drop_eq_nil_of_le (by omega)] at h
    cases h
  rw [List.getD_eq_getElem _ _ this]
  have := List.drop_eq_getElem_cons this
  rw [h] at this
  injection this with h1 h2
  exact h1.symm

theorem Init_eq_cur (s : List Char) : Assist.init s = cur s 0 ' ' [] := rfl

theorem NextCharacter_cur {src : List Char} (hc : CStr src) {i : Nat} (hi : i ≤ src.length)
    (ch : Char) (tok : List Char) :
    NextCharacter (cur src i ch tok) = .ok (peek src i) (cur src (i + 1) (peek src i) tok) := by
  unfold NextCharacter
  have hg : ¬ ((cur src i ch tok).pos ≥ 0 ∧ charAt (cur src i ch tok).source (cur src i ch tok).pos = NUL) := by
    rintro ⟨h1, h2⟩
    simp only [cur] at h1 h2
    have h3 : 1 ≤ i := by omega
    have h4 : ((i : Int) - 1).toNat = i - 1 := by omega
    unfold charAt at h2
    rw [h4] at h2
    exact peek_lt_ne_NUL hc (by omega) h2
  rw [if_neg hg]
  simp only [cur, charAt, peek]
  have h4 : ((i : Int) - 1 + 1).toNat = i := by omega
  rw [h4]
  congr 2
  push_cast
  ring

@[simp] theorem cur_source (src : List Char) (i : Nat) (ch : Char) (tok : List Char) :
    (cur src i ch tok).source = src := rfl

@[simp] theorem cur_character (src : List Char) (i : Nat) (ch : Char) (tok : List Char) :
    (cur src i ch tok).character = ch := rfl

@[simp] theorem cur_token (src : List Char) (i : Nat) (ch : Char) (tok : List Char) :
    (cur src i ch tok).token = tok := rfl

theorem cur_pos_succ (src : List Char) (i : Nat) (ch : Char) (tok : List Char) :
    (cur src (i + 1) ch tok).pos = (i : Int) := by
  simp [cur]

@[simp] theorem Retract_cur (src : List Char) (i : Nat) (ch : Char) (tok : List Char) :
    Retract (cur src (i + 1) ch tok) = cur src i ' ' tok := by
  simp [Retract, cur]

@[simp] theorem Concat_cur (src : List Char) (i : Nat) (ch : Char) (tok : List Char) :
    Concat (cur src i ch tok) = cur src i ch (tok ++ [ch]) := rfl

@[simp] theorem cur_reset_token (src : List Char) (i : Nat) (ch : Char) (tok : List Char) :
    { cur src i ch tok with token := [] } = cur src i ch [] := rfl

@[simp] theorem StepBack_cur (src : List Char) (i : Nat) (ch : Char) (tok : List Char) :
    StepBack (cur src (i + 1) ch tok) = cur src i ch tok := by
  simp [StepBack, cur]

@[simp] theorem andThen_ok {α β : Type} (a : α) (st : Assist) (f : α → Assist → Outcome β) :
    (Outcome.ok a st).andThen f = f a st := rfl

@[simp] theorem andThen_thrown {α β : Type} (e : Exception) (st : Assist)
    (f : α → Assist → Outcome β) :
    (Outcome.thrown e st : Outcome α).andThen f = .thrown e st := rfl

@[simp] theorem andThen_outOfFuel {α β : Type} (f : α → Assist → Outcome β) :
    (Outcome.outOfFuel : Outcome α).andThen f = .outOfFuel := rfl

@[simp] theorem catchRethrow_ok {α : Type} (a : α) (st : Assist) :
    (Outcome.ok a st).catchRethrow = .ok a st := rfl

theorem UnexpectedToken_cur {α : Type} (src : List Char) (i : Nat) (ch : Char)
    (tok : List Char) :
    (UnexpectedToken (cur src (i + 1) ch tok) : Outcome α) =
      .thrown (.UnexpectedToken ch (i : Int)) (cur src (i + 1) ch tok) := by
  simp [UnexpectedToken, cur]

theorem drop_next {src : List Char} {i : Nat} {c : Char} {t : List Char}
    (h : src.drop i = c :: t) : src.drop (i + 1) = t := by
  have : src.drop (i + 1) = (src.drop i).drop 1 := by
    rw [List.drop_drop]
  rw [this, h]; rfl

theorem drop_lt {src : List Char} {i : Nat} {c : Char} {t : List Char}
    (h : src.drop i = c :: t) : i < src.length := by
  by_contra hn
  rw [List.drop_eq_nil_of_le (by omega)] at h
  cases h

theorem drop_skip {src : List Char} {i : Nat} {a b : List Char}
    (h : src.drop i = a ++ b) : src.drop (i + a.length) = b := by
  have : src.drop (i + a.length) = (src.drop i).drop a.length := by
    rw [List.drop_drop]
  rw [this, h, List.drop_left]

theorem drop_skip_le {src : List Char} {i : Nat} {a b : List Char}
    (h : src.drop i = a ++ b) (hi : i ≤ src.length) : i + a.length ≤ src.length := by
  have h1 : (src.drop i).length = a.length + b.length := by rw [h, List.length_append]
  rw [List.length_drop] at h1
  omega

theorem peek_of_drop_nil {src : List Char} {i : Nat} (h : src.drop i = []) :
    peek src i = NUL := by
  apply peek_ge
  have := congrArg List.length h
  rw [List.length_drop] at this
  simp at this
  omega

theorem peek_eq_headD (src : List Char) (i : Nat) : peek src i = (src.drop i).headD NUL := by
  cases h : src.drop i with
  | nil => rw [peek_of_drop_nil h]; rfl
  | cons c t => rw [peek_of_drop_cons h]; rfl

theorem isWhitespace_NUL : isWhitespace NUL = false := by decide

theorem SkipWhitespaces_cur {src : List Char} (hc : CStr src) (w : List Char) :
    ∀ (fuel i : Nat) (ch : Char) (tok r : List Char),
      (∀ c ∈ w, isWhitespace c = true) → src.drop i = w ++ r → i ≤ src.length →
      isWhitespace (peek src (i + w.length)) = false → w.length < fuel →
      SkipWhitespaces fuel (cur src i ch tok) =
        .ok () (cur src (i + w.length) (peek src (i + w.length)) tok) := by
  induction w with
  | nil =>
    intro fuel i ch tok r _ hd hi hr hf
    obtain ⟨f, rfl⟩ : ∃ f, fuel = f + 1 := ⟨fuel - 1, by simp at hf; omega⟩
    simp only [List.length_nil, Nat.add_zero] at hr ⊢
    simp [SkipWhitespaces, NextCharacter_cur hc hi, hr]
  | cons c w ih =>
    intro fuel i ch tok r hw hd hi hr hf
    obtain ⟨f, rfl⟩ : ∃ f, fuel = f + 1 := ⟨fuel - 1, by simp at hf; omega⟩
    have hp : peek src i = c := peek_of_drop_cons hd
    have hcw : isWhitespace c = true := hw c (List.mem_cons_self _ _)
    have hlt := drop_lt hd
    have e : i + (c :: w).length = i + 1 + w.length := by simp; omega
    rw [e] at hr ⊢
    simp only [SkipWhitespaces, NextCharacter_cur hc hi, hp, andThen_ok, hcw, if_true]
    exact ih f (i + 1) c tok r (fun x hx => hw x (List.mem_cons_of_mem _ hx)) (drop_next hd)
      (by omega) hr (by simp at hf; omega)

theorem ThrownAt.mono {α : Type} {src : List Char} {lo lo2 : Nat} {r : Outcome α}
    (h : ThrownAt src lo r) (hl : lo2 ≤ lo) : ThrownAt src lo2 r := by
  obtain ⟨p, tok, h1, h2, h3⟩ := h
  exact ⟨p, tok, by omega, h2, h3⟩

theorem ThrownAt.unexpected {α : Type} {src : List Char} {lo p : Nat} (tok : List Char)
    (h1 : lo ≤ p) (h2 : p ≤ src.length) :
    ThrownAt src lo (UnexpectedToken (cur src (p + 1) (peek src p) tok) : Outcome α) :=
  ⟨p, tok, h1, h2, UnexpectedToken_cur _ _ _ _⟩

theorem lt_of_peek_ne_NUL {src : List Char} {i : Nat} (h : peek src i ≠ NUL) :
    i < src.length := by
  by_contra hn
  exact h (peek_ge (by omega))

theorem isdigit_NUL : isdigit NUL = false := by decide

theorem lt_of_isdigit_peek {src : List Char} {i : Nat} (h : isdigit (peek src i) = true) :
    i < src.length := by
  apply lt_of_peek_ne_NUL
  intro hn
  rw [hn, isdigit_NUL] at h
  cases h

theorem span_exists (p : Char → Bool) (l : List Char) :
    ∃ a r, l = a ++ r ∧ (∀ c ∈ a, p c = true) ∧ (∀ c t, r = c :: t → p c = false) := by
  induction l with
  | nil => exact ⟨[], [], rfl, by simp, by simp⟩
  | cons x l ih =>
    by_cases hx : p x = true
    · obtain ⟨a, r, h1, h2, h3⟩ := ih
      refine ⟨x :: a, r, by simp [h1], ?_, h3⟩
      intro c hc
      rcases List.mem_cons.mp hc with rfl | hc
      · exact hx
      · exact h2 c hc
    · refine ⟨[], x :: l, rfl, by simp, ?_⟩
      intro c t h
      injection h with h1 h2
      subst h1
      simpa using hx

theorem span_at (p : Char → Bool) (hp : p NUL = false) (src : List Char) (i : Nat) :
    ∃ a r, src.drop i = a ++ r ∧ (∀ c ∈ a, p c = true) ∧ p (peek src (i + a.length)) = false := by
  obtain ⟨a, r, h1, h2, h3⟩ := span_exists p (src.drop i)
  refine ⟨a, r, h1, h2, ?_⟩
  rw [peek_eq_headD, drop_skip h1]
  cases r with
  | nil => exact hp
  | cons c t => exact h3 c t rfl

theorem digits_cur {src : List Char} (hc : CStr src) (ds : List Char) :
    ∀ (fuel j : Nat) (ch : Char) (tok r : List Char),
      Digits ds → src.drop j = ds ++ r → j ≤ src.length →
      isdigit (peek src (j + ds.length)) = false → ds.length < fuel →
      ConsumeNumber.digits fuel (cur src j ch tok) =
        .ok () (cur src (j + ds.length) ' ' (tok ++ ds)) := by
  induction ds with
  | nil =>
    intro fuel j ch tok r _ hd hj hr hf
    obtain ⟨f, rfl⟩ : ∃ f, fuel = f + 1 := ⟨fuel - 1, by simp at hf; omega⟩
    simp only [List.length_nil, Nat.add_zero] at hr ⊢
    simp [ConsumeNumber.digits, NextCharacter_cur hc hj, hr]
  | cons c ds ih =>
    intro fuel j ch tok r hw hd hj hr hf
    obtain ⟨f, rfl⟩ : ∃ f, fuel = f + 1 := ⟨fuel - 1, by simp at hf; omega⟩
    have hp : peek src j = c := peek_of_drop_cons hd
    have hcw : isdigit c = true := hw c (List.mem_cons_self _ _)
    have hlt := drop_lt hd
    have e : j + (c :: ds).length = j + 1 + ds.length := by simp; omega
    rw [e] at hr ⊢
    simp only [ConsumeNumber.digits, NextCharacter_cur hc hj, hp, andThen_ok, hcw, Bool.not_true,
      Bool.false_eq_true, if_false, Concat_cur]
    rw [ih f (j + 1) c (tok ++ [c]) r (fun x hx => hw x (List.mem_cons_of_mem _ hx))
      (drop_next hd) (by omega) hr (by simp at hf; omega)]
    simp

theorem fraction_cur {src : List Char} (hc : CStr src) (ds : List Char) :
    ∀ (fuel j : Nat) (ch : Char) (tok r : List Char),
      Digits ds → src.drop j = ds ++ r → j ≤ src.length →
      isdigit (peek src (j + ds.length)) = false → ds.length < fuel →
      ConsumeNumber.fraction fuel (cur src j ch tok) =
        .ok () (cur src (j + ds.length + 1) (peek src (j + ds.length)) (tok ++ ds)) := by
  induction ds with
  | nil =>
    intro fuel j ch tok r _ hd hj hr hf
    obtain ⟨f, rfl⟩ : ∃ f, fuel = f + 1 := ⟨fuel - 1, by simp at hf; omega⟩
    simp only [List.length_nil, Nat.add_zero] at hr ⊢
    simp [ConsumeNumber.fraction, NextCharacter_cur hc hj, hr]
  | cons c ds ih =>
    intro fuel j ch tok r hw hd hj hr hf
    obtain ⟨f, rfl⟩ : ∃ f, fuel = f + 1 := ⟨fuel - 1, by simp at hf; omega⟩
    have hp : peek src j = c := peek_of_drop_cons hd
    have hcw : isdigit c = true := hw c (List.mem_cons_self _ _)
    have hlt := drop_lt hd
    have e : j + (c :: ds).length = j + 1 + ds.length := by simp; omega
    rw [e] at hr ⊢
    simp only [ConsumeNumber.fraction, NextCharacter_cur hc hj, hp, andThen_ok, hcw, Bool.not_true,
      Bool.false_eq_true, if_false, Concat_cur, cur_character]
    rw [ih f (j + 1) c (tok ++ [c]) r (fun x hx => hw x (List.mem_cons_of_mem _ hx))
      (drop_next hd) (by omega) hr (by simp at hf; omega)]
    simp

theorem sign_cur {src : List Char} (hc : CStr src) {i : Nat} (hi : i ≤ src.length)
    (ch : Char) (tok : List Char) :
    ConsumeNumber.sign (cur src i ch tok) =
      if peek src i = '-' then .ok () (cur src (i + 2) (peek src (i + 1)) (tok ++ ['-']))
      else .ok () (cur src (i + 1) (peek src i) tok) := by
  unfold ConsumeNumber.sign
  rw [NextCharacter_cur hc hi]
  by_cases h : peek src i = '-'
  · have hlt : i < src.length := lt_of_peek_ne_NUL (by rw [h]; decide)
    simp [h, NextCharacter_cur hc (show i + 1 ≤ src.length by omega)]
  · have h2 : ¬ ('-' = peek src i) := fun e => h e.symm
    simp [h, h2]

theorem peek_after {src : List Char} {j : Nat} {a b : List Char}
    (h : src.drop j = a ++ b) : peek src (j + a.length) = b.headD NUL := by
  rw [peek_eq_headD, drop_skip h]

theorem integer_fwd {src : List Char} (hc : CStr src) {ip r : List Char} {j fuel : Nat}
    (tok : List Char) (hip : IntPart ip) (hd : src.drop j = ip ++ r)
    (hnd : isdigit (peek src (j + ip.length)) = false) (hf : ip.length ≤ fuel) :
    ∃ ch, ConsumeNumber.integer fuel (cur src (j + 1) (peek src j) tok) =
      .ok () (cur src (j + ip.length) ch (tok ++ ip)) := by
  rcases hip with rfl | ⟨d, ds, rfl, hdig, hd0, hds⟩
  · have hp : peek src j = '0' := peek_of_drop_cons hd
    refine ⟨'0', ?_⟩
    simp [ConsumeNumber.integer, hp, isdigit]
  · have hp : peek src j = d := peek_of_drop_cons hd
    have hlt := drop_lt hd
    have hd0 : ¬ ('0' = d) := fun e => hd0 e.symm
    refine ⟨' ', ?_⟩
    have e : j + (d :: ds).length = j + 1 + ds.length := by simp; omega
    rw [e] at hnd ⊢
    simp only [ConsumeNumber.integer, hp, cur_character, hdig, Bool.not_true, Bool.false_eq_true,
      if_false, Concat_cur, hd0]
    rw [digits_cur hc ds fuel (j + 1) d (tok ++ [d]) r hds (drop_next hd) (by omega) hnd
      (by simp at hf; omega)]
    simp

theorem integer_back {src : List Char} (hc : CStr src) {j fuel : Nat} (tok : List Char)
    (hj : j ≤ src.length) (hf : src.length + 1 ≤ fuel + j) :
    (∃ ip r ch, IntPart ip ∧ src.drop j = ip ++ r ∧
      ConsumeNumber.integer fuel (cur src (j + 1) (peek src j) tok) =
        .ok () (cur src (j + ip.length) ch (tok ++ ip))) ∨
    ThrownAt src j (ConsumeNumber.integer fuel (cur src (j + 1) (peek src j) tok)) := by
  by_cases hdig : isdigit (peek src j) = true
  · have hlt := lt_of_isdigit_peek hdig
    left
    obtain ⟨t, ht⟩ : ∃ t, src.drop j = peek src j :: t := by
      refine ⟨src.drop (j + 1), ?_⟩
      rw [peek, List.getD_eq_getElem _ _ hlt]
      exact List.drop_eq_getElem_cons hlt
    by_cases h0 : peek src j = '0'
    · refine ⟨['0'], t, '0', Or.inl rfl, by rw [ht, h0]; rfl, ?_⟩
      simp [ConsumeNumber.integer, h0, isdigit]
    · obtain ⟨ds, r, h1, h2, h3⟩ := span_at isdigit isdigit_NUL src (j + 1)
      have hdj : src.drop j = (peek src j :: ds) ++ r := by
        rw [ht]
        rw [drop_next ht] at h1
        rw [h1]; rfl
      have hle := drop_skip_le h1 (by omega)
      have hfu : (peek src j :: ds).length ≤ fuel := by simp; omega
      obtain ⟨ch, hch⟩ := integer_fwd hc tok (Or.inr ⟨peek src j, ds, rfl, hdig, h0, h2⟩) hdj
        (by simpa [Nat.add_assoc, Nat.add_comm 1] using h3) hfu
      exact ⟨_, r, ch, Or.inr ⟨peek src j, ds, rfl, hdig, h0, h2⟩, hdj, hch⟩
  · right
    have : isdigit (peek src j) = false := by simpa using hdig
    simp only [ConsumeNumber.integer, cur_character, this, Bool.not_false, if_true]
    exact ThrownAt.unexpected tok (Nat.le_refl _) hj

theorem drop_eq_peek_cons {src : List Char} {j : Nat} (h : j < src.length) :
    src.drop j = peek src j :: src.drop (j + 1) := by
  rw [peek, List.getD_eq_getElem _ _ h]
  exact List.drop_eq_getElem_cons h

theorem point_fwd {src : List Char} (hc : CStr src) {fp r : List Char} {k fuel : Nat}
    (ch : Char) (tok : List Char) (hfp : FracPart fp) (hd : src.drop k = fp ++ r)
    (hk : k ≤ src.length) (hnd : isdigit (peek src (k + fp.length)) = false)
    (hnp : fp = [] → peek src k ≠ '.') (hf : fp.length ≤ fuel) :
    ConsumeNumber.point fuel (cur src k ch tok) =
      .ok () (cur src (k + fp.length + 1) (peek src (k + fp.length)) (tok ++ fp)) := by
  rcases hfp with rfl | ⟨d, ds, rfl, hdig, hds⟩
  · have h1 : ¬ ('.' = peek src k) := fun e => hnp rfl e.symm
    simp only [List.length_nil, Nat.add_zero] at hnd
    simp [ConsumeNumber.point, NextCharacter_cur hc hk, hnd, h1]
  · have hp : peek src k = '.' := peek_of_drop_cons hd
    have hlt := drop_lt hd
    have hd1 : src.drop (k + 1) = d :: (ds ++ r) := drop_next hd
    have hp1 : peek src (k + 1) = d := peek_of_drop_cons hd1
    have hlt1 := drop_lt hd1
    have hd2 : src.drop (k + 1 + 1) = ds ++ r := drop_next hd1
    have e : k + ('.' :: d :: ds).length = k + 1 + 1 + ds.length := by simp; omega
    rw [e] at hnd ⊢
    simp only [ConsumeNumber.point, NextCharacter_cur hc hk, hp, andThen_ok, cur_character,
      Concat_cur, NextCharacter_cur hc (show k + 1 ≤ src.length by omega), hp1, hdig,
      Bool.not_true, Bool.false_eq_true, if_false, if_true,
      show isdigit '.' = false by decide]
    rw [fraction_cur hc ds fuel (k + 1 + 1) d _ r hds hd2 (by omega) hnd (by simp at hf; omega)]
    simp

theorem point_back {src : List Char} (hc : CStr src) {k fuel : Nat} (ch : Char)
    (tok : List Char) (hk : k ≤ src.length) (hf : src.length + 1 ≤ fuel + k) :
    (∃ fp r, FracPart fp ∧ src.drop k = fp ++ r ∧
      ConsumeNumber.point fuel (cur src k ch tok) =
        .ok () (cur src (k + fp.length + 1) (peek src (k + fp.length)) (tok ++ fp))) ∨
    ThrownAt src k (ConsumeNumber.point fuel (cur src k ch tok)) := by
  by_cases hdig : isdigit (peek src k) = true
  · right
    simp only [ConsumeNumber.point, NextCharacter_cur hc hk, andThen_ok, hdig, if_true]
    exact ThrownAt.unexpected tok (Nat.le_refl _) hk
  · have hdig : isdigit (peek src k) = false := by simpa using hdig
    by_cases hdot : peek src k = '.'
    · have hlt : k < src.length := lt_of_peek_ne_NUL (by rw [hdot]; decide)
      by_cases hdig1 : isdigit (peek src (k + 1)) = true
      · left
        have hlt1 := lt_of_isdigit_peek hdig1
        obtain ⟨ds, r, h1, h2, h3⟩ := span_at isdigit isdigit_NUL src (k + 1 + 1)
        have hdk : src.drop k = ('.' :: peek src (k + 1) :: ds) ++ r := by
          rw [drop_eq_peek_cons hlt, hdot, drop_eq_peek_cons hlt1, h1]; rfl
        have hle := drop_skip_le h1 (by omega)
        have hfp : FracPart ('.' :: peek src (k + 1) :: ds) := Or.inr ⟨_, ds, rfl, hdig1, h2⟩
        have hfu : ('.' :: peek src (k + 1) :: ds).length ≤ fuel := by simp; omega
        have e : k + ('.' :: peek src (k + 1) :: ds).length = k + 1 + 1 + ds.length := by
          simp; omega
        exact ⟨_, r, hfp, hdk, point_fwd hc ch tok hfp hdk hk (by rw [e]; exact h3)
          (by intro h; cases h) hfu⟩
      · right
        have hdig1 : isdigit (peek src (k + 1)) = false := by simpa using hdig1
        simp only [ConsumeNumber.point, NextCharacter_cur hc hk, andThen_ok, hdig, hdot,
          cur_character, Concat_cur, NextCharacter_cur hc (show k + 1 ≤ src.length by omega),
          hdig1, Bool.not_false, if_true, Bool.false_eq_true, if_false]
        exact ThrownAt.unexpected _ (by omega) (by omega)
    · left
      refine ⟨[], src.drop k, Or.inl rfl, rfl, ?_⟩
      exact point_fwd hc ch tok (Or.inl rfl) rfl hk (by simpa using hdig) (fun _ => hdot)
        (by simp)

theorem exponent_fwd {src : List Char} (hc : CStr src) {ep r : List Char} {m fuel : Nat}
    (tok : List Char) (hep : ExpPart ep) (hd : src.drop m = ep ++ r)
    (_ : m ≤ src.length) (hnd : isdigit (peek src (m + ep.length)) = false)
    (hne : ep = [] → peek src m ≠ 'e' ∧ peek src m ≠ 'E') (hf : ep.length ≤ fuel) :
    ConsumeNumber.exponent fuel (cur src (m + 1) (peek src m) tok) =
      .ok () (cur src (m + ep.length) ' ' (tok ++ ep)) := by
  rcases hep with rfl | ⟨e, sg, d, ds, rfl, he, hsg, hdig, hds⟩
  · obtain ⟨h1, h2⟩ := hne rfl
    have h1 : ¬ ('e' = peek src m) := fun e => h1 e.symm
    have h2 : ¬ ('E' = peek src m) := fun e => h2 e.symm
    simp [ConsumeNumber.exponent, h1, h2]
  · have hp : peek src m = e := peek_of_drop_cons hd
    have hlt := drop_lt hd
    have hd1 : src.drop (m + 1) = sg ++ d :: (ds ++ r) := by
      rw [drop_next hd]; simp
    have hee : ('e' = e ∨ 'E' = e) := by
      rcases he with rfl | rfl
      · exact Or.inl rfl
      · exact Or.inr rfl
    simp only [ConsumeNumber.exponent, hp, cur_character, hee, if_true, Concat_cur,
      NextCharacter_cur hc (show m + 1 ≤ src.length by omega), andThen_ok]
    rcases hsg with rfl | rfl | rfl
    · simp only [List.nil_append] at hd1
      have hp1 : peek src (m + 1) = d := peek_of_drop_cons hd1
      have hlt1 := drop_lt hd1
      have hd2 := drop_next hd1
      have hplus : ¬ ('+' = d ∨ '-' = d) := by
        rintro (rfl | rfl)
        · exact absurd hdig (by decide)
        · exact absurd hdig (by decide)
      have e1 : m + (e :: ([] ++ d :: ds)).length = m + 1 + 1 + ds.length := by simp; omega
      rw [e1] at hnd ⊢
      simp only [hp1, hplus, if_false, hdig, if_true, andThen_ok, Retract_cur,
        NextCharacter_cur hc (show m + 1 ≤ src.length by omega), Bool.not_true,
        Bool.false_eq_true, Concat_cur]
      rw [digits_cur hc ds fuel (m + 1 + 1) d _ r hds hd2 (by omega) hnd
        (by simp at hf; omega)]
      simp
    · have hp1 : peek src (m + 1) = '+' := peek_of_drop_cons hd1
      have hlt1 := drop_lt hd1
      have hd2 : src.drop (m + 1 + 1) = d :: (ds ++ r) := drop_next hd1
      have hp2 : peek src (m + 1 + 1) = d := peek_of_drop_cons hd2
      have hlt2 := drop_lt hd2
      have hd3 := drop_next hd2
      have e1 : m + (e :: (['+'] ++ d :: ds)).length = m + 1 + 1 + 1 + ds.length := by
        simp; omega
      rw [e1] at hnd ⊢
      simp only [hp1, true_or, if_true, andThen_ok, Concat_cur, cur_character,
        NextCharacter_cur hc (show m + 1 + 1 ≤ src.length by omega), hp2, hdig, Bool.not_true,
        Bool.false_eq_true, if_false]
      rw [digits_cur hc ds fuel (m + 1 + 1 + 1) d _ r hds hd3 (by omega) hnd
        (by simp at hf; omega)]
      simp
    · have hp1 : peek src (m + 1) = '-' := peek_of_drop_cons hd1
      have hlt1 := drop_lt hd1
      have hd2 : src.drop (m + 1 + 1) = d :: (ds ++ r) := drop_next hd1
      have hp2 : peek src (m + 1 + 1) = d := peek_of_drop_cons hd2
      have hlt2 := drop_lt hd2
      have hd3 := drop_next hd2
      have e1 : m + (e :: (['-'] ++ d :: ds)).length = m + 1 + 1 + 1 + ds.length := by
        simp; omega
      rw [e1] at hnd ⊢
      simp only [hp1, or_true, if_true, andThen_ok, Concat_cur, cur_character,
        NextCharacter_cur hc (show m + 1 + 1 ≤ src.length by omega), hp2, hdig, Bool.not_true,
        Bool.false_eq_true, if_false]
      rw [digits_cur hc ds fuel (m + 1 + 1 + 1) d _ r hds hd3 (by omega) hnd
        (by simp at hf; omega)]
      simp

theorem exponent_back {src : List Char} (hc : CStr src) {m fuel : Nat} (tok : List Char)
    (hm : m ≤ src.length) (hf : src.length + 1 ≤ fuel + m) :
    (∃ ep r, ExpPart ep ∧ src.drop m = ep ++ r ∧
      ConsumeNumber.exponent fuel (cur src (m + 1) (peek src m) tok) =
        .ok () (cur src (m + ep.length) ' ' (tok ++ ep))) ∨
    ThrownAt src m (ConsumeNumber.exponent fuel (cur src (m + 1) (peek src m) tok)) := by
  by_cases he : peek src m = 'e' ∨ peek src m = 'E'
  · have hlt : m < src.length :=
      lt_of_peek_ne_NUL (by rcases he with h | h <;> rw [h] <;> decide)
    have hee : ('e' = peek src m ∨ 'E' = peek src m) := by
      rcases he with h | h
      · exact Or.inl h.symm
      · exact Or.inr h.symm
    by_cases hs : peek src (m + 1) = '+' ∨ peek src (m + 1) = '-'
    · have hlt1 : m + 1 < src.length :=
        lt_of_peek_ne_NUL (by rcases hs with h | h <;> rw [h] <;> decide)
      have hss : ('+' = peek src (m + 1) ∨ '-' = peek src (m + 1)) := by
        rcases hs with h | h
        · exact Or.inl h.symm
        · exact Or.inr h.symm
      by_cases hdig : isdigit (peek src (m + 1 + 1)) = true
      · left
        have hlt2 := lt_of_isdigit_peek hdig
        obtain ⟨ds, r, h1, h2, h3⟩ := span_at isdigit isdigit_NUL src (m + 1 + 1 + 1)
        have hle := drop_skip_le h1 (by omega)
        have hdm : src.drop m =
            (peek src m :: ([peek src (m + 1)] ++ peek src (m + 1 + 1) :: ds)) ++ r := by
          rw [drop_eq_peek_cons hlt, drop_eq_peek_cons hlt1, drop_eq_peek_cons hlt2, h1]; rfl
        have hep : ExpPart (peek src m :: ([peek src (m + 1)] ++ peek src (m + 1 + 1) :: ds)) :=
          Or.inr ⟨_, _, _, ds, rfl, he, by
            rcases hs with h | h
            · exact Or.inr (Or.inl (by rw [h]))
            · exact Or.inr (Or.inr (by rw [h])), hdig, h2⟩
        have e1 : m + (peek src m :: ([peek src (m + 1)] ++ peek src (m + 1 + 1) :: ds)).length
            = m + 1 + 1 + 1 + ds.length := by simp; omega
        have hfu : (peek src m :: ([peek src (m + 1)] ++ peek src (m + 1 + 1) :: ds)).length
            ≤ fuel := by simp; omega
        exact ⟨_, r, hep, hdm, exponent_fwd hc tok hep hdm hm (by rw [e1]; exact h3)
          (by intro h; cases h) hfu⟩
      · right
        have hdig : isdigit (peek src (m + 1 + 1)) = false := by simpa using hdig
        simp only [ConsumeNumber.exponent, cur_character, hee, if_true, Concat_cur,
          NextCharacter_cur hc (show m + 1 ≤ src.length by omega), andThen_ok, hss,
          NextCharacter_cur hc (show m + 1 + 1 ≤ src.length by omega), hdig, Bool.not_false]
        exact ThrownAt.unexpected _ (by omega) (by omega)
    · have hss : ¬ ('+' = peek src (m + 1) ∨ '-' = peek src (m + 1)) := by
        rintro (h | h)
        · exact hs (Or.inl h.symm)
        · exact hs (Or.inr h.symm)
      by_cases hdig : isdigit (peek src (m + 1)) = true
      · left
        have hlt1 := lt_of_isdigit_peek hdig
        obtain ⟨ds, r, h1, h2, h3⟩ := span_at isdigit isdigit_NUL src (m + 1 + 1)
        have hle := drop_skip_le h1 (by omega)
        have hdm : src.drop m = (peek src m :: ([] ++ peek src (m + 1) :: ds)) ++ r := by
          rw [drop_eq_peek_cons hlt, drop_eq_peek_cons hlt1, h1]; rfl
        have hep : ExpPart (peek src m :: ([] ++ peek src (m + 1) :: ds)) :=
          Or.inr ⟨_, _, _, ds, rfl, he, Or.inl rfl, hdig, h2⟩
        have e1 : m + (peek src m :: ([] ++ peek src (m + 1) :: ds)).length
            = m + 1 + 1 + ds.length := by simp; omega
        have hfu : (peek src m :: ([] ++ peek src (m + 1) :: ds)).length ≤ fuel := by
          simp; omega
        exact ⟨_, r, hep, hdm, exponent_fwd hc tok hep hdm hm (by rw [e1]; exact h3)
          (by intro h; cases h) hfu⟩
      · right
        have hdig : isdigit (peek src (m + 1)) = false := by simpa using hdig
        simp only [ConsumeNumber.exponent, cur_character, hee, if_true, Concat_cur,
          NextCharacter_cur hc (show m + 1 ≤ src.length by omega), andThen_ok, hss, if_false,
          hdig, Bool.false_eq_true, andThen_thrown]
        have := @ThrownAt.unexpected Unit src m (m + 1) (tok ++ [peek src m]) (by omega) (by omega)
        simpa [UnexpectedToken] using this
  · left
    have h1 : peek src m ≠ 'e' := fun h => he (Or.inl h)
    have h2 : peek src m ≠ 'E' := fun h => he (Or.inr h)
    have h1b : ¬ ('e' = peek src m) := fun e => h1 e.symm
    have h2b : ¬ ('E' = peek src m) := fun e => h2 e.symm
    refine ⟨[], src.drop m, Or.inl rfl, rfl, ?_⟩
    simp [ConsumeNumber.exponent, h1b, h2b]

theorem ThrownAt.andThen {α β : Type} {src : List Char} {lo : Nat} {r : Outcome α}
    (h : ThrownAt src lo r) (f : α → Assist → Outcome β) : ThrownAt src lo (r.andThen f) := by
  obtain ⟨p, tok, h1, h2, rfl⟩ := h
  exact ⟨p, tok, h1, h2, rfl⟩

theorem ConsumeNumber_fwd {D : Type} (atof : List Char → D) {src : List Char} (hc : CStr src)
    {lex r : List Char} {i fuel : Nat} (ch : Char) (tok : List Char)
    (hlex : NumberLex lex) (hd : src.drop i = lex ++ r) (hi : i ≤ src.length)
    (hfol : NumFollow (peek src (i + lex.length))) (hf : lex.length ≤ fuel) :
    ConsumeNumber atof fuel (cur src i ch tok) =
      .ok (Json.number (atof lex)) (cur src (i + lex.length) ' ' lex) := by
  obtain ⟨sg, ip, fp, ep, rfl, hsg, hip, hfp, hep⟩ := hlex
  obtain ⟨hf1, hf2, hf3, hf4⟩ := hfol
  have hd0 : src.drop i = sg ++ (ip ++ (fp ++ (ep ++ r))) := by rw [hd]; simp
  have hd1 : src.drop (i + sg.length) = ip ++ (fp ++ (ep ++ r)) := drop_skip hd0
  have hd2 : src.drop (i + sg.length + ip.length) = fp ++ (ep ++ r) := drop_skip hd1
  have hd3 : src.drop (i + sg.length + ip.length + fp.length) = ep ++ r := drop_skip hd2
  have hl1 := drop_skip_le hd0 hi
  have hl2 := drop_skip_le hd1 hl1
  have hl3 := drop_skip_le hd2 hl2
  have e4 : i + (sg ++ (ip ++ (fp ++ ep))).length
      = i + sg.length + ip.length + fp.length + ep.length := by
    simp only [List.length_append]; omega
  rw [e4] at hf1 hf2 hf3 hf4 ⊢
  have hlen : sg.length + ip.length + fp.length + ep.length ≤ fuel := by
    simp only [List.length_append] at hf; omega
  -- the character after the exponent
  have hp3 : isdigit (peek src (i + sg.length + ip.length + fp.length)) = false ∧
      (ep = [] → peek src (i + sg.length + ip.length + fp.length) ≠ 'e' ∧
        peek src (i + sg.length + ip.length + fp.length) ≠ 'E') := by
    rcases hep with rfl | ⟨e, sg2, d, ds, rfl, he, -, -, -⟩
    · simp only [List.length_nil, Nat.add_zero] at hf1 hf3 hf4
      exact ⟨hf1, fun _ => ⟨hf3, hf4⟩⟩
    · rw [peek_of_drop_cons hd3]
      refine ⟨?_, fun h => by cases h⟩
      rcases he with rfl | rfl <;> decide
  have hp2 : isdigit (peek src (i + sg.length + ip.length)) = false ∧
      (fp = [] → peek src (i + sg.length + ip.length) ≠ '.') := by
    rcases hfp with rfl | ⟨d, ds, rfl, -, -⟩
    · simp only [List.length_nil, Nat.add_zero] at hp3 hf2
      refine ⟨hp3.1, fun _ => ?_⟩
      rcases hep with rfl | ⟨e, sg2, d, ds, rfl, he, -, -, -⟩
      · simpa using hf2
      · rw [peek_of_drop_cons hd2]
        rcases he with rfl | rfl <;> decide
    · rw [peek_of_drop_cons hd2]
      exact ⟨by decide, fun h => by cases h⟩
  have hdig1 : isdigit (peek src (i + sg.length)) = true ∧ peek src (i + sg.length) ≠ '-' := by
    rcases hip with rfl | ⟨d, ds, rfl, hdig, -, -⟩
    · rw [peek_of_drop_cons hd1]
      exact ⟨by decide, by decide⟩
    · rw [peek_of_drop_cons hd1]
      refine ⟨hdig, ?_⟩
      rintro rfl
      exact absurd hdig (by decide)
  have hsign : ConsumeNumber.sign (cur src i ch []) =
      .ok () (cur src (i + sg.length + 1) (peek src (i + sg.length)) sg) := by
    rw [sign_cur hc hi]
    rcases hsg with rfl | rfl
    · simp only [List.length_nil, Nat.add_zero] at hdig1 ⊢
      rw [if_neg hdig1.2]
    · rw [if_pos (peek_of_drop_cons hd0)]
      rfl
  obtain ⟨ch1, hint⟩ := integer_fwd hc sg hip hd1 hp2.1 (show ip.length ≤ fuel by omega)
  have hpt := point_fwd hc ch1 (sg ++ ip) hfp hd2 hl2 hp3.1 hp2.2 (show fp.length ≤ fuel by omega)
  have hex := exponent_fwd hc (sg ++ ip ++ fp) hep hd3 hl3 hf1 hp3.2
    (show ep.length ≤ fuel by omega)
  simp only [ConsumeNumber, cur_reset_token, hsign, andThen_ok, hint, hpt, hex, cur_token]
  simp

theorem ConsumeNumber_back {D : Type} (atof : List Char → D) {src : List Char} (hc : CStr src)
    {i fuel : Nat} (ch : Char) (tok : List Char) (hi : i ≤ src.length)
    (hf : src.length + 1 ≤ fuel + i) :
    (∃ lex r, NumberLex lex ∧ src.drop i = lex ++ r ∧
      ConsumeNumber atof fuel (cur src i ch tok) =
        .ok (Json.number (atof lex)) (cur src (i + lex.length) ' ' lex)) ∨
    ThrownAt src i (ConsumeNumber atof fuel (cur src i ch tok)) := by
  -- the sign
  obtain ⟨sg, r0, hsg, hd0, hsign⟩ : ∃ sg r0, (sg = [] ∨ sg = ['-']) ∧ src.drop i = sg ++ r0 ∧
      ConsumeNumber.sign (cur src i ch []) =
        .ok () (cur src (i + sg.length + 1) (peek src (i + sg.length)) sg) := by
    by_cases h : peek src i = '-'
    · have hlt : i < src.length := lt_of_peek_ne_NUL (by rw [h]; decide)
      refine ⟨['-'], src.drop (i + 1), Or.inr rfl, by rw [drop_eq_peek_cons hlt, h]; rfl, ?_⟩
      rw [sign_cur hc hi, if_pos h]; rfl
    · refine ⟨[], src.drop i, Or.inl rfl, rfl, ?_⟩
      rw [sign_cur hc hi, if_neg h]; rfl
  have hl1 := drop_skip_le hd0 hi
  have hd1 := drop_skip hd0
  simp only [ConsumeNumber, cur_reset_token, hsign, andThen_ok]
  rcases integer_back hc sg hl1 (show src.length + 1 ≤ fuel + (i + sg.length) by omega) with
    ⟨ip, r1, ch1, hip, hdi, hint⟩ | hthr
  · have hl2 := drop_skip_le hdi hl1
    have hd2 := drop_skip hdi
    rw [hint]
    simp only [andThen_ok]
    rcases point_back hc ch1 (sg ++ ip) hl2
      (show src.length + 1 ≤ fuel + (i + sg.length + ip.length) by omega) with
      ⟨fp, r2, hfp, hdp, hpt⟩ | hthr
    · have hl3 := drop_skip_le hdp hl2
      have hd3 := drop_skip hdp
      rw [hpt]
      simp only [andThen_ok]
      rcases exponent_back hc (sg ++ ip ++ fp) hl3
        (show src.length + 1 ≤ fuel + (i + sg.length + ip.length + fp.length) by omega) with
        ⟨ep, r3, hep, hde, hex⟩ | hthr
      · left
        rw [hex]
        refine ⟨sg ++ (ip ++ (fp ++ ep)), r3, ⟨sg, ip, fp, ep, rfl, hsg, hip, hfp, hep⟩, ?_, ?_⟩
        · rw [hd0, ← hd1, hdi, ← hd2, hdp, ← hd3, hde]; simp
        · simp only [andThen_ok, cur_token]
          have e4 : i + (sg ++ (ip ++ (fp ++ ep))).length
              = i + sg.length + ip.length + fp.length + ep.length := by
            simp only [List.length_append]; omega
          rw [e4]
          simp
      · right
        exact (hthr.mono (by omega)).andThen _
    · right
      exact (hthr.mono (by omega)).andThen _
  · right
    exact (hthr.mono (by omega)).andThen _

theorem ConsumeSpecific_back {src : List Char} (hc : CStr src) (str : List Char)
    (hs : ∀ c ∈ str, c ≠ NUL) :
    ∀ (i : Nat) (ch : Char) (tok : List Char), i ≤ src.length →
      (∃ r ch2, src.drop i = str ++ r ∧ (str ≠ [] → ch2 ≠ NUL) ∧ (str = [] → ch2 = ch) ∧
        ConsumeSpecific str (cur src i ch tok) = .ok () (cur src (i + str.length) ch2 tok)) ∨
      ThrownAt src i (ConsumeSpecific str (cur src i ch tok)) := by
  induction str with
  | nil =>
    intro i ch tok _
    left
    exact ⟨src.drop i, ch, rfl, fun h => absurd rfl h, fun _ => rfl, rfl⟩
  | cons c str ih =>
    intro i ch tok hi
    have hcn : c ≠ NUL := hs c (List.mem_cons_self _ _)
    by_cases hp : c = peek src i
    · have hlt : i < src.length := lt_of_peek_ne_NUL (by rw [← hp]; exact hcn)
      rcases ih (fun x hx => hs x (List.mem_cons_of_mem _ hx)) (i + 1) (peek src i) tok
        (by omega) with ⟨r, ch2, hd, hn, he, heq⟩ | hthr
      · left
        have hdd : src.drop i = (c :: str) ++ r := by
          rw [drop_eq_peek_cons hlt, ← hp, hd]; rfl
        have hch2 : (c :: str) ≠ [] → ch2 ≠ NUL := by
          intro _
          by_cases hstr : str = []
          · rw [he hstr, ← hp]; exact hcn
          · exact hn hstr
        have hnil : (c :: str) = [] → ch2 = ch := fun h => by cases h
        refine ⟨r, ch2, hdd, hch2, hnil, ?_⟩
        simp only [ConsumeSpecific, NextCharacter_cur hc hi, andThen_ok, ne_eq, hp,
          not_true_eq_false, if_false, heq, List.length_cons]
        congr 2
        omega
      · right
        simp only [ConsumeSpecific, NextCharacter_cur hc hi, andThen_ok, hp, ne_eq,
          not_true_eq_false, if_false]
        exact hthr.mono (by omega)
    · right
      simp only [ConsumeSpecific, NextCharacter_cur hc hi, andThen_ok, ne_eq, hp,
        not_false_eq_true, if_true]
      exact ThrownAt.unexpected tok (Nat.le_refl _) hi

theorem ThrownAt.not_ok {α : Type} {src : List Char} {lo : Nat} {r : Outcome α} {a : α}
    {st : Assist} (h : ThrownAt src lo r) (e : r = .ok a st) : False := by
  obtain ⟨p, tok, -, -, h3⟩ := h
  rw [e] at h3
  cases h3

theorem ConsumeSpecific_fwd {src : List Char} (hc : CStr src) (str : List Char) :
    ∀ (i : Nat) (ch : Char) (tok r : List Char), i ≤ src.length → src.drop i = str ++ r →
      ∃ ch2, (str ≠ [] → ch2 ≠ NUL) ∧
        ConsumeSpecific str (cur src i ch tok) = .ok () (cur src (i + str.length) ch2 tok) := by
  induction str with
  | nil =>
    intro i ch tok r _ _
    exact ⟨ch, fun h => absurd rfl h, rfl⟩
  | cons c str ih =>
    intro i ch tok r hi hd
    have hp : peek src i = c := peek_of_drop_cons hd
    have hlt := drop_lt hd
    have hcn : c ≠ NUL := by rw [← hp]; exact peek_lt_ne_NUL hc hlt
    obtain ⟨ch2, hn, heq⟩ := ih (i + 1) c tok r (by omega) (drop_next hd)
    by_cases hstr : str = []
    · subst hstr
      refine ⟨c, fun _ => hcn, ?_⟩
      simp [ConsumeSpecific, NextCharacter_cur hc hi, hp]
    · refine ⟨ch2, fun _ => hn hstr, ?_⟩
      simp only [ConsumeSpecific, NextCharacter_cur hc hi, andThen_ok, hp, ne_eq,
        not_true_eq_false, if_false, heq, List.length_cons]
      congr 2
      omega

theorem KindDetect_cur {src : List Char} (hc : CStr src) {i : Nat} (hi : i ≤ src.length)
    (ch : Char) (tok : List Char) :
    KindDetect (cur src i ch tok) = .ok (kindOf (peek src i)) (cur src i ' ' tok) := by
  simp [KindDetect, NextCharacter_cur hc hi, kindOf]

theorem isxdigit_NUL : isxdigit NUL = false := by decide

theorem lt_of_isxdigit_peek {src : List Char} {i : Nat} (h : isxdigit (peek src i) = true) :
    i < src.length := by
  apply lt_of_peek_ne_NUL
  intro hn
  rw [hn, isxdigit_NUL] at h
  cases h

theorem cur_congr {src : List Char} {a b : Nat} {ch : Char} {t u : List Char}
    (h1 : a = b) (h2 : t = u) : cur src a ch t = cur src b ch u := by
  rw [h1, h2]

theorem hex_fwd {src : List Char} (hc : CStr src) (hs : List Char) :
    ∀ (j : Nat) (ch : Char) (tok r : List Char), (∀ c ∈ hs, isxdigit c = true) →
      src.drop j = hs ++ r → j ≤ src.length →
      ∃ ch2, ConsumeString.hex hs.length (cur src j ch tok) =
        .ok () (cur src (j + hs.length) ch2 (tok ++ hs)) := by
  induction hs with
  | nil =>
    intro j ch tok r _ _ _
    exact ⟨ch, by simp [ConsumeString.hex]⟩
  | cons c hs ih =>
    intro j ch tok r hx hd hj
    have hp : peek src j = c := peek_of_drop_cons hd
    have hlt := drop_lt hd
    have hxc : isxdigit c = true := hx c (List.mem_cons_self _ _)
    obtain ⟨ch2, heq⟩ := ih (j + 1) c (tok ++ [c]) r
      (fun x hx2 => hx x (List.mem_cons_of_mem _ hx2)) (drop_next hd) (by omega)
    refine ⟨ch2, ?_⟩
    simp only [List.length_cons, ConsumeString.hex, NextCharacter_cur hc hj, hp, andThen_ok, hxc,
      Bool.not_true, Bool.false_eq_true, if_false, Concat_cur, heq]
    exact congrArg _ (cur_congr (by omega) (by simp))

theorem hex_back {src : List Char} (hc : CStr src) (n : Nat) :
    ∀ (j : Nat) (ch : Char) (tok : List Char), j ≤ src.length →
      (∃ hs r ch2, hs.length = n ∧ (∀ c ∈ hs, isxdigit c = true) ∧ src.drop j = hs ++ r ∧
        ConsumeString.hex n (cur src j ch tok) = .ok () (cur src (j + n) ch2 (tok ++ hs))) ∨
      ThrownAt src j (ConsumeString.hex n (cur src j ch tok)) := by
  induction n with
  | zero =>
    intro j ch tok _
    left
    exact ⟨[], src.drop j, ch, rfl, by simp, rfl, by simp [ConsumeString.hex]⟩
  | succ n ih =>
    intro j ch tok hj
    by_cases hx : isxdigit (peek src j) = true
    · have hlt := lt_of_isxdigit_peek hx
      rcases ih (j + 1) (peek src j) (tok ++ [peek src j]) (by omega) with
        ⟨hs, r, ch2, hl, hxs, hd, heq⟩ | hthr
      · left
        have hdd : src.drop j = (peek src j :: hs) ++ r := by
          rw [drop_eq_peek_cons hlt, hd]; rfl
        have hxx : ∀ c ∈ peek src j :: hs, isxdigit c = true := by
          intro c hcm
          rcases List.mem_cons.mp hcm with rfl | hcm
          · exact hx
          · exact hxs c hcm
        refine ⟨peek src j :: hs, r, ch2, by simp [hl], hxx, hdd, ?_⟩
        simp only [ConsumeString.hex, NextCharacter_cur hc hj, andThen_ok, hx, Bool.not_true,
          Bool.false_eq_true, if_false, Concat_cur, heq]
        exact congrArg _ (cur_congr (by omega) (by simp))
      · right
        simp only [ConsumeString.hex, NextCharacter_cur hc hj, andThen_ok, hx, Bool.not_true,
          Bool.false_eq_true, if_false, Concat_cur]
        exact hthr.mono (by omega)
    · right
      have hx : isxdigit (peek src j) = false := by simpa using hx
      simp only [ConsumeString.hex, NextCharacter_cur hc hj, andThen_ok, hx, Bool.not_false,
        if_true]
      exact ThrownAt.unexpected tok (Nat.le_refl _) hj

theorem isEscapeChar_ne_u {c : Char} (h : isEscapeChar c) : c ≠ 'u' := by
  rintro rfl
  revert h
  unfold isEscapeChar
  decide

theorem escape_plain {src : List Char} {j : Nat} {c : Char} (tok : List Char)
    (h : isEscapeChar c) :
    ConsumeString.escape (cur src (j + 1) c tok) = .ok () (cur src (j + 1) c (tok ++ [c])) := by
  unfold ConsumeString.escape
  rw [if_pos (by simpa [isEscapeChar] using h)]
  rfl

theorem escape_back {src : List Char} (hc : CStr src) {j : Nat} (tok : List Char)
    (hj : j ≤ src.length) :
    (isEscapeChar (peek src j) ∧
      ConsumeString.escape (cur src (j + 1) (peek src j) tok) =
        .ok () (cur src (j + 1) (peek src j) (tok ++ [peek src j]))) ∨
    (peek src j = 'u' ∧ ∃ hs r ch2, hs.length = 4 ∧ (∀ c ∈ hs, isxdigit c = true) ∧
      src.drop (j + 1) = hs ++ r ∧
      ConsumeString.escape (cur src (j + 1) (peek src j) tok) =
        .ok () (cur src (j + 1 + 4) ch2 (tok ++ 'u' :: hs))) ∨
    ThrownAt src j (ConsumeString.escape (cur src (j + 1) (peek src j) tok)) := by
  by_cases h : isEscapeChar (peek src j)
  · exact Or.inl ⟨h, escape_plain tok h⟩
  · right
    have h1 : ¬ ((cur src (j + 1) (peek src j) tok).character = dquote ∨
        (cur src (j + 1) (peek src j) tok).character = bslash ∨
        (cur src (j + 1) (peek src j) tok).character = '/' ∨
        (cur src (j + 1) (peek src j) tok).character = 'b' ∨
        (cur src (j + 1) (peek src j) tok).character = 'f' ∨
        (cur src (j + 1) (peek src j) tok).character = 'n' ∨
        (cur src (j + 1) (peek src j) tok).character = 'r' ∨
        (cur src (j + 1) (peek src j) tok).character = 't') := by
      simpa [isEscapeChar] using h
    unfold ConsumeString.escape
    rw [if_neg h1]
    by_cases hu : peek src j = 'u'
    · rw [if_pos (by simpa using hu)]
      have hlt : j < src.length := lt_of_peek_ne_NUL (by rw [hu]; decide)
      rcases hex_back hc 4 (j + 1) (peek src j) (tok ++ [peek src j]) (by omega) with
        ⟨hs, r, ch2, hl, hxs, hd, heq⟩ | hthr
      · left
        refine ⟨hu, hs, r, ch2, hl, hxs, hd, ?_⟩
        rw [Concat_cur, heq, hu]
        simp
      · right
        rw [Concat_cur]
        exact hthr.mono (by omega)
    · right
      rw [if_neg (by simpa using hu)]
      exact ThrownAt.unexpected tok (Nat.le_refl _) (by omega)

theorem isEscapeChar_ne_NUL {c : Char} (h : isEscapeChar c) : c ≠ NUL := by
  rintro rfl
  revert h
  unfold isEscapeChar
  decide

theorem stringLoop_fwd {src : List Char} (hc : CStr src) {b : List Char} (hb : StringBody b) :
    ∀ (fuel j : Nat) (ch : Char) (tok r : List Char), src.drop j = b ++ dquote :: r →
      j ≤ src.length → b.length < fuel →
      ConsumeString.loop fuel (cur src j ch tok) =
        .ok () (cur src (j + b.length + 1) dquote (tok ++ b)) := by
  induction hb with
  | nil =>
    intro fuel j ch tok r hd hj hf
    obtain ⟨f, rfl⟩ : ∃ f, fuel = f + 1 := ⟨fuel - 1, by simp at hf; omega⟩
    have hp : peek src j = dquote := peek_of_drop_cons hd
    simp [ConsumeString.loop, NextCharacter_cur hc hj, hp]
  | plain c rest h1 h2 h3 _ ih =>
    intro fuel j ch tok r hd hj hf
    obtain ⟨f, rfl⟩ : ∃ f, fuel = f + 1 := ⟨fuel - 1, by simp at hf; omega⟩
    have hp : peek src j = c := peek_of_drop_cons hd
    have hlt := drop_lt hd
    have h2b : ¬ (dquote = c) := fun e => h2 e.symm
    have h3b : ¬ (bslash = c) := fun e => h3 e.symm
    simp only [ConsumeString.loop, NextCharacter_cur hc hj, hp, andThen_ok, h2b, if_false,
      cur_character, h3b, h1, Bool.false_eq_true, Concat_cur]
    rw [ih f (j + 1) c (tok ++ [c]) r (drop_next hd) (by omega) (by simp at hf; omega)]
    exact congrArg _ (cur_congr (by simp; omega) (by simp))
  | escape c rest h1 _ ih =>
    intro fuel j ch tok r hd hj hf
    obtain ⟨f, rfl⟩ : ∃ f, fuel = f + 1 := ⟨fuel - 1, by simp at hf; omega⟩
    have hp : peek src j = bslash := peek_of_drop_cons hd
    have hlt := drop_lt hd
    have hd1 : src.drop (j + 1) = c :: (rest ++ dquote :: r) := drop_next hd
    have hp1 : peek src (j + 1) = c := peek_of_drop_cons hd1
    have hlt1 := drop_lt hd1
    have hq : ¬ (dquote = bslash) := by decide
    simp only [ConsumeString.loop, NextCharacter_cur hc hj, hp, andThen_ok, hq, if_false,
      cur_character, if_true, Concat_cur,
      NextCharacter_cur hc (show j + 1 ≤ src.length by omega), hp1, escape_plain _ h1]
    rw [ih f (j + 1 + 1) c _ r (drop_next hd1) (by omega) (by simp at hf; omega)]
    exact congrArg _ (cur_congr (by simp; omega) (by simp))
  | unicode h1 h2 h3 h4 rest x1 x2 x3 x4 _ ih =>
    intro fuel j ch tok r hd hj hf
    obtain ⟨f, rfl⟩ : ∃ f, fuel = f + 1 := ⟨fuel - 1, by simp at hf; omega⟩
    have hp : peek src j = bslash := peek_of_drop_cons hd
    have hlt := drop_lt hd
    have hd1 : src.drop (j + 1) = 'u' :: ([h1, h2, h3, h4] ++ (rest ++ dquote :: r)) :=
      drop_next hd
    have hp1 : peek src (j + 1) = 'u' := peek_of_drop_cons hd1
    have hlt1 := drop_lt hd1
    have hd2 : src.drop (j + 1 + 1) = [h1, h2, h3, h4] ++ (rest ++ dquote :: r) := drop_next hd1
    have hq : ¬ (dquote = bslash) := by decide
    have hxs : ∀ c ∈ [h1, h2, h3, h4], isxdigit c = true := by
      intro c hcm
      simp only [List.mem_cons, List.mem_singleton, List.not_mem_nil, or_false] at hcm
      rcases hcm with rfl | rfl | rfl | rfl <;> assumption
    obtain ⟨ch2, hhex⟩ := hex_fwd hc [h1, h2, h3, h4] (j + 1 + 1) 'u' (tok ++ [bslash] ++ ['u'])
      _ hxs hd2 (by omega)
    have hesc : ConsumeString.escape (cur src (j + 1 + 1) 'u' (tok ++ [bslash])) =
        .ok () (cur src (j + 1 + 1 + 4) ch2 (tok ++ [bslash] ++ ['u'] ++ [h1, h2, h3, h4])) := by
      unfold ConsumeString.escape
      rw [if_neg (by simp only [cur_character]; decide), if_pos (by simp), Concat_cur]
      exact hhex
    simp only [ConsumeString.loop, NextCharacter_cur hc hj, hp, andThen_ok, hq, if_false,
      cur_character, if_true, Concat_cur,
      NextCharacter_cur hc (show j + 1 ≤ src.length by omega), hp1, hesc]
    rw [ih f (j + 1 + 1 + 4) ch2 _ r (drop_skip hd2) (drop_skip_le hd2 (by omega))
      (by simp at hf; omega)]
    exact congrArg _ (cur_congr (by simp; omega) (by simp))

theorem iscntrl_NUL : iscntrl NUL = true := by decide

theorem stringLoop_back {src : List Char} (hc : CStr src) :
    ∀ (fuel j : Nat) (ch : Char) (tok : List Char), j ≤ src.length →
      src.length + 1 ≤ fuel + j →
      (∃ b r, StringBody b ∧ src.drop j = b ++ dquote :: r ∧
        ConsumeString.loop fuel (cur src j ch tok) =
          .ok () (cur src (j + b.length + 1) dquote (tok ++ b))) ∨
      ThrownAt src j (ConsumeString.loop fuel (cur src j ch tok)) := by
  intro fuel
  induction fuel with
  | zero =>
    intro j ch tok hj hf
    omega
  | succ f ih =>
    intro j ch tok hj hf
    by_cases hq : peek src j = dquote
    · left
      have hlt : j < src.length := lt_of_peek_ne_NUL (by rw [hq]; decide)
      refine ⟨[], src.drop (j + 1), StringBody.nil, by rw [drop_eq_peek_cons hlt, hq]; rfl, ?_⟩
      simp [ConsumeString.loop, NextCharacter_cur hc hj, hq]
    · have hqb : ¬ (dquote = peek src j) := fun e => hq e.symm
      by_cases hb : peek src j = bslash
      · have hlt : j < src.length := lt_of_peek_ne_NUL (by rw [hb]; decide)
        have hbb : bslash = peek src j := hb.symm
        simp only [ConsumeString.loop, NextCharacter_cur hc hj, andThen_ok, hqb, if_false,
          cur_character, hbb, if_true, Concat_cur,
          NextCharacter_cur hc (show j + 1 ≤ src.length by omega)]
        rcases escape_back hc (tok ++ [peek src j]) (show j + 1 ≤ src.length by omega) with
          ⟨hesc, heq⟩ | ⟨hu, hs, r, ch2, hl, hxs, hd, heq⟩ | hthr
        · have hlt1 : j + 1 < src.length := lt_of_peek_ne_NUL (isEscapeChar_ne_NUL hesc)
          rw [heq]
          simp only [andThen_ok]
          rcases ih (j + 1 + 1) (peek src (j + 1)) (tok ++ [peek src j] ++ [peek src (j + 1)])
            (by omega) (by omega) with ⟨b, r, hsb, hd, heq2⟩ | hthr
          · left
            refine ⟨bslash :: peek src (j + 1) :: b, r, StringBody.escape _ _ hesc hsb, ?_, ?_⟩
            · rw [drop_eq_peek_cons hlt, hb, drop_eq_peek_cons hlt1, hd]; rfl
            · rw [heq2, hb]
              exact congrArg _ (cur_congr (by simp; omega) (by simp))
          · right
            exact hthr.mono (by omega)
        · rw [heq]
          simp only [andThen_ok]
          have hlt1 : j + 1 < src.length := lt_of_peek_ne_NUL (by rw [hu]; decide)
          have hle := drop_skip_le hd (show j + 1 + 1 ≤ src.length by omega)
          rw [hl] at hle
          obtain ⟨h1, h2, h3, h4, rfl⟩ : ∃ h1 h2 h3 h4, hs = [h1, h2, h3, h4] := by
            match hs, hl with
            | [a, b, c, d], _ => exact ⟨a, b, c, d, rfl⟩
          rcases ih (j + 1 + 1 + 4) ch2 (tok ++ [peek src j] ++ 'u' :: [h1, h2, h3, h4])
            (by omega) (by omega) with ⟨b, r2, hsb, hd2, heq2⟩ | hthr
          · left
            have hdr : src.drop (j + 1 + 1 + 4) = r := by
              have := drop_skip hd
              simpa using this
            refine ⟨bslash :: 'u' :: h1 :: h2 :: h3 :: h4 :: b, r2,
              StringBody.unicode _ _ _ _ _ (hxs h1 (by simp)) (hxs h2 (by simp))
                (hxs h3 (by simp)) (hxs h4 (by simp)) hsb, ?_, ?_⟩
            · rw [drop_eq_peek_cons hlt, hb, drop_eq_peek_cons hlt1, hu, hd, ← hdr, hd2]; rfl
            · rw [heq2, hb]
              exact congrArg _ (cur_congr (by simp; omega) (by simp))
          · right
            exact hthr.mono (by omega)
        · right
          exact (hthr.mono (by omega)).andThen _
      · have hbb : ¬ (bslash = peek src j) := fun e => hb e.symm
        by_cases hcn : iscntrl (peek src j) = true
        · right
          simp only [ConsumeString.loop, NextCharacter_cur hc hj, andThen_ok, hqb, if_false,
            cur_character, hbb, hcn, if_true]
          exact ThrownAt.unexpected tok (Nat.le_refl _) hj
        · have hcn : iscntrl (peek src j) = false := by simpa using hcn
          have hlt : j < src.length :=
            lt_of_peek_ne_NUL (by intro h; rw [h, iscntrl_NUL] at hcn; cases hcn)
          simp only [ConsumeString.loop, NextCharacter_cur hc hj, andThen_ok, hqb, if_false,
            cur_character, hbb, hcn, Bool.false_eq_true, Concat_cur]
          rcases ih (j + 1) (peek src j) (tok ++ [peek src j]) (by omega) (by omega) with
            ⟨b, r, hsb, hd, heq⟩ | hthr
          · left
            refine ⟨peek src j :: b, r, StringBody.plain _ _ hcn hq hb hsb, ?_, ?_⟩
            · rw [drop_eq_peek_cons hlt, hd]; rfl
            · rw [heq]
              exact congrArg _ (cur_congr (by simp; omega) (by simp))
          · right
            exact hthr.mono (by omega)

theorem ConsumeString_fwd {D : Type} {src : List Char} (hc : CStr src) {w b r : List Char}
    {i fuel : Nat} (ch : Char) (tok : List Char) (hw : Ws w) (hb : StringBody b)
    (hd : src.drop i = w ++ dquote :: (b ++ dquote :: r)) (hi : i ≤ src.length)
    (hf1 : w.length < fuel) (hf2 : b.length < fuel) :
    (ConsumeString fuel (cur src i ch tok) : Outcome (Json D)) =
      .ok (Json.string b) (cur src (i + w.length + 1 + b.length + 1) dquote b) := by
  have hd1 := drop_skip hd
  have hl1 := drop_skip_le hd hi
  have hp1 : peek src (i + w.length) = dquote := peek_of_drop_cons hd1
  have hlt1 := drop_lt hd1
  have hsk := SkipWhitespaces_cur hc w fuel i ch tok _ hw hd hi (by rw [hp1]; decide) hf1
  have hlp := stringLoop_fwd hc hb fuel (i + w.length + 1) dquote [] r (drop_next hd1)
    (by omega) hf2
  simp only [ConsumeString, hsk, andThen_ok, NextCharacter_cur hc hl1, hp1, ne_eq,
    not_true_eq_false, if_false, cur_reset_token, hlp, cur_token, List.nil_append]

theorem ConsumeString_back {D : Type} {src : List Char} (hc : CStr src) {i fuel : Nat}
    (ch : Char) (tok : List Char) (hi : i ≤ src.length) (hf : src.length + 1 ≤ fuel + i) :
    (∃ w b r, Ws w ∧ StringBody b ∧ src.drop i = w ++ dquote :: (b ++ dquote :: r) ∧
      (ConsumeString fuel (cur src i ch tok) : Outcome (Json D)) =
        .ok (Json.string b) (cur src (i + w.length + 1 + b.length + 1) dquote b)) ∨
    ThrownAt src i (ConsumeString fuel (cur src i ch tok) : Outcome (Json D)) := by
  obtain ⟨w, r0, hd, hw, hstop⟩ := span_at isWhitespace isWhitespace_NUL src i
  have hl1 := drop_skip_le hd hi
  have hd1 := drop_skip hd
  have hsk := SkipWhitespaces_cur hc w fuel i ch tok _ hw hd hi hstop (by omega)
  by_cases hq : peek src (i + w.length) = dquote
  · have hlt1 : i + w.length < src.length := lt_of_peek_ne_NUL (by rw [hq]; decide)
    rcases stringLoop_back hc fuel (i + w.length + 1) dquote [] (by omega) (by omega) with
      ⟨b, r, hb, hdb, heq⟩ | hthr
    · left
      refine ⟨w, b, r, hw, hb, ?_, ?_⟩
      · rw [hd, ← hd1, drop_eq_peek_cons hlt1, hq, hdb]
      · simp only [ConsumeString, hsk, andThen_ok, NextCharacter_cur hc hl1, hq, ne_eq,
          not_true_eq_false, if_false, cur_reset_token, heq, cur_token, List.nil_append]
    · right
      simp only [ConsumeString, hsk, andThen_ok, NextCharacter_cur hc hl1, hq, ne_eq,
        not_true_eq_false, if_false, cur_reset_token]
      exact (hthr.mono (by omega)).andThen _
  · right
    have hqb : ¬ (dquote = peek src (i + w.length)) := fun e => hq e.symm
    simp only [ConsumeString, hsk, andThen_ok, NextCharacter_cur hc hl1, ne_eq, hqb,
      not_false_eq_true, if_true]
    exact ThrownAt.unexpected tok (by omega) hl1

theorem ConsumeNull_fwd {D : Type} {src : List Char} (hc : CStr src) {r : List Char} {i : Nat}
    (ch : Char) (tok : List Char) (hd : src.drop i = ['n', 'u', 'l', 'l'] ++ r)
    (hi : i ≤ src.length) :
    ∃ ch2, ch2 ≠ NUL ∧ (ConsumeNull (cur src i ch tok) : Outcome (Json D)) =
      .ok Json.null (cur src (i + 4) ch2 tok) := by
  obtain ⟨ch2, hn, heq⟩ := ConsumeSpecific_fwd hc ['n', 'u', 'l', 'l'] i ch tok r hi hd
  exact ⟨ch2, hn (by simp), by simp [ConsumeNull, heq]⟩

theorem ConsumeNull_back {D : Type} {src : List Char} (hc : CStr src) {i : Nat}
    (ch : Char) (tok : List Char) (hi : i ≤ src.length) :
    (∃ r ch2, ch2 ≠ NUL ∧ src.drop i = ['n', 'u', 'l', 'l'] ++ r ∧
      (ConsumeNull (cur src i ch tok) : Outcome (Json D)) =
        .ok Json.null (cur src (i + 4) ch2 tok)) ∨
    ThrownAt src i (ConsumeNull (cur src i ch tok) : Outcome (Json D)) := by
  rcases ConsumeSpecific_back hc ['n', 'u', 'l', 'l'] (by decide) i ch tok hi with
    ⟨r, ch2, hd, hn, -, heq⟩ | hthr
  · left
    exact ⟨r, ch2, hn (by simp), hd, by simp [ConsumeNull, heq]⟩
  · right
    exact hthr.andThen _

theorem ConsumeBool_true_fwd {D : Type} {src : List Char} (hc : CStr src) {r : List Char}
    {i : Nat} (ch : Char) (tok : List Char) (hd : src.drop i = ['t', 'r', 'u', 'e'] ++ r)
    (hi : i ≤ src.length) :
    ∃ ch2, ch2 ≠ NUL ∧ (ConsumeBool (cur src i ch tok) : Outcome (Json D)) =
      .ok (Json.bool true) (cur src (i + 4) ch2 tok) := by
  obtain ⟨ch2, hn, heq⟩ := ConsumeSpecific_fwd hc ['t', 'r', 'u', 'e'] i ' ' tok r hi hd
  have hp : peek src i = 't' := peek_of_drop_cons hd
  exact ⟨ch2, hn (by simp), by simp [ConsumeBool, NextCharacter_cur hc hi, hp, heq]⟩

theorem ConsumeBool_false_fwd {D : Type} {src : List Char} (hc : CStr src) {r : List Char}
    {i : Nat} (ch : Char) (tok : List Char)
    (hd : src.drop i = ['f', 'a', 'l', 's', 'e'] ++ r) (hi : i ≤ src.length) :
    ∃ ch2, ch2 ≠ NUL ∧ (ConsumeBool (cur src i ch tok) : Outcome (Json D)) =
      .ok (Json.bool false) (cur src (i + 5) ch2 tok) := by
  obtain ⟨ch2, hn, heq⟩ := ConsumeSpecific_fwd hc ['f', 'a', 'l', 's', 'e'] i ' ' tok r hi hd
  have hp : peek src i = 'f' := peek_of_drop_cons hd
  exact ⟨ch2, hn (by simp), by simp [ConsumeBool, NextCharacter_cur hc hi, hp, heq]⟩

theorem ConsumeBool_back {D : Type} {src : List Char} (hc : CStr src) {i : Nat}
    (ch : Char) (tok : List Char) (hi : i ≤ src.length) :
    (∃ r ch2, ch2 ≠ NUL ∧ src.drop i = ['t', 'r', 'u', 'e'] ++ r ∧
      (ConsumeBool (cur src i ch tok) : Outcome (Json D)) =
        .ok (Json.bool true) (cur src (i + 4) ch2 tok)) ∨
    (∃ r ch2, ch2 ≠ NUL ∧ src.drop i = ['f', 'a', 'l', 's', 'e'] ++ r ∧
      (ConsumeBool (cur src i ch tok) : Outcome (Json D)) =
        .ok (Json.bool false) (cur src (i + 5) ch2 tok)) ∨
    ThrownAt src i (ConsumeBool (cur src i ch tok) : Outcome (Json D)) := by
  by_cases ht : 't' = peek src i
  · have hp : peek src i = 't' := ht.symm
    rcases ConsumeSpecific_back hc ['t', 'r', 'u', 'e'] (by decide) i ' ' tok hi with
      ⟨r, ch2, hd, hn, -, heq⟩ | hthr
    · left
      exact ⟨r, ch2, hn (by simp), hd, by simp [ConsumeBool, NextCharacter_cur hc hi, hp, heq]⟩
    · right; right
      simp only [ConsumeBool, NextCharacter_cur hc hi, andThen_ok, Retract_cur, hp, if_true]
      exact hthr.andThen _
  · rcases ConsumeSpecific_back hc ['f', 'a', 'l', 's', 'e'] (by decide) i ' ' tok hi with
      ⟨r, ch2, hd, hn, -, heq⟩ | hthr
    · right; left
      exact ⟨r, ch2, hn (by simp), hd, by simp [ConsumeBool, NextCharacter_cur hc hi, ht, heq]⟩
    · right; right
      simp only [ConsumeBool, NextCharacter_cur hc hi, andThen_ok, Retract_cur, ht, if_false]
      exact hthr.andThen _

theorem isWhitespace_iff (c : Char) :
    isWhitespace c = true ↔ (c.toNat = 32 ∨ c.toNat = 9 ∨ c.toNat = 10 ∨ c.toNat = 13) := by
  simp [isWhitespace, char_eq_iff, or_assoc]

theorem isdigit_iff (c : Char) : isdigit c = true ↔ (48 ≤ c.toNat ∧ c.toNat ≤ 57) := by
  simp [isdigit]

theorem kindOf_number {c : Char} (h : c.toNat ≠ 34 ∧ c.toNat ≠ 116 ∧ c.toNat ≠ 102 ∧
    c.toNat ≠ 110 ∧ c.toNat ≠ 123 ∧ c.toNat ≠ 91) : kindOf c = .kNumber := by
  simp [kindOf, char_eq_iff, dquote, h]

theorem kindOf_cases (c : Char) :
    (kindOf c = .kString ∧ c = dquote) ∨ (kindOf c = .kBool ∧ (c = 't' ∨ c = 'f')) ∨
    (kindOf c = .kNull ∧ c = 'n') ∨ (kindOf c = .kObject ∧ c = '{') ∨
    (kindOf c = .kArray ∧ c = '[') ∨ kindOf c = .kNumber := by
  unfold kindOf
  by_cases h1 : c = dquote
  · simp [h1]
  · by_cases h2 : c = 't' ∨ c = 'f'
    · simp [h1, h2]
    · by_cases h3 : c = 'n'
      · right; right; left
        rw [if_neg h1, if_neg h2, if_pos h3]
        exact ⟨rfl, h3⟩
      · by_cases h4 : c = '{'
        · right; right; right; left
          rw [if_neg h1, if_neg h2, if_neg h3, if_pos h4]
          exact ⟨rfl, h4⟩
        · by_cases h5 : c = '['
          · right; right; right; right; left
            rw [if_neg h1, if_neg h2, if_neg h3, if_neg h4, if_pos h5]
            exact ⟨rfl, h5⟩
          · right; right; right; right; right
            rw [if_neg h1, if_neg h2, if_neg h3, if_neg h4, if_neg h5]

theorem StopChar_comma : StopChar ',' := by
  unfold StopChar NumFollow; decide

theorem StopChar_rbracket : StopChar ']' := by
  unfold StopChar NumFollow; decide

theorem StopChar_rbrace : StopChar '}' := by
  unfold StopChar NumFollow; decide

theorem StopChar_NUL : StopChar NUL := by
  unfold StopChar NumFollow; decide

theorem NumFollow_of_ws {c : Char} (h : isWhitespace c = true) : NumFollow c := by
  rw [isWhitespace_iff] at h
  unfold NumFollow
  refine ⟨?_, ?_, ?_, ?_⟩
  · apply Bool.eq_false_iff.mpr
    rw [Ne, isdigit_iff]
    omega
  · rw [Ne, char_eq_iff]; simp; omega
  · rw [Ne, char_eq_iff]; simp; omega
  · rw [Ne, char_eq_iff]; simp; omega

/-- The first character of a number lexeme: a minus sign or a digit. -/
theorem NumberLex.first {l : List Char} (h : NumberLex l) :
    ∃ c t, l = c :: t ∧ (c = '-' ∨ isdigit c = true) := by
  obtain ⟨sg, ip, fp, ep, rfl, hsg, hip, -, -⟩ := h
  rcases hsg with rfl | rfl
  · rcases hip with rfl | ⟨d, ds, rfl, hd, -, -⟩
    · exact ⟨'0', _, rfl, Or.inr (by decide)⟩
    · exact ⟨d, _, rfl, Or.inr hd⟩
  · exact ⟨'-', _, rfl, Or.inl rfl⟩

theorem head_number_facts {c : Char} (h : c = '-' ∨ isdigit c = true) :
    kindOf c = .kNumber ∧ isWhitespace c = false ∧ c ≠ ']' ∧ c ≠ '}' ∧ c ≠ NUL := by
  have hn : c.toNat = 45 ∨ (48 ≤ c.toNat ∧ c.toNat ≤ 57) := by
    rcases h with rfl | h
    · left; rfl
    · right; exact (isdigit_iff c).mp h
  refine ⟨kindOf_number (by omega), ?_, ?_, ?_, ?_⟩
  · apply Bool.eq_false_iff.mpr
    rw [Ne, isWhitespace_iff]
    omega
  · rw [Ne, char_eq_iff]; simp; omega
  · rw [Ne, char_eq_iff]; simp; omega
  · rw [Ne, char_eq_iff]; simp [NUL]; omega

/-- The first character of a value lexeme, and the kind `KindDetect` reads off it. -/
theorem Denotes.head {D : Type} {atof : List Char → D} {lex : List Char} {v : Json D}
    (h : Denotes atof lex v) :
    ∃ c t, lex = c :: t ∧ isWhitespace c = false ∧ c ≠ ']' ∧ c ≠ '}' ∧ c ≠ NUL := by
  cases h with
  | number t hn =>
    obtain ⟨c, t, rfl, hc⟩ := hn.first
    obtain ⟨-, h2, h3, h4, h5⟩ := head_number_facts hc
    exact ⟨c, t, rfl, h2, h3, h4, h5⟩
  | string b _ => exact ⟨dquote, _, rfl, by decide, by decide, by decide, by decide⟩
  | true_ => exact ⟨'t', _, rfl, by decide, by decide, by decide, by decide⟩
  | false_ => exact ⟨'f', _, rfl, by decide, by decide, by decide, by decide⟩
  | null => exact ⟨'n', _, rfl, by decide, by decide, by decide, by decide⟩
  | emptyArray w _ => exact ⟨'[', _, rfl, by decide, by decide, by decide, by decide⟩
  | array first rest _ _ => exact ⟨'[', _, rfl, by decide, by decide, by decide, by decide⟩
  | emptyObject w _ => exact ⟨'{', _, rfl, by decide, by decide, by decide, by decide⟩
  | object first rest _ _ => exact ⟨'{', _, rfl, by decide, by decide, by decide, by decide⟩

theorem restText_head (ts : List (List Char)) (close : Char) (r : List Char) :
    ∃ c t, restText ts ++ close :: r = c :: t ∧ (c = ',' ∨ c = close) := by
  cases ts with
  | nil => exact ⟨close, r, rfl, Or.inr rfl⟩
  | cons t ts => exact ⟨',', _, rfl, Or.inl rfl⟩

theorem arrayLoop_fwd {D : Type} {src : List Char} (hc : CStr src)
    (value : Assist → Outcome (Json D)) (lo : Nat) (es : List (Element D)) :
    ∀ (n k : Nat) (ch : Char) (tok : List Char) (arr : ArrayData D) (r : List Char),
      (∀ e ∈ es, Ws e.pre ∧ Ws e.post) → (∀ e ∈ es, ValueRuns value src lo e.lex e.val) →
      src.drop k = restText (es.map Element.text) ++ ']' :: r → k ≤ src.length → lo ≤ k + 1 →
      es.length < n →
      ∃ tok2, ConsumeArray.loop value n arr (cur src k ch tok) =
        .ok (arr ++ es.map Element.val)
          (cur src (k + (restText (es.map Element.text)).length + 1) ']' tok2) := by
  induction es with
  | nil =>
    intro n k ch tok arr r _ _ hd hk _ hn
    obtain ⟨m, rfl⟩ : ∃ m, n = m + 1 := ⟨n - 1, by simp at hn; omega⟩
    have hp : peek src k = ']' := peek_of_drop_cons hd
    exact ⟨tok, by simp [ConsumeArray.loop, NextCharacter_cur hc hk, hp, restText]⟩
  | cons e es ih =>
    intro n k ch tok arr r hws hV hd hk hlo hn
    obtain ⟨m, rfl⟩ : ∃ m, n = m + 1 := ⟨n - 1, by simp at hn; omega⟩
    have hd0 : src.drop k = ',' ::
        (e.pre ++ (e.lex ++ (e.post ++ (restText (es.map Element.text) ++ ']' :: r)))) := by
      rw [hd]; simp [restText, Element.text]
    have hp : peek src k = ',' := peek_of_drop_cons hd0
    have hlt := drop_lt hd0
    have hd1 := drop_next hd0
    have hd2 : src.drop (k + 1 + e.pre.length + e.lex.length + e.post.length) =
        restText (es.map Element.text) ++ ']' :: r := by
      have h1 := drop_skip hd1
      have h2 := drop_skip h1
      exact drop_skip h2
    have hle : k + 1 + e.pre.length + e.lex.length + e.post.length ≤ src.length := by
      have h1 := drop_skip hd1
      have h2 := drop_skip h1
      exact drop_skip_le h2 (drop_skip_le h1 (drop_skip_le hd1 (by omega)))
    have hstop : StopChar (peek src (k + 1 + e.pre.length + e.lex.length + e.post.length)) := by
      obtain ⟨c, t, hct, hcc⟩ := restText_head (es.map Element.text) ']' r
      rw [hct] at hd2
      rw [peek_of_drop_cons hd2]
      rcases hcc with rfl | rfl
      · exact StopChar_comma
      · exact StopChar_rbracket
    obtain ⟨ch2, tok2, hv⟩ := hV e (List.mem_cons_self _ _) (k + 1) ',' tok e.pre e.post _
      hlo (by omega) (hws e (List.mem_cons_self _ _)).1 (hws e (List.mem_cons_self _ _)).2 hd1 hstop
    obtain ⟨tok3, hl⟩ := ih m (k + 1 + e.pre.length + e.lex.length + e.post.length) ch2 tok2
      (arr ++ [e.val]) r (fun x hx => hws x (List.mem_cons_of_mem _ hx))
      (fun x hx => hV x (List.mem_cons_of_mem _ hx)) hd2 hle (by omega)
      (by simp at hn; omega)
    refine ⟨tok3, ?_⟩
    have hne : ¬ (']' = (',' : Char)) := by decide
    simp only [ConsumeArray.loop, NextCharacter_cur hc hk, hp, andThen_ok, hne, if_false,
      cur_character, if_true, hv, catchRethrow_ok, hl]
    refine congrArg₂ _ (by simp) (cur_congr ?_ rfl)
    simp [restText, Element.text]
    omega

theorem ConsumeArray_empty_fwd {D : Type} {src : List Char} (hc : CStr src)
    (value : Assist → Outcome (Json D)) {w r : List Char} {i : Nat} (fuel : Nat) (ch : Char)
    (tok : List Char) (hw : Ws w) (hd : src.drop i = '[' :: (w ++ ']' :: r))
    (hf : w.length < fuel) :
    ConsumeArray value fuel (cur src i ch tok) =
      .ok (Json.array []) (cur src (i + 1 + w.length + 1) ']' tok) := by
  have hp : peek src i = '[' := peek_of_drop_cons hd
  have hlt := drop_lt hd
  have hd1 := drop_next hd
  have hd2 := drop_skip hd1
  have hp2 : peek src (i + 1 + w.length) = ']' := peek_of_drop_cons hd2
  have hl2 := drop_skip_le hd1 (by omega)
  have hsk := SkipWhitespaces_cur hc w fuel (i + 1) '[' tok _ hw hd1 (by omega)
    (by rw [hp2]; decide) hf
  simp [ConsumeArray, NextCharacter_cur hc (show i ≤ src.length by omega), hp, hsk,
    NextCharacter_cur hc hl2, hp2]

theorem ConsumeArray_fwd {D : Type} (atof : List Char → D) {src : List Char} (hc : CStr src)
    (value : Assist → Outcome (Json D)) (first : Element D) (rest : List (Element D))
    {r : List Char} {i : Nat} (fuel : Nat) (ch : Char) (tok : List Char)
    (hws : ∀ e ∈ first :: rest, Ws e.pre ∧ Ws e.post)
    (hden : Denotes atof first.lex first.val)
    (hV : ∀ e ∈ first :: rest, ValueRuns value src (i + 1) e.lex e.val)
    (hd : src.drop i = '[' :: (first.text ++ (restText (rest.map Element.text) ++ ']' :: r)))
    (hf1 : first.pre.length < fuel) (hf2 : rest.length < fuel) :
    ∃ tok2, ConsumeArray value fuel (cur src i ch tok) =
      .ok (Json.array ((first :: rest).map Element.val))
        (cur src (i + 1 + first.text.length + (restText (rest.map Element.text)).length + 1)
          ']' tok2) := by
  have hp : peek src i = '[' := peek_of_drop_cons hd
  have hlt := drop_lt hd
  have hd1 : src.drop (i + 1) = first.pre ++ (first.lex ++ (first.post ++
      (restText (rest.map Element.text) ++ ']' :: r))) := by
    rw [drop_next hd]; simp [Element.text]
  have hd2 := drop_skip hd1
  have hl2 := drop_skip_le hd1 (by omega)
  obtain ⟨c, t, hct, hcw, hcb, -, -⟩ := hden.head
  have hp2 : peek src (i + 1 + first.pre.length) = c := by
    rw [hct] at hd2
    exact peek_of_drop_cons hd2
  have hsk := SkipWhitespaces_cur hc first.pre fuel (i + 1) '[' tok _
    (hws first (List.mem_cons_self _ _)).1 hd1 (by omega) (by rw [hp2]; exact hcw) hf1
  have hd3 : src.drop (i + 1 + first.pre.length + first.lex.length + first.post.length) =
      restText (rest.map Element.text) ++ ']' :: r := drop_skip (drop_skip hd2)
  have hl3 := drop_skip_le (drop_skip hd2) (drop_skip_le hd2 hl2)
  have hstop : StopChar (peek src (i + 1 + first.pre.length + first.lex.length +
      first.post.length)) := by
    obtain ⟨c2, t2, hct2, hcc⟩ := restText_head (rest.map Element.text) ']' r
    rw [hct2] at hd3
    rw [peek_of_drop_cons hd3]
    rcases hcc with rfl | rfl
    · exact StopChar_comma
    · exact StopChar_rbracket
  obtain ⟨ch2, tok2, hv⟩ := hV first (List.mem_cons_self _ _) (i + 1 + first.pre.length) ' '
    tok [] first.post _ (by omega) hl2 (by intro x hx; cases hx)
    (hws first (List.mem_cons_self _ _)).2 (by simpa using hd2)
    (by simpa using hstop)
  obtain ⟨tok3, hl⟩ := arrayLoop_fwd hc value (i + 1) rest fuel
    (i + 1 + first.pre.length + first.lex.length + first.post.length) ch2 tok2 [first.val] r
    (fun x hx => hws x (List.mem_cons_of_mem _ hx))
    (fun x hx => hV x (List.mem_cons_of_mem _ hx)) hd3 hl3 (by omega) hf2
  refine ⟨tok3, ?_⟩
  have hne : ¬ ('[' ≠ ('[' : Char)) := by decide
  have hcb2 : ¬ (']' = c) := fun e => hcb e.symm
  simp only [List.length_nil, Nat.add_zero] at hv
  simp only [ConsumeArray, NextCharacter_cur hc (show i ≤ src.length by omega), hp, andThen_ok,
    hne, if_false, hsk, NextCharacter_cur hc hl2, hp2, hcb2, Retract_cur, hv, catchRethrow_ok,
    hl]
  refine congrArg₂ _ (by simp) (cur_congr ?_ rfl)
  simp [Element.text]
  omega

theorem Member.text_length {D : Type} (m : Member D) :
    m.text.length = m.kpre.length + m.bodyLength := by
  simp [Member.text, Member.bodyLength]
  omega

theorem ConsumePair_fwd {D : Type} {src : List Char} (hc : CStr src)
    (value : Assist → Outcome (Json D)) (m : Member D) {r : List Char} {k : Nat}
    (fuel lo : Nat) (ch : Char) (tok kpre : List Char) (hkpre : Ws kpre)
    (hm : StringBody m.key ∧ Ws m.kpost ∧ Ws m.elem.pre ∧ Ws m.elem.post)
    (hV : ValueRuns value src lo m.elem.lex m.elem.val) (hlo : lo ≤ k + 1)
    (hk : k ≤ src.length)
    (hd : src.drop k = kpre ++ dquote :: (m.key ++ dquote :: (m.kpost ++ ':' ::
      (m.elem.text ++ r))))
    (hstop : StopChar (peek src (k + kpre.length + m.bodyLength)))
    (hf1 : kpre.length < fuel) (hf2 : m.key.length < fuel) (hf3 : m.kpost.length < fuel) :
    ∃ ch2 tok2, ConsumePair value fuel (cur src k ch tok) =
      .ok (m.key, m.elem.val) (cur src (k + kpre.length + m.bodyLength) ch2 tok2) := by
  obtain ⟨hkey, hkpost, hpre, hpost⟩ := hm
  have hstr := ConsumeString_fwd (D := D) hc ch tok hkpre hkey hd hk hf1 hf2
  have hd1 : src.drop (k + kpre.length + 1 + m.key.length + 1) =
      m.kpost ++ ':' :: (m.elem.text ++ r) := by
    have h1 := drop_next (drop_skip hd)
    exact drop_next (drop_skip h1)
  have hl1 : k + kpre.length + 1 + m.key.length + 1 ≤ src.length := by
    have h0 := drop_skip hd
    have h1 := drop_next h0
    have h2 := drop_skip h1
    have := drop_lt h0
    have := drop_skip_le h1 (by omega)
    have := drop_lt h2
    omega
  have hd2 := drop_skip hd1
  have hl2 := drop_skip_le hd1 hl1
  have hp2 : peek src (k + kpre.length + 1 + m.key.length + 1 + m.kpost.length) = ':' :=
    peek_of_drop_cons hd2
  have hlt2 := drop_lt hd2
  have hsk := SkipWhitespaces_cur hc m.kpost fuel (k + kpre.length + 1 + m.key.length + 1)
    dquote m.key _ hkpost hd1 hl1 (by rw [hp2]; decide) hf3
  have hd3 : src.drop (k + kpre.length + 1 + m.key.length + 1 + m.kpost.length + 1) =
      m.elem.pre ++ (m.elem.lex ++ (m.elem.post ++ r)) := by
    rw [drop_next hd2]; simp [Element.text]
  have e1 : k + kpre.length + 1 + m.key.length + 1 + m.kpost.length + 1 + m.elem.pre.length +
      m.elem.lex.length + m.elem.post.length = k + kpre.length + m.bodyLength := by
    simp [Member.bodyLength, Element.text]; omega
  obtain ⟨ch2, tok2, hv⟩ := hV (k + kpre.length + 1 + m.key.length + 1 + m.kpost.length + 1)
    ':' m.key m.elem.pre m.elem.post r (by omega) (by omega) hpre hpost hd3
    (by rw [e1]; exact hstop)
  refine ⟨ch2, tok2, ?_⟩
  rw [e1] at hv
  simp [ConsumePair, hstr, Json.toStdString, hsk, ConsumeSpecific, NextCharacter_cur hc hl2, hp2,
    hv]

theorem objectLoop_fwd {D : Type} {src : List Char} (hc : CStr src)
    (value : Assist → Outcome (Json D)) (lo fuel : Nat) (ms : List (Member D)) :
    ∀ (n k : Nat) (ch : Char) (tok : List Char) (obj : ObjectData D) (r : List Char),
      (∀ m ∈ ms, Ws m.kpre ∧ StringBody m.key ∧ Ws m.kpost ∧ Ws m.elem.pre ∧ Ws m.elem.post) →
      (∀ m ∈ ms, ValueRuns value src lo m.elem.lex m.elem.val) →
      (∀ m ∈ ms, m.kpre.length < fuel ∧ m.key.length < fuel ∧ m.kpost.length < fuel) →
      src.drop k = restText (ms.map Member.text) ++ '}' :: r → k ≤ src.length → lo ≤ k + 1 →
      ms.length < n →
      ∃ tok2, ConsumeObject.loop value fuel n obj (cur src k ch tok) =
        .ok (insertAll obj ms)
          (cur src (k + (restText (ms.map Member.text)).length + 1) '}' tok2) := by
  induction ms with
  | nil =>
    intro n k ch tok obj r _ _ _ hd hk _ hn
    obtain ⟨m, rfl⟩ : ∃ m, n = m + 1 := ⟨n - 1, by simp at hn; omega⟩
    have hp : peek src k = '}' := peek_of_drop_cons hd
    exact ⟨tok, by simp [ConsumeObject.loop, NextCharacter_cur hc hk, hp, restText, insertAll]⟩
  | cons m ms ih =>
    intro n k ch tok obj r hws hV hfu hd hk hlo hn
    obtain ⟨n2, rfl⟩ : ∃ m, n = m + 1 := ⟨n - 1, by simp at hn; omega⟩
    have hd0 : src.drop k = ',' :: (m.text ++ (restText (ms.map Member.text) ++ '}' :: r)) := by
      rw [hd]; simp [restText]
    have hp : peek src k = ',' := peek_of_drop_cons hd0
    have hlt := drop_lt hd0
    have hd1 := drop_next hd0
    have hd2 := drop_skip hd1
    rw [Member.text_length] at hd2
    have hle := drop_skip_le hd1 (by omega)
    rw [Member.text_length] at hle
    have hstop : StopChar (peek src (k + 1 + (m.kpre.length + m.bodyLength))) := by
      obtain ⟨c, t, hct, hcc⟩ := restText_head (ms.map Member.text) '}' r
      rw [hct] at hd2
      rw [peek_of_drop_cons hd2]
      rcases hcc with rfl | rfl
      · exact StopChar_comma
      · exact StopChar_rbrace
    have hmm := hws m (List.mem_cons_self _ _)
    have hff := hfu m (List.mem_cons_self _ _)
    obtain ⟨ch2, tok2, hv⟩ := ConsumePair_fwd hc value m (r := restText (ms.map Member.text)
      ++ '}' :: r) (k := k + 1) fuel lo ',' tok m.kpre hmm.1 hmm.2
      (hV m (List.mem_cons_self _ _)) (by omega) (by omega)
      (by rw [hd1]; simp [Member.text]) (by rw [Nat.add_assoc (k + 1)]; exact hstop)
      hff.1 hff.2.1 hff.2.2
    obtain ⟨tok3, hl⟩ := ih n2 (k + 1 + (m.kpre.length + m.bodyLength)) ch2 tok2
      (ObjectData.insert m.key m.elem.val obj) r
      (fun x hx => hws x (List.mem_cons_of_mem _ hx))
      (fun x hx => hV x (List.mem_cons_of_mem _ hx))
      (fun x hx => hfu x (List.mem_cons_of_mem _ hx)) hd2 hle (by omega)
      (by simp at hn; omega)
    refine ⟨tok3, ?_⟩
    have hne : ¬ ('}' = (',' : Char)) := by decide
    rw [Nat.add_assoc (k + 1)] at hv
    simp only [ConsumeObject.loop, NextCharacter_cur hc hk, hp, andThen_ok, hne, if_false,
      cur_character, if_true, hv, catchRethrow_ok, hl]
    refine congrArg₂ _ (by simp [insertAll]) (cur_congr ?_ rfl)
    simp [restText, Member.text_length]
    omega

theorem ConsumeObject_empty_fwd {D : Type} {src : List Char} (hc : CStr src)
    (value : Assist → Outcome (Json D)) {w r : List Char} {i : Nat} (fuel : Nat) (ch : Char)
    (tok : List Char) (hw : Ws w) (hd : src.drop i = '{' :: (w ++ '}' :: r))
    (hf : w.length < fuel) :
    ConsumeObject value fuel (cur src i ch tok) =
      .ok (Json.object []) (cur src (i + 1 + w.length + 1) '}' tok) := by
  have hp : peek src i = '{' := peek_of_drop_cons hd
  have hlt := drop_lt hd
  have hd1 := drop_next hd
  have hd2 := drop_skip hd1
  have hp2 : peek src (i + 1 + w.length) = '}' := peek_of_drop_cons hd2
  have hl2 := drop_skip_le hd1 (by omega)
  have hsk := SkipWhitespaces_cur hc w fuel (i + 1) '{' tok _ hw hd1 (by omega)
    (by rw [hp2]; decide) hf
  simp [ConsumeObject, NextCharacter_cur hc (show i ≤ src.length by omega), hp, hsk,
    NextCharacter_cur hc hl2, hp2]

theorem ConsumeObject_fwd {D : Type} {src : List Char} (hc : CStr src)
    (value : Assist → Outcome (Json D)) (first : Member D) (rest : List (Member D))
    {r : List Char} {i : Nat} (fuel : Nat) (ch : Char) (tok : List Char)
    (hws : ∀ m ∈ first :: rest, Ws m.kpre ∧ StringBody m.key ∧ Ws m.kpost ∧
      Ws m.elem.pre ∧ Ws m.elem.post)
    (hV : ∀ m ∈ first :: rest, ValueRuns value src (i + 1) m.elem.lex m.elem.val)
    (hfu : ∀ m ∈ first :: rest, m.kpre.length < fuel ∧ m.key.length < fuel ∧
      m.kpost.length < fuel)
    (hd : src.drop i = '{' :: (first.text ++ (restText (rest.map Member.text) ++ '}' :: r)))
    (hf2 : rest.length < fuel) :
    ∃ tok2, ConsumeObject value fuel (cur src i ch tok) =
      .ok (Json.object (insertAll [] (first :: rest)))
        (cur src (i + 1 + first.text.length + (restText (rest.map Member.text)).length + 1)
          '}' tok2) := by
  have hp : peek src i = '{' := peek_of_drop_cons hd
  have hlt := drop_lt hd
  have hmm := hws first (List.mem_cons_self _ _)
  have hff := hfu first (List.mem_cons_self _ _)
  have hd1 : src.drop (i + 1) = first.kpre ++ dquote :: (first.key ++ dquote ::
      (first.kpost ++ ':' :: (first.elem.text ++
        (restText (rest.map Member.text) ++ '}' :: r)))) := by
    rw [drop_next hd]; simp [Member.text]
  have hd2 := drop_skip hd1
  have hl2 := drop_skip_le hd1 (by omega)
  have hp2 : peek src (i + 1 + first.kpre.length) = dquote := peek_of_drop_cons hd2
  have hsk := SkipWhitespaces_cur hc first.kpre fuel (i + 1) '{' tok _ hmm.1 hd1 (by omega)
    (by rw [hp2]; decide) hff.1
  have hd3 : src.drop (i + 1 + first.text.length) =
      restText (rest.map Member.text) ++ '}' :: r := by
    have := drop_next hd
    exact drop_skip this
  have hl3 : i + 1 + first.text.length ≤ src.length := drop_skip_le (drop_next hd) (by omega)
  rw [Member.text_length] at hd3 hl3
  have hstop : StopChar (peek src (i + 1 + (first.kpre.length + first.bodyLength))) := by
    obtain ⟨c2, t2, hct2, hcc⟩ := restText_head (rest.map Member.text) '}' r
    rw [hct2] at hd3
    rw [peek_of_drop_cons hd3]
    rcases hcc with rfl | rfl
    · exact StopChar_comma
    · exact StopChar_rbrace
  obtain ⟨ch2, tok2, hv⟩ := ConsumePair_fwd hc value first
    (r := restText (rest.map Member.text) ++ '}' :: r) (k := i + 1 + first.kpre.length)
    fuel (i + 1) ' ' tok [] (by intro x hx; cases hx) hmm.2
    (hV first (List.mem_cons_self _ _)) (by omega) hl2 (by simpa using hd2)
    (by simpa [Nat.add_assoc] using hstop) (by simp; omega) hff.2.1 hff.2.2
  simp only [List.length_nil, Nat.add_zero] at hv
  obtain ⟨tok3, hl⟩ := objectLoop_fwd hc value (i + 1) fuel rest fuel
    (i + 1 + (first.kpre.length + first.bodyLength)) ch2 tok2
    (ObjectData.insert first.key first.elem.val []) r
    (fun x hx => hws x (List.mem_cons_of_mem _ hx))
    (fun x hx => hV x (List.mem_cons_of_mem _ hx))
    (fun x hx => hfu x (List.mem_cons_of_mem _ hx)) hd3 hl3 (by omega) hf2
  refine ⟨tok3, ?_⟩
  have hne : ¬ ('{' ≠ ('{' : Char)) := by decide
  have hcb2 : ¬ ('}' = dquote) := by decide
  rw [Nat.add_assoc (i + 1)] at hv
  simp only [ConsumeObject, NextCharacter_cur hc (show i ≤ src.length by omega), hp, andThen_ok,
    hne, if_false, hsk, NextCharacter_cur hc hl2, hp2, hcb2, Retract_cur, hv, catchRethrow_ok,
    hl]
  refine congrArg₂ _ (by simp [insertAll]) (cur_congr ?_ rfl)
  simp [Member.text_length]

theorem finish_true {D : Type} {src : List Char} (hc : CStr src) {post r : List Char}
    {j fuel : Nat} (v : Json D) (ch : Char) (tok : List Char) (hw : Ws post)
    (hd : src.drop j = post ++ r) (hj : j ≤ src.length)
    (hstop : isWhitespace (peek src (j + post.length)) = false) (hf : post.length < fuel) :
    ConsumeValue.finish fuel true v (cur src j ch tok) =
      .ok v (cur src (j + post.length) (peek src (j + post.length)) tok) := by
  have hsk := SkipWhitespaces_cur hc post fuel j ch tok r hw hd hj hstop hf
  simp [ConsumeValue.finish, hsk]

theorem restText_length_ge (ts : List (List Char)) : ts.length ≤ (restText ts).length := by
  induction ts with
  | nil => simp [restText]
  | cons t ts ih => simp [restText]; omega

theorem restText_mem_length {t : List Char} {ts : List (List Char)} (h : t ∈ ts) :
    t.length < (restText ts).length := by
  induction ts with
  | nil => cases h
  | cons u ts ih =>
    rcases List.mem_cons.mp h with rfl | h
    · simp [restText]; omega
    · have := ih h
      simp [restText]; omega

theorem ValueRuns_of_ConsumerRuns {D : Type} {atof : List Char → D} {lex : List Char}
    {v : Json D} (h : ConsumerRuns atof lex v) {src : List Char} (hc : CStr src)
    {fuel lo : Nat} (hf : src.length + 2 ≤ fuel + lo) :
    ValueRuns (ConsumeValue atof fuel true) src lo lex v := by
  intro k ch tok pre post r hk hkl hpre hpost hd hstop
  obtain ⟨f, rfl⟩ : ∃ f, fuel = f + 1 := ⟨fuel - 1, by omega⟩
  have hd1 : src.drop (k + pre.length + lex.length) = post ++ r := drop_skip (drop_skip hd)
  have hl1 : k + pre.length + lex.length ≤ src.length :=
    drop_skip_le (drop_skip hd) (drop_skip_le hd hkl)
  have hnf : NumFollow (peek src (k + pre.length + lex.length)) := by
    cases post with
    | nil => simpa using hstop.2
    | cons c t =>
      rw [peek_of_drop_cons hd1]
      exact NumFollow_of_ws (hpost c (List.mem_cons_self _ _))
  obtain ⟨ch2, tok2, -, hrun⟩ := h src hc f k ch tok pre (post ++ r) hpre hd hkl hnf (by omega)
  refine ⟨peek src (k + pre.length + lex.length + post.length), tok2, ?_⟩
  have hfin := finish_true hc v ch2 tok2 hpost hd1 hl1 hstop.1
    (show post.length < f + 1 by
      have := drop_skip_le hd1 hl1
      omega)
  simp only [ConsumeValue, hrun, andThen_ok, hfin]

theorem Denotes.consumerRuns {D : Type} {atof : List Char → D} {lex : List Char} {v : Json D}
    (h : Denotes atof lex v) : ConsumerRuns atof lex v := by
  induction h with
  | number t hn =>
    intro src hc fuel i ch tok pre r hpre hd hi hfol hf
    obtain ⟨c, t2, rfl, hcc⟩ := hn.first
    obtain ⟨hkind, hws, -, -, -⟩ := head_number_facts hcc
    have hd1 := drop_skip hd
    have hl1 := drop_skip_le hd hi
    have hp1 : peek src (i + pre.length) = c := peek_of_drop_cons hd1
    have hl2 := drop_skip_le hd1 hl1
    have hsk := SkipWhitespaces_cur hc pre (fuel + 1) i ch tok _ hpre hd hi
      (by rw [hp1]; exact hws) (by omega)
    have hnum := ConsumeNumber_fwd atof hc ' ' tok hn hd1 hl1 hfol
      (show (c :: t2).length ≤ fuel + 1 by omega)
    refine ⟨' ', c :: t2, by decide, ?_⟩
    simp only [ConsumeValue.consumer, hsk, andThen_ok, KindDetect_cur hc hl1, hp1, hkind]
    exact hnum
  | string b hb =>
    intro src hc fuel i ch tok pre r hpre hd hi hfol hf
    have hd1 := drop_skip hd
    have hl1 := drop_skip_le hd hi
    have hp1 : peek src (i + pre.length) = dquote := peek_of_drop_cons hd1
    have hl2 := drop_skip_le hd1 hl1
    have hsk := SkipWhitespaces_cur hc pre (fuel + 1) i ch tok _ hpre hd hi
      (by rw [hp1]; decide) (by omega)
    have hstr := ConsumeString_fwd (D := D) hc (w := []) (b := b) (r := r) ' ' tok
      (by intro x hx; cases hx) hb (by rw [hd1]; simp) hl1 (by simp)
      (show b.length < fuel + 1 by simp at hl2; omega)
    refine ⟨dquote, b, by decide, ?_⟩
    simp only [ConsumeValue.consumer, hsk, andThen_ok, KindDetect_cur hc hl1, hp1,
      show kindOf dquote = Kind.kString by decide, hstr]
    exact congrArg _ (cur_congr (by simp; omega) rfl)
  | true_ =>
    intro src hc fuel i ch tok pre r hpre hd hi hfol hf
    have hd1 := drop_skip hd
    have hl1 := drop_skip_le hd hi
    have hp1 : peek src (i + pre.length) = 't' := peek_of_drop_cons hd1
    have hsk := SkipWhitespaces_cur hc pre (fuel + 1) i ch tok _ hpre hd hi
      (by rw [hp1]; decide) (by omega)
    obtain ⟨ch2, hn, heq⟩ := ConsumeBool_true_fwd (D := D) hc ' ' tok hd1 hl1
    refine ⟨ch2, tok, hn, ?_⟩
    simp only [ConsumeValue.consumer, hsk, andThen_ok, KindDetect_cur hc hl1, hp1,
      show kindOf 't' = Kind.kBool by decide, heq]
    rfl
  | false_ =>
    intro src hc fuel i ch tok pre r hpre hd hi hfol hf
    have hd1 := drop_skip hd
    have hl1 := drop_skip_le hd hi
    have hp1 : peek src (i + pre.length) = 'f' := peek_of_drop_cons hd1
    have hsk := SkipWhitespaces_cur hc pre (fuel + 1) i ch tok _ hpre hd hi
      (by rw [hp1]; decide) (by omega)
    obtain ⟨ch2, hn, heq⟩ := ConsumeBool_false_fwd (D := D) hc ' ' tok hd1 hl1
    refine ⟨ch2, tok, hn, ?_⟩
    simp only [ConsumeValue.consumer, hsk, andThen_ok, KindDetect_cur hc hl1, hp1,
      show kindOf 'f' = Kind.kBool by decide, heq]
    rfl
  | null =>
    intro src hc fuel i ch tok pre r hpre hd hi hfol hf
    have hd1 := drop_skip hd
    have hl1 := drop_skip_le hd hi
    have hp1 : peek src (i + pre.length) = 'n' := peek_of_drop_cons hd1
    have hsk := SkipWhitespaces_cur hc pre (fuel + 1) i ch tok _ hpre hd hi
      (by rw [hp1]; decide) (by omega)
    obtain ⟨ch2, hn, heq⟩ := ConsumeNull_fwd (D := D) hc ' ' tok hd1 hl1
    refine ⟨ch2, tok, hn, ?_⟩
    simp only [ConsumeValue.consumer, hsk, andThen_ok, KindDetect_cur hc hl1, hp1,
      show kindOf 'n' = Kind.kNull by decide, heq]
    rfl
  | emptyArray w hw =>
    intro src hc fuel i ch tok pre r hpre hd hi hfol hf
    have hd1 := drop_skip hd
    have hl1 := drop_skip_le hd hi
    have hp1 : peek src (i + pre.length) = '[' := peek_of_drop_cons hd1
    have hl2 := drop_skip_le hd1 hl1
    have hsk := SkipWhitespaces_cur hc pre (fuel + 1) i ch tok _ hpre hd hi
      (by rw [hp1]; decide) (by omega)
    have harr := ConsumeArray_empty_fwd hc (ConsumeValue atof fuel true) (w := w) (r := r)
      (i := i + pre.length) (fuel + 1) ' ' tok hw (by rw [hd1]; simp)
      (by simp at hl2; omega)
    refine ⟨']', tok, by decide, ?_⟩
    simp only [ConsumeValue.consumer, hsk, andThen_ok, KindDetect_cur hc hl1, hp1,
      show kindOf '[' = Kind.kArray by decide, harr]
    exact congrArg _ (cur_congr (by simp; omega) rfl)
  | array first rest hws hden ih =>
    intro src hc fuel i ch tok pre r hpre hd hi hfol hf
    have hd1 := drop_skip hd
    have hl1 := drop_skip_le hd hi
    have hp1 : peek src (i + pre.length) = '[' := peek_of_drop_cons hd1
    have hl2 := drop_skip_le hd1 hl1
    have hsk := SkipWhitespaces_cur hc pre (fuel + 1) i ch tok _ hpre hd hi
      (by rw [hp1]; decide) (by omega)
    have hlen : ('[' :: (first.text ++ (restText (rest.map Element.text) ++ [']']))).length =
        1 + first.text.length + (restText (rest.map Element.text)).length + 1 := by
      simp; omega
    rw [hlen] at hl2 ⊢
    have hrl := restText_length_ge (rest.map Element.text)
    rw [List.length_map] at hrl
    have hfl : first.pre.length ≤ first.text.length := by simp [Element.text]
    obtain ⟨tok2, harr⟩ := ConsumeArray_fwd atof hc (ConsumeValue atof fuel true) first
      rest (r := r) (i := i + pre.length) (fuel + 1) ' ' tok hws
      (hden first (List.mem_cons_self _ _))
      (fun e he => ValueRuns_of_ConsumerRuns (ih e he) hc (by omega))
      (by rw [hd1]; simp) (by omega) (by omega)
    refine ⟨']', tok2, by decide, ?_⟩
    simp only [ConsumeValue.consumer, hsk, andThen_ok, KindDetect_cur hc hl1, hp1,
      show kindOf '[' = Kind.kArray by decide, harr]
    exact congrArg _ (cur_congr (by omega) rfl)
  | emptyObject w hw =>
    intro src hc fuel i ch tok pre r hpre hd hi hfol hf
    have hd1 := drop_skip hd
    have hl1 := drop_skip_le hd hi
    have hp1 : peek src (i + pre.length) = '{' := peek_of_drop_cons hd1
    have hl2 := drop_skip_le hd1 hl1
    have hsk := SkipWhitespaces_cur hc pre (fuel + 1) i ch tok _ hpre hd hi
      (by rw [hp1]; decide) (by omega)
    have hobj := ConsumeObject_empty_fwd hc (ConsumeValue atof fuel true) (w := w) (r := r)
      (i := i + pre.length) (fuel + 1) ' ' tok hw (by rw [hd1]; simp)
      (by simp at hl2; omega)
    refine ⟨'}', tok, by decide, ?_⟩
    simp only [ConsumeValue.consumer, hsk, andThen_ok, KindDetect_cur hc hl1, hp1,
      show kindOf '{' = Kind.kObject by decide, hobj]
    exact congrArg _ (cur_congr (by simp; omega) rfl)
  | object first rest hws hden ih =>
    intro src hc fuel i ch tok pre r hpre hd hi hfol hf
    have hd1 := drop_skip hd
    have hl1 := drop_skip_le hd hi
    have hp1 : peek src (i + pre.length) = '{' := peek_of_drop_cons hd1
    have hl2 := drop_skip_le hd1 hl1
    have hsk := SkipWhitespaces_cur hc pre (fuel + 1) i ch tok _ hpre hd hi
      (by rw [hp1]; decide) (by omega)
    have hlen : ('{' :: (first.text ++ (restText (rest.map Member.text) ++ ['}']))).length =
        1 + first.text.length + (restText (rest.map Member.text)).length + 1 := by
      simp; omega
    rw [hlen] at hl2 ⊢
    have hrl := restText_length_ge (rest.map Member.text)
    rw [List.length_map] at hrl
    have hfu : ∀ m ∈ first :: rest, m.kpre.length < fuel + 1 ∧ m.key.length < fuel + 1 ∧
        m.kpost.length < fuel + 1 := by
      intro m hm
      have hml : m.text.length ≤ first.text.length +
          (restText (rest.map Member.text)).length := by
        rcases List.mem_cons.mp hm with rfl | hm
        · omega
        · have := restText_mem_length (List.mem_map_of_mem Member.text hm)
          omega
      have h3 : m.kpre.length + m.key.length + m.kpost.length ≤ m.text.length := by
        simp [Member.text]; omega
      omega
    obtain ⟨tok2, hobj⟩ := ConsumeObject_fwd hc (ConsumeValue atof fuel true) first
      rest (r := r) (i := i + pre.length) (fuel + 1) ' ' tok hws
      (fun e he => ValueRuns_of_ConsumerRuns (ih e he) hc (by omega)) hfu
      (by rw [hd1]; simp) (by omega)
    refine ⟨'}', tok2, by decide, ?_⟩
    simp only [ConsumeValue.consumer, hsk, andThen_ok, KindDetect_cur hc hl1, hp1,
      show kindOf '{' = Kind.kObject by decide, hobj]
    exact congrArg _ (cur_congr (by omega) rfl)

theorem ThrownAt.catchRethrow {α : Type} {src : List Char} {lo : Nat} {r : Outcome α}
    (h : ThrownAt src lo r) : r.catchRethrow = r := by
  obtain ⟨p, tok, -, -, rfl⟩ := h
  simp [Outcome.catchRethrow, cur]

theorem arrayLoop_back {D : Type} {atof : List Char → D} {src : List Char} (hc : CStr src)
    (value : Assist → Outcome (Json D)) (lo : Nat) (hV : ValueBack atof value src lo) :
    ∀ (n k : Nat) (ch : Char) (tok : List Char) (arr : ArrayData D), k ≤ src.length →
      src.length + 1 ≤ n + k → lo ≤ k + 1 →
      (∃ (es : List (Element D)) (r tok2 : List Char),
        (∀ e ∈ es, Ws e.pre ∧ Ws e.post) ∧ (∀ e ∈ es, Denotes atof e.lex e.val) ∧
        src.drop k = restText (es.map Element.text) ++ ']' :: r ∧
        ConsumeArray.loop value n arr (cur src k ch tok) =
          .ok (arr ++ es.map Element.val)
            (cur src (k + (restText (es.map Element.text)).length + 1) ']' tok2)) ∨
      ThrownAt src k (ConsumeArray.loop value n arr (cur src k ch tok)) := by
  intro n
  induction n with
  | zero => intro k ch tok arr hk hf; omega
  | succ n ih =>
    intro k ch tok arr hk hf hlo
    by_cases hq : peek src k = ']'
    · left
      have hlt : k < src.length := lt_of_peek_ne_NUL (by rw [hq]; decide)
      refine ⟨[], src.drop (k + 1), tok, by simp, by simp, ?_, ?_⟩
      · rw [drop_eq_peek_cons hlt, hq]; rfl
      · simp [ConsumeArray.loop, NextCharacter_cur hc hk, hq, restText]
    · have hqb : ¬ (']' = peek src k) := fun e => hq e.symm
      by_cases hcm : peek src k = ','
      · have hlt : k < src.length := lt_of_peek_ne_NUL (by rw [hcm]; decide)
        have hcb : ',' = peek src k := hcm.symm
        simp only [ConsumeArray.loop, NextCharacter_cur hc hk, andThen_ok, hqb, if_false,
          cur_character, hcb, if_true]
        rcases hV (k + 1) (peek src k) tok hlo (by omega) with
          ⟨e, r, ch2, tok2, hpre, hpost, hden, hd, heq⟩ | hthr
        · rw [heq]
          simp only [catchRethrow_ok, andThen_ok]
          have hle := drop_skip_le hd (show k + 1 ≤ src.length by omega)
          rcases ih (k + 1 + e.text.length) ch2 tok2 (arr ++ [e.val]) hle (by omega)
            (by omega) with ⟨es, r2, tok3, hws, hdens, hd2, heq2⟩ | hthr
          · left
            refine ⟨e :: es, r2, tok3, ?_, ?_, ?_, ?_⟩
            · intro x hx
              rcases List.mem_cons.mp hx with rfl | hx
              · exact ⟨hpre, hpost⟩
              · exact hws x hx
            · intro x hx
              rcases List.mem_cons.mp hx with rfl | hx
              · exact hden
              · exact hdens x hx
            · rw [drop_eq_peek_cons hlt, hcm, hd, ← drop_skip hd, hd2]
              simp [restText]
            · rw [heq2]
              refine congrArg₂ _ (by simp) (cur_congr ?_ rfl)
              simp [restText]
              omega
          · right
            exact hthr.mono (by omega)
        · right
          rw [hthr.catchRethrow]
          exact (hthr.mono (by omega)).andThen _
      · right
        have hcb : ¬ (',' = peek src k) := fun e => hcm e.symm
        simp only [ConsumeArray.loop, NextCharacter_cur hc hk, andThen_ok, hqb, if_false,
          cur_character, hcb]
        exact ThrownAt.unexpected tok (Nat.le_refl _) hk

theorem Ws.append {a b : List Char} (ha : Ws a) (hb : Ws b) : Ws (a ++ b) := by
  intro c hc
  rcases List.mem_append.mp hc with h | h
  · exact ha c h
  · exact hb c h

theorem ConsumeArray_back {D : Type} {atof : List Char → D} {src : List Char} (hc : CStr src)
    (value : Assist → Outcome (Json D)) {i fuel : Nat} (hV : ValueBack atof value src (i + 1))
    (ch : Char) (tok : List Char) (hi : i ≤ src.length) (hf : src.length + 1 ≤ fuel + i) :
    (∃ (lex : List Char) (v : Json D) (r tok2 : List Char), Denotes atof lex v ∧
      src.drop i = lex ++ r ∧
      ConsumeArray value fuel (cur src i ch tok) = .ok v (cur src (i + lex.length) ']' tok2)) ∨
    ThrownAt src i (ConsumeArray value fuel (cur src i ch tok)) := by
  by_cases hq : peek src i = '['
  · have hlt : i < src.length := lt_of_peek_ne_NUL (by rw [hq]; decide)
    have hne : ¬ ('[' ≠ peek src i) := by rw [hq]; decide
    obtain ⟨w, r0, hd, hw, hstop⟩ := span_at isWhitespace isWhitespace_NUL src (i + 1)
    have hl1 := drop_skip_le hd (show i + 1 ≤ src.length by omega)
    have hd1 := drop_skip hd
    have hsk := SkipWhitespaces_cur hc w fuel (i + 1) (peek src i) tok _ hw hd (by omega) hstop
      (by omega)
    simp only [ConsumeArray, NextCharacter_cur hc hi, andThen_ok, hne, if_false, hsk,
      NextCharacter_cur hc hl1]
    by_cases hcl : peek src (i + 1 + w.length) = ']'
    · left
      have hlt1 : i + 1 + w.length < src.length := lt_of_peek_ne_NUL (by rw [hcl]; decide)
      refine ⟨'[' :: (w ++ [']']), Json.array [], src.drop (i + 1 + w.length + 1), tok,
        Denotes.emptyArray w hw, ?_, ?_⟩
      · rw [drop_eq_peek_cons hlt, hq, hd, ← hd1, drop_eq_peek_cons hlt1, hcl]
        simp
      · rw [if_pos hcl.symm]
        rw [hcl]
        exact congrArg _ (cur_congr (by simp; omega) rfl)
    · have hclb : ¬ (']' = peek src (i + 1 + w.length)) := fun e => hcl e.symm
      rw [if_neg hclb, Retract_cur]
      rcases hV (i + 1 + w.length) ' ' tok (by omega) hl1 with
        ⟨e, r, ch2, tok2, hpre, hpost, hden, hde, heq⟩ | hthr
      · rw [heq]
        simp only [catchRethrow_ok, andThen_ok]
        have hle := drop_skip_le hde hl1
        rcases arrayLoop_back hc value (i + 1) hV fuel (i + 1 + w.length + e.text.length) ch2
          tok2 [e.val] hle (by omega) (by omega) with
          ⟨es, r2, tok3, hws, hdens, hd2, heq2⟩ | hthr
        · left
          rw [heq2]
          refine ⟨'[' :: (Element.text ⟨w ++ e.pre, e.lex, e.post, e.val⟩ ++
            (restText (es.map Element.text) ++ [']'])),
            Json.array ((⟨w ++ e.pre, e.lex, e.post, e.val⟩ :: es).map Element.val), r2, tok3,
            Denotes.array ⟨w ++ e.pre, e.lex, e.post, e.val⟩ es ?_ ?_, ?_, ?_⟩
          · intro x hx
            rcases List.mem_cons.mp hx with rfl | hx
            · exact ⟨Ws.append hw hpre, hpost⟩
            · exact hws x hx
          · intro x hx
            rcases List.mem_cons.mp hx with rfl | hx
            · exact hden
            · exact hdens x hx
          · rw [drop_eq_peek_cons hlt, hq, hd, ← hd1, hde, ← drop_skip hde, hd2]
            simp [Element.text]
          · refine congrArg₂ _ (by simp) (cur_congr ?_ rfl)
            simp [Element.text]
            omega
        · right
          exact (hthr.mono (by omega)).andThen _
      · right
        rw [hthr.catchRethrow]
        exact (hthr.mono (by omega)).andThen _
  · right
    have hne : ('[' ≠ peek src i) := fun e => hq e.symm
    simp only [ConsumeArray, NextCharacter_cur hc hi, andThen_ok]
    rw [if_pos hne]
    exact ThrownAt.unexpected tok (Nat.le_refl _) hi

theorem ConsumePair_back {D : Type} {atof : List Char → D} {src : List Char} (hc : CStr src)
    (value : Assist → Outcome (Json D)) {k fuel lo : Nat} (hV : ValueBack atof value src lo)
    (ch : Char) (tok : List Char) (hk : k ≤ src.length) (hlo : lo ≤ k + 1)
    (hf : src.length + 1 ≤ fuel + k) :
    (∃ (m : Member D) (r : List Char) (ch2 : Char) (tok2 : List Char),
      (Ws m.kpre ∧ StringBody m.key ∧ Ws m.kpost ∧ Ws m.elem.pre ∧ Ws m.elem.post) ∧
      Denotes atof m.elem.lex m.elem.val ∧ src.drop k = m.text ++ r ∧
      ConsumePair value fuel (cur src k ch tok) =
        .ok (m.key, m.elem.val) (cur src (k + m.text.length) ch2 tok2)) ∨
    ThrownAt src k (ConsumePair value fuel (cur src k ch tok)) := by
  rcases ConsumeString_back (D := D) hc ch tok hk hf with ⟨w, b, r1, hw, hb, hd, hstr⟩ | hthr
  · have hd1 : src.drop (k + w.length + 1 + b.length + 1) = r1 := by
      have h1 := drop_next (drop_skip hd)
      exact drop_next (drop_skip h1)
    have hl1 : k + w.length + 1 + b.length + 1 ≤ src.length := by
      have h0 := drop_skip hd
      have h1 := drop_next h0
      have h2 := drop_skip h1
      have := drop_lt h0
      have := drop_skip_le h1 (by omega)
      have := drop_lt h2
      omega
    obtain ⟨kp, r2, hd2, hkp, hstop⟩ := span_at isWhitespace isWhitespace_NUL src
      (k + w.length + 1 + b.length + 1)
    have hl2 := drop_skip_le hd2 hl1
    have hsk := SkipWhitespaces_cur hc kp fuel (k + w.length + 1 + b.length + 1) dquote b _
      hkp hd2 hl1 hstop (by omega)
    simp only [ConsumePair, hstr, andThen_ok, Json.toStdString, hsk]
    rcases ConsumeSpecific_back hc [':'] (by decide)
      (k + w.length + 1 + b.length + 1 + kp.length)
      (peek src (k + w.length + 1 + b.length + 1 + kp.length)) b hl2 with
      ⟨r3, ch3, hd3, -, -, hsp⟩ | hthr
    · rw [hsp]
      simp only [andThen_ok, List.length_singleton]
      have hl3 := drop_skip_le hd3 hl2
      simp only [List.length_singleton] at hl3
      rcases hV (k + w.length + 1 + b.length + 1 + kp.length + 1) ch3 b (by omega) hl3 with
        ⟨e, r, ch2, tok2, hpre, hpost, hden, hde, heq⟩ | hthr
      · left
        rw [heq]
        refine ⟨⟨w, b, kp, e⟩, r, ch2, tok2, ⟨hw, hb, hkp, hpre, hpost⟩, hden, ?_, ?_⟩
        · have hr2 := drop_skip hd2
          have hr3 := drop_skip hd3
          simp only [List.length_singleton] at hr3
          rw [hd, ← hd1, hd2, ← hr2, hd3, ← hr3, hde]
          simp [Member.text]
        · simp only [andThen_ok]
          refine congrArg₂ _ rfl (cur_congr ?_ rfl)
          simp [Member.text]
          omega
      · right
        exact (hthr.mono (by omega)).andThen _
    · right
      exact (hthr.mono (by omega)).andThen _
  · right
    exact hthr.andThen _

theorem objectLoop_back {D : Type} {atof : List Char → D} {src : List Char} (hc : CStr src)
    (value : Assist → Outcome (Json D)) (lo fuel : Nat) (hV : ValueBack atof value src lo) :
    ∀ (n k : Nat) (ch : Char) (tok : List Char) (obj : ObjectData D), k ≤ src.length →
      src.length + 1 ≤ n + k → src.length + 1 ≤ fuel + k → lo ≤ k + 1 →
      (∃ (ms : List (Member D)) (r tok2 : List Char),
        (∀ m ∈ ms, Ws m.kpre ∧ StringBody m.key ∧ Ws m.kpost ∧ Ws m.elem.pre ∧
          Ws m.elem.post) ∧
        (∀ m ∈ ms, Denotes atof m.elem.lex m.elem.val) ∧
        src.drop k = restText (ms.map Member.text) ++ '}' :: r ∧
        ConsumeObject.loop value fuel n obj (cur src k ch tok) =
          .ok (insertAll obj ms)
            (cur src (k + (restText (ms.map Member.text)).length + 1) '}' tok2)) ∨
      ThrownAt src k (ConsumeObject.loop value fuel n obj (cur src k ch tok)) := by
  intro n
  induction n with
  | zero => intro k ch tok arr hk hf; omega
  | succ n ih =>
    intro k ch tok obj hk hf hfu hlo
    by_cases hq : peek src k = '}'
    · left
      have hlt : k < src.length := lt_of_peek_ne_NUL (by rw [hq]; decide)
      refine ⟨[], src.drop (k + 1), tok, by simp, by simp, ?_, ?_⟩
      · rw [drop_eq_peek_cons hlt, hq]; rfl
      · simp [ConsumeObject.loop, NextCharacter_cur hc hk, hq, restText, insertAll]
    · have hqb : ¬ ('}' = peek src k) := fun e => hq e.symm
      by_cases hcm : peek src k = ','
      · have hlt : k < src.length := lt_of_peek_ne_NUL (by rw [hcm]; decide)
        have hcb : ',' = peek src k := hcm.symm
        simp only [ConsumeObject.loop, NextCharacter_cur hc hk, andThen_ok, hqb, if_false,
          cur_character, hcb, if_true]
        rcases ConsumePair_back hc value hV (peek src k) tok (show k + 1 ≤ src.length by omega)
          (by omega) (show src.length + 1 ≤ fuel + (k + 1) by omega) with
          ⟨m, r, ch2, tok2, hm, hden, hd, heq⟩ | hthr
        · rw [heq]
          simp only [catchRethrow_ok, andThen_ok]
          have hle := drop_skip_le hd (show k + 1 ≤ src.length by omega)
          rcases ih (k + 1 + m.text.length) ch2 tok2 (ObjectData.insert m.key m.elem.val obj)
            hle (by omega) (by omega) (by omega) with
            ⟨ms, r2, tok3, hws, hdens, hd2, heq2⟩ | hthr
          · left
            refine ⟨m :: ms, r2, tok3, ?_, ?_, ?_, ?_⟩
            · intro x hx
              rcases List.mem_cons.mp hx with rfl | hx
              · exact hm
              · exact hws x hx
            · intro x hx
              rcases List.mem_cons.mp hx with rfl | hx
              · exact hden
              · exact hdens x hx
            · rw [drop_eq_peek_cons hlt, hcm, hd, ← drop_skip hd, hd2]
              simp [restText]
            · rw [heq2]
              refine congrArg₂ _ (by simp [insertAll]) (cur_congr ?_ rfl)
              simp [restText]
              omega
          · right
            exact hthr.mono (by omega)
        · right
          rw [hthr.catchRethrow]
          exact (hthr.mono (by omega)).andThen _
      · right
        have hcb : ¬ (',' = peek src k) := fun e => hcm e.symm
        simp only [ConsumeObject.loop, NextCharacter_cur hc hk, andThen_ok, hqb, if_false,
          cur_character, hcb]
        exact ThrownAt.unexpected tok (Nat.le_refl _) hk

theorem ConsumeObject_back {D : Type} {atof : List Char → D} {src : List Char} (hc : CStr src)
    (value : Assist → Outcome (Json D)) {i fuel : Nat} (hV : ValueBack atof value src (i + 1))
    (ch : Char) (tok : List Char) (hi : i ≤ src.length) (hf : src.length + 1 ≤ fuel + i) :
    (∃ (lex : List Char) (v : Json D) (r tok2 : List Char), Denotes atof lex v ∧
      src.drop i = lex ++ r ∧
      ConsumeObject value fuel (cur src i ch tok) = .ok v (cur src (i + lex.length) '}' tok2)) ∨
    ThrownAt src i (ConsumeObject value fuel (cur src i ch tok)) := by
  by_cases hq : peek src i = '{'
  · have hlt : i < src.length := lt_of_peek_ne_NUL (by rw [hq]; decide)
    have hne : ¬ ('{' ≠ peek src i) := by rw [hq]; decide
    obtain ⟨w, r0, hd, hw, hstop⟩ := span_at isWhitespace isWhitespace_NUL src (i + 1)
    have hl1 := drop_skip_le hd (show i + 1 ≤ src.length by omega)
    have hd1 := drop_skip hd
    have hsk := SkipWhitespaces_cur hc w fuel (i + 1) (peek src i) tok _ hw hd (by omega) hstop
      (by omega)
    simp only [ConsumeObject, NextCharacter_cur hc hi, andThen_ok, hne, if_false, hsk,
      NextCharacter_cur hc hl1]
    by_cases hcl : peek src (i + 1 + w.length) = '}'
    · left
      have hlt1 : i + 1 + w.length < src.length := lt_of_peek_ne_NUL (by rw [hcl]; decide)
      refine ⟨'{' :: (w ++ ['}']), Json.object [], src.drop (i + 1 + w.length + 1), tok,
        Denotes.emptyObject w hw, ?_, ?_⟩
      · rw [drop_eq_peek_cons hlt, hq, hd, ← hd1, drop_eq_peek_cons hlt1, hcl]
        simp
      · rw [if_pos hcl.symm]
        rw [hcl]
        exact congrArg _ (cur_congr (by simp; omega) rfl)
    · have hclb : ¬ ('}' = peek src (i + 1 + w.length)) := fun e => hcl e.symm
      rw [if_neg hclb, Retract_cur]
      rcases ConsumePair_back hc value hV ' ' tok hl1 (by omega)
        (show src.length + 1 ≤ fuel + (i + 1 + w.length) by omega) with
        ⟨m, r, ch2, tok2, hm, hden, hde, heq⟩ | hthr
      · rw [heq]
        simp only [catchRethrow_ok, andThen_ok]
        have hle := drop_skip_le hde hl1
        rcases objectLoop_back hc value (i + 1) fuel hV fuel
          (i + 1 + w.length + m.text.length) ch2 tok2 (ObjectData.insert m.key m.elem.val [])
          hle (by omega) (by omega) (by omega) with
          ⟨ms, r2, tok3, hws, hdens, hd2, heq2⟩ | hthr
        · left
          rw [heq2]
          refine ⟨'{' :: (Member.text ⟨w ++ m.kpre, m.key, m.kpost, m.elem⟩ ++
            (restText (ms.map Member.text) ++ ['}'])),
            Json.object (insertAll [] (⟨w ++ m.kpre, m.key, m.kpost, m.elem⟩ :: ms)), r2, tok3,
            Denotes.object ⟨w ++ m.kpre, m.key, m.kpost, m.elem⟩ ms ?_ ?_, ?_, ?_⟩
          · intro x hx
            rcases List.mem_cons.mp hx with rfl | hx
            · exact ⟨Ws.append hw hm.1, hm.2⟩
            · exact hws x hx
          · intro x hx
            rcases List.mem_cons.mp hx with rfl | hx
            · exact hden
            · exact hdens x hx
          · rw [drop_eq_peek_cons hlt, hq, hd, ← hd1, hde, ← drop_skip hde, hd2]
            simp [Member.text]
          · refine congrArg₂ _ (by simp [insertAll]) (cur_congr ?_ rfl)
            simp [Member.text]
            omega
        · right
          exact (hthr.mono (by omega)).andThen _
      · right
        rw [hthr.catchRethrow]
        exact (hthr.mono (by omega)).andThen _
  · right
    have hne : ('{' ≠ peek src i) := fun e => hq e.symm
    simp only [ConsumeObject, NextCharacter_cur hc hi, andThen_ok]
    rw [if_pos hne]
    exact ThrownAt.unexpected tok (Nat.le_refl _) hi

theorem ValueBack_of_ConsumerBack {D : Type} {atof : List Char → D} {fuel : Nat}
    (h : ConsumerBack atof fuel) {src : List Char} (hc : CStr src) {lo : Nat}
    (hf : src.length + 1 ≤ fuel + lo) :
    ValueBack atof (ConsumeValue atof (fuel + 1) true) src lo := by
  intro k ch tok hk hkl
  rcases h src hc k ch tok hkl (by omega) with
    ⟨pre, lex, v, r, ch2, tok2, hpre, hden, hd, -, heq⟩ | hthr
  · left
    have hd1 := drop_skip (drop_skip hd)
    have hl1 := drop_skip_le (drop_skip hd) (drop_skip_le hd hkl)
    obtain ⟨post, r2, hd2, hpost, hstop⟩ := span_at isWhitespace isWhitespace_NUL src
      (k + pre.length + lex.length)
    have hl2 := drop_skip_le hd2 hl1
    have hfin := finish_true hc v ch2 tok2 hpost hd2 hl1 hstop
      (show post.length < fuel + 1 by omega)
    refine ⟨⟨pre, lex, post, v⟩, r2, peek src (k + pre.length + lex.length + post.length), tok2,
      hpre, hpost, hden, ?_, ?_⟩
    · rw [hd, ← hd1, hd2]
      simp [Element.text]
    · simp only [ConsumeValue, heq, andThen_ok, hfin]
      exact congrArg _ (cur_congr (by simp [Element.text]; omega) rfl)
  · right
    simp only [ConsumeValue]
    exact hthr.andThen _

theorem ValueBack_zero {D : Type} (atof : List Char → D) {src : List Char} {lo : Nat}
    (hf : src.length + 1 ≤ lo) : ValueBack atof (ConsumeValue atof 0 true) src lo := by
  intro k ch tok hk hkl
  omega

theorem consumerBack_step {D : Type} (atof : List Char → D) (fuel : Nat)
    (hVB : ∀ (src : List Char), CStr src → ∀ lo, src.length + 2 ≤ fuel + lo →
      ValueBack atof (ConsumeValue atof fuel true) src lo) :
    ConsumerBack atof fuel := by
  intro src hc i ch tok hi hf
  obtain ⟨pre, r0, hd, hpre, hstop⟩ := span_at isWhitespace isWhitespace_NUL src i
  have hl1 := drop_skip_le hd hi
  have hd1 := drop_skip hd
  have hsk := SkipWhitespaces_cur hc pre (fuel + 1) i ch tok _ hpre hd hi hstop (by omega)
  simp only [ConsumeValue.consumer, hsk, andThen_ok, KindDetect_cur hc hl1]
  have hV := hVB src hc (i + pre.length + 1) (by omega)
  rcases kindOf_cases (peek src (i + pre.length)) with
    ⟨hk, hq⟩ | ⟨hk, hq⟩ | ⟨hk, hq⟩ | ⟨hk, hq⟩ | ⟨hk, hq⟩ | hk
  · -- a string
    rw [hk]
    simp only []
    rcases ConsumeString_back (D := D) hc ' ' tok hl1
      (show src.length + 1 ≤ fuel + 1 + (i + pre.length) by omega) with
      ⟨w, b, r, hw, hb, hds, heq⟩ | hthr
    · left
      refine ⟨pre ++ w, dquote :: (b ++ [dquote]), Json.string b, r, dquote, b,
        Ws.append hpre hw, Denotes.string b hb, ?_, by decide, ?_⟩
      · rw [hd, ← hd1, hds]; simp
      · rw [heq]
        exact congrArg _ (cur_congr (by simp; omega) rfl)
    · right
      exact hthr.mono (by omega)
  · -- true or false
    rw [hk]
    simp only []
    rcases ConsumeBool_back (D := D) hc ' ' tok hl1 with
      ⟨r, ch2, hn, hdb, heq⟩ | ⟨r, ch2, hn, hdb, heq⟩ | hthr
    · left
      refine ⟨pre, _, Json.bool true, r, ch2, tok, hpre, Denotes.true_, ?_, hn, ?_⟩
      · rw [hd, ← hd1, hdb]
      · rw [heq]; rfl
    · left
      refine ⟨pre, _, Json.bool false, r, ch2, tok, hpre, Denotes.false_, ?_, hn, ?_⟩
      · rw [hd, ← hd1, hdb]
      · rw [heq]; rfl
    · right
      exact hthr.mono (by omega)
  · -- null
    rw [hk]
    simp only []
    rcases ConsumeNull_back (D := D) hc ' ' tok hl1 with ⟨r, ch2, hn, hdb, heq⟩ | hthr
    · left
      refine ⟨pre, _, Json.null, r, ch2, tok, hpre, Denotes.null, ?_, hn, ?_⟩
      · rw [hd, ← hd1, hdb]
      · rw [heq]; rfl
    · right
      exact hthr.mono (by omega)
  · -- an object
    rw [hk]
    simp only []
    rcases ConsumeObject_back hc (ConsumeValue atof fuel true) hV ' ' tok hl1
      (show src.length + 1 ≤ fuel + 1 + (i + pre.length) by omega) with
      ⟨lex, v, r, tok2, hden, hdl, heq⟩ | hthr
    · left
      refine ⟨pre, lex, v, r, '}', tok2, hpre, hden, ?_, by decide, heq⟩
      rw [hd, ← hd1, hdl]
    · right
      exact hthr.mono (by omega)
  · -- an array
    rw [hk]
    simp only []
    rcases ConsumeArray_back hc (ConsumeValue atof fuel true) hV ' ' tok hl1
      (show src.length + 1 ≤ fuel + 1 + (i + pre.length) by omega) with
      ⟨lex, v, r, tok2, hden, hdl, heq⟩ | hthr
    · left
      refine ⟨pre, lex, v, r, ']', tok2, hpre, hden, ?_, by decide, heq⟩
      rw [hd, ← hd1, hdl]
    · right
      exact hthr.mono (by omega)
  · -- a number
    rw [hk]
    simp only []
    rcases ConsumeNumber_back atof hc ' ' tok hl1
      (show src.length + 1 ≤ fuel + 1 + (i + pre.length) by omega) with
      ⟨lex, r, hlex, hdl, heq⟩ | hthr
    · left
      refine ⟨pre, lex, Json.number (atof lex), r, ' ', lex, hpre, Denotes.number lex hlex, ?_,
        by decide, heq⟩
      rw [hd, ← hd1, hdl]
    · right
      exact hthr.mono (by omega)

theorem consumerBack {D : Type} (atof : List Char → D) : ∀ fuel, ConsumerBack atof fuel := by
  intro fuel
  induction fuel with
  | zero =>
    exact consumerBack_step atof 0 (fun src _ lo hf => ValueBack_zero atof (by omega))
  | succ f ih =>
    exact consumerBack_step atof (f + 1)
      (fun src hc lo hf => ValueBack_of_ConsumerBack ih hc (by omega))

theorem finish_false {D : Type} {src : List Char} (hc : CStr src) {post r : List Char}
    {j fuel : Nat} (v : Json D) {ch : Char} (tok : List Char) (hch : ch ≠ NUL) (hw : Ws post)
    (hd : src.drop j = post ++ r) (hj : j ≤ src.length)
    (hstop : isWhitespace (peek src (j + post.length)) = false) (hf : post.length < fuel) :
    ConsumeValue.finish fuel false v (cur src j ch tok) =
      if peek src (j + post.length) = NUL then
        .ok v (cur src (j + post.length + 1) NUL tok)
      else
        .thrown (.UnexpectedToken (peek src (j + post.length)) ((j + post.length : Nat) : Int))
          (cur src (j + post.length + 1) (peek src (j + post.length)) tok) := by
  have hsk := SkipWhitespaces_cur hc post fuel j ch tok r hw hd hj hstop hf
  have hl := drop_skip_le hd hj
  have he : EOL (cur src j ch tok) = false := by simp [EOL, hch]
  by_cases hp : peek src (j + post.length) = NUL
  · simp [ConsumeValue.finish, hsk, NextCharacter_cur hc hl, hp, EOL, hch]
  · simp [ConsumeValue.finish, hsk, NextCharacter_cur hc hl, hp, EOL, UnexpectedToken_cur, hch]

theorem Parse_eq {D : Type} (atof : List Char → D) (s : List Char) :
    Parse atof s =
      (ConsumeValue.consumer atof (ConsumeValue atof (s.length + 1) true) (s.length + 1 + 1)
        (cur s 0 ' ' [])).andThen fun json st =>
          ConsumeValue.finish (s.length + 1 + 1) false json st := rfl

/-- Every outcome of `Parse` on a C string: a value read off `ws lexeme ws`, or an
`UnexpectedTokenException` at an offset of the text. -/
theorem Parse_back {D : Type} (atof : List Char → D) {s : List Char} (hc : CStr s) :
    (∃ (pre lex post : List Char) (v : Json D) (tok : List Char), Ws pre ∧ Ws post ∧
      Denotes atof lex v ∧ s = pre ++ (lex ++ post) ∧
      Parse atof s = .ok v (cur s (s.length + 1) NUL tok)) ∨
    ThrownAt s 0 (Parse atof s) := by
  rw [Parse_eq]
  rcases consumerBack atof (s.length + 1) s hc 0 ' ' [] (by omega) (by omega) with
    ⟨pre, lex, v, r, ch2, tok2, hpre, hden, hd, hch, heq⟩ | hthr
  · rw [heq]
    simp only [andThen_ok]
    have hd1 := drop_skip (drop_skip hd)
    have hl1 := drop_skip_le (drop_skip hd) (drop_skip_le hd (Nat.zero_le _))
    obtain ⟨post, r2, hd2, hpost, hstop⟩ := span_at isWhitespace isWhitespace_NUL s
      (0 + pre.length + lex.length)
    have hl2 := drop_skip_le hd2 hl1
    have hr2 := drop_skip hd2
    rw [finish_false hc v tok2 hch hpost hd2 hl1 hstop (by omega)]
    by_cases hp : peek s (0 + pre.length + lex.length + post.length) = NUL
    · left
      rw [if_pos hp]
      have hlen : 0 + pre.length + lex.length + post.length = s.length := by
        by_contra hne
        exact peek_lt_ne_NUL hc (show 0 + pre.length + lex.length + post.length < s.length by
          omega) hp
      have hr2nil : r2 = [] := by
        rw [← hr2, hlen]
        exact List.drop_length s
      refine ⟨pre, lex, post, v, tok2, hpre, hpost, hden, ?_, ?_⟩
      · have h0 : s = pre ++ (lex ++ r) := by simpa using hd
        rw [h0, ← hd1, hd2, hr2nil]
        simp
      · rw [hlen]
    · right
      rw [if_neg hp]
      exact ⟨0 + pre.length + lex.length + post.length, tok2, Nat.zero_le _, hl2, rfl⟩
  · right
    exact hthr.andThen _

/-- The parser accepts `ws lexeme ws` and returns what the lexeme denotes. -/
theorem Parse_fwd {D : Type} (atof : List Char → D) {s pre lex post : List Char} {v : Json D}
    (hc : CStr s) (hs : s = pre ++ (lex ++ post)) (hpre : Ws pre) (hpost : Ws post)
    (hden : Denotes atof lex v) :
    ∃ tok, Parse atof s = .ok v (cur s (s.length + 1) NUL tok) := by
  have hlen : s.length = pre.length + lex.length + post.length := by
    rw [hs]; simp; omega
  have hd : s.drop 0 = pre ++ (lex ++ post) := by simpa using hs
  have hd1 := drop_skip (drop_skip hd)
  have hl1 := drop_skip_le (drop_skip hd) (drop_skip_le hd (Nat.zero_le _))
  have hnf : NumFollow (peek s (0 + pre.length + lex.length)) := by
    cases post with
    | nil =>
      rw [peek_ge (by simp at hlen; omega)]
      exact StopChar_NUL.2
    | cons c t =>
      rw [peek_of_drop_cons hd1]
      exact NumFollow_of_ws (hpost c (List.mem_cons_self _ _))
  obtain ⟨ch2, tok2, hch, heq⟩ := hden.consumerRuns s hc (s.length + 1) 0 ' ' [] pre post hpre
    hd (Nat.zero_le _) hnf (by omega)
  have hpk : peek s (0 + pre.length + lex.length + post.length) = NUL := peek_ge (by omega)
  have hfin := finish_false hc v tok2 hch hpost (r := []) (by simpa using hd1) hl1
    (by rw [hpk]; exact isWhitespace_NUL) (show post.length < s.length + 1 + 1 by omega)
  refine ⟨tok2, ?_⟩
  rw [Parse_eq, heq]
  simp only [andThen_ok]
  rw [hfin, if_pos hpk]
  exact congrArg _ (cur_congr (by omega) rfl)

/-- After `ws lexeme ws`, a character that is not whitespace is an unexpected token. -/
theorem Parse_trailing {D : Type} (atof : List Char → D) {s pre lex post t : List Char}
    {c : Char} {v : Json D} (hc : CStr s) (hs : s = pre ++ (lex ++ (post ++ c :: t)))
    (hpre : Ws pre) (hpost : Ws post) (hden : Denotes atof lex v)
    (hcw : isWhitespace c = false) (hnf : post = [] → NumFollow c) :
    ∃ tok, Parse atof s =
      .thrown (.UnexpectedToken c ((pre.length + lex.length + post.length : Nat) : Int))
        (cur s (pre.length + lex.length + post.length + 1) c tok) := by
  have hd : s.drop 0 = pre ++ (lex ++ (post ++ c :: t)) := by simpa using hs
  have hd1 := drop_skip (drop_skip hd)
  have hl1 := drop_skip_le (drop_skip hd) (drop_skip_le hd (Nat.zero_le _))
  have hd2 := drop_skip hd1
  have hl2 := drop_skip_le hd1 hl1
  have hpc : peek s (0 + pre.length + lex.length + post.length) = c := peek_of_drop_cons hd2
  have hlt := drop_lt hd2
  have hcn : c ≠ NUL := by rw [← hpc]; exact peek_lt_ne_NUL hc hlt
  have hnf2 : NumFollow (peek s (0 + pre.length + lex.length)) := by
    cases post with
    | nil =>
      simp only [List.length_nil, Nat.add_zero] at hpc
      rw [hpc]
      exact hnf rfl
    | cons c2 t2 =>
      rw [peek_of_drop_cons hd1]
      exact NumFollow_of_ws (hpost c2 (List.mem_cons_self _ _))
  obtain ⟨ch2, tok2, hch, heq⟩ := hden.consumerRuns s hc (s.length + 1) 0 ' ' [] pre
    (post ++ c :: t) hpre hd (Nat.zero_le _) hnf2 (by omega)
  have hfin := finish_false hc v tok2 hch hpost hd1 hl1 (by rw [hpc]; exact hcw)
    (show post.length < s.length + 1 + 1 by omega)
  refine ⟨tok2, ?_⟩
  rw [Parse_eq, heq]
  simp only [andThen_ok]
  rw [hfin, hpc, if_neg hcn]
  simp

theorem Element.toText_text {D : Type} (e : Element D) : e.toText.text = e.text := rfl

theorem Member.toText_pair_text {D : Type} (m : Member D) : m.toText.text = m.text := rfl

theorem map_toText_text {D : Type} (l : List (Element D)) :
    (l.map Element.toText).map ElementText.text = l.map Element.text := by
  simp [List.map_map, Function.comp_def, Element.toText_text]

theorem map_member_toText_text {D : Type} (l : List (Member D)) :
    (l.map Member.toText).map PairText.text = l.map Member.text := by
  simp [List.map_map, Function.comp_def, Member.toText_pair_text]

theorem Denotes.jsonValue {D : Type} {atof : List Char → D} {lex : List Char} {v : Json D}
    (h : Denotes atof lex v) : JsonValue lex := by
  induction h with
  | number t hn => exact JsonValue.number t hn
  | string b hb => exact JsonValue.string b hb
  | true_ => exact JsonValue.true_
  | false_ => exact JsonValue.false_
  | null => exact JsonValue.null
  | emptyArray w hw => exact JsonValue.emptyArray w hw
  | array first rest hws _ ih =>
    have := JsonValue.array first.toText (rest.map Element.toText)
      (by
        intro e he
        rw [← List.map_cons] at he
        obtain ⟨x, hx, rfl⟩ := List.mem_map.mp he
        exact hws x hx)
      (by
        intro e he
        rw [← List.map_cons] at he
        obtain ⟨x, hx, rfl⟩ := List.mem_map.mp he
        exact ih x hx)
    rw [map_toText_text, Element.toText_text] at this
    exact this
  | emptyObject w hw => exact JsonValue.emptyObject w hw
  | object first rest hws _ ih =>
    have := JsonValue.object first.toText (rest.map Member.toText)
      (by
        intro e he
        rw [← List.map_cons] at he
        obtain ⟨x, hx, rfl⟩ := List.mem_map.mp he
        exact hws x hx)
      (by
        intro e he
        rw [← List.map_cons] at he
        obtain ⟨x, hx, rfl⟩ := List.mem_map.mp he
        exact ih x hx)
    rw [map_member_toText_text, Member.toText_pair_text] at this
    exact this

theorem lift_elements {D : Type} (atof : List Char → D) (l : List ElementText) :
    (∀ e ∈ l, ∃ v, Denotes atof e.lex v) →
    ∃ l2 : List (Element D), l2.map Element.toText = l ∧ ∀ e ∈ l2, Denotes atof e.lex e.val := by
  induction l with
  | nil => intro _; exact ⟨[], rfl, by simp⟩
  | cons e l ih =>
    intro h
    obtain ⟨v, hv⟩ := h e (List.mem_cons_self _ _)
    obtain ⟨l2, h1, h2⟩ := ih (fun x hx => h x (List.mem_cons_of_mem _ hx))
    refine ⟨⟨e.pre, e.lex, e.post, v⟩ :: l2, by simp [Element.toText, h1], ?_⟩
    intro x hx
    rcases List.mem_cons.mp hx with rfl | hx
    · exact hv
    · exact h2 x hx

theorem lift_members {D : Type} (atof : List Char → D) (l : List PairText) :
    (∀ m ∈ l, ∃ v, Denotes atof m.elem.lex v) →
    ∃ l2 : List (Member D), l2.map Member.toText = l ∧
      ∀ m ∈ l2, Denotes atof m.elem.lex m.elem.val := by
  induction l with
  | nil => intro _; exact ⟨[], rfl, by simp⟩
  | cons e l ih =>
    intro h
    obtain ⟨v, hv⟩ := h e (List.mem_cons_self _ _)
    obtain ⟨l2, h1, h2⟩ := ih (fun x hx => h x (List.mem_cons_of_mem _ hx))
    refine ⟨⟨e.kpre, e.key, e.kpost, ⟨e.elem.pre, e.elem.lex, e.elem.post, v⟩⟩ :: l2,
      by simp [Member.toText, Element.toText, h1], ?_⟩
    intro x hx
    rcases List.mem_cons.mp hx with rfl | hx
    · exact hv
    · exact h2 x hx

theorem JsonValue.denotes {D : Type} (atof : List Char → D) {lex : List Char}
    (h : JsonValue lex) : ∃ v, Denotes atof lex v := by
  induction h with
  | number t hn => exact ⟨_, Denotes.number t hn⟩
  | string b hb => exact ⟨_, Denotes.string b hb⟩
  | true_ => exact ⟨_, Denotes.true_⟩
  | false_ => exact ⟨_, Denotes.false_⟩
  | null => exact ⟨_, Denotes.null⟩
  | emptyArray w hw => exact ⟨_, Denotes.emptyArray w hw⟩
  | array first rest hws _ ih =>
    obtain ⟨l2, h1, h2⟩ := lift_elements atof (first :: rest) ih
    cases l2 with
    | nil => cases h1
    | cons f r =>
      simp only [List.map_cons, List.cons.injEq] at h1
      obtain ⟨hf, hr⟩ := h1
      subst hf hr
      have := Denotes.array f r
        (fun e he => hws e.toText (by
          rw [← List.map_cons]
          exact List.mem_map_of_mem _ he)) h2
      rw [map_toText_text, Element.toText_text]
      exact ⟨_, this⟩
  | emptyObject w hw => exact ⟨_, Denotes.emptyObject w hw⟩
  | object first rest hws _ ih =>
    obtain ⟨l2, h1, h2⟩ := lift_members atof (first :: rest) ih
    cases l2 with
    | nil => cases h1
    | cons f r =>
      simp only [List.map_cons, List.cons.injEq] at h1
      obtain ⟨hf, hr⟩ := h1
      subst hf hr
      have := Denotes.object f r
        (fun e he => hws e.toText (by
          rw [← List.map_cons]
          exact List.mem_map_of_mem _ he)) h2
      rw [map_member_toText_text, Member.toText_pair_text]
      exact ⟨_, this⟩

/-- C1. For every C string `s`, `Json::Parse(s)` succeeds if and only if `s` is optional
whitespace, exactly one value of the grammar `Value := Number | String | Bool | Null |
Object | Array` (with the Object, Array and Pair productions and whitespace allowed around
every value and structural token), optional whitespace and the end of the input; every
other input fails with an `UnexpectedTokenException` (the SyntaxError). -/
theorem C1_parse_accepts_exactly_the_grammar {D : Type} (atof : List Char → D)
    (s : List Char) (hs : CStr s) :
    ((∃ v st, Parse atof s = .ok v st) ↔ JsonText s) ∧
    (¬ JsonText s → ∃ ch pos st, Parse atof s = .thrown (.UnexpectedToken ch pos) st) := by
  rcases Parse_back atof hs with ⟨pre, lex, post, v, tok, hpre, hpost, hden, hsplit, heq⟩ | hthr
  · have hj : JsonText s := ⟨pre, lex, post, hsplit, hpre, hpost, hden.jsonValue⟩
    exact ⟨⟨fun _ => hj, fun _ => ⟨v, _, heq⟩⟩, fun h => absurd hj h⟩
  · refine ⟨⟨fun ⟨v, st, h⟩ => (hthr.not_ok h).elim, ?_⟩, ?_⟩
    · rintro ⟨pre, lex, post, hsplit, hpre, hpost, hj⟩
      obtain ⟨v, hden⟩ := hj.denotes atof
      obtain ⟨tok, heq⟩ := Parse_fwd atof hs hsplit hpre hpost hden
      exact ⟨v, _, heq⟩
    · intro _
      obtain ⟨p, tok, -, -, heq⟩ := hthr
      exact ⟨_, _, _, heq⟩

/-- A witness for C1: the text ` [1, {"a": null}] ` is a C string. -/
theorem C1_witness :
    CStr [' ', '[', '1', ',', ' ', '{', dquote, 'a', dquote, ':', ' ', 'n', 'u', 'l', 'l', '}',
      ']', ' '] ∧
    (((∃ v st, Parse (fun t => t)
        [' ', '[', '1', ',', ' ', '{', dquote, 'a', dquote, ':', ' ', 'n', 'u', 'l', 'l', '}',
          ']', ' '] = .ok v st) ↔
      JsonText [' ', '[', '1', ',', ' ', '{', dquote, 'a', dquote, ':', ' ', 'n', 'u', 'l', 'l',
        '}', ']', ' ']) ∧
    (¬ JsonText [' ', '[', '1', ',', ' ', '{', dquote, 'a', dquote, ':', ' ', 'n', 'u', 'l', 'l',
        '}', ']', ' '] →
      ∃ ch pos st, Parse (fun t => t)
        [' ', '[', '1', ',', ' ', '{', dquote, 'a', dquote, ':', ' ', 'n', 'u', 'l', 'l', '}',
          ']', ' '] = .thrown (.UnexpectedToken ch pos) st)) :=
  ⟨by unfold CStr; decide,
    C1_parse_accepts_exactly_the_grammar (fun t => t) _ (by unfold CStr; decide)⟩

theorem Ws.nil_of_not_ws {w s : List Char} (hw : Ws w) (hs : ∀ c ∈ s, isWhitespace c = false)
    (hsub : ∀ c ∈ w, c ∈ s) : w = [] := by
  cases w with
  | nil => rfl
  | cons c t =>
    have h1 := hw c (List.mem_cons_self _ _)
    have h2 := hs c (hsub c (List.mem_cons_self _ _))
    rw [h1] at h2
    cases h2

theorem Denotes.number_inv {D : Type} {atof : List Char → D} {lex : List Char} {d : D}
    (h : Denotes atof lex (.number d)) : NumberLex lex ∧ d = atof lex := by
  cases h with
  | number t hn => exact ⟨hn, rfl⟩

/-- A number lexeme alone is parsed as the Number converted from exactly that lexeme. -/
theorem Parse_number {D : Type} (atof : List Char → D) {s : List Char} (hc : CStr s)
    (hn : NumberLex s) :
    Parse atof s = .ok (.number (atof s)) (cur s (s.length + 1) NUL s) := by
  obtain ⟨c, t, hs, hcc⟩ := hn.first
  obtain ⟨hkind, hws, -, -, -⟩ := head_number_facts hcc
  have hd0 : s.drop 0 = c :: t := by simpa using hs
  have hp : peek s 0 = c := peek_of_drop_cons hd0
  have hsk : SkipWhitespaces (s.length + 1 + 1) (cur s 0 ' ' []) = .ok () (cur s 0 c []) := by
    have := SkipWhitespaces_cur hc [] (s.length + 1 + 1) 0 ' ' [] s
      (by intro x hx; cases hx) (by simp) (Nat.zero_le _) (by simpa [hp] using hws) (by simp)
    simpa [hp] using this
  have hpk : peek s s.length = NUL := peek_ge (Nat.le_refl _)
  have hnum : ConsumeNumber atof (s.length + 1 + 1) (cur s 0 ' ' []) =
      .ok (Json.number (atof s)) (cur s s.length ' ' s) := by
    have := ConsumeNumber_fwd atof hc (r := []) (i := 0) ' ' []
      hn (show s.drop 0 = s ++ [] by simp) (Nat.zero_le _)
      (by simpa [hpk] using StopChar_NUL.2) (show s.length ≤ s.length + 1 + 1 by omega)
    simpa using this
  have hfin : ConsumeValue.finish (s.length + 1 + 1) false (Json.number (atof s))
      (cur s s.length ' ' s) = .ok (Json.number (atof s)) (cur s (s.length + 1) NUL s) := by
    have := finish_false hc (Json.number (atof s)) (r := [])
      (j := s.length) s (show (' ' : Char) ≠ NUL by decide)
      (show Ws [] by intro x hx; cases hx) (by simp) (Nat.le_refl _)
      (by simpa [hpk] using isWhitespace_NUL)
      (show ([] : List Char).length < s.length + 1 + 1 by simp)
    simpa [hpk] using this
  rw [Parse_eq]
  simp only [ConsumeValue.consumer, hsk, andThen_ok, KindDetect_cur hc (Nat.zero_le _), hp,
    hkind, hnum, hfin]

/-- C2. For every C string `s` without whitespace, `Json::Parse(s)` succeeds with a Number
if and only if `s` is: optional `-`, then the single digit `0` or a non-zero digit followed
by any digits, then optionally `.` and one or more digits, then optionally `e` or `E` with
an optional sign and one or more digits; the token handed to the numeric conversion is
exactly `s`.  In particular `00`, `007` and `1.` fail with a SyntaxError and `-0.5e+3`
succeeds. -/
theorem C2_number_lexeme {D : Type} (atof : List Char → D) :
    (∀ s : List Char, CStr s → (∀ c ∈ s, isWhitespace c = false) →
      (((∃ d st, Parse atof s = .ok (.number d) st) ↔ NumberLex s) ∧
        (NumberLex s → ∃ st, Parse atof s = .ok (.number (atof s)) st ∧ st.token = s))) ∧
    (∃ ch pos st, Parse atof ['0', '0'] = .thrown (.UnexpectedToken ch pos) st) ∧
    (∃ ch pos st, Parse atof ['0', '0', '7'] = .thrown (.UnexpectedToken ch pos) st) ∧
    (∃ ch pos st, Parse atof ['1', '.'] = .thrown (.UnexpectedToken ch pos) st) ∧
    (∃ st, Parse atof ['-', '0', '.', '5', 'e', '+', '3'] =
      .ok (.number (atof ['-', '0', '.', '5', 'e', '+', '3'])) st) := by
  refine ⟨?_, ⟨_, _, _, rfl⟩, ⟨_, _, _, rfl⟩, ⟨_, _, _, rfl⟩, ⟨_, rfl⟩⟩
  intro s hc hnw
  have hfwd : NumberLex s → ∃ st, Parse atof s = .ok (.number (atof s)) st ∧ st.token = s :=
    fun hn => ⟨_, Parse_number atof hc hn, rfl⟩
  refine ⟨⟨?_, fun hn => ?_⟩, hfwd⟩
  · rintro ⟨d, st, h⟩
    rcases Parse_back atof hc with ⟨pre, lex, post, v, tok, hpre, hpost, hden, hsplit, heq⟩ | hthr
    · rw [h] at heq
      injection heq with hv _
      subst hv
      have hpre0 : pre = [] := Ws.nil_of_not_ws hpre hnw (fun c hc => by rw [hsplit]; simp [hc])
      have hpost0 : post = [] :=
        Ws.nil_of_not_ws hpost hnw (fun c hc => by rw [hsplit]; simp [hc])
      have hl : s = lex := by rw [hsplit, hpre0, hpost0]; simp
      rw [hl]
      exact hden.number_inv.1
    · exact (hthr.not_ok h).elim
  · obtain ⟨st, h, -⟩ := hfwd hn
    exact ⟨_, st, h⟩

/-- A witness for C2: the lexeme `-12.50E-3` has no whitespace and is a number. -/
theorem C2_witness :
    CStr ['-', '1', '2', '.', '5', '0', 'E', '-', '3'] ∧
    (∀ c ∈ ['-', '1', '2', '.', '5', '0', 'E', '-', '3'], isWhitespace c = false) ∧
    (((∃ d st, Parse (fun t => t) ['-', '1', '2', '.', '5', '0', 'E', '-', '3'] =
        .ok (.number d) st) ↔ NumberLex ['-', '1', '2', '.', '5', '0', 'E', '-', '3']) ∧
      (NumberLex ['-', '1', '2', '.', '5', '0', 'E', '-', '3'] →
        ∃ st, Parse (fun t => t) ['-', '1', '2', '.', '5', '0', 'E', '-', '3'] =
          .ok (.number ['-', '1', '2', '.', '5', '0', 'E', '-', '3']) st ∧
          st.token = ['-', '1', '2', '.', '5', '0', 'E', '-', '3'])) :=
  ⟨by unfold CStr; decide, by decide,
    (C2_number_lexeme (fun t => t)).1 _ (by unfold CStr; decide) (by decide)⟩

theorem CStr_quoted {body : List Char} (hc : CStr body) : CStr (dquote :: (body ++ [dquote])) := by
  intro c hcm
  rcases List.mem_cons.mp hcm with rfl | hcm
  · decide
  · rcases List.mem_append.mp hcm with h | h
    · exact hc c h
    · rw [List.mem_singleton.mp h]; decide

theorem append_quote_inj {a b p : List Char}
    (h : a ++ [dquote] = b ++ dquote :: p) (hp : Ws p) : p = [] ∧ a = b := by
  rcases List.eq_nil_or_concat p with rfl | ⟨p2, y, rfl⟩
  · exact ⟨rfl, List.append_cancel_right h⟩
  · exfalso
    have h2 : a ++ [dquote] = (b ++ dquote :: p2) ++ [y] := by rw [h]; simp
    have h3 := List.append_inj_right' h2 rfl
    injection h3 with h4 _
    have h5 := hp y (by simp)
    rw [← h4] at h5
    exact absurd h5 (by decide)

theorem Denotes.dquote_inv {D : Type} {atof : List Char → D} {t : List Char} {v : Json D}
    (h : Denotes atof (dquote :: t) v) :
    ∃ b, t = b ++ [dquote] ∧ StringBody b ∧ v = .string b := by
  generalize hl : dquote :: t = l at h
  cases h with
  | number t2 hn =>
    obtain ⟨c, t3, rfl, hcc⟩ := hn.first
    injection hl with h1 _
    subst h1
    rcases hcc with h | h
    · exact absurd h (by decide)
    · exact absurd h (by decide)
  | string b hb =>
    injection hl with _ h2
    exact ⟨b, h2, hb, rfl⟩
  | true_ => injection hl with h1 _; exact absurd h1 (by decide)
  | false_ => injection hl with h1 _; exact absurd h1 (by decide)
  | null => injection hl with h1 _; exact absurd h1 (by decide)
  | emptyArray w _ => injection hl with h1 _; exact absurd h1 (by decide)
  | array first rest _ _ => injection hl with h1 _; exact absurd h1 (by decide)
  | emptyObject w _ => injection hl with h1 _; exact absurd h1 (by decide)
  | object first rest _ _ => injection hl with h1 _; exact absurd h1 (by decide)

/-- A successful parse of a quoted text returns the String whose text is the body. -/
theorem Parse_quoted_ok {D : Type} (atof : List Char → D) {body : List Char} (hc : CStr body)
    {v : Json D} {st : Assist} (h : Parse atof (dquote :: (body ++ [dquote])) = .ok v st) :
    v = .string body ∧ StringBody body := by
  rcases Parse_back atof (CStr_quoted hc) with
    ⟨pre, lex, post, v2, tok, hpre, hpost, hden, hsplit, heq⟩ | hthr
  · rw [h] at heq
    injection heq with hv _
    subst hv
    have hpre0 : pre = [] := by
      cases pre with
      | nil => rfl
      | cons c t =>
        exfalso
        injection hsplit with h1 _
        have := hpre c (List.mem_cons_self _ _)
        rw [← h1] at this
        exact absurd this (by decide)
    subst hpre0
    obtain ⟨c, t, rfl, -⟩ := hden.head
    simp only [List.nil_append, List.cons_append] at hsplit
    injection hsplit with h1 h2
    subst h1
    obtain ⟨b, rfl, hb, rfl⟩ := hden.dquote_inv
    have h3 : body ++ [dquote] = b ++ dquote :: post := by rw [h2]; simp
    obtain ⟨-, hb2⟩ := append_quote_inj h3 hpost
    subst hb2
    exact ⟨rfl, hb⟩
  · exact (hthr.not_ok h).elim

/-- A quoted string body is parsed as the String with that body as its text. -/
theorem Parse_quoted_fwd {D : Type} (atof : List Char → D) {body : List Char} (hc : CStr body)
    (hb : StringBody body) :
    ∃ st, Parse atof (dquote :: (body ++ [dquote])) = .ok (.string body) st := by
  obtain ⟨tok, h⟩ := Parse_fwd atof (CStr_quoted hc)
    (show dquote :: (body ++ [dquote]) = [] ++ ((dquote :: (body ++ [dquote])) ++ []) by simp)
    (by intro x hx; cases hx) (by intro x hx; cases hx) (Denotes.string body hb)
  exact ⟨_, h⟩

/-- C3. For every text `"body"` with nothing around it, `Json::Parse` succeeds with a
String if and only if the body is a sequence of items, each an unescaped character that is
not a control character, a quote or a backslash, or a backslash followed by one of
`" \ / b f n r t`, or a backslash, `u` and exactly four hexadecimal digits; with any other
body (another character after a backslash, an unescaped control character, a missing
closing quote) `Parse` fails with a SyntaxError. -/
theorem C3_string_literal {D : Type} (atof : List Char → D) (body : List Char)
    (hc : CStr body) :
    ((∃ b st, Parse atof (dquote :: (body ++ [dquote])) = .ok (.string b) st) ↔
      StringBody body) ∧
    (¬ StringBody body →
      ∃ ch pos st, Parse atof (dquote :: (body ++ [dquote])) =
        .thrown (.UnexpectedToken ch pos) st) := by
  refine ⟨⟨fun ⟨b, st, h⟩ => (Parse_quoted_ok atof hc h).2, fun hb => ?_⟩, fun hnb => ?_⟩
  · obtain ⟨st, h⟩ := Parse_quoted_fwd atof hc hb
    exact ⟨body, st, h⟩
  · rcases Parse_back atof (CStr_quoted hc) with
      ⟨pre, lex, post, v2, tok, hpre, hpost, hden, hsplit, heq⟩ | hthr
    · exact absurd (Parse_quoted_ok atof hc heq).2 hnb
    · obtain ⟨p, tok, -, -, heq⟩ := hthr
      exact ⟨_, _, _, heq⟩

/-- A witness for C3: the body `\n\u0041x` holds no NUL. -/
theorem C3_witness :
    CStr [bslash, 'n', bslash, 'u', '0', '0', '4', '1', 'x'] ∧
    (((∃ b st, Parse (fun t => t)
        (dquote :: ([bslash, 'n', bslash, 'u', '0', '0', '4', '1', 'x'] ++ [dquote])) =
          .ok (.string b) st) ↔
      StringBody [bslash, 'n', bslash, 'u', '0', '0', '4', '1', 'x']) ∧
    (¬ StringBody [bslash, 'n', bslash, 'u', '0', '0', '4', '1', 'x'] →
      ∃ ch pos st, Parse (fun t => t)
        (dquote :: ([bslash, 'n', bslash, 'u', '0', '0', '4', '1', 'x'] ++ [dquote])) =
          .thrown (.UnexpectedToken ch pos) st)) :=
  ⟨by unfold CStr; decide, C3_string_literal (fun t => t) _ (by unfold CStr; decide)⟩

/-- C4 (what the code does). For every string literal `"body"` that `Json::Parse`
accepts, the result is the String whose stored text is the body as written (an escape such
as `\n` or `\u0041` is kept as the backslash sequence, not decoded), and the stream `oss`
of `ToString` holds the literal again at the `return`.  What `ToString` returns is
`oss.str().c_str()`, a pointer into a temporary that is destroyed before the caller has
it, so that no read of the text of that value is defined. -/
theorem C4_string_text_kept {D : Type} (atof : List Char → D) (dtoa : D → List Char) :
    (∀ (body : List Char), CStr body → ∀ (v : Json D) (st : Assist),
      Parse atof (dquote :: (body ++ [dquote])) = .ok v st →
      v = .string body ∧ Json.ToString.oss dtoa v = some (dquote :: (body ++ [dquote])) ∧
      Json.ToString.returned dtoa v = some CharPtr.dangling ∧
      (Json.ToString.returned dtoa v).bind CharPtr.read = none) ∧
    (∃ st, Parse atof [dquote, bslash, 'n', bslash, 'u', '0', '0', '4', '1', dquote] =
      .ok (.string [bslash, 'n', bslash, 'u', '0', '0', '4', '1']) st) := by
  refine ⟨?_, ⟨_, rfl⟩⟩
  intro body hc v st h
  obtain ⟨hv, -⟩ := Parse_quoted_ok atof hc h
  subst hv
  exact ⟨rfl, by simp [Json.ToString.oss], rfl, rfl⟩

/-- A witness for C4: the literal `"a\tb"` is accepted. -/
theorem C4_witness :
    CStr ['a', bslash, 't', 'b'] ∧
    Parse (fun t => t) (dquote :: (['a', bslash, 't', 'b'] ++ [dquote])) =
      .ok (.string ['a', bslash, 't', 'b'])
        (cur (dquote :: (['a', bslash, 't', 'b'] ++ [dquote])) 7 NUL ['a', bslash, 't', 'b']) ∧
    ((Json.string ['a', bslash, 't', 'b'] : Json (List Char)) = .string ['a', bslash, 't', 'b'] ∧
      Json.ToString.oss (fun t => t) (Json.string ['a', bslash, 't', 'b'] : Json (List Char)) =
        some (dquote :: (['a', bslash, 't', 'b'] ++ [dquote])) ∧
      Json.ToString.returned (fun t => t)
        (Json.string ['a', bslash, 't', 'b'] : Json (List Char)) = some CharPtr.dangling ∧
      (Json.ToString.returned (fun t => t)
        (Json.string ['a', bslash, 't', 'b'] : Json (List Char))).bind CharPtr.read = none) :=
  ⟨by unfold CStr; decide, rfl,
    (C4_string_text_kept (fun t => t) (fun t => t)).1 ['a', bslash, 't', 'b']
      (by unfold CStr; decide) _ _ rfl⟩

theorem ws_prefix_unique : ∀ (a b : List Char) {x y : Char} {r r2 : List Char},
    Ws a → Ws b → isWhitespace x = false → isWhitespace y = false →
    a ++ x :: r = b ++ y :: r2 → a = b ∧ x = y ∧ r = r2 := by
  intro a
  induction a with
  | nil =>
    intro b x y r r2 _ hb hx _ h
    cases b with
    | nil =>
      simp only [List.nil_append] at h
      injection h with h1 h2
      exact ⟨rfl, h1, h2⟩
    | cons c t =>
      exfalso
      simp only [List.nil_append, List.cons_append] at h
      injection h with h1 _
      have := hb c (List.mem_cons_self _ _)
      rw [← h1, hx] at this
      cases this
  | cons c t ih =>
    intro b x y r r2 ha hb hx hy h
    cases b with
    | nil =>
      exfalso
      simp only [List.nil_append, List.cons_append] at h
      injection h with h1 _
      have := ha c (List.mem_cons_self _ _)
      rw [h1, hy] at this
      cases this
    | cons c2 t2 =>
      simp only [List.cons_append] at h
      injection h with h1 h2
      obtain ⟨h3, h4, h5⟩ := ih t2 (fun z hz => ha z (List.mem_cons_of_mem _ hz))
        (fun z hz => hb z (List.mem_cons_of_mem _ hz)) hx hy h2
      exact ⟨by rw [h1, h3], h4, h5⟩

theorem Denotes.literal_inv {D : Type} {atof : List Char → D} {c : Char} {t : List Char}
    {v : Json D} (h : Denotes atof (c :: t) v) (hc : c = 't' ∨ c = 'f' ∨ c = 'n') :
    (c :: t = ['t', 'r', 'u', 'e'] ∧ v = .bool true) ∨
    (c :: t = ['f', 'a', 'l', 's', 'e'] ∧ v = .bool false) ∨
    (c :: t = ['n', 'u', 'l', 'l'] ∧ v = .null) := by
  have hcd : isdigit c = false ∧ c ≠ '-' ∧ c ≠ dquote ∧ c ≠ '[' ∧ c ≠ '{' := by
    rcases hc with rfl | rfl | rfl <;> decide
  generalize hl : c :: t = l at h
  cases h with
  | number t2 hn =>
    obtain ⟨c2, t3, rfl, hcc⟩ := hn.first
    injection hl with h1 _
    subst h1
    rcases hcc with h | h
    · exact absurd h hcd.2.1
    · rw [hcd.1] at h; cases h
  | string b hb => injection hl with h1 _; exact absurd h1 hcd.2.2.1
  | true_ => exact Or.inl ⟨rfl, rfl⟩
  | false_ => exact Or.inr (Or.inl ⟨rfl, rfl⟩)
  | null => exact Or.inr (Or.inr ⟨rfl, rfl⟩)
  | emptyArray w _ => injection hl with h1 _; exact absurd h1 hcd.2.2.2.1
  | array first rest _ _ => injection hl with h1 _; exact absurd h1 hcd.2.2.2.1
  | emptyObject w _ => injection hl with h1 _; exact absurd h1 hcd.2.2.2.2
  | object first rest _ _ => injection hl with h1 _; exact absurd h1 hcd.2.2.2.2

/-- C5. `Parse("true")` is Bool true, `Parse("false")` is Bool false, `Parse("null")` is
Null; and for every C string whose first character after the leading whitespace is `t`,
`f` or `n`, `Parse` succeeds exactly when the text is one of the literals `true`, `false`,
`null` surrounded by optional whitespace (with the value of that literal), and otherwise
fails with a SyntaxError. -/
theorem C5_literals {D : Type} (atof : List Char → D) :
    (∃ st, Parse atof ['t', 'r', 'u', 'e'] = .ok (.bool true) st) ∧
    (∃ st, Parse atof ['f', 'a', 'l', 's', 'e'] = .ok (.bool false) st) ∧
    (∃ st, Parse atof ['n', 'u', 'l', 'l'] = .ok .null st) ∧
    (∀ (s pre : List Char) (c : Char) (rest : List Char), CStr s → s = pre ++ c :: rest →
      Ws pre → (c = 't' ∨ c = 'f' ∨ c = 'n') →
      (∀ v, (∃ st, Parse atof s = .ok v st) ↔ IsLiteralText pre s v) ∧
      ((¬ ∃ v : Json D, IsLiteralText pre s v) →
        ∃ ch pos st, Parse atof s = .thrown (.UnexpectedToken ch pos) st)) := by
  refine ⟨⟨_, rfl⟩, ⟨_, rfl⟩, ⟨_, rfl⟩, ?_⟩
  intro s pre c rest hcs hs hpre hc
  have hcw : isWhitespace c = false := by rcases hc with rfl | rfl | rfl <;> decide
  have key : ∀ v st, Parse atof s = .ok v st → IsLiteralText pre s v := by
    intro v st h
    rcases Parse_back atof hcs with
      ⟨pre2, lex, post, v2, tok, hpre2, hpost, hden, hsplit, heq⟩ | hthr
    · rw [h] at heq
      injection heq with hv _
      subst hv
      obtain ⟨c2, t2, rfl, hc2w, -⟩ := hden.head
      have h1 : pre ++ c :: rest = pre2 ++ c2 :: (t2 ++ post) := by
        rw [← hs, hsplit]; simp
      obtain ⟨hp, hcc, -⟩ := ws_prefix_unique pre pre2 hpre hpre2 hcw hc2w h1
      subst hp hcc
      refine ⟨post, hpost, ?_⟩
      rcases hden.literal_inv hc with ⟨hl, hv⟩ | ⟨hl, hv⟩ | ⟨hl, hv⟩
      · exact Or.inl ⟨by rw [hsplit, hl], hv⟩
      · exact Or.inr (Or.inl ⟨by rw [hsplit, hl], hv⟩)
      · exact Or.inr (Or.inr ⟨by rw [hsplit, hl], hv⟩)
    · exact (hthr.not_ok h).elim
  refine ⟨fun v => ⟨fun ⟨st, h⟩ => key v st h, ?_⟩, fun hno => ?_⟩
  · rintro ⟨post, hpost, h | h | h⟩
    · obtain ⟨tok, hp⟩ := Parse_fwd atof hcs h.1 hpre hpost (@Denotes.true_ D atof)
      exact ⟨_, by rw [h.2]; exact hp⟩
    · obtain ⟨tok, hp⟩ := Parse_fwd atof hcs h.1 hpre hpost (@Denotes.false_ D atof)
      exact ⟨_, by rw [h.2]; exact hp⟩
    · obtain ⟨tok, hp⟩ := Parse_fwd atof hcs h.1 hpre hpost (@Denotes.null D atof)
      exact ⟨_, by rw [h.2]; exact hp⟩
  · rcases Parse_back atof hcs with
      ⟨pre2, lex, post, v2, tok, hpre2, hpost, hden, hsplit, heq⟩ | hthr
    · exact absurd ⟨v2, key v2 _ heq⟩ hno
    · obtain ⟨p, tok, -, -, heq⟩ := hthr
      exact ⟨_, _, _, heq⟩

/-- A witness for C5: the text ` true ` starts, after its whitespace, with `t`. -/
theorem C5_witness :
    CStr [' ', 't', 'r', 'u', 'e', ' '] ∧
    [' ', 't', 'r', 'u', 'e', ' '] = [' '] ++ 't' :: ['r', 'u', 'e', ' '] ∧ Ws [' '] ∧
    (('t' : Char) = 't' ∨ ('t' : Char) = 'f' ∨ ('t' : Char) = 'n') ∧
    ((∀ v : Json (List Char), (∃ st, Parse (fun t => t) [' ', 't', 'r', 'u', 'e', ' '] = .ok v st) ↔
        IsLiteralText [' '] [' ', 't', 'r', 'u', 'e', ' '] v) ∧
      ((¬ ∃ v : Json (List Char), IsLiteralText [' '] [' ', 't', 'r', 'u', 'e', ' '] v) →
        ∃ ch pos st, Parse (fun t => t) [' ', 't', 'r', 'u', 'e', ' '] =
          .thrown (.UnexpectedToken ch pos) st)) :=
  ⟨by unfold CStr; decide, rfl, by unfold Ws; decide, Or.inl rfl,
    (C5_literals (fun t => t)).2.2.2 [' ', 't', 'r', 'u', 'e', ' '] [' '] 't'
      ['r', 'u', 'e', ' '] (by unfold CStr; decide) rfl (by unfold Ws; decide) (Or.inl rfl)⟩

theorem CStr_append_ws {s w : List Char} (hs : CStr s) (hw : Ws w) : CStr (s ++ w) := by
  intro c hc
  rcases List.mem_append.mp hc with h | h
  · exact hs c h
  · have := hw c h
    rintro rfl
    rw [isWhitespace_NUL] at this
    cases this

theorem CStr_append {s t : List Char} (hs : CStr s) (ht : CStr t) : CStr (s ++ t) := by
  intro c hc
  rcases List.mem_append.mp hc with h | h
  · exact hs c h
  · exact ht c h

/-- C6. For every C string `s` that `Json::Parse` accepts: (a) for every string `w` of
whitespace, `Parse(s ++ w)` succeeds with the same Value; (b) for every non-empty
whitespace `w` and every non-empty `t` whose first character `c` is not whitespace,
`Parse(s ++ w ++ t)` fails with the SyntaxError that carries `c` and its offset
`length(s) + length(w)`. -/
theorem C6_trailing_content {D : Type} (atof : List Char → D) (s : List Char) (v : Json D)
    (st : Assist) (hs : CStr s) (h : Parse atof s = .ok v st) :
    (∀ w, Ws w → ∃ st2, Parse atof (s ++ w) = .ok v st2) ∧
    (∀ (w : List Char) (c : Char) (t : List Char), w ≠ [] → Ws w → isWhitespace c = false →
      CStr (c :: t) →
      ∃ st2, Parse atof (s ++ (w ++ c :: t)) =
        .thrown (.UnexpectedToken c ((s.length + w.length : Nat) : Int)) st2) := by
  rcases Parse_back atof hs with ⟨pre, lex, post, v2, tok, hpre, hpost, hden, hsplit, heq⟩ | hthr
  · rw [h] at heq
    injection heq with hv _
    subst hv
    constructor
    · intro w hw
      obtain ⟨tok2, hp⟩ := Parse_fwd atof (CStr_append_ws hs hw)
        (show s ++ w = pre ++ (lex ++ (post ++ w)) by rw [hsplit]; simp) hpre
        (Ws.append hpost hw) hden
      exact ⟨_, hp⟩
    · intro w c t hw0 hw hcw hct
      obtain ⟨tok2, hp⟩ := Parse_trailing atof
        (CStr_append hs (CStr_append (fun x hx => by
          have := hw x hx
          rintro rfl
          rw [isWhitespace_NUL] at this
          cases this) hct))
        (show s ++ (w ++ c :: t) = pre ++ (lex ++ ((post ++ w) ++ c :: t)) by
          rw [hsplit]; simp)
        hpre (Ws.append hpost hw) hden hcw
        (by
          intro h0
          exfalso
          cases post with
          | nil => exact hw0 (by simpa using h0)
          | cons a b => cases h0)
      have hl : pre.length + lex.length + (post ++ w).length = s.length + w.length := by
        rw [hsplit]; simp; omega
      rw [hl] at hp
      exact ⟨_, hp⟩
  · exact (hthr.not_ok h).elim

/-- A witness for C6: `[1]` is accepted. -/
theorem C6_witness :
    CStr ['[', '1', ']'] ∧
    Parse (fun t => t) ['[', '1', ']'] =
      .ok (.array [.number ['1']]) (cur ['[', '1', ']'] 4 NUL ['1']) ∧
    ((∀ w, Ws w → ∃ st2, Parse (fun t => t) (['[', '1', ']'] ++ w) =
        .ok (.array [.number ['1']]) st2) ∧
    (∀ (w : List Char) (c : Char) (t : List Char), w ≠ [] → Ws w → isWhitespace c = false →
      CStr (c :: t) →
      ∃ st2, Parse (fun t => t) (['[', '1', ']'] ++ (w ++ c :: t)) =
        .thrown (.UnexpectedToken c ((['[', '1', ']'].length + w.length : Nat) : Int)) st2)) :=
  ⟨by unfold CStr; decide, rfl,
    C6_trailing_content (fun t => t) ['[', '1', ']'] _ _ (by unfold CStr; decide) rfl⟩

theorem Canon.ok {α : Type} (a : α) (st : Assist) : Canon (Outcome.ok a st) := by
  intro e st2 h; cases h

theorem Canon.outOfFuel {α : Type} : Canon (Outcome.outOfFuel : Outcome α) := by
  intro e st2 h; cases h

theorem Canon.unexpectedToken {α : Type} (st : Assist) : Canon (UnexpectedToken st : Outcome α) := by
  intro e st2 h
  unfold UnexpectedToken at h
  injection h with h1 h2
  rw [← h1, ← h2]

theorem Canon.bind {α β : Type} {r : Outcome α} {f : α → Assist → Outcome β}
    (hr : Canon r) (hf : ∀ a st, Canon (f a st)) : Canon (r.andThen f) := by
  cases r with
  | ok a st => exact hf a st
  | thrown e st =>
    intro e2 st2 h
    simp only [andThen_thrown] at h
    injection h with h1 h2
    subst h1 h2
    exact hr e st rfl
  | outOfFuel => exact Canon.outOfFuel

theorem Canon.ite {α : Type} {c : Prop} [Decidable c] {a b : Outcome α}
    (ha : Canon a) (hb : Canon b) : Canon (if c then a else b) := by
  split
  · exact ha
  · exact hb

theorem Canon.rethrow {α : Type} (r : Outcome α) : Canon r.catchRethrow := by
  cases r with
  | ok a st => exact Canon.ok a st
  | thrown e st =>
    intro e2 st2 h
    simp only [Outcome.catchRethrow] at h
    injection h with h1 h2
    rw [← h1, ← h2]
  | outOfFuel => exact Canon.outOfFuel

theorem Canon.catch_eq {α : Type} {r : Outcome α} (h : Canon r) : r.catchRethrow = r := by
  cases r with
  | ok a st => rfl
  | thrown e st =>
    simp only [Outcome.catchRethrow]
    rw [h e st rfl]
  | outOfFuel => rfl

theorem NextCharacter_canon (st : Assist) : Canon (NextCharacter st) := by
  unfold NextCharacter
  exact Canon.ite (Canon.unexpectedToken _) (Canon.ok _ _)

theorem SkipWhitespaces_canon : ∀ (fuel : Nat) (st : Assist), Canon (SkipWhitespaces fuel st) := by
  intro fuel
  induction fuel with
  | zero => intro st; exact Canon.outOfFuel
  | succ n ih =>
    intro st
    unfold SkipWhitespaces
    exact Canon.bind (NextCharacter_canon _) (fun _ _ => Canon.ite (ih _) (Canon.ok _ _))

theorem ConsumeSpecific_canon : ∀ (str : List Char) (st : Assist),
    Canon (ConsumeSpecific str st) := by
  intro str
  induction str with
  | nil => intro st; exact Canon.ok _ _
  | cons c str ih =>
    intro st
    unfold ConsumeSpecific
    exact Canon.bind (NextCharacter_canon _) (fun _ _ => Canon.ite (Canon.unexpectedToken _) (ih _))

theorem digits_canon : ∀ (fuel : Nat) (st : Assist), Canon (ConsumeNumber.digits fuel st) := by
  intro fuel
  induction fuel with
  | zero => intro st; exact Canon.outOfFuel
  | succ n ih =>
    intro st
    unfold ConsumeNumber.digits
    exact Canon.bind (NextCharacter_canon _) (fun _ _ => Canon.ite (Canon.ok _ _) (ih _))

theorem fraction_canon : ∀ (fuel : Nat) (st : Assist),
    Canon (ConsumeNumber.fraction fuel st) := by
  intro fuel
  induction fuel with
  | zero => intro st; exact Canon.outOfFuel
  | succ n ih =>
    intro st
    unfold ConsumeNumber.fraction
    exact Canon.bind (NextCharacter_canon _) (fun _ _ => Canon.ite (Canon.ok _ _) (ih _))

theorem ConsumeNumber_canon {D : Type} (atof : List Char → D) (fuel : Nat) (st : Assist) :
    Canon (ConsumeNumber atof fuel st) := by
  unfold ConsumeNumber
  refine Canon.bind ?_ (fun _ _ => Canon.bind ?_ (fun _ _ => Canon.bind ?_ (fun _ _ =>
    Canon.bind ?_ (fun _ _ => Canon.ok _ _))))
  · unfold ConsumeNumber.sign
    exact Canon.bind (NextCharacter_canon _) (fun _ _ =>
      Canon.ite (Canon.bind (NextCharacter_canon _) (fun _ _ => Canon.ok _ _)) (Canon.ok _ _))
  · unfold ConsumeNumber.integer
    exact Canon.ite (Canon.unexpectedToken _) (Canon.ite (Canon.ok _ _) (digits_canon _ _))
  · unfold ConsumeNumber.point
    exact Canon.bind (NextCharacter_canon _) (fun _ _ =>
      Canon.ite (Canon.unexpectedToken _) (Canon.ite
        (Canon.bind (NextCharacter_canon _) (fun _ _ =>
          Canon.ite (Canon.unexpectedToken _) (fraction_canon _ _))) (Canon.ok _ _)))
  · unfold ConsumeNumber.exponent
    exact Canon.ite
      (Canon.bind (NextCharacter_canon _) (fun _ _ =>
        Canon.bind (Canon.ite (Canon.ok _ _) (Canon.ite (Canon.ok _ _) (Canon.unexpectedToken _)))
          (fun _ _ => Canon.bind (NextCharacter_canon _) (fun _ _ =>
            Canon.ite (Canon.unexpectedToken _) (digits_canon _ _)))))
      (Canon.ok _ _)

theorem hex_canon : ∀ (n : Nat) (st : Assist), Canon (ConsumeString.hex n st) := by
  intro n
  induction n with
  | zero => intro st; exact Canon.ok _ _
  | succ n ih =>
    intro st
    unfold ConsumeString.hex
    exact Canon.bind (NextCharacter_canon _) (fun _ _ => Canon.ite (Canon.unexpectedToken _) (ih _))

theorem stringLoop_canon : ∀ (fuel : Nat) (st : Assist), Canon (ConsumeString.loop fuel st) := by
  intro fuel
  induction fuel with
  | zero => intro st; exact Canon.outOfFuel
  | succ n ih =>
    intro st
    unfold ConsumeString.loop
    refine Canon.bind (NextCharacter_canon _) (fun _ _ => Canon.ite (Canon.ok _ _)
      (Canon.ite (Canon.bind (NextCharacter_canon _) (fun _ _ => Canon.bind ?_ (fun _ _ => ih _)))
        (Canon.ite (Canon.unexpectedToken _) (ih _))))
    unfold ConsumeString.escape
    exact Canon.ite (Canon.ok _ _) (Canon.ite (hex_canon _ _) (Canon.unexpectedToken _))

theorem ConsumeString_canon {D : Type} (fuel : Nat) (st : Assist) :
    Canon (ConsumeString fuel st : Outcome (Json D)) := by
  unfold ConsumeString
  exact Canon.bind (SkipWhitespaces_canon _ _) (fun _ _ =>
    Canon.bind (NextCharacter_canon _) (fun _ _ => Canon.ite (Canon.unexpectedToken _)
      (Canon.bind (stringLoop_canon _ _) (fun _ _ => Canon.ok _ _))))

theorem andThen_eq_ok {α β : Type} {r : Outcome α} {f : α → Assist → Outcome β} {b : β}
    {st2 : Assist} (h : r.andThen f = .ok b st2) : ∃ a st, r = .ok a st ∧ f a st = .ok b st2 := by
  cases r with
  | ok a st => exact ⟨a, st, rfl, h⟩
  | thrown e st => cases h
  | outOfFuel => cases h

theorem ConsumeString_ok_string {D : Type} {fuel : Nat} {st st2 : Assist} {v : Json D}
    (h : ConsumeString fuel st = .ok v st2) : ∃ b, v = .string b := by
  unfold ConsumeString at h
  obtain ⟨_, st3, -, h⟩ := andThen_eq_ok h
  obtain ⟨c, st4, -, h⟩ := andThen_eq_ok h
  split at h
  · cases h
  · obtain ⟨_, st5, -, h⟩ := andThen_eq_ok h
    injection h with h1 _
    exact ⟨_, h1.symm⟩

theorem ConsumeBool_canon {D : Type} (st : Assist) :
    Canon (ConsumeBool st : Outcome (Json D)) := by
  unfold ConsumeBool
  exact Canon.bind (NextCharacter_canon _) (fun _ _ => Canon.ite
    (Canon.bind (ConsumeSpecific_canon _ _) (fun _ _ => Canon.ok _ _))
    (Canon.bind (ConsumeSpecific_canon _ _) (fun _ _ => Canon.ok _ _)))

theorem ConsumeNull_canon {D : Type} (st : Assist) :
    Canon (ConsumeNull st : Outcome (Json D)) := by
  unfold ConsumeNull
  exact Canon.bind (ConsumeSpecific_canon _ _) (fun _ _ => Canon.ok _ _)

theorem ConsumePair_canon {D : Type} (value : Assist → Outcome (Json D))
    (hv : ∀ st, Canon (value st)) (fuel : Nat) (st : Assist) :
    Canon (ConsumePair value fuel st) := by
  unfold ConsumePair
  cases h : (ConsumeString fuel st : Outcome (Json D)) with
  | ok v st2 =>
    obtain ⟨b, rfl⟩ := ConsumeString_ok_string h
    simp only [andThen_ok, Json.toStdString]
    exact Canon.bind (SkipWhitespaces_canon _ _) (fun _ _ =>
      Canon.bind (ConsumeSpecific_canon _ _) (fun _ _ =>
        Canon.bind (hv _) (fun _ _ => Canon.ok _ _)))
  | thrown e st2 =>
    have := ConsumeString_canon (D := D) fuel st
    rw [h] at this
    simp only [andThen_thrown]
    intro e2 st3 h2
    injection h2 with h3 h4
    subst h3 h4
    exact this e st2 rfl
  | outOfFuel =>
    simp only [andThen_outOfFuel]
    exact Canon.outOfFuel

theorem objectLoop_canon {D : Type} (value : Assist → Outcome (Json D)) (fuel : Nat) :
    ∀ (n : Nat) (obj : ObjectData D) (st : Assist),
      Canon (ConsumeObject.loop value fuel n obj st) := by
  intro n
  induction n with
  | zero => intro obj st; exact Canon.outOfFuel
  | succ n ih =>
    intro obj st
    unfold ConsumeObject.loop
    exact Canon.bind (NextCharacter_canon _) (fun _ _ => Canon.ite (Canon.ok _ _)
      (Canon.ite (Canon.bind (Canon.rethrow _) (fun _ _ => ih _ _)) (Canon.unexpectedToken _)))

theorem arrayLoop_canon {D : Type} (value : Assist → Outcome (Json D)) :
    ∀ (n : Nat) (arr : ArrayData D) (st : Assist), Canon (ConsumeArray.loop value n arr st) := by
  intro n
  induction n with
  | zero => intro arr st; exact Canon.outOfFuel
  | succ n ih =>
    intro arr st
    unfold ConsumeArray.loop
    exact Canon.bind (NextCharacter_canon _) (fun _ _ => Canon.ite (Canon.ok _ _)
      (Canon.ite (Canon.bind (Canon.rethrow _) (fun _ _ => ih _ _)) (Canon.unexpectedToken _)))

theorem ConsumeObject_canon {D : Type} (value : Assist → Outcome (Json D)) (fuel : Nat)
    (st : Assist) : Canon (ConsumeObject value fuel st) := by
  unfold ConsumeObject
  exact Canon.bind (NextCharacter_canon _) (fun _ _ => Canon.ite (Canon.unexpectedToken _)
    (Canon.bind (SkipWhitespaces_canon _ _) (fun _ _ =>
      Canon.bind (NextCharacter_canon _) (fun _ _ => Canon.ite (Canon.ok _ _)
        (Canon.bind (Canon.rethrow _) (fun _ _ =>
          Canon.bind (objectLoop_canon _ _ _ _ _) (fun _ _ => Canon.ok _ _)))))))

theorem ConsumeArray_canon {D : Type} (value : Assist → Outcome (Json D)) (fuel : Nat)
    (st : Assist) : Canon (ConsumeArray value fuel st) := by
  unfold ConsumeArray
  exact Canon.bind (NextCharacter_canon _) (fun _ _ => Canon.ite (Canon.unexpectedToken _)
    (Canon.bind (SkipWhitespaces_canon _ _) (fun _ _ =>
      Canon.bind (NextCharacter_canon _) (fun _ _ => Canon.ite (Canon.ok _ _)
        (Canon.bind (Canon.rethrow _) (fun _ _ =>
          Canon.bind (arrayLoop_canon _ _ _ _) (fun _ _ => Canon.ok _ _)))))))

theorem ConsumeValue_canon {D : Type} (atof : List Char → D) :
    ∀ (fuel : Nat) (sect : Bool) (st : Assist), Canon (ConsumeValue atof fuel sect st) := by
  intro fuel
  induction fuel with
  | zero => intro sect st; exact Canon.outOfFuel
  | succ n ih =>
    intro sect st
    unfold ConsumeValue
    refine Canon.bind ?_ (fun _ _ => ?_)
    · unfold ConsumeValue.consumer
      refine Canon.bind (SkipWhitespaces_canon _ _) (fun _ _ => Canon.bind ?_ (fun kind _ => ?_))
      · unfold KindDetect
        exact Canon.bind (NextCharacter_canon _) (fun _ _ => Canon.ok _ _)
      · cases kind
        · exact ConsumeNumber_canon _ _ _
        · exact ConsumeString_canon _ _
        · exact ConsumeBool_canon _
        · exact ConsumeNull_canon _
        · exact ConsumeObject_canon _ _ _
        · exact ConsumeArray_canon _ _ _
    · unfold ConsumeValue.finish
      exact Canon.bind (Canon.ite (Canon.bind (SkipWhitespaces_canon _ _) (fun _ _ =>
        Canon.bind (NextCharacter_canon _) (fun _ _ =>
          Canon.ite (Canon.unexpectedToken _) (Canon.ok _ _)))) (Canon.ok _ _))
        (fun _ _ => Canon.bind (Canon.ite (SkipWhitespaces_canon _ _) (Canon.ok _ _))
          (fun _ _ => Canon.ok _ _))

theorem charAt_nat (s : List Char) (p : Nat) : charAt s (p : Int) = peek s p := by
  simp [charAt, peek]

/-- C7. Whenever `Json::Parse(s)` fails on a C string, it fails with one
`UnexpectedTokenException` whose offset `p` satisfies `0 ≤ p ≤ length(s)` and whose
character is `s[p]` when `p < length(s)` and the end-of-input NUL when `p = length(s)`;
and the handlers `catch (exception&)` around `ConsumePair()` and `ConsumeValue()` in
`ConsumeObject` and `ConsumeArray` re-raise what the inner consumer raised: in every
state, the outcome with the handler is the outcome without it. -/
theorem C7_failure_is_one_syntax_error {D : Type} (atof : List Char → D) (s : List Char)
    (hs : CStr s) :
    ((¬ ∃ v st, Parse atof s = .ok v st) →
      ∃ (p : Nat) (st : Assist), p ≤ s.length ∧
        Parse atof s = .thrown (.UnexpectedToken (charAt s p) (p : Int)) st ∧
        st.character = charAt s p ∧ st.pos = (p : Int) ∧
        (∀ h : p < s.length, charAt s p = s.get ⟨p, h⟩) ∧
        (p = s.length → charAt s p = NUL)) ∧
    (∀ (fuel : Nat) (st : Assist),
      (ConsumeValue atof fuel true st).catchRethrow = ConsumeValue atof fuel true st) ∧
    (∀ (fuel fuel2 : Nat) (st : Assist),
      (ConsumePair (ConsumeValue atof fuel true) fuel2 st).catchRethrow =
        ConsumePair (ConsumeValue atof fuel true) fuel2 st) := by
  refine ⟨fun hno => ?_, fun fuel st => (ConsumeValue_canon atof fuel true st).catch_eq,
    fun fuel fuel2 st =>
      (ConsumePair_canon _ (fun st2 => ConsumeValue_canon atof fuel true st2) fuel2 st).catch_eq⟩
  rcases Parse_back atof hs with ⟨pre, lex, post, v, tok, -, -, -, -, heq⟩ | hthr
  · exact absurd ⟨v, _, heq⟩ hno
  · obtain ⟨p, tok, -, hp, heq⟩ := hthr
    refine ⟨p, _, hp, by rw [charAt_nat]; exact heq, by rw [charAt_nat]; rfl,
      cur_pos_succ _ _ _ _, ?_, ?_⟩
    · intro h
      rw [charAt_nat, peek, List.getD_eq_getElem _ _ h]
      rfl
    · intro h
      rw [charAt_nat]
      exact peek_ge (by omega)

/-- A witness for C7: the text `[1, x]` is a C string; it fails at offset 4 on `x`. -/
theorem C7_witness :
    CStr ['[', '1', ',', ' ', 'x', ']'] ∧
    Parse (fun t => t) ['[', '1', ',', ' ', 'x', ']'] =
      .thrown (.UnexpectedToken 'x' 4) (cur ['[', '1', ',', ' ', 'x', ']'] 5 'x' []) ∧
    (((¬ ∃ v st, Parse (fun t => t) ['[', '1', ',', ' ', 'x', ']'] = .ok v st) →
      ∃ (p : Nat) (st : Assist), p ≤ ['[', '1', ',', ' ', 'x', ']'].length ∧
        Parse (fun t => t) ['[', '1', ',', ' ', 'x', ']'] =
          .thrown (.UnexpectedToken (charAt ['[', '1', ',', ' ', 'x', ']'] p) (p : Int)) st ∧
        st.character = charAt ['[', '1', ',', ' ', 'x', ']'] p ∧ st.pos = (p : Int) ∧
        (∀ h : p < ['[', '1', ',', ' ', 'x', ']'].length,
          charAt ['[', '1', ',', ' ', 'x', ']'] p = ['[', '1', ',', ' ', 'x', ']'].get ⟨p, h⟩) ∧
        (p = ['[', '1', ',', ' ', 'x', ']'].length →
          charAt ['[', '1', ',', ' ', 'x', ']'] p = NUL)) ∧
    (∀ (fuel : Nat) (st : Assist),
      (ConsumeValue (fun t => t) fuel true st).catchRethrow =
        ConsumeValue (fun t => t) fuel true st) ∧
    (∀ (fuel fuel2 : Nat) (st : Assist),
      (ConsumePair (ConsumeValue (fun t => t) fuel true) fuel2 st).catchRethrow =
        ConsumePair (ConsumeValue (fun t => t) fuel true) fuel2 st)) :=
  ⟨by unfold CStr; decide, rfl,
    C7_failure_is_one_syntax_error (fun t => t) ['[', '1', ',', ' ', 'x', ']']
      (by unfold CStr; decide)⟩

theorem commaSep_cons (t : List Char) (ts : List (List Char)) :
    commaSep (t :: ts) = t ++ restText ts := by
  induction ts generalizing t with
  | nil => simp [commaSep, restText]
  | cons u ts ih => simp [commaSep, restText, ih]

theorem CStr_commaSep {ts : List (List Char)} (h : ∀ t ∈ ts, CStr t) : CStr (commaSep ts) := by
  induction ts with
  | nil => intro c hc; cases hc
  | cons t ts ih =>
    rw [commaSep_cons]
    have h1 : CStr (restText ts) := by
      clear ih
      induction ts with
      | nil => intro c hc; cases hc
      | cons u us ih2 =>
        intro c hc
        simp only [restText, List.mem_cons, List.mem_append] at hc
        rcases hc with rfl | hc | hc
        · decide
        · exact h u (by simp) c hc
        · exact ih2 (fun x hx => h x (by
            rcases List.mem_cons.mp hx with rfl | hx
            · simp
            · simp [hx])) c hc
    exact CStr_append (h t (List.mem_cons_self _ _)) h1

/-- What `Parse` accepts is an element: whitespace, a lexeme, whitespace, and the value
is what the lexeme denotes. -/
theorem element_of_parse {D : Type} (atof : List Char → D) {s : List Char} {v : Json D}
    {st : Assist} (hs : CStr s) (h : Parse atof s = .ok v st) :
    ∃ e : Element D, e.text = s ∧ e.val = v ∧ Ws e.pre ∧ Ws e.post ∧
      Denotes atof e.lex e.val := by
  rcases Parse_back atof hs with ⟨pre, lex, post, v2, tok, hpre, hpost, hden, hsplit, heq⟩ | hthr
  · rw [h] at heq
    injection heq with hv _
    subst hv
    exact ⟨⟨pre, lex, post, v⟩, hsplit.symm, rfl, hpre, hpost, hden⟩
  · exact (hthr.not_ok h).elim

theorem elements_of_items {D : Type} (atof : List Char → D)
    (items : List (List Char × Json D))
    (h : ∀ p ∈ items, CStr p.1 ∧ ∃ st, Parse atof p.1 = .ok p.2 st) :
    ∃ es : List (Element D), es.map Element.text = items.map Prod.fst ∧
      es.map Element.val = items.map Prod.snd ∧
      ∀ e ∈ es, (Ws e.pre ∧ Ws e.post) ∧ Denotes atof e.lex e.val := by
  induction items with
  | nil => exact ⟨[], rfl, rfl, by simp⟩
  | cons p items ih =>
    obtain ⟨es, h1, h2, h3⟩ := ih (fun q hq => h q (List.mem_cons_of_mem _ hq))
    obtain ⟨hc, st, hp⟩ := h p (List.mem_cons_self _ _)
    obtain ⟨e, he1, he2, he3, he4, he5⟩ := element_of_parse atof hc hp
    refine ⟨e :: es, by simp [he1, h1], by simp [he2, h2], ?_⟩
    intro x hx
    rcases List.mem_cons.mp hx with rfl | hx
    · exact ⟨⟨he3, he4⟩, he5⟩
    · exact h3 x hx

theorem atIndex_array {D : Type} (a : List (Json D)) (i : Nat) (hi : i < a.length) :
    (Json.array a).atIndex (i : Int) = .ok (a.get ⟨i, hi⟩) := by
  have h1 : ¬ ((i : Int) ≥ (a.length : Int) ∨ (i : Int) < 0) := by omega
  simp only [Json.atIndex, Json.Size, h1, if_false, Int.toNat_ofNat]
  rw [List.get?_eq_get hi]

/-- C8. For texts `e1 .. en` (n ≥ 0), each a C string accepted by `Json::Parse` with value
`vi`, `Parse("[" ++ e1 ++ "," ++ ... ++ "," ++ en ++ "]")` succeeds and yields the Array
of `v1 .. vn` in the written order: its `Size()` is `n` and its element at index `i` is
the value of `e(i+1)`; and `Parse("[1,2,3,4]").Size() == 4`. -/
theorem C8_array_elements {D : Type} (atof : List Char → D) :
    (∀ (items : List (List Char × Json D)),
      (∀ p ∈ items, CStr p.1 ∧ ∃ st, Parse atof p.1 = .ok p.2 st) →
      (∃ st, Parse atof ('[' :: (commaSep (items.map Prod.fst) ++ [']'])) =
        .ok (.array (items.map Prod.snd)) st) ∧
      (Json.array (items.map Prod.snd)).Size = (items.length : Int) ∧
      (∀ (i : Nat) (hi : i < items.length),
        (Json.array (items.map Prod.snd)).atIndex (i : Int) = .ok (items.get ⟨i, hi⟩).2)) ∧
    (∃ v st, Parse atof ['[', '1', ',', '2', ',', '3', ',', '4', ']'] = .ok v st ∧
      v.Size = 4) := by
  refine ⟨?_, ⟨_, _, rfl, rfl⟩⟩
  intro items h
  refine ⟨?_, by simp [Json.Size], ?_⟩
  · obtain ⟨es, h1, h2, h3⟩ := elements_of_items atof items h
    have hcs : CStr ('[' :: (commaSep (items.map Prod.fst) ++ [']'])) := by
      intro c hc
      rcases List.mem_cons.mp hc with rfl | hc
      · decide
      · rcases List.mem_append.mp hc with hc | hc
        · refine CStr_commaSep ?_ c hc
          intro t ht
          obtain ⟨p, hp, rfl⟩ := List.mem_map.mp ht
          exact (h p hp).1
        · rw [List.mem_singleton.mp hc]; decide
    rw [← h1, ← h2] at *
    cases es with
    | nil =>
      obtain ⟨tok, hp⟩ := Parse_fwd atof hcs
        (show '[' :: (commaSep (List.map Element.text ([] : List (Element D))) ++ [']']) =
          [] ++ (('[' :: ([] ++ [']'])) ++ []) by simp [commaSep])
        (by intro x hx; cases hx) (by intro x hx; cases hx)
        (Denotes.emptyArray [] (by intro x hx; cases hx))
      exact ⟨_, hp⟩
    | cons f r =>
      obtain ⟨tok, hp⟩ := Parse_fwd atof hcs
        (show '[' :: (commaSep (List.map Element.text (f :: r)) ++ [']']) =
          [] ++ (('[' :: (f.text ++ (restText (r.map Element.text) ++ [']']))) ++ []) by
          simp [commaSep_cons])
        (by intro x hx; cases hx) (by intro x hx; cases hx)
        (Denotes.array f r (fun e he => (h3 e he).1) (fun e he => (h3 e he).2))
      exact ⟨_, hp⟩
  · intro i hi
    have hi2 : i < (items.map Prod.snd).length := by simpa using hi
    rw [atIndex_array _ i hi2]
    simp

/-- A witness for C8: the items `1` and ` true`. -/
theorem C8_witness :
    (∃ st, Parse (fun t => t)
      ('[' :: (commaSep ([(['1'], Json.number ['1']), ([' ', 't', 'r', 'u', 'e'],
        Json.bool true)].map Prod.fst) ++ [']'])) =
        .ok (.array ([((['1'] : List Char), (Json.number ['1'] : Json (List Char))),
          ([' ', 't', 'r', 'u', 'e'], Json.bool true)].map Prod.snd)) st) ∧
    (Json.array ([((['1'] : List Char), (Json.number ['1'] : Json (List Char))),
      ([' ', 't', 'r', 'u', 'e'], Json.bool true)].map Prod.snd)).Size =
      (([((['1'] : List Char), (Json.number ['1'] : Json (List Char))),
      ([' ', 't', 'r', 'u', 'e'], Json.bool true)].length : Nat) : Int) ∧
    (∀ (i : Nat) (hi : i < [((['1'] : List Char), (Json.number ['1'] : Json (List Char))),
      ([' ', 't', 'r', 'u', 'e'], Json.bool true)].length),
      (Json.array ([((['1'] : List Char), (Json.number ['1'] : Json (List Char))),
        ([' ', 't', 'r', 'u', 'e'], Json.bool true)].map Prod.snd)).atIndex (i : Int) =
        .ok ([((['1'] : List Char), (Json.number ['1'] : Json (List Char))),
          ([' ', 't', 'r', 'u', 'e'], Json.bool true)].get ⟨i, hi⟩).2) :=
  (C8_array_elements (fun t => t)).1
    [(['1'], Json.number ['1']), ([' ', 't', 'r', 'u', 'e'], Json.bool true)]
    (by
      intro p hp
      simp only [List.mem_cons, List.mem_singleton, List.not_mem_nil, or_false] at hp
      rcases hp with rfl | rfl
      · exact ⟨by unfold CStr; decide, _, rfl⟩
      · exact ⟨by unfold CStr; decide, _, rfl⟩)

theorem strLt_irrefl : ∀ a : List Char, strLt a a = false := by
  intro a
  induction a with
  | nil => rfl
  | cons c t ih => simp [strLt, ih]

theorem strLt_trans : ∀ {a b c : List Char}, strLt a b = true → strLt b c = true →
    strLt a c = true := by
  intro a
  induction a with
  | nil =>
    intro b c h1 h2
    cases b with
    | nil => cases h1
    | cons y ys =>
      cases c with
      | nil => cases h2
      | cons z zs => rfl
  | cons x xs ih =>
    intro b c h1 h2
    cases b with
    | nil => cases h1
    | cons y ys =>
      cases c with
      | nil => cases h2
      | cons z zs =>
        simp only [strLt, Bool.or_eq_true, decide_eq_true_eq, Bool.and_eq_true, beq_iff_eq]
          at h1 h2 ⊢
        rcases h1 with h1 | ⟨h1, h1b⟩
        · rcases h2 with h2 | ⟨h2, -⟩
          · left; omega
          · left; omega
        · rcases h2 with h2 | ⟨h2, h2b⟩
          · left; omega
          · right; exact ⟨by omega, ih h1b h2b⟩

theorem strLt_total : ∀ {a b : List Char}, strLt a b = false → strLt b a = false → a = b := by
  intro a
  induction a with
  | nil =>
    intro b h1 _
    cases b with
    | nil => rfl
    | cons y ys => cases h1
  | cons x xs ih =>
    intro b h1 h2
    cases b with
    | nil => cases h2
    | cons y ys =>
      simp only [strLt, Bool.or_eq_false_iff, decide_eq_false_iff_not, Bool.and_eq_false_imp,
        beq_iff_eq] at h1 h2
      have hxy : x.toNat = y.toNat := by omega
      have hc : x = y := (char_eq_iff x y).mpr hxy
      rw [hc, ih (h1.2 hxy) (h2.2 hxy.symm)]

theorem strLt_asymm {a b : List Char} (h : strLt a b = true) : strLt b a = false := by
  cases h2 : strLt b a with
  | false => rfl
  | true =>
    have := strLt_trans h h2
    rw [strLt_irrefl] at this
    cases this

theorem strLt_ne {a b : List Char} (h : strLt a b = true) : a ≠ b := by
  rintro rfl
  rw [strLt_irrefl] at h
  cases h

theorem mem_insert {D : Type} {k : List Char} {v : Json D} {m : ObjectData D}
    {x : List Char × Json D} (h : x ∈ ObjectData.insert k v m) : x = (k, v) ∨ x ∈ m := by
  induction m with
  | nil =>
    simp only [ObjectData.insert, List.mem_singleton] at h
    exact Or.inl h
  | cons p rest ih =>
    obtain ⟨k2, v2⟩ := p
    simp only [ObjectData.insert] at h
    split at h
    · rcases List.mem_cons.mp h with h | h
      · exact Or.inl h
      · exact Or.inr h
    · split at h
      · rcases List.mem_cons.mp h with h | h
        · exact Or.inr (by rw [h]; exact List.mem_cons_self _ _)
        · rcases ih h with h | h
          · exact Or.inl h
          · exact Or.inr (List.mem_cons_of_mem _ h)
      · exact Or.inr h

theorem insert_sorted {D : Type} (k : List Char) (v : Json D) {m : ObjectData D}
    (hm : ObjectData.Sorted m) : ObjectData.Sorted (ObjectData.insert k v m) := by
  induction m with
  | nil => simp [ObjectData.insert, ObjectData.Sorted]
  | cons p rest ih =>
    obtain ⟨k2, v2⟩ := p
    unfold ObjectData.Sorted at hm ih ⊢
    rw [List.pairwise_cons] at hm
    simp only [ObjectData.insert]
    split
    · rename_i h1
      rw [List.pairwise_cons]
      refine ⟨?_, List.pairwise_cons.mpr hm⟩
      intro x hx
      rcases List.mem_cons.mp hx with rfl | hx
      · exact h1
      · exact strLt_trans h1 (hm.1 x hx)
    · split
      · rename_i h1 h2
        rw [List.pairwise_cons]
        refine ⟨?_, ih hm.2⟩
        intro x hx
        rcases mem_insert hx with rfl | hx
        · exact h2
        · exact hm.1 x hx
      · exact List.pairwise_cons.mpr hm

theorem insert_perm {D : Type} (k : List Char) (v : Json D) {m : ObjectData D}
    (hk : ∀ p ∈ m, p.1 ≠ k) : (ObjectData.insert k v m).Perm ((k, v) :: m) := by
  induction m with
  | nil => simp [ObjectData.insert]
  | cons p rest ih =>
    obtain ⟨k2, v2⟩ := p
    simp only [ObjectData.insert]
    split
    · exact List.Perm.refl _
    · split
      · exact ((ih (fun q hq => hk q (List.mem_cons_of_mem _ hq))).cons _).trans
          (List.Perm.swap _ _ _)
      · rename_i h1 h2
        exfalso
        have h3 : strLt k k2 = false := by simpa using h1
        have h4 : strLt k2 k = false := by simpa using h2
        exact hk (k2, v2) (List.mem_cons_self _ _) (strLt_total h4 h3)

theorem find_insert_other {D : Type} {k k2 : List Char} (v : Json D) (m : ObjectData D)
    (h : k2 ≠ k) : ObjectData.find k2 (ObjectData.insert k v m) = ObjectData.find k2 m := by
  induction m with
  | nil =>
    simp only [ObjectData.insert, ObjectData.find]
    rw [if_neg (fun e => h e.symm)]
  | cons p rest ih =>
    obtain ⟨k3, v3⟩ := p
    simp only [ObjectData.insert]
    split
    · simp only [ObjectData.find]
      rw [if_neg (fun e => h e.symm)]
    · split
      · simp only [ObjectData.find, ih]
      · rfl

theorem find_insert_absent {D : Type} {k : List Char} (v : Json D) {m : ObjectData D}
    (hk : ∀ p ∈ m, p.1 ≠ k) : ObjectData.find k (ObjectData.insert k v m) = some v := by
  induction m with
  | nil => simp [ObjectData.insert, ObjectData.find]
  | cons p rest ih =>
    obtain ⟨k3, v3⟩ := p
    have h3 : k3 ≠ k := hk (k3, v3) (List.mem_cons_self _ _)
    simp only [ObjectData.insert]
    split
    · simp [ObjectData.find]
    · split
      · simp only [ObjectData.find]
        rw [if_neg h3]
        exact ih (fun q hq => hk q (List.mem_cons_of_mem _ hq))
      · rename_i h1 h2
        exfalso
        have h4 : strLt k k3 = false := by simpa using h1
        have h5 : strLt k3 k = false := by simpa using h2
        exact h3 (strLt_total h5 h4)

theorem insertPairs_sorted {D : Type} (ps : List (List Char × Json D)) :
    ∀ {obj : ObjectData D}, ObjectData.Sorted obj → ObjectData.Sorted (insertPairs obj ps) := by
  induction ps with
  | nil => intro obj h; exact h
  | cons p ps ih =>
    intro obj h
    exact ih (insert_sorted p.1 p.2 h)

theorem insertPairs_perm {D : Type} (ps : List (List Char × Json D)) :
    ∀ {obj : ObjectData D}, (ps.map Prod.fst).Nodup →
      (∀ p ∈ ps, ∀ q ∈ obj, q.1 ≠ p.1) → (insertPairs obj ps).Perm (ps ++ obj) := by
  induction ps with
  | nil => intro obj _ _; exact List.Perm.refl _
  | cons p ps ih =>
    intro obj hnd hfresh
    rw [List.map_cons, List.nodup_cons] at hnd
    have h1 := insert_perm p.1 p.2 (fun q hq => hfresh p (List.mem_cons_self _ _) q hq)
    have h2 : (insertPairs (ObjectData.insert p.1 p.2 obj) ps).Perm
        (ps ++ ObjectData.insert p.1 p.2 obj) := by
      apply ih hnd.2
      intro x hx q hq
      rcases mem_insert hq with rfl | hq
      · intro e
        exact hnd.1 (by rw [e]; exact List.mem_map_of_mem _ hx)
      · exact hfresh x (List.mem_cons_of_mem _ hx) q hq
    refine h2.trans ?_
    refine ((List.Perm.refl ps).append h1).trans ?_
    exact (@List.perm_middle _ (p.1, p.2) ps obj).symm.symm

theorem find_of_mem_nodup {D : Type} {m : ObjectData D} (hnd : (m.map Prod.fst).Nodup)
    {k : List Char} {v : Json D} (h : (k, v) ∈ m) : ObjectData.find k m = some v := by
  induction m with
  | nil => cases h
  | cons p rest ih =>
    obtain ⟨k2, v2⟩ := p
    rw [List.map_cons, List.nodup_cons] at hnd
    simp only [ObjectData.find]
    rcases List.mem_cons.mp h with h | h
    · injection h with h1 h2
      rw [if_pos h1.symm, h2]
    · have hne : k2 ≠ k := by
        rintro rfl
        exact hnd.1 (List.mem_map.mpr ⟨(k2, v), h, rfl⟩)
      rw [if_neg hne]
      exact ih hnd.2 h

theorem insertAll_eq_insertPairs {D : Type} (obj : ObjectData D) (ms : List (Member D)) :
    insertAll obj ms = insertPairs obj (ms.map fun m => (m.key, m.elem.val)) := by
  induction ms generalizing obj with
  | nil => rfl
  | cons m ms ih => simp [insertAll, insertPairs, List.foldl_map]

theorem Ws_nil : Ws [] := by
  intro x hx; cases hx

theorem CStr_pairText {body vtext : List Char} (hb : CStr body) (hv : CStr vtext) :
    CStr (pairText body vtext) := by
  intro c hc
  simp only [pairText, List.mem_cons, List.mem_append] at hc
  rcases hc with rfl | hc | rfl | rfl | hc
  · decide
  · exact hb c hc
  · decide
  · decide
  · exact hv c hc

theorem members_of_items {D : Type} (atof : List Char → D)
    (l : List (List Char × List Char × Json D))
    (hk : ∀ p ∈ l, CStr p.1 ∧ ∃ v st, Parse atof (dquote :: (p.1 ++ [dquote])) = .ok v st)
    (hv : ∀ p ∈ l, CStr p.2.1 ∧ ∃ st, Parse atof p.2.1 = .ok p.2.2 st) :
    ∃ ms : List (Member D),
      ms.map Member.text = l.map (fun p => pairText p.1 p.2.1) ∧
      ms.map (fun m => (m.key, m.elem.val)) = l.map (fun p => (p.1, p.2.2)) ∧
      ∀ m ∈ ms, (Ws m.kpre ∧ StringBody m.key ∧ Ws m.kpost ∧ Ws m.elem.pre ∧ Ws m.elem.post) ∧
        Denotes atof m.elem.lex m.elem.val := by
  induction l with
  | nil => exact ⟨[], rfl, rfl, by simp⟩
  | cons p l ih =>
    obtain ⟨ms, h1, h2, h3⟩ := ih (fun q hq => hk q (List.mem_cons_of_mem _ hq))
      (fun q hq => hv q (List.mem_cons_of_mem _ hq))
    obtain ⟨hcb, v, st, hpk⟩ := hk p (List.mem_cons_self _ _)
    obtain ⟨hcv, st2, hpv⟩ := hv p (List.mem_cons_self _ _)
    obtain ⟨-, hbody⟩ := Parse_quoted_ok atof hcb hpk
    obtain ⟨e, he1, he2, he3, he4, he5⟩ := element_of_parse atof hcv hpv
    refine ⟨⟨[], p.1, [], e⟩ :: ms, ?_, ?_, ?_⟩
    · simp [Member.text, pairText, he1, h1]
    · simp [he2, h2]
    · intro x hx
      rcases List.mem_cons.mp hx with rfl | hx
      · exact ⟨⟨Ws_nil, hbody, Ws_nil, he3, he4⟩, he5⟩
      · exact h3 x hx

/-- An object written from accepted keys and values is accepted, and its value is the map
into which the pairs have been inserted in the written order. -/
theorem Parse_objectText {D : Type} (atof : List Char → D)
    (l : List (List Char × List Char × Json D))
    (hk : ∀ p ∈ l, CStr p.1 ∧ ∃ v st, Parse atof (dquote :: (p.1 ++ [dquote])) = .ok v st)
    (hv : ∀ p ∈ l, CStr p.2.1 ∧ ∃ st, Parse atof p.2.1 = .ok p.2.2 st) :
    ∃ st, Parse atof (objectText (l.map fun p => (p.1, p.2.1))) =
      .ok (.object (insertPairs [] (l.map fun p => (p.1, p.2.2)))) st := by
  obtain ⟨ms, h1, h2, h3⟩ := members_of_items atof l hk hv
  have hcs : CStr (objectText (l.map fun p => (p.1, p.2.1))) := by
    intro c hc
    unfold objectText at hc
    rcases List.mem_cons.mp hc with rfl | hc
    · decide
    · rcases List.mem_append.mp hc with hc | hc
      · refine CStr_commaSep ?_ c hc
        intro t ht
        obtain ⟨q, hq, rfl⟩ := List.mem_map.mp ht
        obtain ⟨p, hp, rfl⟩ := List.mem_map.mp hq
        exact CStr_pairText (hk p hp).1 (hv p hp).1
      · rw [List.mem_singleton.mp hc]; decide
  have htext : objectText (l.map fun p => (p.1, p.2.1)) =
      '{' :: (commaSep (ms.map Member.text) ++ ['}']) := by
    rw [h1]
    simp [objectText, List.map_map, Function.comp_def]
  rw [← h2, ← insertAll_eq_insertPairs]
  rw [htext] at hcs ⊢
  cases ms with
  | nil =>
    obtain ⟨tok, hp⟩ := Parse_fwd atof hcs
      (show '{' :: (commaSep (List.map Member.text ([] : List (Member D))) ++ ['}']) =
        [] ++ (('{' :: ([] ++ ['}'])) ++ []) by simp [commaSep])
      (by intro x hx; cases hx) (by intro x hx; cases hx)
      (Denotes.emptyObject [] (by intro x hx; cases hx))
    exact ⟨_, hp⟩
  | cons f r =>
    obtain ⟨tok, hp⟩ := Parse_fwd atof hcs
      (show '{' :: (commaSep (List.map Member.text (f :: r)) ++ ['}']) =
        [] ++ (('{' :: (f.text ++ (restText (r.map Member.text) ++ ['}']))) ++ []) by
        simp [commaSep_cons])
      (by intro x hx; cases hx) (by intro x hx; cases hx)
      (Denotes.object f r (fun e he => (h3 e he).1) (fun e he => (h3 e he).2))
    exact ⟨_, hp⟩

theorem find_isSome_iff {D : Type} (m : ObjectData D) (k : List Char) :
    (ObjectData.find k m).isSome = true ↔ k ∈ m.map Prod.fst := by
  induction m with
  | nil => simp [ObjectData.find]
  | cons p rest ih =>
    obtain ⟨k2, v2⟩ := p
    simp only [ObjectData.find, List.map_cons, List.mem_cons]
    by_cases h : k2 = k
    · rw [if_pos h]
      exact ⟨fun _ => Or.inl h.symm, fun _ => rfl⟩
    · rw [if_neg h, ih]
      constructor
      · exact Or.inr
      · rintro (h2 | h2)
        · exact absurd h2.symm h
        · exact h2

theorem insertPairs_nil_perm {D : Type} {ps : List (List Char × Json D)}
    (hnd : (ps.map Prod.fst).Nodup) : (insertPairs ([] : ObjectData D) ps).Perm ps := by
  have := @insertPairs_perm D ps [] hnd (by intro p _ q hq; cases hq)
  simpa using this

theorem insertPairs_perm_eq {D : Type} {ps qs : List (List Char × Json D)}
    (hnd : (ps.map Prod.fst).Nodup) (hp : qs.Perm ps) :
    insertPairs ([] : ObjectData D) qs = insertPairs [] ps := by
  have hnd2 : (qs.map Prod.fst).Nodup := (hp.map Prod.fst).nodup_iff.mpr hnd
  have h1 := insertPairs_nil_perm hnd
  have h2 := insertPairs_nil_perm hnd2
  have hs1 : ObjectData.Sorted (insertPairs ([] : ObjectData D) ps) :=
    insertPairs_sorted ps List.Pairwise.nil
  have hs2 : ObjectData.Sorted (insertPairs ([] : ObjectData D) qs) :=
    insertPairs_sorted qs List.Pairwise.nil
  exact @List.eq_of_perm_of_sorted _
    (fun (p q : List Char × Json D) => strLt p.1 q.1 = true)
    ⟨fun a b h3 h4 => by
      have := strLt_asymm h3
      rw [h4] at this
      cases this⟩ _ _ ((h2.trans hp).trans h1.symm) hs2 hs1

/-- C9. For accepted string literals `k1 .. kn` (n ≥ 0) with pairwise distinct bodies and
texts `v1 .. vn` each accepted by `Json::Parse`, the text
`{k1:v1,...,kn:vn}` is accepted and yields an Object whose keys are exactly the `n`
bodies (in strictly ascending order) and which maps the body of `ki` to the value of
`vi`; it is the same Object in whatever order the pairs are written. -/
theorem C9_object_pairs {D : Type} (atof : List Char → D)
    (l : List (List Char × List Char × Json D))
    (hk : ∀ p ∈ l, CStr p.1 ∧ ∃ v st, Parse atof (dquote :: (p.1 ++ [dquote])) = .ok v st)
    (hv : ∀ p ∈ l, CStr p.2.1 ∧ ∃ st, Parse atof p.2.1 = .ok p.2.2 st)
    (hnd : (l.map fun p => p.1).Nodup) :
    ∃ m : ObjectData D,
      (∃ st, Parse atof (objectText (l.map fun p => (p.1, p.2.1))) = .ok (.object m) st) ∧
      (m.map Prod.fst).Perm (l.map fun p => p.1) ∧ ObjectData.Sorted m ∧
      (∀ k, (Json.object m).Contains k = true ↔ k ∈ l.map fun p => p.1) ∧
      (∀ p ∈ l, ObjectData.find p.1 m = some p.2.2) ∧
      (∀ l2 : List (List Char × List Char × Json D), l2.Perm l →
        ∃ st, Parse atof (objectText (l2.map fun p => (p.1, p.2.1))) = .ok (.object m) st) := by
  have hnd2 : ((l.map fun p => (p.1, p.2.2)).map Prod.fst).Nodup := by
    simpa [List.map_map, Function.comp_def] using hnd
  have hperm := insertPairs_nil_perm hnd2
  have hkeys : ((insertPairs ([] : ObjectData D) (l.map fun p => (p.1, p.2.2))).map
      Prod.fst).Perm (l.map fun p => p.1) := by
    have := hperm.map Prod.fst
    simpa [List.map_map, Function.comp_def] using this
  refine ⟨insertPairs [] (l.map fun p => (p.1, p.2.2)), Parse_objectText atof l hk hv, hkeys,
    insertPairs_sorted _ List.Pairwise.nil, ?_, ?_, ?_⟩
  · intro k
    simp only [Json.Contains]
    rw [find_isSome_iff]
    exact hkeys.mem_iff
  · intro p hp
    apply find_of_mem_nodup (hkeys.nodup_iff.mpr hnd)
    exact hperm.symm.subset (List.mem_map.mpr ⟨p, hp, rfl⟩)
  · intro l2 hl2
    obtain ⟨st, h⟩ := Parse_objectText atof l2 (fun p hp => hk p (hl2.subset hp))
      (fun p hp => hv p (hl2.subset hp))
    rw [insertPairs_perm_eq hnd2 (hl2.map _)] at h
    exact ⟨st, h⟩

/-- A witness for C9: the pairs `"b":1` and `"a":[]`. -/
theorem C9_witness :
    ∃ m : ObjectData (List Char),
      (∃ st, Parse (fun t => t)
        (objectText ([(['b'], ['1'], Json.number ['1']), (['a'], ['[', ']'], Json.array [])].map
          fun p => (p.1, p.2.1))) = .ok (.object m) st) ∧
      (m.map Prod.fst).Perm
        ([((['b'] : List Char), (['1'] : List Char), (Json.number ['1'] : Json (List Char))),
          (['a'], ['[', ']'], Json.array [])].map fun p => p.1) ∧
      ObjectData.Sorted m ∧
      (∀ k, (Json.object m).Contains k = true ↔
        k ∈ [((['b'] : List Char), (['1'] : List Char), (Json.number ['1'] : Json (List Char))),
          (['a'], ['[', ']'], Json.array [])].map fun p => p.1) ∧
      (∀ p ∈ [((['b'] : List Char), (['1'] : List Char), (Json.number ['1'] : Json (List Char))),
          (['a'], ['[', ']'], Json.array [])], ObjectData.find p.1 m = some p.2.2) ∧
      (∀ l2 : List (List Char × List Char × Json (List Char)),
        l2.Perm [(['b'], ['1'], Json.number ['1']), (['a'], ['[', ']'], Json.array [])] →
        ∃ st, Parse (fun t => t) (objectText (l2.map fun p => (p.1, p.2.1))) =
          .ok (.object m) st) :=
  C9_object_pairs (fun t => t)
    [(['b'], ['1'], Json.number ['1']), (['a'], ['[', ']'], Json.array [])]
    (by
      intro p hp
      simp only [List.mem_cons, List.mem_singleton, List.not_mem_nil, or_false] at hp
      rcases hp with rfl | rfl
      · exact ⟨by unfold CStr; decide, _, _, rfl⟩
      · exact ⟨by unfold CStr; decide, _, _, rfl⟩)
    (by
      intro p hp
      simp only [List.mem_cons, List.mem_singleton, List.not_mem_nil, or_false] at hp
      rcases hp with rfl | rfl
      · exact ⟨by unfold CStr; decide, _, rfl⟩
      · exact ⟨by unfold CStr; decide, _, rfl⟩)
    (by decide)

theorem isdigit_ne_NUL {c : Char} (h : isdigit c = true) : c ≠ NUL := by
  rintro rfl
  revert h
  decide

theorem Digits.digits_cstr {l : List Char} (h : Digits l) : CStr l :=
  fun c hc => isdigit_ne_NUL (h c hc)

theorem NumberLex.number_cstr {l : List Char} (h : NumberLex l) : CStr l := by
  obtain ⟨sg, ip, fp, ep, rfl, hsg, hip, hfp, hep⟩ := h
  have h1 : CStr sg := by
    rcases hsg with rfl | rfl <;> unfold CStr <;> decide
  have h2 : CStr ip := by
    rcases hip with rfl | ⟨d, ds, rfl, hd, -, hds⟩
    · unfold CStr; decide
    · intro c hc
      rcases List.mem_cons.mp hc with rfl | hc
      · exact isdigit_ne_NUL hd
      · exact hds.digits_cstr c hc
  have h3 : CStr fp := by
    rcases hfp with rfl | ⟨d, ds, rfl, hd, hds⟩
    · unfold CStr; decide
    · intro c hc
      rcases List.mem_cons.mp hc with rfl | hc
      · decide
      · rcases List.mem_cons.mp hc with rfl | hc
        · exact isdigit_ne_NUL hd
        · exact hds.digits_cstr c hc
  have h4 : CStr ep := by
    rcases hep with rfl | ⟨e, sg2, d, ds, rfl, he, hsg2, hd, hds⟩
    · unfold CStr; decide
    · intro c hc
      rcases List.mem_cons.mp hc with rfl | hc
      · rcases he with rfl | rfl <;> decide
      · rcases List.mem_append.mp hc with hc | hc
        · have h5 : CStr sg2 := by
            rcases hsg2 with rfl | rfl | rfl <;> unfold CStr <;> decide
          exact h5 c hc
        · rcases List.mem_cons.mp hc with rfl | hc
          · exact isdigit_ne_NUL hd
          · exact hds.digits_cstr c hc
  exact CStr_append h1 (CStr_append h2 (CStr_append h3 h4))

theorem CStr_cons {c : Char} {s : List Char} (hc : c ≠ NUL) (hs : CStr s) : CStr (c :: s) := by
  intro x hx
  rcases List.mem_cons.mp hx with rfl | hx
  · exact hc
  · exact hs x hx

theorem StringBody.body_cstr {b : List Char} (h : StringBody b) : CStr b := by
  induction h with
  | nil => intro c hc; cases hc
  | plain c rest h1 _ _ _ ih =>
    refine CStr_cons ?_ ih
    rintro rfl
    revert h1
    decide
  | escape c rest h1 _ ih =>
    refine CStr_cons (by decide) (CStr_cons ?_ ih)
    unfold isEscapeChar at h1
    rcases h1 with rfl | rfl | rfl | rfl | rfl | rfl | rfl | rfl <;> decide
  | unicode h1 h2 h3 h4 rest x1 x2 x3 x4 _ ih =>
    have hx : ∀ {c : Char}, isxdigit c = true → c ≠ NUL := by
      intro c hc
      rintro rfl
      rw [isxdigit_NUL] at hc
      cases hc
    exact CStr_cons (by decide) (CStr_cons (by decide) (CStr_cons (hx x1) (CStr_cons (hx x2)
      (CStr_cons (hx x3) (CStr_cons (hx x4) ih)))))

theorem Ws.ws_cstr {w : List Char} (h : Ws w) : CStr w := by
  have := CStr_append_ws (s := []) (by intro c hc; cases hc) h
  simpa using this

theorem CStr_restText {ts : List (List Char)} (h : ∀ t ∈ ts, CStr t) : CStr (restText ts) := by
  induction ts with
  | nil => intro c hc; cases hc
  | cons t ts ih =>
    simp only [restText]
    exact CStr_cons (by decide) (CStr_append (h t (List.mem_cons_self _ _))
      (ih fun u hu => h u (List.mem_cons_of_mem _ hu)))

/-- A lexeme of the grammar holds no NUL. -/
theorem Denotes.cstr {D : Type} {atof : List Char → D} {lex : List Char} {v : Json D}
    (h : Denotes atof lex v) : CStr lex := by
  induction h with
  | number t hn => exact hn.number_cstr
  | string b hb => exact CStr_quoted hb.body_cstr
  | true_ => unfold CStr; decide
  | false_ => unfold CStr; decide
  | null => unfold CStr; decide
  | emptyArray w hw => exact CStr_cons (by decide) (CStr_append hw.ws_cstr (by unfold CStr; decide))
  | array first rest hws _ ih =>
    have he : ∀ e ∈ first :: rest, CStr e.text := by
      intro e he
      exact CStr_append (hws e he).1.ws_cstr (CStr_append (ih e he) (hws e he).2.ws_cstr)
    refine CStr_cons (by decide) (CStr_append (he first (List.mem_cons_self _ _))
      (CStr_append (CStr_restText ?_) (by unfold CStr; decide)))
    intro t ht
    obtain ⟨e, he2, rfl⟩ := List.mem_map.mp ht
    exact he e (List.mem_cons_of_mem _ he2)
  | emptyObject w hw => exact CStr_cons (by decide) (CStr_append hw.ws_cstr (by unfold CStr; decide))
  | object first rest hws _ ih =>
    have he : ∀ m ∈ first :: rest, CStr m.text := by
      intro m hm
      obtain ⟨h1, h2, h3, h4, h5⟩ := hws m hm
      have h6 : CStr m.elem.text := CStr_append h4.ws_cstr (CStr_append (ih m hm) h5.ws_cstr)
      exact CStr_append h1.ws_cstr (CStr_cons (by decide) (CStr_append h2.body_cstr
        (CStr_cons (by decide) (CStr_append h3.ws_cstr (CStr_cons (by decide) h6)))))
    refine CStr_cons (by decide) (CStr_append (he first (List.mem_cons_self _ _))
      (CStr_append (CStr_restText ?_) (by unfold CStr; decide)))
    intro t ht
    obtain ⟨e, he2, rfl⟩ := List.mem_map.mp ht
    exact he e (List.mem_cons_of_mem _ he2)

theorem Sorted.keys_nodup {D : Type} {m : ObjectData D} (h : ObjectData.Sorted m) :
    (m.map Prod.fst).Nodup := by
  unfold ObjectData.Sorted at h
  unfold List.Nodup
  rw [List.pairwise_map]
  exact h.imp fun hlt => strLt_ne hlt

/-- Inserting the entries of a map one after the other into the empty map gives the map
back. -/
theorem insertPairs_self {D : Type} {m : ObjectData D} (h : ObjectData.Sorted m) :
    insertPairs ([] : ObjectData D) m = m := by
  have h1 := insertPairs_nil_perm (Sorted.keys_nodup h)
  have hs1 : ObjectData.Sorted (insertPairs ([] : ObjectData D) m) :=
    insertPairs_sorted m List.Pairwise.nil
  exact @List.eq_of_perm_of_sorted _
    (fun (p q : List Char × Json D) => strLt p.1 q.1 = true)
    ⟨fun a b h3 h4 => by
      have := strLt_asymm h3
      rw [h4] at this
      cases this⟩ _ _ h1 hs1 h

theorem oss_object_cons {D : Type} (dtoa : D → List Char) (p : List Char × Json D)
    (m : List (List Char × Json D)) : Json.ToString.oss dtoa (.object (p :: m)) = none := by
  obtain ⟨k, v⟩ := p
  simp only [Json.ToString.oss, Json.ToString.oss.objectLoop, CharPtr.read]
  cases Json.ToString.oss dtoa v <;> rfl

theorem oss_array_cons {D : Type} (dtoa : D → List Char) (v : Json D) (a : List (Json D)) :
    Json.ToString.oss dtoa (.array (v :: a)) = none := by
  simp only [Json.ToString.oss, Json.ToString.oss.arrayLoop, CharPtr.read]
  cases Json.ToString.oss dtoa v <;> rfl

theorem returned_read {D : Type} (dtoa : D → List Char) (v : Json D) :
    (Json.ToString.returned dtoa v).bind CharPtr.read = none := by
  unfold Json.ToString.returned
  cases Json.ToString.oss dtoa v <;> rfl

/-- C13 (what the code does). For an Object with no entries the stream `oss` of
`ToString` holds `{  }` at the `return`, and for an Array with no elements `[  ]`: the
opening bracket with its space, no element, then the space with the closing bracket, which
is two spaces between the brackets and not the one space of `{ }` and `[ ]`.  What
`ToString` returns for either is `oss.str().c_str()`, a pointer into a temporary that is
destroyed before the caller has it, so that no read of the text is defined. -/
theorem C13_empty_containers_two_spaces {D : Type} (dtoa : D → List Char) :
    Json.ToString.oss dtoa (.object [] : Json D) = some ['{', ' ', ' ', '}'] ∧
    Json.ToString.oss dtoa (.array [] : Json D) = some ['[', ' ', ' ', ']'] ∧
    Json.ToString.oss dtoa (.object [] : Json D) ≠ some ['{', ' ', '}'] ∧
    Json.ToString.oss dtoa (.array [] : Json D) ≠ some ['[', ' ', ']'] ∧
    Json.ToString.returned dtoa (.object [] : Json D) = some CharPtr.dangling ∧
    Json.ToString.returned dtoa (.array [] : Json D) = some CharPtr.dangling ∧
    (Json.ToString.returned dtoa (.object [] : Json D)).bind CharPtr.read = none ∧
    (Json.ToString.returned dtoa (.array [] : Json D)).bind CharPtr.read = none :=
  ⟨rfl, rfl, by simp [Json.ToString.oss, Json.ToString.oss.objectLoop],
    by simp [Json.ToString.oss, Json.ToString.oss.arrayLoop], rfl, rfl, rfl, rfl⟩

theorem oss_documented {D : Type} (dtoa : D → List Char) (v : Json D) :
    Json.ToString.oss dtoa v = none ∨
      Json.ToString.oss dtoa v = some (Json.ToString dtoa v) := by
  cases v with
  | number d => exact Or.inr rfl
  | string s => exact Or.inr rfl
  | bool b => exact Or.inr rfl
  | null => exact Or.inr rfl
  | object m =>
    cases m with
    | nil => exact Or.inr rfl
    | cons p m => exact Or.inl (oss_object_cons dtoa p m)
  | array a =>
    cases a with
    | nil => exact Or.inr rfl
    | cons v a => exact Or.inl (oss_array_cons dtoa v a)

/-- C10 (what the code does). `Json::Parse(v.ToString())`.  For the Array `v` that
`Parse("[1, true, null]")` gives, the statements of `ToString` write each element with
`operator<<`, which reads the pointer that `ToString` of the element returned, a pointer
into a destroyed temporary: the behaviour is undefined before `Parse` is called, and so
for every Object and Array that is not empty.  For every value, a scalar too, what
`ToString` returns is a pointer into a destroyed temporary, so that `Parse` has no text to
read. -/
theorem C10_parse_of_toString {D : Type} (atof : List Char → D) (dtoa : D → List Char) :
    (∃ st, Parse atof
        ['[', '1', ',', ' ', 't', 'r', 'u', 'e', ',', ' ', 'n', 'u', 'l', 'l', ']'] =
      .ok (.array [.number (atof ['1']), .bool true, .null]) st) ∧
    Json.ToString.oss dtoa (.array [.number (atof ['1']), .bool true, .null]) = none ∧
    Json.ToString.returned dtoa (.array [.number (atof ['1']), .bool true, .null]) = none ∧
    (Json.ToString.returned dtoa (.array [.number (atof ['1']), .bool true, .null])).bind
      (Parse.ofPtr atof) = none ∧
    (∀ (p : List Char × Json D) (m : List (List Char × Json D)),
      Json.ToString.oss dtoa (.object (p :: m)) = none) ∧
    (∀ (x : Json D) (a : List (Json D)), Json.ToString.oss dtoa (.array (x :: a)) = none) ∧
    Json.ToString.oss dtoa (.bool true : Json D) = some ['t', 'r', 'u', 'e'] ∧
    Json.ToString.returned dtoa (.bool true : Json D) = some CharPtr.dangling ∧
    (∀ v : Json D, (Json.ToString.returned dtoa v).bind (Parse.ofPtr atof) = none) := by
  refine ⟨⟨_, rfl⟩, oss_array_cons dtoa _ _, ?_, ?_, oss_object_cons dtoa,
    oss_array_cons dtoa, rfl, rfl, ?_⟩
  · simp only [Json.ToString.returned, oss_array_cons]
  · simp only [Json.ToString.returned, oss_array_cons]
    rfl
  · intro v
    unfold Json.ToString.returned
    cases Json.ToString.oss dtoa v <;> rfl

/-- C11 (what the code does). `ToString(Parse(ToString(v)))` and `ToString(v)`.  For the
Object `v` that `Parse("{\"a\": [1, 2]}")` gives, the statements of `ToString` write the
entry with `operator<<`, which reads the pointer that `ToString` of the Array returned, a
pointer into a destroyed temporary: the behaviour is undefined in the first call.  For
every value, what `ToString` returns is a pointer into a destroyed temporary: neither of
the two texts can be read and `Parse` has no text to read. -/
theorem C11_reserialization {D : Type} (atof : List Char → D) (dtoa : D → List Char) :
    (∃ st, Parse atof
        ['{', dquote, 'a', dquote, ':', ' ', '[', '1', ',', ' ', '2', ']', '}'] =
      .ok (.object [(['a'], .array [.number (atof ['1']), .number (atof ['2'])])]) st) ∧
    Json.ToString.oss dtoa
      (.object [(['a'], .array [.number (atof ['1']), .number (atof ['2'])])]) = none ∧
    Json.ToString.oss dtoa (.array [.number (atof ['1']), .number (atof ['2'])]) = none ∧
    Json.ToString.returned dtoa
      (.object [(['a'], .array [.number (atof ['1']), .number (atof ['2'])])]) = none ∧
    (∀ v : Json D, (Json.ToString.returned dtoa v).bind CharPtr.read = none) ∧
    (∀ v : Json D, (Json.ToString.returned dtoa v).bind (Parse.ofPtr atof) = none) := by
  refine ⟨⟨_, rfl⟩, oss_object_cons dtoa _ _, oss_array_cons dtoa _ _, ?_,
    returned_read dtoa, ?_⟩
  · simp only [Json.ToString.returned, oss_object_cons]
  · intro v
    unfold Json.ToString.returned
    cases Json.ToString.oss dtoa v <;> rfl

/-- C12 (what the code does). The text of `ToString`.  For the Object `v` that
`Parse("{ \"id\": 194024 }")` gives, the documentation shows `{ "id": 194024 }`, which is
what the statements of `ToString` write when the text of the Number is written in its
place.  The code writes the Number with `operator<<`, which reads the pointer that
`ToString` of the Number returned, a pointer into a destroyed temporary: the behaviour is
undefined, and so for every Object and Array that is not empty.  For a scalar and for an
empty Object or Array the stream holds at the `return` the text of the recursive
definition (with two spaces between the brackets of an empty Object or Array), and what
`ToString` returns is a pointer into a destroyed temporary: no text can be read. -/
theorem C12_toString_text {D : Type} (atof : List Char → D) (dtoa : D → List Char) :
    (∃ st, Parse atof
        ['{', ' ', dquote, 'i', 'd', dquote, ':', ' ', '1', '9', '4', '0', '2', '4', ' ', '}'] =
      .ok (.object [(['i', 'd'], .number (atof ['1', '9', '4', '0', '2', '4']))]) st) ∧
    (dtoa (atof ['1', '9', '4', '0', '2', '4']) = ['1', '9', '4', '0', '2', '4'] →
      Json.ToString dtoa (.object [(['i', 'd'], .number (atof ['1', '9', '4', '0', '2', '4']))]) =
        ['{', ' ', dquote, 'i', 'd', dquote, ':', ' ', '1', '9', '4', '0', '2', '4', ' ', '}']) ∧
    Json.ToString.oss dtoa
      (.object [(['i', 'd'], .number (atof ['1', '9', '4', '0', '2', '4']))]) = none ∧
    (∀ (p : List Char × Json D) (m : List (List Char × Json D)),
      Json.ToString.oss dtoa (.object (p :: m)) = none) ∧
    (∀ (x : Json D) (a : List (Json D)), Json.ToString.oss dtoa (.array (x :: a)) = none) ∧
    (∀ s : List Char, Json.ToString.oss dtoa (.string s : Json D) =
      some ([dquote] ++ s ++ [dquote])) ∧
    (∀ d : D, Json.ToString.oss dtoa (.number d) = some (dtoa d)) ∧
    Json.ToString.oss dtoa (.bool true : Json D) = some ['t', 'r', 'u', 'e'] ∧
    Json.ToString.oss dtoa (.bool false : Json D) = some ['f', 'a', 'l', 's', 'e'] ∧
    Json.ToString.oss dtoa (.null : Json D) = some ['n', 'u', 'l', 'l'] ∧
    (∀ v : Json D, Json.ToString.oss dtoa v = none ∨
      Json.ToString.oss dtoa v = some (Json.ToString dtoa v)) ∧
    (∀ v : Json D, (Json.ToString.returned dtoa v).bind CharPtr.read = none) := by
  refine ⟨⟨_, rfl⟩, ?_, oss_object_cons dtoa _ _, oss_object_cons dtoa, oss_array_cons dtoa,
    fun _ => rfl, fun _ => rfl, rfl, rfl, rfl, oss_documented dtoa, returned_read dtoa⟩
  intro h
  simp [Json.ToString, Json.ToString.objectItems, h]

theorem find_eq_none {D : Type} {m : ObjectData D} {k : List Char}
    (h : ObjectData.find k m = none) : ∀ p ∈ m, p.1 ≠ k := by
  intro p hp e
  have h1 : (ObjectData.find k m).isSome = true :=
    (find_isSome_iff m k).mpr (List.mem_map.mpr ⟨p, hp, e⟩)
  rw [h] at h1
  cases h1

theorem find_store_same {D : Type} {k : List Char} (v : Json D) {m : ObjectData D}
    (h : (ObjectData.find k m).isSome = true) :
    ObjectData.find k (ObjectData.store k v m) = some v := by
  induction m with
  | nil => simp [ObjectData.find] at h
  | cons p rest ih =>
    obtain ⟨k2, v2⟩ := p
    simp only [ObjectData.store]
    by_cases hk : k2 = k
    · rw [if_pos hk]
      simp only [ObjectData.find]
      rw [if_pos hk]
    · rw [if_neg hk]
      simp only [ObjectData.find] at h ⊢
      rw [if_neg hk] at h ⊢
      exact ih h

theorem find_store_other {D : Type} {k k2 : List Char} (v : Json D) (m : ObjectData D)
    (h : k2 ≠ k) : ObjectData.find k2 (ObjectData.store k v m) = ObjectData.find k2 m := by
  induction m with
  | nil => rfl
  | cons p rest ih =>
    obtain ⟨k3, v3⟩ := p
    simp only [ObjectData.store]
    by_cases hk : k3 = k
    · rw [if_pos hk]
      simp only [ObjectData.find]
      have h3 : k3 ≠ k2 := fun e => h (e.symm.trans hk)
      rw [if_neg h3, if_neg h3]
    · rw [if_neg hk]
      simp only [ObjectData.find]
      rw [ih]

theorem store_keys {D : Type} (k : List Char) (v : Json D) (m : ObjectData D) :
    (ObjectData.store k v m).map Prod.fst = m.map Prod.fst := by
  induction m with
  | nil => rfl
  | cons p rest ih =>
    obtain ⟨k3, v3⟩ := p
    simp only [ObjectData.store]
    by_cases hk : k3 = k
    · rw [if_pos hk]
      simp
    · rw [if_neg hk]
      simp [ih]

theorem store_sorted {D : Type} (k : List Char) (v : Json D) {m : ObjectData D}
    (h : ObjectData.Sorted m) : ObjectData.Sorted (ObjectData.store k v m) := by
  unfold ObjectData.Sorted at h ⊢
  have h1 : List.Pairwise (fun a b : List Char => strLt a b = true) (m.map Prod.fst) := by
    rw [List.pairwise_map]
    exact h
  rw [← store_keys k v m, List.pairwise_map] at h1
  exact h1

/-- A write to the node that was just inserted for an absent key amounts to inserting the
written value. -/
theorem store_insert_absent {D : Type} {k : List Char} (x v : Json D) {m : ObjectData D}
    (hk : ∀ p ∈ m, p.1 ≠ k) :
    ObjectData.store k v (ObjectData.insert k x m) = ObjectData.insert k v m := by
  induction m with
  | nil => simp [ObjectData.insert, ObjectData.store]
  | cons p rest ih =>
    obtain ⟨k2, v2⟩ := p
    have hne : k2 ≠ k := hk (k2, v2) (List.mem_cons_self _ _)
    simp only [ObjectData.insert]
    by_cases h1 : strLt k k2 = true
    · rw [if_pos h1, if_pos h1]
      simp [ObjectData.store]
    · rw [if_neg h1, if_neg h1]
      by_cases h2 : strLt k2 k = true
      · rw [if_pos h2, if_pos h2]
        simp only [ObjectData.store]
        rw [if_neg hne, ih fun p hp => hk p (List.mem_cons_of_mem _ hp)]
      · exfalso
        have h3 : strLt k k2 = false := by simpa using h1
        have h4 : strLt k2 k = false := by simpa using h2
        exact hne (strLt_total h4 h3)

theorem CopyData_arrayLoop {D : Type} :
    ∀ (a : List (Json D)) (tmp : ArrayData D), (∀ v ∈ a, Json.CopyData v = v) →
      Json.CopyData.arrayLoop a tmp = tmp ++ a := by
  intro a
  induction a with
  | nil => intro tmp _; simp [Json.CopyData.arrayLoop]
  | cons v rest ih =>
    intro tmp h
    simp only [Json.CopyData.arrayLoop]
    rw [h v (List.mem_cons_self _ _), ih _ fun x hx => h x (List.mem_cons_of_mem _ hx)]
    simp

theorem CopyData_objectLoop {D : Type} :
    ∀ (m : List (List Char × Json D)) (tmp : ObjectData D),
      (∀ p ∈ m, Json.CopyData p.2 = p.2) →
      Json.CopyData.objectLoop m tmp = insertPairs tmp m := by
  intro m
  induction m with
  | nil => intro tmp _; simp [Json.CopyData.objectLoop, insertPairs]
  | cons p rest ih =>
    intro tmp h
    obtain ⟨k, v⟩ := p
    simp only [Json.CopyData.objectLoop]
    rw [h (k, v) (List.mem_cons_self _ _), ih _ fun x hx => h x (List.mem_cons_of_mem _ hx)]
    simp [insertPairs]

/-- The deep copy of a value is the value. -/
theorem CopyData_eq {D : Type} {v : Json D} (h : WellFormed v) : v.CopyData = v := by
  induction h with
  | number d => simp [Json.CopyData]
  | string s => simp [Json.CopyData]
  | bool b => simp [Json.CopyData]
  | null => simp [Json.CopyData]
  | array a _ ih =>
    simp only [Json.CopyData]
    rw [CopyData_arrayLoop a [] ih]
    simp
  | object m hs _ ih =>
    simp only [Json.CopyData]
    rw [CopyData_objectLoop m [] ih, insertPairs_self hs]

theorem c_str_of_CStr {s : List Char} (h : CStr s) : c_str s = s := by
  unfold c_str
  rw [List.takeWhile_eq_self_iff]
  intro c hc
  simpa using h c hc

theorem IsObject_iff {D : Type} (o : Json D) : o.IsObject = true ↔ ∃ m, o = .object m := by
  cases o with
  | object m => exact ⟨fun _ => ⟨m, rfl⟩, fun _ => rfl⟩
  | _ =>
    exact ⟨fun h => by simp [Json.IsObject, Json.DataKind] at h, fun ⟨m, hm⟩ => by cases hm⟩

theorem IsArray_iff {D : Type} (o : Json D) : o.IsArray = true ↔ ∃ a, o = .array a := by
  cases o with
  | array a => exact ⟨fun _ => ⟨a, rfl⟩, fun _ => rfl⟩
  | _ =>
    exact ⟨fun h => by simp [Json.IsArray, Json.DataKind] at h, fun ⟨m, hm⟩ => by cases hm⟩

/-- C14. For every Value `o` and key `k`, keyed access `o[k]` (the non-const overload is
the const one) fails iff `o` is not an Object, with the extract OperationError that names
the kind of `o`; if `o` is an Object that contains `k` it returns the mapped value and
leaves `o` as it is; if `o` is an Object without `k` it returns a Null node and leaves an
Object that has the entries of `o` and the entry of `k` with Null, every other key mapped
as before, so that afterwards `Contains(k)` is true and `o[k]` is Null.  So it is for
`o = Parse("{}")` and the key `k`. -/
theorem C14_keyed_access {D : Type} (atof : List Char → D) (o : Json D) (k : List Char) :
    o.atKeyMut k = o.atKey k ∧
    ((∃ e, o.atKey k = .error e) ↔ o.IsObject = false) ∧
    (o.IsObject = false → o.atKey k =
      .error (.IllegalOperation .kExtract "Object Item".data (some o.DataTypeName))) ∧
    (o.IsObject = true → o.Contains k = true →
      ∃ m x, o = .object m ∧ ObjectData.find k m = some x ∧ o.atKey k = .ok (x, o)) ∧
    (o.IsObject = true → o.Contains k = false →
      ∃ m m2, o = .object m ∧ o.atKey k = .ok (.null, .object m2) ∧
        m2.Perm ((k, .null) :: m) ∧
        (∀ k2, k2 ≠ k → ObjectData.find k2 m2 = ObjectData.find k2 m) ∧
        (Json.object m2).Contains k = true ∧
        (Json.object m2).atKey k = .ok (.null, .object m2) ∧
        (Json.null : Json D).IsNull = true) ∧
    (∃ st, Parse atof ['{', '}'] = .ok (.object []) st ∧
      (Json.object [] : Json D).Contains ['k'] = false ∧
      (Json.object [] : Json D).atKey ['k'] = .ok (.null, .object [(['k'], .null)]) ∧
      (Json.object [(['k'], .null)] : Json D).Contains ['k'] = true ∧
      (Json.object [(['k'], .null)] : Json D).atKey ['k'] =
        .ok (.null, .object [(['k'], .null)])) := by
  refine ⟨rfl, ?_, ?_, ?_, ?_, ⟨_, rfl, rfl, rfl, rfl, rfl⟩⟩
  · cases o with
    | object m =>
      simp only [Json.atKey, Json.IsObject, Json.DataKind]
      cases ObjectData.find k m <;> simp
    | _ => simp [Json.atKey, Json.IsObject, Json.DataKind]
  · intro h
    cases o with
    | object m => simp [Json.IsObject, Json.DataKind] at h
    | _ => rfl
  · intro h hc
    obtain ⟨m, rfl⟩ := (IsObject_iff o).mp h
    simp only [Json.Contains] at hc
    obtain ⟨x, hx⟩ := Option.isSome_iff_exists.mp hc
    exact ⟨m, x, rfl, hx, by simp [Json.atKey, hx]⟩
  · intro h hc
    obtain ⟨m, rfl⟩ := (IsObject_iff o).mp h
    simp only [Json.Contains] at hc
    have hn : ObjectData.find k m = none := by
      cases hf : ObjectData.find k m with
      | none => rfl
      | some x => rw [hf] at hc; cases hc
    have habs := find_eq_none hn
    have hfind : ObjectData.find k (ObjectData.insert k (.null : Json D) m) = some .null :=
      find_insert_absent _ habs
    refine ⟨m, ObjectData.insert k .null m, rfl, by simp [Json.atKey, hn, Json.mkNull],
      insert_perm k _ habs, fun k2 h2 => find_insert_other _ m h2, ?_, ?_, rfl⟩
    · simp [Json.Contains, hfind]
    · simp [Json.atKey, hfind]

/-- A witness for C14: the Object `{ "a": true }` contains the key `a` and lacks the key
`k`. -/
theorem C14_witness :
    (∃ m x, (Json.object [(['a'], .bool true)] : Json (List Char)) = .object m ∧
      ObjectData.find ['a'] m = some x ∧
      (Json.object [(['a'], .bool true)] : Json (List Char)).atKey ['a'] =
        .ok (x, .object [(['a'], .bool true)])) ∧
    (∃ m m2, (Json.object [(['a'], .bool true)] : Json (List Char)) = .object m ∧
      (Json.object [(['a'], .bool true)] : Json (List Char)).atKey ['k'] =
        .ok (.null, .object m2) ∧
      m2.Perm ((['k'], .null) :: m) ∧
      (∀ k2, k2 ≠ ['k'] → ObjectData.find k2 m2 = ObjectData.find k2 m) ∧
      (Json.object m2).Contains ['k'] = true ∧
      (Json.object m2).atKey ['k'] = .ok (.null, .object m2) ∧
      (Json.null : Json (List Char)).IsNull = true) :=
  ⟨(C14_keyed_access (fun t : List Char => t) (.object [(['a'], .bool true)]) ['a']).2.2.2.1
      rfl rfl,
    (C14_keyed_access (fun t : List Char => t) (.object [(['a'], .bool true)]) ['k']).2.2.2.2.1
      rfl rfl⟩

/-- C15. For every Value `v` and integer `i`, indexed access `v[i]` (the non-const
overload is the const one) fails with the extract OperationError iff `v` is not an Array,
whatever `i` is; fails with the violate-access OperationError iff `v` is an Array and
`i < 0` or `i >= v.Size()`; and otherwise returns the element at the 0-based position
`i`.  The operator writes nothing: it is a function of `v` and `i`. -/
theorem C15_indexed_access {D : Type} (v : Json D) (i : Int) :
    v.atIndexMut i = v.atIndex i ∧
    (v.atIndex i = .error (.IllegalOperation .kExtract "Array Item".data
      (some v.DataTypeName)) ↔ v.IsArray = false) ∧
    (v.atIndex i = .error (.IllegalOperation .kViolateAccess "Array Item".data
      (some v.DataTypeName)) ↔ (v.IsArray = true ∧ (i < 0 ∨ i ≥ v.Size))) ∧
    (∀ a : ArrayData D, v = .array a → 0 ≤ i → i < v.Size →
      ∃ h : i.toNat < a.length, v.atIndex i = .ok (a.get ⟨i.toNat, h⟩)) := by
  have hget : ∀ a : ArrayData D, v = .array a → 0 ≤ i → i < v.Size →
      ∃ h : i.toNat < a.length, v.atIndex i = .ok (a.get ⟨i.toNat, h⟩) := by
    intro a ha h0 h1
    subst ha
    simp only [Json.Size] at h1
    have h2 : i.toNat < a.length := by omega
    have h3 : ¬ (i ≥ (a.length : Int) ∨ i < 0) := by omega
    refine ⟨h2, ?_⟩
    simp only [Json.atIndex, Json.Size, h3, if_false]
    rw [List.get?_eq_get h2]
  refine ⟨rfl, ?_, ?_, hget⟩
  · cases v with
    | array a =>
      simp only [Json.IsArray, Json.DataKind]
      by_cases hb : i ≥ (a.length : Int) ∨ i < 0
      · simp [Json.atIndex, Json.Size, hb]
      · have h0 : 0 ≤ i := by omega
        have h1 : i < (Json.array a).Size := by simp only [Json.Size]; omega
        obtain ⟨h2, h3⟩ := hget a rfl h0 h1
        rw [h3]
        simp
    | _ => simp [Json.atIndex, Json.IsArray, Json.DataKind]
  · cases v with
    | array a =>
      simp only [Json.IsArray, Json.DataKind]
      by_cases hb : i ≥ (a.length : Int) ∨ i < 0
      · have hb2 : i < 0 ∨ i ≥ (a.length : Int) := by omega
        simp [Json.atIndex, Json.Size, hb, hb2]
      · have h0 : 0 ≤ i := by omega
        have h1 : i < (Json.array a).Size := by simp only [Json.Size]; omega
        obtain ⟨h2, h3⟩ := hget a rfl h0 h1
        rw [h3]
        have hb2 : ¬ (i < 0 ∨ i ≥ (a.length : Int)) := by omega
        simp [Json.Size, hb2]
    | _ => simp [Json.atIndex, Json.IsArray, Json.DataKind]

/-- A witness for C15: the element at index 1 of the Array `[ true, null ]`. -/
theorem C15_witness :
    ∃ h : (1 : Int).toNat < [(Json.bool true : Json (List Char)), .null].length,
      (Json.array [(Json.bool true : Json (List Char)), .null]).atIndex 1 =
        .ok ([(Json.bool true : Json (List Char)), .null].get ⟨(1 : Int).toNat, h⟩) :=
  (C15_indexed_access (.array [(Json.bool true : Json (List Char)), .null]) 1).2.2.2
    [.bool true, .null] rfl (by decide) (by decide)

/-- The statement `o[k] = ...` on an Object: the node of `k` (Null when the key was
absent) is rewritten, every other key is mapped as before. -/
theorem assignAtKey_object {D : Type} (m : ObjectData D) (k : List Char)
    (op : Json D → Json D) :
    ∃ m2, (Json.object m).assignAtKey k op = .ok (.object m2) ∧
      ObjectData.find k m2 = some (op ((ObjectData.find k m).getD .null)) ∧
      (∀ k2, k2 ≠ k → ObjectData.find k2 m2 = ObjectData.find k2 m) ∧
      (ObjectData.Sorted m → ObjectData.Sorted m2) ∧
      ((ObjectData.find k m).isSome = true → m2.map Prod.fst = m.map Prod.fst) ∧
      ((ObjectData.find k m).isSome = false → m2 = ObjectData.insert k (op .null) m) := by
  cases hf : ObjectData.find k m with
  | some x =>
    have hs : (ObjectData.find k m).isSome = true := by rw [hf]; rfl
    refine ⟨ObjectData.store k (op x) m, by simp [Json.assignAtKey, Json.atKeyMut,
      Json.atKey, hf], ?_, fun k2 h2 => find_store_other _ m h2, store_sorted _ _,
      fun _ => store_keys _ _ _, fun h => by cases h⟩
    simpa using find_store_same (op x) hs
  | none =>
    have habs := find_eq_none hf
    have hst : ObjectData.store k (op .null) (ObjectData.insert k (.null : Json D) m) =
        ObjectData.insert k (op .null) m := store_insert_absent _ _ habs
    refine ⟨ObjectData.insert k (op .null) m, by simp [Json.assignAtKey, Json.atKeyMut,
      Json.atKey, hf, Json.mkNull, hst], ?_, fun k2 h2 => find_insert_other _ m h2,
      insert_sorted _ _, (fun h => by cases h), fun _ => rfl⟩
    simpa using find_insert_absent (op .null) habs

theorem Push_of_not_array {D : Type} (r v : Json D) (hr : r.IsArray = false) :
    r.Push v = .ok (.array [r.CopyData, v.CopyData]) := by
  cases r with
  | array a => simp [Json.IsArray, Json.DataKind] at hr
  | _ => rfl

/-- C19. For every Array `a` with `n` elements and every Value `v`, `a.Push(v)` does not
fail and leaves `a` an Array with `Size() == n + 1` whose first `n` elements are the old
ones in their order and whose last element is the copy of `v`, which equals `v`; so
pushing `v1`, `v2`, `v3` in turn onto the Number made of `10` yields the Array
`[ 10, v1, v2, v3 ]`. -/
theorem C19_push_appends {D : Type} (toDouble : Int → D) (a : ArrayData D) (v : Json D) :
    (Json.array a).Push v = .ok (.array (a ++ [v.CopyData])) ∧
    (Json.array (a ++ [v.CopyData])).Size = (a.length : Int) + 1 ∧
    (a ++ [v.CopyData]).take a.length = a ∧
    (∀ (i : Nat), i < a.length →
      (Json.array (a ++ [v.CopyData])).atIndex (i : Int) = (Json.array a).atIndex (i : Int)) ∧
    (Json.array (a ++ [v.CopyData])).atIndex (a.length : Int) = .ok v.CopyData ∧
    (WellFormed v → (Json.array a).Push v = .ok (.array (a ++ [v]))) ∧
    (∀ v1 v2 v3 : Json D, WellFormed v1 → WellFormed v2 → WellFormed v3 →
      ∃ j1 j2, (Json.ofInt toDouble 10).Push v1 = .ok j1 ∧ j1.Push v2 = .ok j2 ∧
        j2.Push v3 = .ok (.array [.number (toDouble 10), v1, v2, v3])) := by
  have hidx : ∀ (b : ArrayData D) (i : Nat) (hi : i < b.length),
      (Json.array b).atIndex (i : Int) = .ok (b.get ⟨i, hi⟩) := by
    intro b i hi
    have h3 : ¬ ((i : Int) ≥ (b.length : Int) ∨ (i : Int) < 0) := by omega
    simp only [Json.atIndex, Json.Size, h3, if_false, Int.toNat_ofNat]
    rw [List.get?_eq_get hi]
  refine ⟨rfl, by simp [Json.Size], by simp, ?_, ?_, ?_, ?_⟩
  · intro i hi
    have hi2 : i < (a ++ [v.CopyData]).length := by simp; omega
    rw [hidx _ i hi2, hidx _ i hi]
    simp [List.getElem_append_left, hi]
  · have hi2 : a.length < (a ++ [v.CopyData]).length := by simp
    rw [hidx _ a.length hi2]
    simp
  · intro hv
    have h : (Json.array a).Push v = .ok (.array (a ++ [v.CopyData])) := rfl
    rw [h, CopyData_eq hv]
  · intro v1 v2 v3 h1 h2 h3
    refine ⟨_, _, rfl, rfl, ?_⟩
    simp only [Json.Push, Json.ofInt, Json.ofDouble, Json.CopyData, CopyData_eq h1,
      CopyData_eq h2, CopyData_eq h3]
    rfl

/-- A witness for C19: `true`, `null` and the String `s` pushed in turn onto the Number
made of `10`. -/
theorem C19_witness :
    ∃ j1 j2 : Json Int, (Json.ofInt (fun n : Int => n) 10).Push (.bool true) = .ok j1 ∧
      j1.Push .null = .ok j2 ∧
      j2.Push (.string ['s']) = .ok (.array [.number ((fun n : Int => n) 10), .bool true,
        .null, .string ['s']]) :=
  (C19_push_appends (fun n : Int => n) [] .null).2.2.2.2.2.2 (.bool true) .null
    (.string ['s']) (WellFormed.bool _) WellFormed.null (WellFormed.string _)

theorem mem_insertPairs {D : Type} (ps : List (List Char × Json D)) :
    ∀ {obj : ObjectData D} {x : List Char × Json D}, x ∈ insertPairs obj ps →
      x ∈ obj ∨ x ∈ ps := by
  induction ps with
  | nil => intro obj x h; exact Or.inl h
  | cons p ps ih =>
    intro obj x h
    have h1 : x ∈ insertPairs (ObjectData.insert p.1 p.2 obj) ps := h
    rcases ih h1 with h2 | h2
    · rcases mem_insert h2 with h3 | h3
      · exact Or.inr (by rw [h3]; exact List.mem_cons_self _ _)
      · exact Or.inl h3
    · exact Or.inr (List.mem_cons_of_mem _ h2)

/-- Every value the grammar denotes holds its Objects as maps. -/
theorem Denotes.wellFormed {D : Type} {atof : List Char → D} {lex : List Char} {v : Json D}
    (h : Denotes atof lex v) : WellFormed v := by
  induction h with
  | number t _ => exact WellFormed.number _
  | string b _ => exact WellFormed.string _
  | true_ => exact WellFormed.bool _
  | false_ => exact WellFormed.bool _
  | null => exact WellFormed.null
  | emptyArray w _ => exact WellFormed.array _ (fun v hv => by cases hv)
  | array first rest _ _ ih =>
    refine WellFormed.array _ ?_
    intro v hv
    obtain ⟨e, he, rfl⟩ := List.mem_map.mp hv
    exact ih e he
  | emptyObject w _ => exact WellFormed.object _ List.Pairwise.nil (fun p hp => by cases hp)
  | object first rest _ _ ih =>
    rw [insertAll_eq_insertPairs]
    refine WellFormed.object _ (insertPairs_sorted _ List.Pairwise.nil) ?_
    intro p hp
    rcases mem_insertPairs _ hp with h1 | h1
    · cases h1
    · obtain ⟨m, hm, rfl⟩ := List.mem_map.mp h1
      exact ih m hm

/-- Every value `Parse` returns holds its Objects as maps. -/
theorem Parse_wellFormed {D : Type} (atof : List Char → D) {s : List Char} (hc : CStr s)
    {v : Json D} {st : Assist} (h : Parse atof s = .ok v st) : WellFormed v := by
  rcases Parse_back atof hc with ⟨pre, lex, post, v2, tok, -, -, hden, -, heq⟩ | hthr
  · rw [h] at heq
    injection heq with hv _
    rw [hv]
    exact hden.wellFormed
  · exact (hthr.not_ok h).elim

theorem find_erase_other {D : Type} {k k2 : List Char} (m : ObjectData D) (h : k2 ≠ k) :
    ObjectData.find k2 (ObjectData.erase k m) = ObjectData.find k2 m := by
  induction m with
  | nil => rfl
  | cons p rest ih =>
    obtain ⟨k3, v3⟩ := p
    simp only [ObjectData.erase]
    by_cases hk : k3 = k
    · rw [if_pos hk]
      simp only [ObjectData.find]
      have h3 : k3 ≠ k2 := fun e => h (e.symm.trans hk)
      rw [if_neg h3]
    · rw [if_neg hk]
      simp only [ObjectData.find]
      rw [ih]

theorem erase_absent {D : Type} {k : List Char} {m : ObjectData D}
    (h : ∀ p ∈ m, p.1 ≠ k) : ObjectData.erase k m = m := by
  induction m with
  | nil => rfl
  | cons p rest ih =>
    obtain ⟨k3, v3⟩ := p
    simp only [ObjectData.erase]
    rw [if_neg (h (k3, v3) (List.mem_cons_self _ _)),
      ih fun q hq => h q (List.mem_cons_of_mem _ hq)]

theorem filter_absent {D : Type} {k : List Char} {m : ObjectData D}
    (h : ∀ p ∈ m, p.1 ≠ k) : m.filter (fun p => decide (p.1 ≠ k)) = m := by
  rw [List.filter_eq_self]
  intro p hp
  simpa using h p hp

/-- On a map, erasing the entry of a key leaves exactly the entries of the other keys. -/
theorem erase_eq_filter {D : Type} (k : List Char) {m : ObjectData D}
    (h : ObjectData.Sorted m) :
    ObjectData.erase k m = m.filter (fun p => decide (p.1 ≠ k)) := by
  induction m with
  | nil => rfl
  | cons p rest ih =>
    obtain ⟨k3, v3⟩ := p
    unfold ObjectData.Sorted at h
    rw [List.pairwise_cons] at h
    simp only [ObjectData.erase]
    by_cases hk : k3 = k
    · rw [if_pos hk]
      have habs : ∀ q ∈ rest, q.1 ≠ k := by
        intro q hq e
        have h1 := h.1 q hq
        rw [hk, e] at h1
        rw [strLt_irrefl] at h1
        cases h1
      rw [List.filter_cons_of_neg (by simpa using hk), filter_absent habs]
    · rw [if_neg hk, List.filter_cons_of_pos (by simpa using hk), ih h.2]

theorem erase_sorted {D : Type} (k : List Char) {m : ObjectData D}
    (h : ObjectData.Sorted m) : ObjectData.Sorted (ObjectData.erase k m) := by
  rw [erase_eq_filter k h]
  exact List.Pairwise.filter _ h

/-- C21. For every Object `o` (a map) and key `k`, `o.Remove(k)` leaves an Object whose
entries are exactly the entries of `o` with a key different from `k`; it changes nothing
when `k` is absent; for every receiver that is not an Object, `Remove(key)` fails with the
remove OperationError before anything is written.  Removing `a` from
`Parse("{\"a\":1,\"b\":2}")` gives the value of `Parse("{\"b\":2}")`, on which
`Remove("missing")` changes nothing; `{"color": "green", "weight": 12.4}` with `color`
and then `not found` removed is the Object written `{ "weight": 12.4 }`. -/
theorem C21_remove_key {D : Type} (atof : List Char → D) (dtoa : D → List Char)
    (o : Json D) (k : List Char) :
    (o.IsObject = false →
      o.RemoveKey k = .error (.IllegalOperation .kRemove o.DataTypeName none)) ∧
    (∀ m : ObjectData D, o = .object m → ObjectData.Sorted m →
      o.RemoveKey k = .ok (.object (m.filter fun p => decide (p.1 ≠ k))) ∧
      (∀ p, p ∈ (m.filter fun p => decide (p.1 ≠ k)) ↔ p ∈ m ∧ p.1 ≠ k) ∧
      ObjectData.Sorted (m.filter fun p => decide (p.1 ≠ k))) ∧
    (∀ m : ObjectData D, o = .object m → o.Contains k = false → o.RemoveKey k = .ok o) ∧
    (∃ st st2, Parse atof
          ['{', dquote, 'a', dquote, ':', '1', ',', dquote, 'b', dquote, ':', '2', '}'] =
        .ok (.object [(['a'], .number (atof ['1'])), (['b'], .number (atof ['2']))]) st ∧
      (Json.object [(['a'], .number (atof ['1'])), (['b'], .number (atof ['2']))]).RemoveKey
          ['a'] = .ok (.object [(['b'], .number (atof ['2']))]) ∧
      Parse atof ['{', dquote, 'b', dquote, ':', '2', '}'] =
        .ok (.object [(['b'], .number (atof ['2']))]) st2 ∧
      (Json.object [(['b'], .number (atof ['2']))]).RemoveKey
          ['m', 'i', 's', 's', 'i', 'n', 'g'] =
        .ok (.object [(['b'], .number (atof ['2']))])) ∧
    (∃ st j1, Parse atof
          ['{', dquote, 'c', 'o', 'l', 'o', 'r', dquote, ':', ' ', dquote, 'g', 'r', 'e', 'e',
          'n', dquote, ',', ' ', dquote, 'w', 'e', 'i', 'g', 'h', 't', dquote, ':', ' ', '1',
          '2', '.', '4', '}'] =
        .ok (.object [(['c', 'o', 'l', 'o', 'r'], .string ['g', 'r', 'e', 'e', 'n']),
          (['w', 'e', 'i', 'g', 'h', 't'], .number (atof ['1', '2', '.', '4']))]) st ∧
      (Json.object [(['c', 'o', 'l', 'o', 'r'], .string ['g', 'r', 'e', 'e', 'n']),
          (['w', 'e', 'i', 'g', 'h', 't'], .number (atof ['1', '2', '.', '4']))]).RemoveKey
          ['c', 'o', 'l', 'o', 'r'] = .ok j1 ∧
      j1.RemoveKey ['n', 'o', 't', ' ', 'f', 'o', 'u', 'n', 'd'] =
        .ok (.object [(['w', 'e', 'i', 'g', 'h', 't'], .number (atof ['1', '2', '.', '4']))]) ∧
      (dtoa (atof ['1', '2', '.', '4']) = ['1', '2', '.', '4'] →
        Json.ToString dtoa
            (.object [(['w', 'e', 'i', 'g', 'h', 't'], .number (atof ['1', '2', '.', '4']))]) =
          ['{', ' ', dquote, 'w', 'e', 'i', 'g', 'h', 't', dquote, ':', ' ', '1', '2', '.', '4',
          ' ', '}'])) := by
  refine ⟨?_, ?_, ?_, ⟨_, _, rfl, rfl, rfl, rfl⟩, ⟨_, _, rfl, rfl, rfl, ?_⟩⟩
  · intro h
    simp [Json.RemoveKey, h]
  · intro m hm hs
    subst hm
    refine ⟨?_, fun p => by simp [List.mem_filter], List.Pairwise.filter _ hs⟩
    rw [← erase_eq_filter k hs]
    cases hf : ObjectData.find k m with
    | some x => simp [Json.RemoveKey, Json.IsObject, Json.DataKind, hf]
    | none =>
      rw [erase_absent (find_eq_none hf)]
      simp [Json.RemoveKey, Json.IsObject, Json.DataKind, hf]
  · intro m hm hc
    subst hm
    simp only [Json.Contains] at hc
    have hn : ObjectData.find k m = none := by
      cases hf : ObjectData.find k m with
      | none => rfl
      | some x => rw [hf] at hc; cases hc
    simp [Json.RemoveKey, Json.IsObject, Json.DataKind, hn]
  · intro h
    simp [Json.ToString, Json.ToString.objectItems, h]

/-- A witness for C21: `b` removed from the Object `{ "a": null, "b": true }`, and
`Remove(key)` on a Bool. -/
theorem C21_witness :
    ((Json.object [(['a'], .null), (['b'], .bool true)] : Json (List Char)).RemoveKey ['b'] =
        .ok (.object (([(['a'], .null), (['b'], .bool true)] :
          ObjectData (List Char)).filter fun p => decide (p.1 ≠ ['b']))) ∧
      (∀ p, p ∈ (([(['a'], .null), (['b'], .bool true)] :
          ObjectData (List Char)).filter fun p => decide (p.1 ≠ ['b'])) ↔
        p ∈ ([(['a'], .null), (['b'], .bool true)] : ObjectData (List Char)) ∧ p.1 ≠ ['b']) ∧
      ObjectData.Sorted (([(['a'], .null), (['b'], .bool true)] :
          ObjectData (List Char)).filter fun p => decide (p.1 ≠ ['b']))) ∧
    ((Json.bool true : Json (List Char)).RemoveKey ['b'] =
      .error (.IllegalOperation .kRemove (Json.bool true : Json (List Char)).DataTypeName
        none)) :=
  ⟨(C21_remove_key (fun t : List Char => t) (fun t => t)
      (.object [(['a'], .null), (['b'], .bool true)]) ['b']).2.1 _ rfl
      (by unfold ObjectData.Sorted; simp [strLt]),
    (C21_remove_key (fun t : List Char => t) (fun t => t) (.bool true) ['b']).1 rfl⟩

/-- C22. For every Array `a` and integer `i`: if `0 <= i < a.Size()`, `a.Remove(i)` deletes
exactly the element at position `i`, keeps all other elements in their order and
decreases `Size()` by one; if `i < 0` or `i >= a.Size()`, `a` stays as it is and nothing
is thrown; for every receiver that is not an Array, `Remove(index)` fails with the remove
OperationError.  `Remove(1)` on `Parse("[1, 2, true, \"Hello World\"]")` leaves the Array
written `[ 1, true, "Hello World" ]`. -/
theorem C22_remove_index {D : Type} (atof : List Char → D) (dtoa : D → List Char)
    (v : Json D) (i : Int) :
    (v.IsArray = false →
      v.RemoveIndex i = .error (.IllegalOperation .kRemove v.DataTypeName none)) ∧
    (∀ a : ArrayData D, v = .array a → 0 ≤ i → i < v.Size →
      v.RemoveIndex i = .ok (.array (a.take i.toNat ++ a.drop (i.toNat + 1))) ∧
      (Json.array (a.take i.toNat ++ a.drop (i.toNat + 1))).Size = v.Size - 1) ∧
    (∀ a : ArrayData D, v = .array a → (i < 0 ∨ i ≥ v.Size) → v.RemoveIndex i = .ok v) ∧
    (∃ st, Parse atof
          ['[', '1', ',', ' ', '2', ',', ' ', 't', 'r', 'u', 'e', ',', ' ', dquote, 'H', 'e',
          'l', 'l', 'o', ' ', 'W', 'o', 'r', 'l', 'd', dquote, ']'] =
        .ok (.array [.number (atof ['1']), .number (atof ['2']), .bool true,
          .string ['H', 'e', 'l', 'l', 'o', ' ', 'W', 'o', 'r', 'l', 'd']]) st ∧
      (Json.array [.number (atof ['1']), .number (atof ['2']), .bool true,
          .string ['H', 'e', 'l', 'l', 'o', ' ', 'W', 'o', 'r', 'l', 'd']]).RemoveIndex 1 =
        .ok (.array [.number (atof ['1']), .bool true,
          .string ['H', 'e', 'l', 'l', 'o', ' ', 'W', 'o', 'r', 'l', 'd']]) ∧
      (dtoa (atof ['1']) = ['1'] →
        Json.ToString dtoa (.array [.number (atof ['1']), .bool true,
            .string ['H', 'e', 'l', 'l', 'o', ' ', 'W', 'o', 'r', 'l', 'd']]) =
          ['[', ' ', '1', ',', ' ', 't', 'r', 'u', 'e', ',', ' ', dquote, 'H', 'e', 'l', 'l',
          'o', ' ', 'W', 'o', 'r', 'l', 'd', dquote, ' ', ']'])) := by
  refine ⟨?_, ?_, ?_, ⟨_, rfl, rfl, ?_⟩⟩
  · intro h
    simp [Json.RemoveIndex, h]
  · intro a ha h0 h1
    subst ha
    simp only [Json.Size] at h1
    have h2 : i.toNat < a.length := by omega
    refine ⟨?_, ?_⟩
    · have h3 : i ≥ 0 ∧ i < (Json.array a).Size := ⟨h0, by simp only [Json.Size]; omega⟩
      simp only [Json.RemoveIndex, Json.IsArray, Json.DataKind]
      rw [if_pos h3, List.eraseIdx_eq_take_drop_succ]
      rfl
    · simp only [Json.Size, List.length_append, List.length_take, List.length_drop]
      omega
  · intro a ha hi
    subst ha
    simp only [Json.Size] at hi
    have h3 : ¬ (i ≥ 0 ∧ i < (Json.array a).Size) := by simp only [Json.Size]; omega
    simp only [Json.RemoveIndex, Json.IsArray, Json.DataKind]
    rw [if_neg h3]
    rfl
  · intro h
    simp [Json.ToString, Json.ToString.arrayItems, h]

/-- A witness for C22: the element at index 0 and the index 5 of the Array
`[ true, null ]`, and `Remove(index)` on Null. -/
theorem C22_witness :
    ((Json.array [.bool true, .null] : Json (List Char)).RemoveIndex 0 =
        .ok (.array (([.bool true, .null] : ArrayData (List Char)).take (0 : Int).toNat ++
          ([.bool true, .null] : ArrayData (List Char)).drop ((0 : Int).toNat + 1))) ∧
      (Json.array (([.bool true, .null] : ArrayData (List Char)).take (0 : Int).toNat ++
          ([.bool true, .null] : ArrayData (List Char)).drop ((0 : Int).toNat + 1))).Size =
        (Json.array [.bool true, .null] : Json (List Char)).Size - 1) ∧
    ((Json.array [.bool true, .null] : Json (List Char)).RemoveIndex 5 =
      .ok (.array [.bool true, .null])) ∧
    ((Json.null : Json (List Char)).RemoveIndex 0 =
      .error (.IllegalOperation .kRemove (Json.null : Json (List Char)).DataTypeName none)) :=
  ⟨(C22_remove_index (fun t : List Char => t) (fun t => t) (.array [.bool true, .null])
      0).2.1 _ rfl (by decide) (by decide),
    (C22_remove_index (fun t : List Char => t) (fun t => t) (.array [.bool true, .null])
      5).2.2.1 _ rfl (Or.inr (by decide)),
    (C22_remove_index (fun t : List Char => t) (fun t => t) .null 0).1 rfl⟩

/-- C23. For every Value `v`, `v.Size()` is the number of elements when `v` is an Array
(0 for the empty Array) and 1 for every other kind, Null and an Object with any number
of entries included; `Size()` throws nothing (it is a function of `v`).  So
`Parse("0").Size() == 1`, `Parse("[1,2,3,4]").Size() == 4` and `Parse("null").Size() == 1`. -/
theorem C23_size {D : Type} (atof : List Char → D) (v : Json D) :
    (∀ a : ArrayData D, v = .array a → v.Size = (a.length : Int)) ∧
    (Json.array ([] : ArrayData D)).Size = 0 ∧
    (v.IsArray = false → v.Size = 1) ∧
    (∀ m : ObjectData D, (Json.object m).Size = 1) ∧
    (Json.null : Json D).Size = 1 ∧
    (∃ v0 st, Parse atof ['0'] = .ok v0 st ∧ v0.Size = 1) ∧
    (∃ v4 st, Parse atof ['[', '1', ',', '2', ',', '3', ',', '4', ']'] = .ok v4 st ∧
      v4.Size = 4) ∧
    (∃ vn st, Parse atof ['n', 'u', 'l', 'l'] = .ok vn st ∧ vn.Size = 1) := by
  refine ⟨?_, rfl, ?_, fun m => rfl, rfl, ⟨_, _, rfl, rfl⟩, ⟨_, _, rfl, rfl⟩,
    ⟨_, _, rfl, rfl⟩⟩
  · intro a ha
    subst ha
    rfl
  · intro h
    cases v with
    | array a => simp [Json.IsArray, Json.DataKind] at h
    | _ => rfl

/-- A witness for C23: the Array `[ true, null ]` and the Object `{ "a": null }`. -/
theorem C23_witness :
    (Json.array [.bool true, .null] : Json (List Char)).Size =
      (([.bool true, .null] : ArrayData (List Char)).length : Int) ∧
    (Json.object [(['a'], .null)] : Json (List Char)).Size = 1 :=
  ⟨(C23_size (fun t : List Char => t) (.array [.bool true, .null])).1 _ rfl,
    (C23_size (fun t : List Char => t) (.object [(['a'], .null)])).2.2.1 rfl⟩

/-- C24. For every Value `v` and key `k`, `v.Contains(k)` is true if and only if `v` is an
Object and `k` is one of its keys; for every Number, String, Bool, Null and Array it is
false and nothing is thrown; `Contains` writes nothing (it is a function of `v` and `k`).
For `Parse("{\"name\": \"Ggicci\", \"age\": 21}")`, `Contains("name")` is true and
`Contains("sex")` is false, and once the `int` 3 is assigned `Contains("hello")` is
false. -/
theorem C24_contains {D : Type} (atof : List Char → D) (toDouble : Int → D) (v : Json D)
    (k : List Char) :
    (v.Contains k = true ↔ ∃ m : ObjectData D, v = .object m ∧ k ∈ m.map Prod.fst) ∧
    (v.IsObject = false → v.Contains k = false) ∧
    (∃ o st, Parse atof
          ['{', dquote, 'n', 'a', 'm', 'e', dquote, ':', ' ', dquote, 'G', 'g', 'i', 'c', 'c',
          'i', dquote, ',', ' ', dquote, 'a', 'g', 'e', dquote, ':', ' ', '2', '1', '}'] =
        .ok o st ∧
      o.Contains ['n', 'a', 'm', 'e'] = true ∧ o.Contains ['s', 'e', 'x'] = false ∧
      (o.assignInt toDouble 3).Contains ['h', 'e', 'l', 'l', 'o'] = false) := by
  refine ⟨?_, ?_, ⟨_, _, rfl, rfl, rfl, rfl⟩⟩
  · cases v with
    | object m =>
      simp only [Json.Contains]
      rw [find_isSome_iff]
      exact ⟨fun h => ⟨m, rfl, h⟩, fun ⟨m2, h1, h2⟩ => by cases h1; exact h2⟩
    | _ =>
      exact ⟨fun h => by simp [Json.Contains] at h, fun ⟨m2, h1, _⟩ => by cases h1⟩
  · intro h
    cases v with
    | object m => simp [Json.IsObject, Json.DataKind] at h
    | _ => rfl

/-- A witness for C24: the Array `[ null ]` is not an Object. -/
theorem C24_witness :
    (Json.array [.null] : Json (List Char)).Contains ['a'] = false :=
  (C24_contains (fun t : List Char => t) (fun _ => []) (.array [.null]) ['a']).2.1 rfl

/-- C25. For every Object `o`, `o.Keys()` returns the keys of the entries of `o`, each key
once, in the order of the map, which is the strictly ascending order of the bytes,
whatever the order in which the keys were parsed or added (every Object that `Parse`
returns is a map, and `AddProperty` keeps it one); for every receiver that is not an
Object, `Keys()` fails with the retrieve-keys OperationError.  For
`Parse("{\"id\":1234, \"name\": \"Ggicci\", \"birthday\": [1991, 11, 10]}")` it returns
`birthday`, `id`, `name`. -/
theorem C25_keys {D : Type} (atof : List Char → D) (o : Json D) :
    (o.IsObject = false →
      o.Keys = .error (.IllegalOperation .kRetriveKeys o.DataTypeName none)) ∧
    (∀ m : ObjectData D, o = .object m →
      o.Keys = .ok (m.map Prod.fst) ∧
      (∀ k, k ∈ m.map Prod.fst ↔ o.Contains k = true)) ∧
    (∀ m : ObjectData D, o = .object m → ObjectData.Sorted m →
      List.Pairwise (fun a b => strLt a b = true) (m.map Prod.fst) ∧
      (m.map Prod.fst).Nodup) ∧
    (∀ (s : List Char) (st : Assist) (m : ObjectData D), CStr s →
      Parse atof s = .ok (.object m) st → ObjectData.Sorted m) ∧
    (∀ (m : ObjectData D) (k : List Char) (v : Json D), o = .object m → CStr k →
      ObjectData.Sorted m →
      ∃ m2, o.AddProperty k v = .ok (.object m2) ∧ ObjectData.Sorted m2) ∧
    (∃ j st, Parse atof
          ['{', dquote, 'i', 'd', dquote, ':', '1', '2', '3', '4', ',', ' ', dquote, 'n', 'a',
          'm', 'e', dquote, ':', ' ', dquote, 'G', 'g', 'i', 'c', 'c', 'i', dquote, ',', ' ',
          dquote, 'b', 'i', 'r', 't', 'h', 'd', 'a', 'y', dquote, ':', ' ', '[', '1', '9', '9',
          '1', ',', ' ', '1', '1', ',', ' ', '1', '0', ']', '}'] =
        .ok j st ∧
      j.Keys = .ok [['b', 'i', 'r', 't', 'h', 'd', 'a', 'y'], ['i', 'd'],
        ['n', 'a', 'm', 'e']]) := by
  refine ⟨?_, ?_, ?_, ?_, ?_, ⟨_, _, rfl, rfl⟩⟩
  · intro h
    cases o with
    | object m => simp [Json.IsObject, Json.DataKind] at h
    | _ => rfl
  · intro m hm
    subst hm
    refine ⟨rfl, fun k => ?_⟩
    simp only [Json.Contains]
    rw [find_isSome_iff]
  · intro m _ hs
    refine ⟨?_, Sorted.keys_nodup hs⟩
    unfold ObjectData.Sorted at hs
    rw [List.pairwise_map]
    exact hs
  · intro s st m hc h
    have hw := Parse_wellFormed atof hc h
    cases hw with
    | object _ hs _ => exact hs
  · intro m k v hm hk hs
    subst hm
    obtain ⟨m2, h1, -, -, h4, -⟩ := assignAtKey_object m k (fun slot => slot.assign v)
    refine ⟨m2, ?_, h4 hs⟩
    simp only [Json.AddProperty, c_str_of_CStr hk]
    rw [← h1]
    rfl

/-- A witness for C25: the keys of the Object `{ "a": null, "b": true }`, and `Keys()`
on a String. -/
theorem C25_witness :
    (List.Pairwise (fun a b => strLt a b = true)
        (([(['a'], .null), (['b'], .bool true)] : ObjectData (List Char)).map Prod.fst) ∧
      (([(['a'], .null), (['b'], .bool true)] : ObjectData (List Char)).map
        Prod.fst).Nodup) ∧
    ((Json.string ['s'] : Json (List Char)).Keys =
      .error (.IllegalOperation .kRetriveKeys (Json.string ['s'] : Json (List Char)).DataTypeName
        none)) :=
  ⟨(C25_keys (fun t : List Char => t) (.object [(['a'], .null), (['b'], .bool true)])).2.2.1
      _ rfl (by unfold ObjectData.Sorted; simp [strLt]),
    (C25_keys (fun t : List Char => t) (.string ['s'])).1 rfl⟩

/-- C26. For every Value `v`, `v.IsEmpty()` is true if and only if `v` is an Object with
no entries or an Array with no elements; it is false for every Number, String, Bool and
Null, so `Parse("{}")` and `Parse("[]")` are empty while neither is Null. -/
theorem C26_is_empty {D : Type} (atof : List Char → D) (v : Json D) :
    (v.IsEmpty = true ↔ v = .object [] ∨ v = .array []) ∧
    (v.IsObject = false → v.IsArray = false → v.IsEmpty = false) ∧
    (∃ eo st, Parse atof ['{', '}'] = .ok eo st ∧ eo.IsEmpty = true ∧ eo.IsNull = false) ∧
    (∃ ea st, Parse atof ['[', ']'] = .ok ea st ∧ ea.IsEmpty = true ∧ ea.IsNull = false) := by
  refine ⟨?_, ?_, ⟨_, _, rfl, rfl, rfl⟩, ⟨_, _, rfl, rfl, rfl⟩⟩
  · cases v with
    | object m =>
      cases m with
      | nil => exact ⟨fun _ => Or.inl rfl, fun _ => rfl⟩
      | cons p rest =>
        exact ⟨fun h => by simp [Json.IsEmpty] at h,
          fun h => by rcases h with h | h <;> cases h⟩
    | array a =>
      cases a with
      | nil => exact ⟨fun _ => Or.inr rfl, fun _ => rfl⟩
      | cons p rest =>
        exact ⟨fun h => by simp [Json.IsEmpty] at h,
          fun h => by rcases h with h | h <;> cases h⟩
    | _ =>
      exact ⟨fun h => by simp [Json.IsEmpty] at h,
        fun h => by rcases h with h | h <;> cases h⟩
  · intro h1 h2
    cases v with
    | object m => simp [Json.IsObject, Json.DataKind] at h1
    | array a => simp [Json.IsArray, Json.DataKind] at h2
    | _ => rfl

/-- A witness for C26: the Number `7` is neither an Object nor an Array. -/
theorem C26_witness :
    (Json.number 7 : Json Int).IsEmpty = false :=
  (C26_is_empty (fun _ => (0 : Int)) (.number 7)).2.1 rfl rfl

/-- `ConsumeNumber` on a character that is neither a minus sign nor a digit throws at
once, with that character and its offset. -/
theorem ConsumeNumber_not_number {D : Type} (atof : List Char → D) {src : List Char}
    (hc : CStr src) {i : Nat} (fuel : Nat) (hi : i ≤ src.length) (ch : Char)
    (tok : List Char) (h1 : peek src i ≠ '-') (h2 : isdigit (peek src i) = false) :
    ConsumeNumber atof fuel (cur src i ch tok) =
      .thrown (.UnexpectedToken (peek src i) (i : Int)) (cur src (i + 1) (peek src i) []) := by
  unfold ConsumeNumber
  rw [cur_reset_token, sign_cur hc hi, if_neg h1, andThen_ok]
  unfold ConsumeNumber.integer
  simp only [cur_character, h2, Bool.not_false, if_true]
  rw [UnexpectedToken_cur]
  rfl

/-- `ConsumeValue` on a character that starts no value throws at once, with that
character and its offset. -/
theorem ConsumeValue_not_value {D : Type} (atof : List Char → D) {src : List Char}
    (hc : CStr src) {i : Nat} (fuel : Nat) (hi : i ≤ src.length) (sect : Bool) (ch : Char)
    (tok : List Char) (hw : isWhitespace (peek src i) = false)
    (hk : kindOf (peek src i) = .kNumber) (h1 : peek src i ≠ '-')
    (h2 : isdigit (peek src i) = false) :
    ConsumeValue atof (fuel + 1) sect (cur src i ch tok) =
      .thrown (.UnexpectedToken (peek src i) (i : Int)) (cur src (i + 1) (peek src i) []) := by
  have hs := SkipWhitespaces_cur hc [] (fuel + 1) i ch tok (src.drop i) (by simp) (by simp)
    hi (by simpa using hw) (by simp)
  simp only [List.length_nil, Nat.add_zero] at hs
  simp only [ConsumeValue, ConsumeValue.consumer]
  rw [hs, andThen_ok, KindDetect_cur hc hi, andThen_ok, hk]
  simp only []
  rw [ConsumeNumber_not_number atof hc _ hi _ _ h1 h2]
  rfl

/-- The text `{"body":}` fails on its `}`. -/
theorem Parse_pair_without_value {D : Type} (atof : List Char → D) {body : List Char}
    (hc : CStr body) (hb : StringBody body) :
    ∃ st, Parse atof ('{' :: dquote :: (body ++ dquote :: [':', '}'])) =
      .thrown (.UnexpectedToken '}' ((body.length + 4 : Nat) : Int)) st := by
  have hcs : CStr ('{' :: dquote :: (body ++ dquote :: [':', '}'])) := by
    refine CStr_cons (by decide) (CStr_cons (by decide) (CStr_append hc ?_))
    unfold CStr; decide
  generalize hsrc : '{' :: dquote :: (body ++ dquote :: [':', '}']) = src at hcs
  have hlen : src.length = body.length + 5 := by rw [← hsrc]; simp
  have hd0 : src.drop 0 = '{' :: dquote :: (body ++ dquote :: [':', '}']) := by
    rw [← hsrc]; rfl
  have hd1 : src.drop 1 = dquote :: (body ++ dquote :: [':', '}']) := by
    rw [← hsrc]; rfl
  have hd1b : src.drop 1 = [] ++ dquote :: (body ++ dquote :: [':', '}']) := hd1
  have hd2 : src.drop (1 + 1) = body ++ dquote :: [':', '}'] := drop_next hd1
  have hd3 : src.drop (1 + 1 + body.length) = dquote :: [':', '}'] := drop_skip hd2
  have hd4 : src.drop (1 + 1 + body.length + 1) = [':', '}'] := drop_next hd3
  have hd5 : src.drop (1 + 1 + body.length + 1 + 1) = ['}'] := drop_next hd4
  have hp0 : peek src 0 = '{' := peek_of_drop_cons hd0
  have hp1 : peek src 1 = dquote := peek_of_drop_cons hd1
  have hp4 : peek src (1 + 1 + body.length + 1) = ':' := peek_of_drop_cons hd4
  have hp5 : peek src (1 + 1 + body.length + 1 + 1) = '}' := peek_of_drop_cons hd5
  have e4 : 1 + 0 + 1 + body.length + 1 = 1 + 1 + body.length + 1 := by omega
  -- the value after the colon
  have hval : ∀ (ch : Char) (tok : List Char),
      ConsumeValue atof (src.length + 1) true
          (cur src (1 + 1 + body.length + 1 + 1) ch tok) =
        .thrown (.UnexpectedToken '}' ((1 + 1 + body.length + 1 + 1 : Nat) : Int))
          (cur src (1 + 1 + body.length + 1 + 1 + 1) '}' []) := by
    intro ch tok
    have := ConsumeValue_not_value atof hcs src.length
      (show 1 + 1 + body.length + 1 + 1 ≤ src.length by omega) true ch tok
      (by rw [hp5]; decide) (by rw [hp5]; decide) (by rw [hp5]; decide)
      (by rw [hp5]; decide)
    rw [hp5] at this
    exact this
  -- the pair
  have hpair : ∀ (tok : List Char),
      ConsumePair (ConsumeValue atof (src.length + 1) true) (src.length + 1 + 1)
          (cur src 1 ' ' tok) =
        .thrown (.UnexpectedToken '}' ((1 + 1 + body.length + 1 + 1 : Nat) : Int))
          (cur src (1 + 1 + body.length + 1 + 1 + 1) '}' []) := by
    intro tok
    unfold ConsumePair
    rw [ConsumeString_fwd hcs ' ' tok Ws_nil hb hd1b (by omega) (by simp)
      (by omega), andThen_ok]
    simp only [Json.toStdString, List.length_nil]
    rw [e4]
    have hs := SkipWhitespaces_cur hcs [] (src.length + 1 + 1) (1 + 1 + body.length + 1)
      dquote body [':', '}'] (by simp) (by simpa using hd4) (by omega)
      (by simp only [List.length_nil, Nat.add_zero]; rw [hp4]; decide) (by simp)
    simp only [List.length_nil, Nat.add_zero] at hs
    rw [hs, andThen_ok]
    obtain ⟨ch2, -, hsp⟩ := ConsumeSpecific_fwd hcs [':'] (1 + 1 + body.length + 1)
      (peek src (1 + 1 + body.length + 1)) body ['}'] (by omega) (by simpa using hd4)
    simp only [List.length_singleton] at hsp
    rw [hsp, andThen_ok, hval, andThen_thrown]
  rw [Parse_eq]
  have hs0 := SkipWhitespaces_cur hcs [] (src.length + 1 + 1) 0 ' ' [] src (by simp)
    (by simp) (by omega) (by simp only [List.length_nil, Nat.add_zero]; rw [hp0]; decide)
    (by simp)
  simp only [List.length_nil, Nat.add_zero] at hs0
  have hs1 := SkipWhitespaces_cur hcs [] (src.length + 1 + 1) 1 '{' [] (src.drop 1)
    (by simp) (by simp) (by omega)
    (by simp only [List.length_nil, Nat.add_zero]; rw [hp1]; decide) (by simp)
  simp only [List.length_nil, Nat.add_zero] at hs1
  refine ⟨cur src (1 + 1 + body.length + 1 + 1 + 1) '}' [], ?_⟩
  unfold ConsumeValue.consumer
  rw [hs0, andThen_ok, KindDetect_cur hcs (Nat.zero_le _), andThen_ok, hp0]
  have hk : kindOf '{' = .kObject := by decide
  rw [hk]
  simp only []
  unfold ConsumeObject
  rw [NextCharacter_cur hcs (Nat.zero_le _), andThen_ok, hp0]
  rw [if_neg (by decide)]
  rw [show (0 : Nat) + 1 = 1 from rfl, hs1, andThen_ok,
    NextCharacter_cur hcs (show 1 ≤ src.length by omega), andThen_ok, hp1]
  rw [if_neg (by decide), Retract_cur, hpair]
  have e5 : (body.length + 4 : Nat) = 1 + 1 + body.length + 1 + 1 := by omega
  rw [e5]
  simp [Outcome.catchRethrow, cur]

/-- C29. For every accepted string literal `k` (`"body"` with nothing around it),
`Json::Parse("{" ++ k ++ ":}")` fails with the SyntaxError whose character is `}` and
whose offset is the index of that `}`, `length(k) + 2`; for the input `{"a":}` the offset
is 5. -/
theorem C29_pair_without_value {D : Type} (atof : List Char → D) (body : List Char)
    (hc : CStr body)
    (hk : ∃ v st, Parse atof (dquote :: (body ++ [dquote])) = .ok v st) :
    (∃ st, Parse atof ('{' :: ((dquote :: (body ++ [dquote])) ++ [':', '}'])) =
      .thrown (.UnexpectedToken '}' (((dquote :: (body ++ [dquote])).length + 2 : Nat) : Int))
        st) ∧
    (∃ st, Parse atof ['{', dquote, 'a', dquote, ':', '}'] =
      .thrown (.UnexpectedToken '}' 5) st) := by
  refine ⟨?_, ⟨_, rfl⟩⟩
  obtain ⟨v, st, h⟩ := hk
  obtain ⟨st2, h2⟩ := Parse_pair_without_value atof hc (Parse_quoted_ok atof hc h).2
  refine ⟨st2, ?_⟩
  have e1 : '{' :: ((dquote :: (body ++ [dquote])) ++ [':', '}']) =
      '{' :: dquote :: (body ++ dquote :: [':', '}']) := by simp
  have e2 : (dquote :: (body ++ [dquote])).length + 2 = body.length + 4 := by simp
  rw [e1, e2]
  exact h2

/-- A witness for C29: the key `"ke\ty"`. -/
theorem C29_witness :
    CStr ['k', 'e', bslash, 't', 'y'] ∧
    ∃ st, Parse (fun t : List Char => t)
        ('{' :: ((dquote :: (['k', 'e', bslash, 't', 'y'] ++ [dquote])) ++ [':', '}'])) =
      .thrown (.UnexpectedToken '}'
        (((dquote :: (['k', 'e', bslash, 't', 'y'] ++ [dquote])).length + 2 : Nat) : Int)) st :=
  ⟨by unfold CStr; decide,
    (C29_pair_without_value (fun t : List Char => t) ['k', 'e', bslash, 't', 'y']
      (by unfold CStr; decide) ⟨_, _, rfl⟩).1⟩

theorem isgraph_ne_NUL {c : Char} (h : isgraph c = true) : NUL ≠ c := by
  rintro rfl
  revert h
  decide

theorem isgraph_lt {c : Char} (h : isgraph c = true) : ¬ 128 ≤ c.toNat := by
  simp only [isgraph, Bool.and_eq_true, decide_eq_true_eq] at h
  omega

theorem what_read (e : Exception) : (Exception.what e).bind CharPtr.read = none := by
  unfold Exception.what
  cases Exception.what.oss e <;> rfl

/-- C30 (what the code does). `Json::Parse("{ \"year\": 2013, month: 8 }")` fails with the
exception made of the character `m` and the offset 16.  At the `return` of `what()` the
stream `oss` holds `SyntaxError: Unexpected token m at pos 16`.  In general it holds, for
an offending character `c` with a graphic representation (`isgraph`: the codes 33 to 126,
which leaves out the space) at offset `p`, the text
`SyntaxError: Unexpected token ` ++ `c` ++ ` at pos ` ++ decimal(`p`); for any other
character of a code below 128 but NUL, the decimal code of `c` followed by `(ASCII)` in
the place of `c`; and for the end of input (NUL) `SyntaxError: Unexpected end of input`.
What `what()` returns is `oss.str().c_str()`, a pointer into a temporary that is destroyed
before the caller has it, so that no read of the message is defined. -/
theorem C30_syntax_error_message {D : Type} (atof : List Char → D) :
    (∃ st, Parse atof
          ['{', ' ', dquote, 'y', 'e', 'a', 'r', dquote, ':', ' ', '2', '0', '1', '3', ',', ' ',
          'm', 'o', 'n', 't', 'h', ':', ' ', '8', ' ', '}'] =
        .thrown (.UnexpectedToken 'm' 16) st) ∧
    Exception.what.oss (.UnexpectedToken 'm' 16) =
      some "SyntaxError: Unexpected token m at pos 16".data ∧
    (∀ (c : Char) (p : Int), isgraph c = true →
      Exception.what.oss (.UnexpectedToken c p) =
        some ("SyntaxError: Unexpected token ".data ++ [c] ++ " at pos ".data ++ decimal p)) ∧
    (∀ (c : Char) (p : Int), c ≠ NUL → c.toNat < 128 → isgraph c = false →
      Exception.what.oss (.UnexpectedToken c p) =
        some ("SyntaxError: Unexpected token ".data ++ decimal (c.toNat : Int) ++
          "(ASCII)".data ++ " at pos ".data ++ decimal p)) ∧
    (∀ p : Int, Exception.what.oss (.UnexpectedToken NUL p) =
      some "SyntaxError: Unexpected end of input".data) ∧
    Exception.what.oss (.UnexpectedToken ' ' 2) =
      some "SyntaxError: Unexpected token 32(ASCII) at pos 2".data ∧
    Exception.what (.UnexpectedToken 'm' 16) = some CharPtr.dangling ∧
    (∀ e : Exception, (Exception.what e).bind CharPtr.read = none) := by
  refine ⟨⟨_, rfl⟩, by decide, ?_, ?_, ?_, by decide, by decide, what_read⟩
  · intro c p h
    simp only [Exception.what.oss]
    rw [if_neg (isgraph_ne_NUL h), if_neg (isgraph_lt h), h]
    simp
  · intro c p h1 h2 h3
    simp only [Exception.what.oss]
    rw [if_neg (Ne.symm h1), if_neg (by omega), h3]
    simp
  · intro p
    simp [Exception.what.oss]

/-- A witness for C30: the character `}` at offset 5, and the tabulator at offset 3. -/
theorem C30_witness :
    Exception.what.oss (.UnexpectedToken '}' 5) =
      some ("SyntaxError: Unexpected token ".data ++ ['}'] ++ " at pos ".data ++ decimal 5) ∧
    Exception.what.oss (.UnexpectedToken '\t' 3) =
      some ("SyntaxError: Unexpected token ".data ++ decimal (('\t' : Char).toNat : Int) ++
        "(ASCII)".data ++ " at pos ".data ++ decimal 3) :=
  ⟨(C30_syntax_error_message (fun t : List Char => t)).2.2.1 '}' 5 (by decide),
    (C30_syntax_error_message (fun t : List Char => t)).2.2.2.1 '\t' 3 (by decide)
      (by decide) (by decide)⟩

theorem nodeMap_mem_insert {D : Type} (k : List Char) (c : Node D) :
    ∀ (m : NodeMap D) (p : List Char × Node D),
      p ∈ NodeMap.insert k c m → p = (k, c) ∨ p ∈ m := by
  intro m
  induction m with
  | nil => intro p h; simp [NodeMap.insert] at h; exact Or.inl h
  | cons q rest ih =>
    intro p h
    obtain ⟨k2, v2⟩ := q
    simp only [NodeMap.insert] at h
    split at h
    · simp at h
      rcases h with h | h | h <;> simp [h]
    · split at h
      · simp at h
        rcases h with h | h
        · simp [h]
        · rcases ih p h with h | h <;> simp [h]
      · exact Or.inr h

theorem nodeMap_mem_erase {D : Type} (k : List Char) :
    ∀ (m : NodeMap D) (p : List Char × Node D), p ∈ NodeMap.erase k m → p ∈ m := by
  intro m
  induction m with
  | nil => intro p h; simp [NodeMap.erase] at h
  | cons q rest ih =>
    intro p h
    obtain ⟨k2, v2⟩ := q
    simp only [NodeMap.erase] at h
    split at h
    · exact List.mem_cons_of_mem _ h
    · simp at h
      rcases h with h | h
      · simp [h]
      · exact List.mem_cons_of_mem _ (ih p h)

theorem nodeMap_mem_erasePtr {D : Type} (j : Nat) :
    ∀ (m : NodeMap D) (p : List Char × Node D), p ∈ NodeMap.erasePtr j m → p ∈ m := by
  intro m
  induction m with
  | nil => intro p h; simp [NodeMap.erasePtr] at h
  | cons q rest ih =>
    intro p h
    obtain ⟨k2, v2⟩ := q
    simp only [NodeMap.erasePtr] at h
    split at h
    · exact List.mem_cons_of_mem _ h
    · simp at h
      rcases h with h | h
      · simp [h]
      · exact List.mem_cons_of_mem _ (ih p h)

theorem node_mem_erasePtr {D : Type} (j : Nat) :
    ∀ (l : List (Node D)) (c : Node D), c ∈ Node.erasePtr j l → c ∈ l := by
  intro l
  induction l with
  | nil => intro c h; simp [Node.erasePtr] at h
  | cons q rest ih =>
    intro c h
    simp only [Node.erasePtr] at h
    split at h
    · exact List.mem_cons_of_mem _ h
    · simp at h
      rcases h with h | h
      · simp [h]
      · exact List.mem_cons_of_mem _ (ih c h)

theorem nodeMap_mem_store {D : Type} (k : List Char) (c : Node D) :
    ∀ (m : NodeMap D) (p : List Char × Node D),
      p ∈ NodeMap.store k c m → p = (k, c) ∨ p ∈ m := by
  intro m
  induction m with
  | nil => intro p h; simp [NodeMap.store] at h
  | cons q rest ih =>
    intro p h
    obtain ⟨k2, v2⟩ := q
    simp only [NodeMap.store] at h
    split at h
    · rename_i hk
      simp at h
      rcases h with h | h
      · left; rw [h, hk]
      · right; exact List.mem_cons_of_mem _ h
    · simp at h
      rcases h with h | h
      · simp [h]
      · rcases ih p h with h | h <;> simp [h]

theorem nodeMap_find_mem {D : Type} (k : List Char) :
    ∀ (m : NodeMap D) (c : Node D), NodeMap.find k m = some c → (k, c) ∈ m := by
  intro m
  induction m with
  | nil => intro c h; simp [NodeMap.find] at h
  | cons q rest ih =>
    intro c h
    obtain ⟨k2, v2⟩ := q
    simp only [NodeMap.find] at h
    split at h
    · rename_i hk
      simp at h
      simp [h, hk]
    · exact List.mem_cons_of_mem _ (ih c h)

theorem value_entries_eq_map {D : Type} :
    ∀ m : List (List Char × Node D),
      Node.value.entries m = m.map fun p => (p.1, p.2.value) := by
  intro m
  induction m with
  | nil => simp [Node.value.entries]
  | cons q rest ih => obtain ⟨k, c⟩ := q; simp [Node.value.entries, ih]

theorem value_elements_eq_map {D : Type} :
    ∀ l : List (Node D), Node.value.elements l = l.map Node.value := by
  intro l
  induction l with
  | nil => simp [Node.value.elements]
  | cons c rest ih => simp [Node.value.elements, ih]

theorem value_entries_insert {D : Type} (k : List Char) (c : Node D) :
    ∀ m : NodeMap D,
      Node.value.entries (NodeMap.insert k c m) =
        ObjectData.insert k c.value (Node.value.entries m) := by
  intro m
  induction m with
  | nil => simp [NodeMap.insert, ObjectData.insert, Node.value.entries]
  | cons q rest ih =>
    obtain ⟨k2, v2⟩ := q
    simp only [NodeMap.insert, ObjectData.insert, Node.value.entries]
    split
    · simp [Node.value.entries]
    · split
      · simp [Node.value.entries, ih]
      · simp [Node.value.entries]

theorem value_entries_store {D : Type} (k : List Char) (c : Node D) :
    ∀ m : NodeMap D,
      Node.value.entries (NodeMap.store k c m) =
        ObjectData.store k c.value (Node.value.entries m) := by
  intro m
  induction m with
  | nil => simp [NodeMap.store, ObjectData.store, Node.value.entries]
  | cons q rest ih =>
    obtain ⟨k2, v2⟩ := q
    simp only [NodeMap.store, ObjectData.store, Node.value.entries]
    split
    · simp [Node.value.entries]
    · simp [Node.value.entries, ih]

theorem value_entries_find {D : Type} (k : List Char) :
    ∀ m : NodeMap D,
      ObjectData.find k (Node.value.entries m) = (NodeMap.find k m).map Node.value := by
  intro m
  induction m with
  | nil => simp [NodeMap.find, ObjectData.find, Node.value.entries]
  | cons q rest ih =>
    obtain ⟨k2, v2⟩ := q
    simp only [NodeMap.find, ObjectData.find, Node.value.entries]
    split
    · simp
    · exact ih

theorem mem_descendants_entries {D : Type} (x : Nat) :
    ∀ m : List (List Char × Node D),
      x ∈ Node.descendants.entries m ↔ ∃ p ∈ m, x ∈ p.2.addrs := by
  intro m
  induction m with
  | nil =>
    constructor
    · intro h; simp [Node.descendants.entries] at h
    · rintro ⟨p, hp, _⟩; cases hp
  | cons q rest ih =>
    obtain ⟨k, c⟩ := q
    simp only [Node.descendants.entries, List.mem_append, ih, List.mem_cons, Node.addrs]
    constructor
    · rintro (h | ⟨p, hp, h⟩)
      · exact ⟨(k, c), Or.inl rfl, h⟩
      · exact ⟨p, Or.inr hp, h⟩
    · rintro ⟨p, hp | hp, h⟩
      · subst hp; exact Or.inl h
      · exact Or.inr ⟨p, hp, h⟩

theorem mem_descendants_elements {D : Type} (x : Nat) :
    ∀ l : List (Node D), x ∈ Node.descendants.elements l ↔ ∃ c ∈ l, x ∈ c.addrs := by
  intro l
  induction l with
  | nil =>
    constructor
    · intro h; simp [Node.descendants.elements] at h
    · rintro ⟨p, hp, _⟩; cases hp
  | cons c rest ih =>
    simp only [Node.descendants.elements, List.mem_append, ih, List.mem_cons, Node.addrs]
    constructor
    · rintro (h | ⟨p, hp, h⟩)
      · exact ⟨c, Or.inl rfl, h⟩
      · exact ⟨p, Or.inr hp, h⟩
    · rintro ⟨p, hp | hp, h⟩
      · subst hp; exact Or.inl h
      · exact Or.inr ⟨p, hp, h⟩

theorem copyData_objectLoop_spec {D : Type} :
    ∀ m : List (List Char × Node D), (∀ p ∈ m, Node.CopiesWell p.2) →
    ∀ (tmp : NodeMap D) (next : Nat), (∀ q ∈ tmp, q.2.Consistent) →
      ∃ tmp2 next2, Node.CopyData.objectLoop m tmp next = some (tmp2, next2) ∧
        (∀ q ∈ tmp2, q.2.Consistent) ∧
        Node.value.entries tmp2 =
          Json.CopyData.objectLoop (Node.value.entries m) (Node.value.entries tmp) ∧
        next ≤ next2 ∧
        ∀ x ∈ Node.descendants.entries tmp2,
          x ∈ Node.descendants.entries tmp ∨ (next ≤ x ∧ x < next2) := by
  intro m
  induction m with
  | nil =>
    intro _ tmp next ht
    exact ⟨tmp, next, rfl, ht, rfl, le_refl _, fun x hx => Or.inl hx⟩
  | cons q rest ih =>
    intro hm tmp next ht
    obtain ⟨k, c⟩ := q
    obtain ⟨c2, n2, h1, h2, h3, _, h5, h6, h7⟩ := hm (k, c) (List.mem_cons_self _ _) next (next + 1)
    have ht2 : ∀ q ∈ NodeMap.insert k c2 tmp, q.2.Consistent := by
      intro q hq
      rcases nodeMap_mem_insert k c2 tmp q hq with h | h
      · rw [h]; exact h2
      · exact ht q h
    obtain ⟨tmp3, n3, g1, g2, g3, g4, g5⟩ :=
      ih (fun p hp => hm p (List.mem_cons_of_mem _ hp)) (NodeMap.insert k c2 tmp) n2 ht2
    refine ⟨tmp3, n3, ?_, g2, ?_, by omega, ?_⟩
    · simp only [Node.CopyData.objectLoop, h1]
      exact g1
    · rw [g3, value_entries_insert, h5]
      simp only [Node.value.entries, Json.CopyData.objectLoop]
    · intro x hx
      rcases g5 x hx with h | h
      · rw [mem_descendants_entries] at h
        obtain ⟨p, hp, hxp⟩ := h
        rcases nodeMap_mem_insert k c2 tmp p hp with hp | hp
        · right
          rw [hp] at hxp
          simp only [Node.addrs, List.mem_cons] at hxp
          rcases hxp with hxp | hxp
          · rw [hxp, h3]; omega
          · have := h7 x hxp; omega
        · left
          rw [mem_descendants_entries]
          exact ⟨p, hp, hxp⟩
      · right; omega

theorem copyData_arrayLoop_spec {D : Type} :
    ∀ l : List (Node D), (∀ c ∈ l, Node.CopiesWell c) →
    ∀ (tmp : List (Node D)) (next : Nat), (∀ q ∈ tmp, q.Consistent) →
      ∃ tmp2 next2, Node.CopyData.arrayLoop l tmp next = some (tmp2, next2) ∧
        (∀ q ∈ tmp2, q.Consistent) ∧
        Node.value.elements tmp2 =
          Json.CopyData.arrayLoop (Node.value.elements l) (Node.value.elements tmp) ∧
        next ≤ next2 ∧
        ∀ x ∈ Node.descendants.elements tmp2,
          x ∈ Node.descendants.elements tmp ∨ (next ≤ x ∧ x < next2) := by
  intro l
  induction l with
  | nil =>
    intro _ tmp next ht
    exact ⟨tmp, next, rfl, ht, rfl, le_refl _, fun x hx => Or.inl hx⟩
  | cons c rest ih =>
    intro hm tmp next ht
    obtain ⟨c2, n2, h1, h2, h3, _, h5, h6, h7⟩ := hm c (List.mem_cons_self _ _) next (next + 1)
    have ht2 : ∀ q ∈ tmp ++ [c2], q.Consistent := by
      intro q hq
      rcases List.mem_append.1 hq with h | h
      · exact ht q h
      · rw [List.mem_singleton.1 h]; exact h2
    obtain ⟨tmp3, n3, g1, g2, g3, g4, g5⟩ :=
      ih (fun p hp => hm p (List.mem_cons_of_mem _ hp)) (tmp ++ [c2]) n2 ht2
    refine ⟨tmp3, n3, ?_, g2, ?_, by omega, ?_⟩
    · simp only [Node.CopyData.arrayLoop, h1]
      exact g1
    · rw [g3]
      simp only [value_elements_eq_map, List.map_append, List.map_cons, List.map_nil, h5,
        Json.CopyData.arrayLoop]
    · intro x hx
      rcases g5 x hx with h | h
      · rw [mem_descendants_elements] at h
        obtain ⟨p, hp, hxp⟩ := h
        rcases List.mem_append.1 hp with hp | hp
        · left
          rw [mem_descendants_elements]
          exact ⟨p, hp, hxp⟩
        · right
          rw [List.mem_singleton.1 hp] at hxp
          simp only [Node.addrs, List.mem_cons] at hxp
          rcases hxp with hxp | hxp
          · rw [hxp, h3]; omega
          · have := h7 x hxp; omega
      · right; omega

theorem copyData_spec {D : Type} {rhs : Node D} (h : rhs.Consistent) : rhs.CopiesWell := by
  induction h with
  | null a =>
    intro addr next
    exact ⟨.null addr .kNull, next, rfl, .null addr, rfl, rfl, rfl, le_refl _,
      fun x hx => by simp [Node.descendants] at hx⟩
  | number a d =>
    intro addr next
    exact ⟨.number addr .kNumber d, next, rfl, .number addr d, rfl, rfl, rfl, le_refl _,
      fun x hx => by simp [Node.descendants] at hx⟩
  | string a s =>
    intro addr next
    exact ⟨.string addr .kString s, next, rfl, .string addr s, rfl, rfl, rfl, le_refl _,
      fun x hx => by simp [Node.descendants] at hx⟩
  | bool a b =>
    intro addr next
    exact ⟨.bool addr .kBool b, next, rfl, .bool addr b, rfl, rfl, rfl, le_refl _,
      fun x hx => by simp [Node.descendants] at hx⟩
  | object a m _ ih =>
    intro addr next
    obtain ⟨tmp2, n2, h1, h2, h3, h4, h5⟩ :=
      copyData_objectLoop_spec m ih [] next (fun q hq => by cases hq)
    refine ⟨.object addr .kObject tmp2, n2, ?_, .object addr tmp2 h2, rfl, rfl, ?_, h4, ?_⟩
    · simp only [Node.CopyData, h1]
    · simp only [Node.value, Json.CopyData, h3, Node.value.entries]
    · intro x hx
      simp only [Node.descendants] at hx
      rcases h5 x hx with h | h
      · simp [Node.descendants.entries] at h
      · exact h
  | array a l _ ih =>
    intro addr next
    obtain ⟨tmp2, n2, h1, h2, h3, h4, h5⟩ :=
      copyData_arrayLoop_spec l ih [] next (fun q hq => by cases hq)
    refine ⟨.array addr .kArray tmp2, n2, ?_, .array addr tmp2 h2, rfl, rfl, ?_, h4, ?_⟩
    · simp only [Node.CopyData, h1]
    · simp only [Node.value, Json.CopyData, h3, Node.value.elements]
    · intro x hx
      simp only [Node.descendants] at hx
      rcases h5 x hx with h | h
      · simp [Node.descendants.elements] at h
      · exact h

theorem destroyData_entries {D : Type} :
    ∀ m : List (List Char × Node D), (∀ p ∈ m, (Node.DestroyData p.2).isSome = true) →
      Node.DestroyData.entries m = true := by
  intro m
  induction m with
  | nil => intro _; rfl
  | cons q rest ih =>
    intro h
    obtain ⟨k, c⟩ := q
    simp only [Node.DestroyData.entries, Bool.and_eq_true]
    exact ⟨h (k, c) (List.mem_cons_self _ _), ih fun p hp => h p (List.mem_cons_of_mem _ hp)⟩

theorem destroyData_elements {D : Type} :
    ∀ l : List (Node D), (∀ c ∈ l, (Node.DestroyData c).isSome = true) →
      Node.DestroyData.elements l = true := by
  intro l
  induction l with
  | nil => intro _; rfl
  | cons c rest ih =>
    intro h
    simp only [Node.DestroyData.elements, Bool.and_eq_true]
    exact ⟨h c (List.mem_cons_self _ _), ih fun p hp => h p (List.mem_cons_of_mem _ hp)⟩

theorem destroyData_spec {D : Type} {n : Node D} (h : n.Consistent) :
    n.DestroyData = some (.null n.addr n.kind_) := by
  induction h with
  | null a => rfl
  | number a d => rfl
  | string a s => rfl
  | bool a b => rfl
  | object a m _ ih =>
    have : Node.DestroyData.entries m = true :=
      destroyData_entries m fun p hp => by rw [ih p hp]; rfl
    simp [Node.DestroyData, this, Node.addr, Node.kind_]
  | array a l _ ih =>
    have : Node.DestroyData.elements l = true :=
      destroyData_elements l fun p hp => by rw [ih p hp]; rfl
    simp [Node.DestroyData, this, Node.addr, Node.kind_]

theorem reread_root {D : Type} {root n : Node D} (h : root.addr = n.addr) :
    Node.reread n root = n := by
  cases root <;> exact if_pos h

theorem reread_entries_id {D : Type} (n : Node D) :
    ∀ m : List (List Char × Node D), (∀ p ∈ m, Node.reread n p.2 = p.2) →
      Node.reread.entries n m = m := by
  intro m
  induction m with
  | nil => intro _; rfl
  | cons q rest ih =>
    intro h
    obtain ⟨k, c⟩ := q
    have hc : Node.reread n c = c := h (k, c) (List.mem_cons_self _ _)
    simp only [Node.reread.entries, hc, ih fun p hp => h p (List.mem_cons_of_mem _ hp)]

theorem reread_elements_id {D : Type} (n : Node D) :
    ∀ l : List (Node D), (∀ c ∈ l, Node.reread n c = c) → Node.reread.elements n l = l := by
  intro l
  induction l with
  | nil => intro _; rfl
  | cons c rest ih =>
    intro h
    have hc : Node.reread n c = c := h c (List.mem_cons_self _ _)
    simp only [Node.reread.elements, hc, ih fun p hp => h p (List.mem_cons_of_mem _ hp)]

theorem reread_of_not_mem {D : Type} {root : Node D} (h : root.Consistent) (n : Node D)
    (hn : n.addr ∉ root.addrs) : Node.reread n root = root := by
  induction h with
  | null a =>
    have : a ≠ n.addr := fun e => hn (by simp [Node.addrs, Node.addr, e])
    simp only [Node.reread, this, if_false]
  | number a d =>
    have : a ≠ n.addr := fun e => hn (by simp [Node.addrs, Node.addr, e])
    simp only [Node.reread, this, if_false]
  | string a s =>
    have : a ≠ n.addr := fun e => hn (by simp [Node.addrs, Node.addr, e])
    simp only [Node.reread, this, if_false]
  | bool a b =>
    have : a ≠ n.addr := fun e => hn (by simp [Node.addrs, Node.addr, e])
    simp only [Node.reread, this, if_false]
  | object a m _ ih =>
    have : a ≠ n.addr := fun e => hn (by simp [Node.addrs, Node.addr, e])
    have hm : Node.reread.entries n m = m := reread_entries_id n m fun p hp =>
      ih p hp fun hx => hn (by
        simp only [Node.addrs, Node.descendants, List.mem_cons]
        exact Or.inr ((mem_descendants_entries _ m).2 ⟨p, hp, hx⟩))
    simp only [Node.reread, this, if_false, hm]
  | array a l _ ih =>
    have : a ≠ n.addr := fun e => hn (by simp [Node.addrs, Node.addr, e])
    have hl : Node.reread.elements n l = l := reread_elements_id n l fun c hc =>
      ih c hc fun hx => hn (by
        simp only [Node.addrs, Node.descendants, List.mem_cons]
        exact Or.inr ((mem_descendants_elements _ l).2 ⟨c, hc, hx⟩))
    simp only [Node.reread, this, if_false, hl]

theorem copyData_null_kind {D : Type} (a : Nat) {k : Kind} (hk : k ≠ .kNull)
    (addr next : Nat) : Node.CopyData (.null a k : Node D) addr next = none := by
  cases k <;> first | rfl | exact absurd rfl hk

theorem copyData_objectLoop_none {D : Type} (n : Node D) :
    ∀ m : List (List Char × Node D),
      (∃ p ∈ m, ∀ addr next, Node.CopyData (Node.reread n p.2) addr next = none) →
      ∀ (tmp : NodeMap D) (next : Nat),
        Node.CopyData.objectLoop (Node.reread.entries n m) tmp next = none := by
  intro m
  induction m with
  | nil => rintro ⟨p, hp, _⟩; cases hp
  | cons q rest ih =>
    rintro ⟨p, hp, hnone⟩ tmp next
    obtain ⟨k, c⟩ := q
    simp only [Node.reread.entries, Node.CopyData.objectLoop]
    cases hc : Node.CopyData (Node.reread n c) next (next + 1) with
    | none => rfl
    | some r =>
      rcases List.mem_cons.1 hp with h | h
      · subst h
        rw [hnone next (next + 1)] at hc
        cases hc
      · exact ih ⟨p, h, hnone⟩ _ _

theorem copyData_arrayLoop_none {D : Type} (n : Node D) :
    ∀ l : List (Node D),
      (∃ c ∈ l, ∀ addr next, Node.CopyData (Node.reread n c) addr next = none) →
      ∀ (tmp : List (Node D)) (next : Nat),
        Node.CopyData.arrayLoop (Node.reread.elements n l) tmp next = none := by
  intro l
  induction l with
  | nil => rintro ⟨p, hp, _⟩; cases hp
  | cons c rest ih =>
    rintro ⟨p, hp, hnone⟩ tmp next
    simp only [Node.reread.elements, Node.CopyData.arrayLoop]
    cases hc : Node.CopyData (Node.reread n c) next (next + 1) with
    | none => rfl
    | some r =>
      rcases List.mem_cons.1 hp with h | h
      · subst h
        rw [hnone next (next + 1)] at hc
        cases hc
      · exact ih ⟨p, h, hnone⟩ _ _

theorem copyData_reread_none {D : Type} {root : Node D} (h : root.Consistent) (a : Nat)
    {k : Kind} (hk : k ≠ .kNull) (ha : a ∈ root.addrs) :
    ∀ addr next : Nat, Node.CopyData (Node.reread (.null a k) root) addr next = none := by
  have hroot : ∀ r : Node D, r.addr = a →
      ∀ addr next : Nat, Node.CopyData (Node.reread (.null a k) r) addr next = none := by
    intro r hr addr next
    rw [reread_root (by rw [hr]; rfl)]
    exact copyData_null_kind a hk addr next
  induction h with
  | null a0 =>
    simp only [Node.addrs, Node.addr, Node.descendants, List.mem_singleton] at ha
    exact hroot _ ha.symm
  | number a0 d =>
    simp only [Node.addrs, Node.addr, Node.descendants, List.mem_singleton] at ha
    exact hroot _ ha.symm
  | string a0 s =>
    simp only [Node.addrs, Node.addr, Node.descendants, List.mem_singleton] at ha
    exact hroot _ ha.symm
  | bool a0 b =>
    simp only [Node.addrs, Node.addr, Node.descendants, List.mem_singleton] at ha
    exact hroot _ ha.symm
  | object a0 m _ ih =>
    by_cases h0 : a0 = a
    · exact hroot _ h0
    · simp only [Node.addrs, Node.addr, Node.descendants, List.mem_cons] at ha
      rcases ha with ha | ha
      · exact absurd ha.symm h0
      · obtain ⟨p, hp, hx⟩ := (mem_descendants_entries a m).1 ha
        intro addr next
        have hn : (Node.null a k : Node D).addr = a := rfl
        simp only [Node.reread, hn, h0, if_false, Node.CopyData]
        rw [copyData_objectLoop_none _ m ⟨p, hp, ih p hp hx⟩]
  | array a0 l _ ih =>
    by_cases h0 : a0 = a
    · exact hroot _ h0
    · simp only [Node.addrs, Node.addr, Node.descendants, List.mem_cons] at ha
      rcases ha with ha | ha
      · exact absurd ha.symm h0
      · obtain ⟨p, hp, hx⟩ := (mem_descendants_elements a l).1 ha
        intro addr next
        have hn : (Node.null a k : Node D).addr = a := rfl
        simp only [Node.reread, hn, h0, if_false, Node.CopyData]
        rw [copyData_arrayLoop_none _ l ⟨p, hp, ih p hp hx⟩]

theorem kind_of_descendants {D : Type} {n : Node D} (h : n.Consistent) {x : Nat}
    (hx : x ∈ n.descendants) : n.kind_ ≠ .kNull := by
  cases h with
  | null a => simp [Node.descendants] at hx
  | number a d => simp [Node.descendants] at hx
  | string a s => simp [Node.descendants] at hx
  | bool a b => simp [Node.descendants] at hx
  | object a m _ => simp [Node.kind_]
  | array a l _ => simp [Node.kind_]

theorem apart_root {D : Type} {self json : Node D} (hap : Node.Apart self json) :
    self.addr ≠ json.addr ∧ json.addr ∉ self.descendants ∧ self.addr ∉ json.addrs := by
  refine ⟨fun h => ?_, fun h => ?_, fun h => ?_⟩
  · exact hap self.addr (by simp [Node.addrs]) (by rw [h]; simp [Node.addrs])
  · exact hap json.addr (by simp [Node.addrs, h]) (by simp [Node.addrs])
  · exact hap self.addr (by simp [Node.addrs]) h

theorem node_assign_spec {D : Type} {self json : Node D} (hs : self.Consistent)
    (hj : json.Consistent) (hap : Node.Apart self json) (next : Nat) :
    ∃ out n, Node.assign self json next = some (out, n) ∧ out.Consistent ∧
      out.addr = self.addr ∧ next ≤ n ∧ out.kind_ = json.kind_ ∧
      out.value = json.value.CopyData ∧ ∀ x ∈ out.descendants, next ≤ x ∧ x < n := by
  obtain ⟨hne, hnd, hnm⟩ := apart_root hap
  obtain ⟨out, n, h1, h2, h3, h4, h5, h6, h7⟩ := copyData_spec hj self.addr next
  refine ⟨out, n, ?_, h2, h3, h6, h4, h5, h7⟩
  unfold Node.assign
  rw [if_neg hne, destroyData_spec hs]
  simp only []
  rw [if_neg hnd,
    reread_of_not_mem hj (Node.null (Node.null self.addr self.kind_).addr json.kind_) hnm]
  exact h1

theorem node_assign_self {D : Type} (self : Node D) (next : Nat) :
    Node.assign self self next = some (self, next) := by
  simp [Node.assign]

theorem node_assign_alias {D : Type} {self json : Node D} (hs : self.Consistent)
    (hj : json.Consistent) (hne : self.addr ≠ json.addr)
    (h : json.addr ∈ self.descendants ∨ self.addr ∈ json.descendants) (next : Nat) :
    Node.assign self json next = none := by
  unfold Node.assign
  rw [if_neg hne, destroyData_spec hs]
  simp only []
  by_cases hd : json.addr ∈ self.descendants
  · rw [if_pos hd]
  · rw [if_neg hd]
    rcases h with h | h
    · exact absurd h hd
    · exact copyData_reread_none hj self.addr (kind_of_descendants hj h)
        (by simp [Node.addrs, h]) _ _

theorem node_assignDouble_spec {D : Type} {self : Node D} (hs : self.Consistent) (num : D) :
    self.assignDouble num = some (.number self.addr .kNumber num) := by
  cases hs with
  | null a => rfl
  | number a d => rfl
  | string a s => rfl
  | bool a b => rfl
  | object a m h =>
    have hd := destroyData_spec (Node.Consistent.object a m h)
    unfold Node.assignDouble
    rw [hd]
    rfl
  | array a l h =>
    have hd := destroyData_spec (Node.Consistent.array a l h)
    unfold Node.assignDouble
    rw [hd]
    rfl

theorem node_assignCStr_spec {D : Type} {self : Node D} (hs : self.Consistent) (str : List Char) :
    self.assignCStr str = some (.string self.addr .kString str) := by
  cases hs with
  | null a => rfl
  | number a d => rfl
  | string a s => rfl
  | bool a b => rfl
  | object a m h =>
    have hd := destroyData_spec (Node.Consistent.object a m h)
    unfold Node.assignCStr
    rw [hd]
    rfl
  | array a l h =>
    have hd := destroyData_spec (Node.Consistent.array a l h)
    unfold Node.assignCStr
    rw [hd]
    rfl

theorem node_assignBool_spec {D : Type} {self : Node D} (hs : self.Consistent) (boo : Bool) :
    self.assignBool boo = some (.bool self.addr .kBool boo) := by
  cases hs with
  | null a => rfl
  | number a d => rfl
  | string a s => rfl
  | bool a b => rfl
  | object a m h =>
    have hd := destroyData_spec (Node.Consistent.object a m h)
    unfold Node.assignBool
    rw [hd]
    rfl
  | array a l h =>
    have hd := destroyData_spec (Node.Consistent.array a l h)
    unfold Node.assignBool
    rw [hd]
    rfl

theorem node_push_spec {D : Type} {self rhs : Node D} (hs : self.Consistent)
    (hr : rhs.Consistent) (hap : self.kind_ ≠ .kArray → Node.Apart self rhs) (next : Nat) :
    ∃ out n, Node.Push self rhs next = some (out, n) ∧ out.Consistent ∧
      out.addr = self.addr ∧ out.kind_ = .kArray ∧
      Json.Push self.value rhs.value = .ok out.value ∧ next ≤ n ∧
      ∀ x ∈ out.descendants, x ∈ self.descendants ∨ (next ≤ x ∧ x < n) := by
  have hpush : ∀ (a : Nat) (l : List (Node D)), (∀ c ∈ l, c.Consistent) →
      ∃ out n, Node.Push (.array a .kArray l) rhs next = some (out, n) ∧ out.Consistent ∧
        out.addr = a ∧ out.kind_ = .kArray ∧
        Json.Push (Node.value (.array a .kArray l)) rhs.value = .ok out.value ∧ next ≤ n ∧
        ∀ x ∈ out.descendants,
          x ∈ Node.descendants (.array a .kArray l) ∨ (next ≤ x ∧ x < n) := by
    intro a l hl
    obtain ⟨c, n, h1, h2, h3, _, h5, h6, h7⟩ := copyData_spec hr next (next + 1)
    refine ⟨.array a .kArray (l ++ [c]), n, ?_, ?_, rfl, rfl, ?_, by omega, ?_⟩
    · simp only [Node.Push, Node.kind_, Node.newCopy, h1]
    · refine .array a _ fun q hq => ?_
      rcases List.mem_append.1 hq with h | h
      · exact hl q h
      · rw [List.mem_singleton.1 h]; exact h2
    · simp only [Node.value, Json.Push, value_elements_eq_map, List.map_append, List.map_cons,
        List.map_nil, h5]
    · intro x hx
      simp only [Node.descendants] at hx ⊢
      rw [mem_descendants_elements] at hx
      obtain ⟨p, hp, hxp⟩ := hx
      rcases List.mem_append.1 hp with hp | hp
      · left
        rw [mem_descendants_elements]
        exact ⟨p, hp, hxp⟩
      · right
        rw [List.mem_singleton.1 hp] at hxp
        simp only [Node.addrs, List.mem_cons] at hxp
        rcases hxp with hxp | hxp
        · rw [hxp, h3]; omega
        · have := h7 x hxp; omega
  have hother : self.kind_ ≠ .kArray →
      ∃ out n, Node.Push self rhs next = some (out, n) ∧ out.Consistent ∧
        out.addr = self.addr ∧ out.kind_ = .kArray ∧
        Json.Push self.value rhs.value = .ok out.value ∧ next ≤ n ∧
        ∀ x ∈ out.descendants, x ∈ self.descendants ∨ (next ≤ x ∧ x < n) := by
    intro hk
    obtain ⟨_, hnd, hnm⟩ := apart_root (hap hk)
    obtain ⟨old, n2, g1, g2, g3, _, g5, g6, g7⟩ := copyData_spec hs next (next + 1)
    obtain ⟨c, n, h1, h2, h3, _, h5, h6, h7⟩ := copyData_spec hr n2 (n2 + 1)
    refine ⟨.array self.addr .kArray ([] ++ [old] ++ [c]), n, ?_, ?_, rfl, rfl, ?_, by omega, ?_⟩
    · have hp : Node.Push self rhs next =
          match Node.newCopy self next with
          | some (old, next2) =>
            match self.DestroyData with
            | some s =>
              if rhs.addr ∈ self.descendants then none
              else
                match Node.newCopy (Node.reread (.null s.addr .kArray) rhs) next2 with
                | some (c, next3) => some (.array s.addr .kArray ([] ++ [old] ++ [c]), next3)
                | none => none
            | none => none
          | none => none := by
        cases hs <;> first | rfl | exact absurd rfl hk
      rw [hp]
      simp only [Node.newCopy, g1, destroyData_spec hs]
      rw [if_neg hnd,
        reread_of_not_mem hr (Node.null (Node.null self.addr self.kind_).addr .kArray) hnm]
      simp only [h1, Node.addr]
    · refine .array _ _ fun q hq => ?_
      simp only [List.nil_append, List.cons_append, List.mem_cons, List.mem_singleton,
        List.not_mem_nil, or_false] at hq
      rcases hq with h | h
      · rw [h]; exact g2
      · rw [h]; exact h2
    · have hv : Json.Push self.value rhs.value =
          .ok (.array ([] ++ [self.value.CopyData] ++ [rhs.value.CopyData])) := by
        cases hs <;> first | rfl | exact absurd rfl hk
      rw [hv]
      simp only [Node.value, Node.value.elements, g5, h5, List.nil_append, List.cons_append]
    · intro x hx
      right
      simp only [Node.descendants, Node.descendants.elements, List.nil_append,
        List.cons_append, List.append_nil, List.mem_cons, List.mem_append] at hx
      rcases hx with hx | hx | hx | hx
      · rw [hx, g3]; omega
      · have := g7 x hx; omega
      · rw [hx, h3]; omega
      · have := h7 x hx; omega
  cases hs with
  | array a l h => exact hpush a l h
  | null a => exact hother (by simp [Node.kind_])
  | number a d => exact hother (by simp [Node.kind_])
  | string a s => exact hother (by simp [Node.kind_])
  | bool a b => exact hother (by simp [Node.kind_])
  | object a m h => exact hother (by simp [Node.kind_])

theorem node_push_alias {D : Type} {self rhs : Node D} (hs : self.Consistent)
    (hr : rhs.Consistent) (hk : self.kind_ ≠ .kArray)
    (h : rhs.addr = self.addr ∨ rhs.addr ∈ self.descendants ∨ self.addr ∈ rhs.descendants)
    (next : Nat) : Node.Push self rhs next = none := by
  obtain ⟨old, n2, g1, _⟩ := copyData_spec hs next (next + 1)
  have hp : Node.Push self rhs next =
      match Node.newCopy self next with
      | some (old, next2) =>
        match self.DestroyData with
        | some s =>
          if rhs.addr ∈ self.descendants then none
          else
            match Node.newCopy (Node.reread (.null s.addr .kArray) rhs) next2 with
            | some (c, next3) => some (.array s.addr .kArray ([] ++ [old] ++ [c]), next3)
            | none => none
        | none => none
      | none => none := by
    cases hs <;> first | rfl | exact absurd rfl hk
  rw [hp]
  simp only [Node.newCopy, g1, destroyData_spec hs]
  by_cases hd : rhs.addr ∈ self.descendants
  · rw [if_pos hd]
  · rw [if_neg hd]
    have hnone : Node.CopyData (Node.reread (.null self.addr .kArray) rhs) n2 (n2 + 1) =
        none := by
      rcases h with h | h | h
      · rw [reread_root (by rw [h]; rfl)]
        rfl
      · exact absurd h hd
      · exact copyData_reread_none hr self.addr (by decide) (by simp [Node.addrs, h]) _ _
    have ha : (Node.null self.addr self.kind_ : Node D).addr = self.addr := rfl
    rw [ha, hnone]

theorem nodeMap_insert_absent_mem {D : Type} (k : List Char) (c : Node D) :
    ∀ m : NodeMap D, NodeMap.find k m = none → (k, c) ∈ NodeMap.insert k c m := by
  intro m
  induction m with
  | nil => intro _; simp [NodeMap.insert]
  | cons q rest ih =>
    intro h
    obtain ⟨k2, v2⟩ := q
    simp only [NodeMap.find] at h
    split at h
    · cases h
    · rename_i hne
      simp only [NodeMap.insert]
      split
      · exact List.mem_cons_self _ _
      · split
        · exact List.mem_cons_of_mem _ (ih h)
        · rename_i h1 h2
          exact absurd (strLt_total (by simpa using h2) (by simpa using h1)) hne

theorem node_atIndex_spec {D : Type} {self : Node D} (hs : self.Consistent) (index : Int) :
    ∃ r, Node.atIndex self index = some r ∧
      (self.IsArray = false → ∃ e, r = .error e) ∧
      ∀ c, r = .ok c → c.Consistent ∧ c.addr ∈ self.descendants := by
  cases hs with
  | null a => exact ⟨_, rfl, fun _ => ⟨_, rfl⟩, fun c hc => (by cases hc)⟩
  | number a d => exact ⟨_, rfl, fun _ => ⟨_, rfl⟩, fun c hc => (by cases hc)⟩
  | string a s => exact ⟨_, rfl, fun _ => ⟨_, rfl⟩, fun c hc => (by cases hc)⟩
  | bool a b => exact ⟨_, rfl, fun _ => ⟨_, rfl⟩, fun c hc => (by cases hc)⟩
  | object a m h => exact ⟨_, rfl, fun _ => ⟨_, rfl⟩, fun c hc => (by cases hc)⟩
  | array a l h =>
    by_cases hi : index ≥ (l.length : Int) ∨ index < 0
    · refine ⟨.error (.IllegalOperation .kViolateAccess "Array Item".data
        (some "Array".data)), ?_, fun h => (by cases h), fun c hc => (by cases hc)⟩
      show (if index ≥ (l.length : Int) ∨ index < 0 then _ else _) = _
      rw [if_pos hi]
      rfl
    · have hlt : index.toNat < l.length := by omega
      refine ⟨.ok (l.get ⟨index.toNat, hlt⟩), ?_, fun h => (by cases h), fun c hc => ?_⟩
      · simp only [Node.atIndex, Node.IsArray, Node.kind_, Node.Size]
        rw [if_neg (by decide), if_neg (by decide)]
        simp only []
        rw [if_neg hi, List.get?_eq_get hlt]
      · cases hc
        have hmem : l.get ⟨index.toNat, hlt⟩ ∈ l := List.get_mem l _ _
        refine ⟨h _ hmem, ?_⟩
        simp only [Node.descendants]
        rw [mem_descendants_elements]
        exact ⟨_, hmem, by simp [Node.addrs]⟩

theorem node_atKey_spec {D : Type} {self : Node D} (hs : self.Consistent) (key : List Char)
    (next : Nat) :
    ∃ r, Node.atKey self key next = some r ∧
      (self.IsObject = false → ∃ e, r = .error e) ∧
      ∀ slot out n, r = .ok (slot, out, n) → slot.Consistent ∧ out.Consistent ∧
        out.addr = self.addr ∧ out.kind_ = self.kind_ ∧ next ≤ n ∧
        ∃ m, out = .object self.addr .kObject m ∧ (key, slot) ∈ m := by
  cases hs with
  | null a => exact ⟨_, rfl, fun _ => ⟨_, rfl⟩, fun _ _ _ hc => (by cases hc)⟩
  | number a d => exact ⟨_, rfl, fun _ => ⟨_, rfl⟩, fun _ _ _ hc => (by cases hc)⟩
  | string a s => exact ⟨_, rfl, fun _ => ⟨_, rfl⟩, fun _ _ _ hc => (by cases hc)⟩
  | bool a b => exact ⟨_, rfl, fun _ => ⟨_, rfl⟩, fun _ _ _ hc => (by cases hc)⟩
  | array a l h => exact ⟨_, rfl, fun _ => ⟨_, rfl⟩, fun _ _ _ hc => (by cases hc)⟩
  | object a m h =>
    cases hf : NodeMap.find key m with
    | none =>
      refine ⟨.ok (Node.mkNull next, .object a .kObject (NodeMap.insert key (Node.mkNull next) m),
        next + 1), ?_, fun h => (by cases h), fun slot out n hc => ?_⟩
      · simp only [Node.atKey, Node.IsObject, Node.kind_, hf]
        rfl
      · cases hc
        refine ⟨.null next, ?_, rfl, rfl, by omega, _, rfl, ?_⟩
        · refine .object a _ fun q hq => ?_
          rcases nodeMap_mem_insert key (Node.mkNull next) m q hq with hq | hq
          · rw [hq]; exact .null next
          · exact h q hq
        · exact nodeMap_insert_absent_mem key (Node.mkNull next) m hf
    | some c =>
      refine ⟨.ok (c, .object a .kObject m, next), ?_, fun h => (by cases h),
        fun slot out n hc => ?_⟩
      · simp only [Node.atKey, Node.IsObject, Node.kind_, hf]
        rfl
      · cases hc
        have hmem := nodeMap_find_mem key m c hf
        exact ⟨h _ hmem, .object a m h, rfl, rfl, le_refl _, _, rfl, hmem⟩

theorem node_addProperty_object {D : Type} {a : Nat} {m : NodeMap D} {val : Node D}
    (hm : ∀ p ∈ m, p.2.Consistent) (hv : val.Consistent) (key : List Char) (next : Nat)
    (hap : Node.Apart (.object a .kObject m) val) (hfresh : ∀ x ∈ val.addrs, x < next) :
    ∃ out n, Node.AddProperty (.object a .kObject m) key val next = some (.ok (out, n)) ∧
      out.Consistent ∧ out.addr = a ∧ out.kind_ = .kObject ∧ next ≤ n ∧
      Json.AddProperty (Node.value (.object a .kObject m)) key val.value = .ok out.value ∧
      ∀ x ∈ out.descendants, x ∈ Node.descendants.entries m ∨ (next ≤ x ∧ x < n) := by
  have ha : a ∉ val.addrs := fun h => hap a (by simp [Node.addrs, Node.addr]) h
  have hstore : ∀ (slot : Node D) (data : NodeMap D) (n1 : Nat), slot.Consistent →
      (∀ p ∈ data, p.2.Consistent) → next ≤ n1 → Node.Apart slot val →
      Node.atKey (.object a .kObject m) (c_str key) next = some (.ok (slot, .object a .kObject data, n1)) →
      ∃ out n, Node.AddProperty (.object a .kObject m) key val next = some (.ok (out, n)) ∧
        out.Consistent ∧ out.addr = a ∧ out.kind_ = .kObject ∧ n1 ≤ n ∧
        out.value = .object (ObjectData.store (c_str key) val.value.CopyData
          (Node.value.entries data)) ∧
        ∀ x ∈ out.descendants, x ∈ Node.descendants.entries data ∨ x = slot.addr ∨
          (n1 ≤ x ∧ x < n) := by
    intro slot data n1 hslot hdata hn1 hsv hat
    obtain ⟨slot2, n, g1, g2, g3, g4, g5, g6, g7⟩ := node_assign_spec hslot hv hsv n1
    have hrr : Node.reread (.object a .kObject data) val = val :=
      reread_of_not_mem hv (.object a .kObject data) ha
    refine ⟨.object a .kObject (NodeMap.store (c_str key) slot2 data), n, ?_, ?_, rfl, rfl,
      g4, ?_, ?_⟩
    · simp only [Node.AddProperty, Node.IsObject, Node.kind_, hat, hrr, g1]
      rfl
    · refine .object a _ fun q hq => ?_
      rcases nodeMap_mem_store (c_str key) slot2 data q hq with h | h
      · rw [h]; exact g2
      · exact hdata q h
    · simp only [Node.value, value_entries_store, g6]
    · intro x hx
      simp only [Node.descendants] at hx
      rw [mem_descendants_entries] at hx
      obtain ⟨p, hp, hxp⟩ := hx
      rcases nodeMap_mem_store (c_str key) slot2 data p hp with h | h
      · rw [h] at hxp
        simp only [Node.addrs, List.mem_cons] at hxp
        rcases hxp with hxp | hxp
        · right; left; rw [hxp, g3]
        · right; right; exact g7 x hxp
      · left
        rw [mem_descendants_entries]
        exact ⟨p, h, hxp⟩
  cases hf : NodeMap.find (c_str key) m with
  | none =>
    have hat : Node.atKey (.object a .kObject m) (c_str key) next =
        some (.ok (Node.mkNull next,
          .object a .kObject (NodeMap.insert (c_str key) (Node.mkNull next) m), next + 1)) := by
      simp only [Node.atKey, Node.IsObject, Node.kind_, hf]
      rfl
    have hdata : ∀ p ∈ NodeMap.insert (c_str key) (Node.mkNull next) m, p.2.Consistent := by
      intro q hq
      rcases nodeMap_mem_insert _ _ m q hq with h | h
      · rw [h]; exact .null next
      · exact hm q h
    have hsv : Node.Apart (Node.mkNull next : Node D) val := by
      intro x hx hxv
      have hx2 : x = next := by
        simpa [Node.addrs, Node.mkNull, Node.addr, Node.descendants] using hx
      have := hfresh x hxv
      omega
    obtain ⟨out, n, h1, h2, h3, h4, h5, h7, h8⟩ :=
      hstore _ _ (next + 1) (.null next) hdata (by omega) hsv hat
    refine ⟨out, n, h1, h2, h3, h4, by omega, ?_, ?_⟩
    · rw [h7]
      have hfv : ObjectData.find (c_str key) (Node.value.entries m) = none := by
        rw [value_entries_find, hf]; rfl
      simp only [Json.AddProperty, Node.value, Json.IsObject, Json.assignAtKey, Json.atKeyMut,
        Json.atKey, hfv, value_entries_insert, Json.assign, Json.mkNull]
      rfl
    · intro x hx
      rcases h8 x hx with h | h | h
      · rw [mem_descendants_entries] at h
        obtain ⟨p, hp, hxp⟩ := h
        rcases nodeMap_mem_insert _ _ m p hp with hp | hp
        · right
          rw [hp] at hxp
          have hx2 : x = next := by
            simpa [Node.addrs, Node.mkNull, Node.addr, Node.descendants] using hxp
          omega
        · left
          rw [mem_descendants_entries]
          exact ⟨p, hp, hxp⟩
      · right
        have hx2 : x = next := h
        omega
      · right; omega
  | some c =>
    have hat : Node.atKey (.object a .kObject m) (c_str key) next =
        some (.ok (c, .object a .kObject m, next)) := by
      simp only [Node.atKey, Node.IsObject, Node.kind_, hf]
      rfl
    have hmem := nodeMap_find_mem _ m c hf
    have hsub : ∀ x ∈ c.addrs, x ∈ Node.descendants.entries m := by
      intro x hx
      rw [mem_descendants_entries]
      exact ⟨_, hmem, hx⟩
    have hcd : c.addr ∈ Node.descendants.entries m := hsub _ (by simp [Node.addrs])
    have hsv : Node.Apart c val := by
      intro x hx hxv
      exact hap x (by simp [Node.addrs, Node.descendants, hsub x hx]) hxv
    obtain ⟨out, n, h1, h2, h3, h4, h5, h7, h8⟩ :=
      hstore _ _ next (hm _ hmem) hm (le_refl _) hsv hat
    refine ⟨out, n, h1, h2, h3, h4, h5, ?_, ?_⟩
    · rw [h7]
      have hfv : ObjectData.find (c_str key) (Node.value.entries m) = some c.value := by
        rw [value_entries_find, hf]; rfl
      simp only [Json.AddProperty, Node.value, Json.IsObject, Json.assignAtKey, Json.atKeyMut,
        Json.atKey, hfv, Json.assign]
      rfl
    · intro x hx
      rcases h8 x hx with h | h | h
      · exact Or.inl h
      · left; rw [h]; exact hcd
      · exact Or.inr h

theorem node_addProperty_spec {D : Type} {self val : Node D} (hs : self.Consistent)
    (hv : val.Consistent) (key : List Char) (next : Nat)
    (hap : self.IsObject = true → Node.Apart self val)
    (hfresh : ∀ x ∈ val.addrs, x < next) :
    ∃ r, Node.AddProperty self key val next = some r ∧
      (self.IsObject = false →
        r = .error (.IllegalOperation .kAddProperty self.DataTypeName none)) ∧
      (self.IsObject = true → ∃ out n, r = .ok (out, n)) ∧
      ∀ out n, r = .ok (out, n) → out.Consistent ∧ out.addr = self.addr ∧
        out.kind_ = .kObject ∧ next ≤ n := by
  cases hs with
  | null a => exact ⟨_, rfl, fun _ => rfl, fun h => (by cases h), fun _ _ h => (by cases h)⟩
  | number a d =>
    exact ⟨_, rfl, fun _ => rfl, fun h => (by cases h), fun _ _ h => (by cases h)⟩
  | string a s =>
    exact ⟨_, rfl, fun _ => rfl, fun h => (by cases h), fun _ _ h => (by cases h)⟩
  | bool a b => exact ⟨_, rfl, fun _ => rfl, fun h => (by cases h), fun _ _ h => (by cases h)⟩
  | array a l h =>
    exact ⟨_, rfl, fun _ => rfl, fun h => (by cases h), fun _ _ h => (by cases h)⟩
  | object a m h =>
    obtain ⟨out, n, h1, h2, h3, h4, h5, _⟩ :=
      node_addProperty_object h hv key next (hap rfl) hfresh
    refine ⟨_, h1, fun h => (by cases h), fun _ => ⟨out, n, rfl⟩, fun o2 n2 he => ?_⟩
    cases he
    exact ⟨h2, h3, h4, h5⟩

theorem node_addProperty_alias {D : Type} {a : Nat} {m : NodeMap D} {val : Node D}
    (hm : ∀ p ∈ m, p.2.Consistent) (key : List Char) (next : Nat) (hval : val.addr = a)
    (hroot : a ∉ Node.descendants.entries m) (hnext : a < next) :
    Node.AddProperty (.object a .kObject m) key val next = none := by
  have hfail : ∀ (slot : Node D) (data : NodeMap D) (n1 : Nat), slot.Consistent →
      (∀ p ∈ data, p.2.Consistent) → slot.addr ≠ a → a ∉ slot.descendants →
      slot.addr ∈ Node.descendants.entries data →
      Node.atKey (.object a .kObject m) (c_str key) next =
        some (.ok (slot, .object a .kObject data, n1)) →
      Node.AddProperty (.object a .kObject m) key val next = none := by
    intro slot data n1 hslot hdata hne hnd hin hat
    have hrr : Node.reread (.object a .kObject data) val = .object a .kObject data :=
      reread_root (by rw [hval]; rfl)
    have hself : (Node.object a .kObject data).Consistent := .object a data hdata
    have hassign : slot.assign (.object a .kObject data) n1 = none := by
      unfold Node.assign
      rw [if_neg (by exact hne), destroyData_spec hslot]
      simp only []
      rw [if_neg (by exact hnd)]
      have hk : (Node.object a .kObject data).kind_ ≠ .kNull := by
        simp [Node.kind_]
      exact copyData_reread_none hself slot.addr hk
        (by simp [Node.addrs, Node.descendants, hin]) _ _
    simp only [Node.AddProperty, Node.IsObject, Node.kind_, hat, hrr, hassign]
    rfl
  cases hf : NodeMap.find (c_str key) m with
  | none =>
    have hat : Node.atKey (.object a .kObject m) (c_str key) next =
        some (.ok (Node.mkNull next,
          .object a .kObject (NodeMap.insert (c_str key) (Node.mkNull next) m), next + 1)) := by
      simp only [Node.atKey, Node.IsObject, Node.kind_, hf]
      rfl
    have hdata : ∀ p ∈ NodeMap.insert (c_str key) (Node.mkNull next) m, p.2.Consistent := by
      intro q hq
      rcases nodeMap_mem_insert _ _ m q hq with h | h
      · rw [h]; exact .null next
      · exact hm q h
    have hnull : (Node.null next .kNull : Node D).addr = next := rfl
    refine hfail _ _ _ (.null next) hdata (by rw [hnull]; omega)
      (by simp [Node.descendants]) ?_ hat
    rw [mem_descendants_entries]
    exact ⟨_, nodeMap_insert_absent_mem _ _ m hf, by simp [Node.addrs, Node.mkNull]⟩
  | some c =>
    have hat : Node.atKey (.object a .kObject m) (c_str key) next =
        some (.ok (c, .object a .kObject m, next)) := by
      simp only [Node.atKey, Node.IsObject, Node.kind_, hf]
      rfl
    have hmem := nodeMap_find_mem _ m c hf
    have hsub : ∀ x ∈ c.addrs, x ∈ Node.descendants.entries m := by
      intro x hx
      rw [mem_descendants_entries]
      exact ⟨_, hmem, hx⟩
    exact hfail _ _ _ (hm _ hmem) hm
      (fun h => hroot (by rw [← h]; exact hsub _ (by simp [Node.addrs])))
      (fun h => hroot (hsub _ (by simp [Node.addrs, h])))
      (hsub _ (by simp [Node.addrs])) hat

theorem node_removeKey_spec {D : Type} {self : Node D} (hs : self.Consistent)
    (key : List Char) :
    ∃ r, Node.RemoveKey self key = some r ∧
      (self.IsObject = false →
        r = .error (.IllegalOperation .kRemove self.DataTypeName none)) ∧
      (self.IsObject = true → ∃ out, r = .ok out) ∧
      ∀ out, r = .ok out → out.Consistent ∧ out.addr = self.addr ∧ out.kind_ = self.kind_ := by
  cases hs with
  | null a => exact ⟨_, rfl, fun _ => rfl, fun h => (by cases h), fun _ h => (by cases h)⟩
  | number a d => exact ⟨_, rfl, fun _ => rfl, fun h => (by cases h), fun _ h => (by cases h)⟩
  | string a s => exact ⟨_, rfl, fun _ => rfl, fun h => (by cases h), fun _ h => (by cases h)⟩
  | bool a b => exact ⟨_, rfl, fun _ => rfl, fun h => (by cases h), fun _ h => (by cases h)⟩
  | array a l h => exact ⟨_, rfl, fun _ => rfl, fun h => (by cases h), fun _ h => (by cases h)⟩
  | object a m h =>
    cases hf : NodeMap.find key m with
    | none =>
      refine ⟨.ok (.object a .kObject m), ?_, fun h => (by cases h), fun _ => ⟨_, rfl⟩,
        fun o he => ?_⟩
      · simp only [Node.RemoveKey, Node.IsObject, Node.kind_, hf]
        rfl
      · cases he
        exact ⟨.object a m h, rfl, rfl⟩
    | some c =>
      have hmem := nodeMap_find_mem key m c hf
      refine ⟨.ok (.object a .kObject (NodeMap.erase key m)), ?_, fun h => (by cases h),
        fun _ => ⟨_, rfl⟩, fun o he => ?_⟩
      · simp only [Node.RemoveKey, Node.IsObject, Node.kind_, hf, destroyData_spec (h _ hmem)]
        rfl
      · cases he
        exact ⟨.object a _ fun q hq => h q (nodeMap_mem_erase key m q hq), rfl, rfl⟩

theorem node_removeIndex_spec {D : Type} {self : Node D} (hs : self.Consistent)
    (index : Int) :
    ∃ r, Node.RemoveIndex self index = some r ∧
      (self.IsArray = false →
        r = .error (.IllegalOperation .kRemove self.DataTypeName none)) ∧
      (self.IsArray = true → ∃ out, r = .ok out) ∧
      ∀ out, r = .ok out → out.Consistent ∧ out.addr = self.addr ∧ out.kind_ = self.kind_ := by
  cases hs with
  | null a => exact ⟨_, rfl, fun _ => rfl, fun h => (by cases h), fun _ h => (by cases h)⟩
  | number a d => exact ⟨_, rfl, fun _ => rfl, fun h => (by cases h), fun _ h => (by cases h)⟩
  | string a s => exact ⟨_, rfl, fun _ => rfl, fun h => (by cases h), fun _ h => (by cases h)⟩
  | bool a b => exact ⟨_, rfl, fun _ => rfl, fun h => (by cases h), fun _ h => (by cases h)⟩
  | object a m h => exact ⟨_, rfl, fun _ => rfl, fun h => (by cases h), fun _ h => (by cases h)⟩
  | array a l h =>
    by_cases hi : index ≥ 0 ∧ index < (l.length : Int)
    · have hlt : index.toNat < l.length := by omega
      have hmem : l.get ⟨index.toNat, hlt⟩ ∈ l := List.get_mem l _ _
      refine ⟨.ok (.array a .kArray (l.eraseIdx index.toNat)), ?_, fun h => (by cases h),
        fun _ => ⟨_, rfl⟩, fun o he => ?_⟩
      · simp only [Node.RemoveIndex, Node.IsArray, Node.kind_, Node.Size]
        rw [if_neg (by decide), if_neg (by decide)]
        simp only []
        rw [if_pos hi, List.get?_eq_get hlt]
        simp only [destroyData_spec (h _ hmem)]
      · cases he
        exact ⟨.array a _ fun q hq => h q ((List.eraseIdx_sublist l _).subset hq), rfl, rfl⟩
    · refine ⟨.ok (.array a .kArray l), ?_, fun h => (by cases h), fun _ => ⟨_, rfl⟩,
        fun o he => ?_⟩
      · simp only [Node.RemoveIndex, Node.IsArray, Node.kind_, Node.Size]
        rw [if_neg (by decide), if_neg (by decide)]
        simp only []
        rw [if_neg hi]
      · cases he
        exact ⟨.array a l h, rfl, rfl⟩

theorem nodeMap_findPtr_mem {D : Type} (json : Nat) :
    ∀ (m : NodeMap D) (c : Node D), NodeMap.findPtr json m = some c →
      c.addr = json ∧ ∃ k, (k, c) ∈ m := by
  intro m
  induction m with
  | nil => intro c h; cases h
  | cons q rest ih =>
    intro c h
    obtain ⟨k, c2⟩ := q
    simp only [NodeMap.findPtr] at h
    split at h
    · rename_i he
      cases h
      exact ⟨he, k, List.mem_cons_self _ _⟩
    · obtain ⟨h1, k2, h2⟩ := ih c h
      exact ⟨h1, k2, List.mem_cons_of_mem _ h2⟩

theorem node_findPtr_mem {D : Type} (json : Nat) :
    ∀ (l : List (Node D)) (c : Node D), Node.findPtr json l = some c →
      c.addr = json ∧ c ∈ l := by
  intro l
  induction l with
  | nil => intro c h; cases h
  | cons c2 rest ih =>
    intro c h
    simp only [Node.findPtr] at h
    split at h
    · rename_i he
      cases h
      exact ⟨he, List.mem_cons_self _ _⟩
    · obtain ⟨h1, h2⟩ := ih c h
      exact ⟨h1, List.mem_cons_of_mem _ h2⟩

theorem node_removePtr_spec {D : Type} {self : Node D} (hs : self.Consistent) (json : Nat) :
    ∃ r, Node.RemovePtr self json = some r ∧
      (self.IsObject = false → self.IsArray = false →
        r = .error (.IllegalOperation .kRemove self.DataTypeName none)) ∧
      ∀ out gone, r = .ok (out, gone) → out.Consistent ∧ out.addr = self.addr ∧
        out.kind_ = self.kind_ ∧ ∀ c, gone = some c → c.Consistent ∧ c.addr = json := by
  cases hs with
  | null a => exact ⟨_, rfl, fun _ _ => rfl, fun _ _ h => (by cases h)⟩
  | number a d => exact ⟨_, rfl, fun _ _ => rfl, fun _ _ h => (by cases h)⟩
  | string a s => exact ⟨_, rfl, fun _ _ => rfl, fun _ _ h => (by cases h)⟩
  | bool a b => exact ⟨_, rfl, fun _ _ => rfl, fun _ _ h => (by cases h)⟩
  | object a m h =>
    refine ⟨.ok (.object a .kObject (NodeMap.erasePtr json m), NodeMap.findPtr json m), rfl,
      fun h => (by cases h), fun o g he => ?_⟩
    cases he
    refine ⟨.object a _ fun q hq => h q (nodeMap_mem_erasePtr json m q hq), rfl, rfl,
      fun c hc => ?_⟩
    obtain ⟨h1, k, h2⟩ := nodeMap_findPtr_mem json m c hc
    exact ⟨h _ h2, h1⟩
  | array a l h =>
    refine ⟨.ok (.array a .kArray (Node.erasePtr json l), Node.findPtr json l), rfl,
      fun _ h => (by cases h), fun o g he => ?_⟩
    cases he
    refine ⟨.array a _ fun q hq => h q (node_mem_erasePtr json l q hq), rfl, rfl,
      fun c hc => ?_⟩
    obtain ⟨h1, h2⟩ := node_findPtr_mem json l c hc
    exact ⟨h _ h2, h1⟩

theorem consistent_payload {D : Type} {n : Node D} (h : n.Consistent) :
    n.IsNullV2 = n.IsNull ∧
    (n.IsNull = true → n = .null n.addr .kNull) ∧
    (n.IsNumber = true → ∃ d, n = .number n.addr .kNumber d) ∧
    (n.IsString = true → ∃ s, n = .string n.addr .kString s) ∧
    (n.IsBool = true → ∃ b, n = .bool n.addr .kBool b) ∧
    (n.IsArray = true → ∃ l, n = .array n.addr .kArray l ∧ ∀ c ∈ l, c.Consistent) ∧
    (n.IsObject = true → ∃ m, n = .object n.addr .kObject m ∧ ∀ p ∈ m, p.2.Consistent) := by
  cases h with
  | null a =>
    exact ⟨rfl, fun _ => rfl, fun h => (by cases h), fun h => (by cases h),
      fun h => (by cases h), fun h => (by cases h), fun h => (by cases h)⟩
  | number a d =>
    exact ⟨rfl, fun h => (by cases h), fun _ => ⟨d, rfl⟩, fun h => (by cases h),
      fun h => (by cases h), fun h => (by cases h), fun h => (by cases h)⟩
  | string a s =>
    exact ⟨rfl, fun h => (by cases h), fun h => (by cases h), fun _ => ⟨s, rfl⟩,
      fun h => (by cases h), fun h => (by cases h), fun h => (by cases h)⟩
  | bool a b =>
    exact ⟨rfl, fun h => (by cases h), fun h => (by cases h), fun h => (by cases h),
      fun _ => ⟨b, rfl⟩, fun h => (by cases h), fun h => (by cases h)⟩
  | object a m hm =>
    exact ⟨rfl, fun h => (by cases h), fun h => (by cases h), fun h => (by cases h),
      fun h => (by cases h), fun h => (by cases h), fun _ => ⟨m, rfl, hm⟩⟩
  | array a l hl =>
    exact ⟨rfl, fun h => (by cases h), fun h => (by cases h), fun h => (by cases h),
      fun h => (by cases h), fun _ => ⟨l, rfl, hl⟩, fun h => (by cases h)⟩

theorem apart_of_fresh {D : Type} {out rhs : Node D} {next : Nat} (S : List Nat)
    (haddr : out.addr ∉ rhs.addrs)
    (hdesc : ∀ x ∈ out.descendants, x ∈ S ∨ next ≤ x)
    (hS : ∀ x ∈ S, x ∉ rhs.addrs) (hfresh : ∀ x ∈ rhs.addrs, x < next) :
    Node.Apart out rhs := by
  intro x hx hxr
  simp only [Node.addrs, List.mem_cons] at hx
  rcases hx with hx | hx
  · rw [hx] at hxr; exact haddr hxr
  · rcases hdesc x hx with h | h
    · exact hS x h hxr
    · have := hfresh x hxr; omega

/-- C27 (what the code does). Kind and payload around the public operations.  Over the
objects in memory (`Node`: the field `kind_` next to what `data_` points to), let `self`
and `rhs` be trees in which every node holds the payload its kind selects and no payload
exactly when the kind is Null (`Consistent`).  Then at `self` the test `!data_` of the
second variant agrees with `kind_ == kNull`, and each kind test finds the payload of its
type, the children consistent again.  `CopyData`, the assignments from a primitive,
`Push` on an Array, the three `Remove` overloads and the two subscript operators each run
without undefined behaviour and leave a consistent receiver (and hand out a consistent
node); where they throw, nothing was written.  So do the assignment from a `Json`, `Push` on another receiver and
`AddProperty` where the argument is an object of its own, no part of the receiver and not
containing it.  Where the argument is the receiver or a part of it, or contains it, these
three read it after `DestroyData()` has left the receiver with its old kind and a null
`data_`, a state in which kind and payload do not agree, and the behaviour is undefined:
so for `v.Push(v)` with `v` a Number, and for an assignment to a part of the argument or
from a part of the receiver. -/
theorem C27_kind_payload_consistent {D : Type} (toDouble : Int → D)
    (self rhs : Node D) (hs : self.Consistent) (hr : rhs.Consistent) :
    (self.IsNullV2 = self.IsNull ∧
      (self.IsNull = true → self = .null self.addr .kNull) ∧
      (self.IsNumber = true → ∃ d, self = .number self.addr .kNumber d) ∧
      (self.IsString = true → ∃ s, self = .string self.addr .kString s) ∧
      (self.IsBool = true → ∃ b, self = .bool self.addr .kBool b) ∧
      (self.IsArray = true → ∃ l, self = .array self.addr .kArray l ∧ ∀ c ∈ l, c.Consistent) ∧
      (self.IsObject = true →
        ∃ m, self = .object self.addr .kObject m ∧ ∀ p ∈ m, p.2.Consistent)) ∧
    (∀ addr next : Nat, ∃ out n, Node.CopyData rhs addr next = some (out, n) ∧
      out.Consistent) ∧
    (∀ next : Nat,
      (Node.Apart self rhs →
        ∃ out n, Node.assign self rhs next = some (out, n) ∧ out.Consistent) ∧
      Node.assign self self next = some (self, next) ∧
      (self.addr ≠ rhs.addr → rhs.addr ∈ self.descendants ∨ self.addr ∈ rhs.descendants →
        Node.assign self rhs next = none)) ∧
    (∀ (num : D) (i : Int) (str : List Char) (boo : Bool),
      (∃ o, self.assignDouble num = some o ∧ o.Consistent) ∧
      (∃ o, self.assignInt toDouble i = some o ∧ o.Consistent) ∧
      (∃ o, self.assignCStr str = some o ∧ o.Consistent) ∧
      (∃ o, self.assignStdString str = some o ∧ o.Consistent) ∧
      (∃ o, self.assignBool boo = some o ∧ o.Consistent)) ∧
    (∀ next : Nat,
      (self.IsArray = true ∨ Node.Apart self rhs →
        ∃ out n, Node.Push self rhs next = some (out, n) ∧ out.Consistent) ∧
      (self.IsArray = false →
        rhs.addr = self.addr ∨ rhs.addr ∈ self.descendants ∨ self.addr ∈ rhs.descendants →
        Node.Push self rhs next = none)) ∧
    (∀ (key : List Char) (next : Nat),
      (self.IsObject = false → ∃ e, Node.AddProperty self key rhs next = some (.error e)) ∧
      (self.IsObject = true → Node.Apart self rhs → (∀ x ∈ rhs.addrs, x < next) →
        ∃ out n, Node.AddProperty self key rhs next = some (.ok (out, n)) ∧ out.Consistent) ∧
      (self.IsObject = true → rhs.addr = self.addr → self.addr ∉ self.descendants →
        self.addr < next → Node.AddProperty self key rhs next = none)) ∧
    (∀ key : List Char, ∃ r, Node.RemoveKey self key = some r ∧
      (self.IsObject = false → ∃ e, r = .error e) ∧
      (self.IsObject = true → ∃ out, r = .ok out ∧ out.Consistent)) ∧
    (∀ index : Int, ∃ r, Node.RemoveIndex self index = some r ∧
      (self.IsArray = false → ∃ e, r = .error e) ∧
      (self.IsArray = true → ∃ out, r = .ok out ∧ out.Consistent)) ∧
    (∀ json : Nat, ∃ r, Node.RemovePtr self json = some r ∧
      (self.IsObject = false → self.IsArray = false → ∃ e, r = .error e) ∧
      ∀ out gone, r = .ok (out, gone) → out.Consistent ∧ ∀ c, gone = some c → c.Consistent) ∧
    (∀ (key : List Char) (next : Nat), ∃ r, Node.atKey self key next = some r ∧
      (self.IsObject = false → ∃ e, r = .error e) ∧
      ∀ slot out n, r = .ok (slot, out, n) → slot.Consistent ∧ out.Consistent) ∧
    (∀ index : Int, ∃ r, Node.atIndex self index = some r ∧
      (self.IsArray = false → ∃ e, r = .error e) ∧
      ∀ c, r = .ok c → c.Consistent) ∧
    (∀ (a : Nat) (d : D) (next : Nat),
      (Node.number a .kNumber d).DestroyData = some (.null a .kNumber) ∧
      ¬ (Node.null a .kArray : Node D).Consistent ∧
      (Node.null a .kArray : Node D).IsNullV2 = true ∧
      (Node.null a .kArray : Node D).IsNull = false ∧
      Node.CopyData (Node.null a .kArray : Node D) next (next + 1) = none ∧
      Node.Push (Node.number a .kNumber d) (Node.number a .kNumber d) next = none ∧
      Node.assign (.number 1 .kNumber d) (.array 0 .kArray [.number 1 .kNumber d]) next =
        none) := by
  have hkind : self.IsArray = false → self.kind_ ≠ .kArray := by
    intro h hk
    rw [Node.IsArray, hk] at h
    cases h
  refine ⟨consistent_payload hs, ?_, ?_, ?_, ?_, ?_, ?_, ?_, ?_, ?_, ?_, ?_⟩
  · intro addr next
    obtain ⟨out, n, h1, h2, _⟩ := copyData_spec hr addr next
    exact ⟨out, n, h1, h2⟩
  · intro next
    refine ⟨fun hap => ?_, node_assign_self self next,
      fun hne h => node_assign_alias hs hr hne h next⟩
    obtain ⟨out, n, h1, h2, _⟩ := node_assign_spec hs hr hap next
    exact ⟨out, n, h1, h2⟩
  · intro num i str boo
    exact ⟨⟨_, node_assignDouble_spec hs num, .number _ _⟩,
      ⟨_, node_assignDouble_spec hs (toDouble i), .number _ _⟩,
      ⟨_, node_assignCStr_spec hs str, .string _ _⟩,
      ⟨_, node_assignCStr_spec hs (c_str str), .string _ _⟩,
      ⟨_, node_assignBool_spec hs boo, .bool _ _⟩⟩
  · intro next
    refine ⟨fun h => ?_, fun hk h => node_push_alias hs hr (hkind hk) h next⟩
    have hap : self.kind_ ≠ .kArray → Node.Apart self rhs := by
      intro hk
      rcases h with h | h
      · rw [Node.IsArray] at h
        exact absurd (by simpa using h) hk
      · exact h
    obtain ⟨out, n, h1, h2, _⟩ := node_push_spec hs hr hap next
    exact ⟨out, n, h1, h2⟩
  · intro key next
    refine ⟨fun h => ?_, fun ho hap hfresh => ?_, fun ho hval hroot hnext => ?_⟩
    · cases hs with
      | object a m hm => simp [Node.IsObject, Node.kind_] at h
      | null a => exact ⟨_, rfl⟩
      | number a d => exact ⟨_, rfl⟩
      | string a s => exact ⟨_, rfl⟩
      | bool a b => exact ⟨_, rfl⟩
      | array a l hl => exact ⟨_, rfl⟩
    · obtain ⟨_, _, _, _, _, _, hobj⟩ := consistent_payload hs
      obtain ⟨m, hm, hch⟩ := hobj ho
      rw [hm] at hap ⊢
      obtain ⟨out, n, h1, h2, _⟩ := node_addProperty_object hch hr key next hap hfresh
      exact ⟨out, n, h1, h2⟩
    · obtain ⟨_, _, _, _, _, _, hobj⟩ := consistent_payload hs
      obtain ⟨m, hm, hch⟩ := hobj ho
      have hroot2 : self.addr ∉ Node.descendants.entries m := by
        intro h
        apply hroot
        rw [hm]
        exact h
      rw [hm]
      exact node_addProperty_alias hch key next hval hroot2 hnext
  · intro key
    obtain ⟨r, h1, h2, h3, h4⟩ := node_removeKey_spec hs key
    refine ⟨r, h1, fun h => ⟨_, h2 h⟩, fun h => ?_⟩
    obtain ⟨out, he⟩ := h3 h
    exact ⟨out, he, (h4 out he).1⟩
  · intro index
    obtain ⟨r, h1, h2, h3, h4⟩ := node_removeIndex_spec hs index
    refine ⟨r, h1, fun h => ⟨_, h2 h⟩, fun h => ?_⟩
    obtain ⟨out, he⟩ := h3 h
    exact ⟨out, he, (h4 out he).1⟩
  · intro json
    obtain ⟨r, h1, h2, h3⟩ := node_removePtr_spec hs json
    exact ⟨r, h1, fun h g => ⟨_, h2 h g⟩,
      fun out gone he => ⟨(h3 out gone he).1, fun c hc => ((h3 out gone he).2.2.2 c hc).1⟩⟩
  · intro key next
    obtain ⟨r, h1, h2, h3⟩ := node_atKey_spec hs key next
    exact ⟨r, h1, h2, fun slot out n he => ⟨(h3 slot out n he).1, (h3 slot out n he).2.1⟩⟩
  · intro index
    obtain ⟨r, h1, h2, h3⟩ := node_atIndex_spec hs index
    exact ⟨r, h1, h2, fun c he => (h3 c he).1⟩
  · intro a d next
    exact ⟨rfl, fun h => (by cases h), rfl, rfl, rfl,
      node_push_alias (.number a d) (.number a d) (by simp [Node.kind_]) (Or.inl rfl) next,
      rfl⟩

/-- A witness for C27: the Object `{ "a": 1 }` at address 0 with its child at address 1,
and the Array `[ null ]` at address 2 with its child at address 3; `Push` of the Array on
the Object leaves a consistent tree. -/
theorem C27_witness :
    (Node.object 0 .kObject [(['a'], .number 1 .kNumber ['1'])] :
      Node (List Char)).Consistent ∧
    (Node.array 2 .kArray [.null 3 .kNull] : Node (List Char)).Consistent ∧
    Node.Apart (Node.object 0 .kObject [(['a'], .number 1 .kNumber ['1'])] :
      Node (List Char)) (Node.array 2 .kArray [.null 3 .kNull]) ∧
    (∃ out n,
      Node.Push (Node.object 0 .kObject [(['a'], .number 1 .kNumber ['1'])] :
        Node (List Char)) (Node.array 2 .kArray [.null 3 .kNull]) 4 = some (out, n) ∧
      out.Consistent) :=
  ⟨.object 0 _ (fun p hp => by
      rw [List.mem_singleton.1 hp]; exact .number 1 ['1']),
    .array 2 _ (fun c hc => by
      rw [List.mem_singleton.1 hc]; exact .null 3),
    (by decide),
    ((C27_kind_payload_consistent (fun _ => [])
      (.object 0 .kObject [(['a'], .number 1 .kNumber ['1'])])
      (.array 2 .kArray [.null 3 .kNull])
      (.object 0 _ (fun p hp => by
        rw [List.mem_singleton.1 hp]; exact .number 1 ['1']))
      (.array 2 _ (fun c hc => by
        rw [List.mem_singleton.1 hc]; exact .null 3))).2.2.2.2.1 4).1 (Or.inr (by decide))⟩

/-- C28 (what the code does). A copy is a deep copy.  For every tree `rhs` in memory
(consistent, its Objects held as maps, all its addresses in use before `next`), the copy
that `CopyData` builds at `addr` has the kind of `rhs` and the value of `rhs` at every
depth, every node below its root is a new object, and the copy and `rhs` have no object in
common: a write to a node of one is never a write to a node of the other.  The same holds
for the copies that assignment from a `Json`, `Push` and `AddProperty` store where `rhs`
is an object of its own, no part of the receiver and not containing it: the receiver then
holds the value the value-level operation gives and shares no object with `rhs`.  Where
`rhs` is a part of the receiver or contains it, the assignment reads `rhs` after
`DestroyData()` and makes no copy, the behaviour being undefined; so for `a = a[0]`.  The
same holds for `Push` on a receiver that is not an Array, and for `AddProperty` with the
receiver as the value. -/
theorem C28_deep_copy {D : Type} (rhs : Node D) (addr next : Nat) (hc : rhs.Consistent)
    (hw : WellFormed rhs.value) (hfresh : ∀ x ∈ rhs.addrs, x < next)
    (haddr : addr ∉ rhs.addrs) :
    (∃ out n, Node.CopyData rhs addr next = some (out, n) ∧ out.value = rhs.value ∧
      out.kind_ = rhs.kind_ ∧ out.Consistent ∧ out.addr = addr ∧ next ≤ n ∧
      (∀ x ∈ out.descendants, next ≤ x ∧ x < n) ∧ Node.Apart out rhs ∧
      Node.Apart rhs out) ∧
    rhs.value.CopyData = rhs.value ∧
    (∀ self : Node D, self.Consistent → Node.Apart self rhs →
      ∃ out n, Node.assign self rhs next = some (out, n) ∧ out.value = rhs.value ∧
        out.kind_ = rhs.kind_ ∧ out.addr = self.addr ∧ Node.Apart out rhs) ∧
    (∀ self : Node D, self.Consistent → WellFormed self.value → Node.Apart self rhs →
      ∃ out n, Node.Push self rhs next = some (out, n) ∧
        Json.Push self.value rhs.value = .ok out.value ∧
        (∀ l, self.value = .array l → out.value = .array (l ++ [rhs.value])) ∧
        (self.IsArray = false → out.value = .array [self.value, rhs.value]) ∧
        Node.Apart out rhs) ∧
    (∀ (self : Node D) (key : List Char), self.Consistent → self.IsObject = true →
      Node.Apart self rhs →
      ∃ out n m2, Node.AddProperty self key rhs next = some (.ok (out, n)) ∧
        Json.AddProperty self.value key rhs.value = .ok out.value ∧
        out.value = .object m2 ∧ ObjectData.find (c_str key) m2 = some rhs.value ∧
        Node.Apart out rhs) ∧
    (∀ self : Node D, self.Consistent → self.addr ≠ rhs.addr →
      rhs.addr ∈ self.descendants ∨ self.addr ∈ rhs.descendants →
      Node.assign self rhs next = none) ∧
    (∀ self : Node D, self.Consistent → self.IsArray = false →
      rhs.addr = self.addr ∨ rhs.addr ∈ self.descendants ∨ self.addr ∈ rhs.descendants →
      Node.Push self rhs next = none) ∧
    (∀ (self : Node D) (key : List Char), self.Consistent → self.IsObject = true →
      rhs.addr = self.addr → self.addr ∉ self.descendants → self.addr < next →
      Node.AddProperty self key rhs next = none) ∧
    (∀ d : D, Node.atIndex (.array 0 .kArray [.number 1 .kNumber d]) 0 =
        some (.ok (.number 1 .kNumber d)) ∧
      Node.assign (.array 0 .kArray [.number 1 .kNumber d]) (.number 1 .kNumber d) 2 =
        none) := by
  have hcopy := CopyData_eq hw
  have hsym : ∀ {a b : Node D}, Node.Apart a b → Node.Apart b a :=
    fun h x hx hxa => h x hxa hx
  refine ⟨?_, hcopy, ?_, ?_, ?_, ?_, ?_, ?_, ?_⟩
  · obtain ⟨out, n, h1, h2, h3, h4, h5, h6, h7⟩ := copyData_spec hc addr next
    have hap : Node.Apart out rhs :=
      apart_of_fresh [] (by rw [h3]; exact haddr) (fun x hx => Or.inr (h7 x hx).1)
        (fun x hx => by cases hx) hfresh
    exact ⟨out, n, h1, by rw [h5, hcopy], h4, h2, h3, h6, h7, hap, hsym hap⟩
  · intro self hs hap
    obtain ⟨out, n, h1, _, h3, _, h6, h7, h8⟩ := node_assign_spec hs hc hap next
    refine ⟨out, n, h1, by rw [h7, hcopy], h6, h3, ?_⟩
    exact apart_of_fresh [] (by rw [h3]; exact hap _ (by simp [Node.addrs]))
      (fun x hx => Or.inr (h8 x hx).1) (fun x hx => by cases hx) hfresh
  · intro self hs hws hap
    obtain ⟨out, n, h1, _, h3, _, h5, _, h7⟩ := node_push_spec hs hc (fun _ => hap) next
    have hcs := CopyData_eq hws
    refine ⟨out, n, h1, h5, ?_, ?_, ?_⟩
    · intro l hl
      rw [hl] at h5
      simp only [Json.Push, hcopy] at h5
      injection h5 with h5
      exact h5.symm
    · intro hna
      have hv := Push_of_not_array self.value rhs.value (by
        cases hs <;> first | rfl | cases hna)
      rw [hv, hcs, hcopy] at h5
      injection h5 with h5
      exact h5.symm
    · exact apart_of_fresh self.descendants (by rw [h3]; exact hap _ (by simp [Node.addrs]))
        (fun x hx => (h7 x hx).imp id fun h => h.1)
        (fun x hx => hap x (by simp [Node.addrs, hx])) hfresh
  · intro self key hs ho hap
    obtain ⟨_, _, _, _, _, _, hobj⟩ := consistent_payload hs
    obtain ⟨m, hm, hch⟩ := hobj ho
    have hdm : Node.descendants.entries m = self.descendants := by
      rw [hm]; rfl
    have hap2 : Node.Apart (.object self.addr .kObject m) rhs := by
      rw [← hm]; exact hap
    obtain ⟨out, n, h1, _, h3, _, _, h7, h8⟩ := node_addProperty_object
      hch hc key next hap2 hfresh
    rw [← hm] at h1 h7
    obtain ⟨m2, g1, g2, _⟩ := assignAtKey_object (Node.value.entries m) (c_str key)
      fun slot => slot.assign rhs.value
    have hv : self.value = .object (Node.value.entries m) := by rw [hm]; rfl
    have hadd : Json.AddProperty self.value key rhs.value = .ok (.object m2) := by
      rw [hv]
      exact g1
    have hout : out.value = .object m2 := by
      rw [hadd] at h7
      injection h7 with h7
      exact h7.symm
    refine ⟨out, n, m2, h1, by rw [hadd, hout], hout, ?_, ?_⟩
    · rw [g2]
      exact congrArg some hcopy
    · refine apart_of_fresh self.descendants
        (by rw [h3]; exact hap _ (by simp [Node.addrs])) (fun x hx => ?_)
        (fun x hx => hap x (by simp [Node.addrs, hx])) hfresh
      rw [← hdm]
      exact (h8 x hx).imp id fun h => h.1
  · intro self hs hne h
    exact node_assign_alias hs hc hne h next
  · intro self hs hk h
    refine node_push_alias hs hc ?_ h next
    intro hk2
    rw [Node.IsArray, hk2] at hk
    cases hk
  · intro self key hs ho hval hroot hnext
    obtain ⟨_, _, _, _, _, _, hobj⟩ := consistent_payload hs
    obtain ⟨m, hm, hch⟩ := hobj ho
    have hroot2 : self.addr ∉ Node.descendants.entries m := by
      intro h
      apply hroot
      rw [hm]
      exact h
    rw [hm]
    exact node_addProperty_alias hch key next hval hroot2 hnext
  · intro d
    exact ⟨rfl, rfl⟩

/-- A witness for C28: the Array `[ 1, null ]` at address 0, its children at addresses
1 and 2, copied to address 3 with 4 the next unused address. -/
theorem C28_witness :
    (Node.array 0 .kArray [.number 1 .kNumber ['1'], .null 2 .kNull] :
      Node (List Char)).Consistent ∧
    WellFormed (Node.array 0 .kArray [.number 1 .kNumber ['1'], .null 2 .kNull] :
      Node (List Char)).value ∧
    (∀ x ∈ (Node.array 0 .kArray [.number 1 .kNumber ['1'], .null 2 .kNull] :
      Node (List Char)).addrs, x < 4) ∧
    3 ∉ (Node.array 0 .kArray [.number 1 .kNumber ['1'], .null 2 .kNull] :
      Node (List Char)).addrs ∧
    ∃ out n,
      Node.CopyData (Node.array 0 .kArray [.number 1 .kNumber ['1'], .null 2 .kNull] :
        Node (List Char)) 3 4 = some (out, n) ∧
      out.value = (Node.array 0 .kArray [.number 1 .kNumber ['1'], .null 2 .kNull] :
        Node (List Char)).value ∧
      out.kind_ = (Node.array 0 .kArray [.number 1 .kNumber ['1'], .null 2 .kNull] :
        Node (List Char)).kind_ ∧
      out.Consistent ∧ out.addr = 3 ∧ 4 ≤ n ∧
      (∀ x ∈ out.descendants, 4 ≤ x ∧ x < n) ∧
      Node.Apart out (Node.array 0 .kArray [.number 1 .kNumber ['1'], .null 2 .kNull]) ∧
      Node.Apart (Node.array 0 .kArray [.number 1 .kNumber ['1'], .null 2 .kNull]) out :=
  ⟨.array 0 _ (fun c hc => by
      simp only [List.mem_cons, List.mem_singleton, List.not_mem_nil, or_false] at hc
      rcases hc with hc | hc
      · rw [hc]; exact .number 1 ['1']
      · rw [hc]; exact .null 2),
    WellFormed.array [.number ['1'], .null] (fun v hv => by
      simp only [List.mem_cons, List.mem_singleton, List.not_mem_nil, or_false] at hv
      rcases hv with hv | hv
      · rw [hv]; exact .number ['1']
      · rw [hv]; exact .null),
    (by decide), (by decide),
    (C28_deep_copy (.array 0 .kArray [.number 1 .kNumber ['1'], .null 2 .kNull]) 3 4
      (.array 0 _ (fun c hc => by
        simp only [List.mem_cons, List.mem_singleton, List.not_mem_nil, or_false] at hc
        rcases hc with hc | hc
        · rw [hc]; exact .number 1 ['1']
        · rw [hc]; exact .null 2))
      (WellFormed.array [.number ['1'], .null] (fun v hv => by
        simp only [List.mem_cons, List.mem_singleton, List.not_mem_nil, or_false] at hv
        rcases hv with hv | hv
        · rw [hv]; exact .number ['1']
        · rw [hv]; exact .null))
      (by decide) (by decide)).1⟩

theorem node_push_promote {D : Type} {self rhs : Node D} (hs : self.Consistent)
    (hr : rhs.Consistent) (hk : self.kind_ ≠ .kArray) (hap : Node.Apart self rhs)
    (next : Nat) :
    ∃ old c n, Node.Push self rhs next = some (.array self.addr .kArray [old, c], n) ∧
      old.Consistent ∧ c.Consistent ∧ old.value = self.value.CopyData ∧
      c.value = rhs.value.CopyData ∧ old.addr = next ∧ next < c.addr ∧ c.addr < n := by
  obtain ⟨_, hnd, hnm⟩ := apart_root hap
  obtain ⟨old, n2, g1, g2, g3, _, g5, g6, _⟩ := copyData_spec hs next (next + 1)
  obtain ⟨c, n, h1, h2, h3, _, h5, h6, _⟩ := copyData_spec hr n2 (n2 + 1)
  refine ⟨old, c, n, ?_, g2, h2, g5, h5, g3, by omega, by omega⟩
  have hp : Node.Push self rhs next =
      match Node.newCopy self next with
      | some (old, next2) =>
        match self.DestroyData with
        | some s =>
          if rhs.addr ∈ self.descendants then none
          else
            match Node.newCopy (Node.reread (.null s.addr .kArray) rhs) next2 with
            | some (c, next3) => some (.array s.addr .kArray ([] ++ [old] ++ [c]), next3)
            | none => none
        | none => none
      | none => none := by
    cases hs <;> first | rfl | exact absurd rfl hk
  rw [hp]
  simp only [Node.newCopy, g1, destroyData_spec hs]
  rw [if_neg hnd,
    reread_of_not_mem hr (Node.null (Node.null self.addr self.kind_).addr .kArray) hnm]
  simp only [h1]
  rfl

/-- C18 (what the code does). `Push` on a receiver that is not an Array (Number, String,
Bool, Null or Object), over the objects in memory; `self` and `rhs` are consistent trees.
Where `rhs` is an object of its own, no part of `self` and not containing it, and the
Objects of both are maps, `self.Push(rhs)` returns and leaves at the address of `self` an
Array of Size 2 whose element 0 is a new object with the old value of `self` and whose
element 1 is a new object with the value of `rhs`; so the Number made of `10` with the
String `x` pushed is the Array of `10` and `x`.  Where `rhs` is `self`, or an object below
`self`, or contains `self`, the behaviour is undefined: `rhs` is read after
`DestroyData()` and `kind_ = kArray`, before `data_` is set; so for `v.Push(v)` with `v`
made of `10`. -/
theorem C18_push_promotes {D : Type} (toDouble : Int → D) (self rhs : Node D) (next : Nat)
    (hs : self.Consistent) (hr : rhs.Consistent) (hk : self.IsArray = false) :
    (Node.Apart self rhs → WellFormed self.value → WellFormed rhs.value →
      ∃ c0 c1 n, Node.Push self rhs next = some (.array self.addr .kArray [c0, c1], n) ∧
        (Node.array self.addr .kArray [c0, c1]).Consistent ∧
        (Node.array self.addr .kArray [c0, c1]).IsArray = true ∧
        Node.Size (.array self.addr .kArray [c0, c1]) = some 2 ∧
        Node.atIndex (.array self.addr .kArray [c0, c1]) 0 = some (.ok c0) ∧
        Node.atIndex (.array self.addr .kArray [c0, c1]) 1 = some (.ok c1) ∧
        c0.value = self.value ∧ c1.value = rhs.value ∧
        Node.value (.array self.addr .kArray [c0, c1]) = .array [self.value, rhs.value] ∧
        c0.addr = next ∧ next < c1.addr) ∧
    (rhs.addr = self.addr ∨ rhs.addr ∈ self.descendants ∨ self.addr ∈ rhs.descendants →
      Node.Push self rhs next = none) ∧
    Node.Push (Node.ofInt toDouble 0 10) (Node.ofCStr 1 ['x']) 2 =
      some (.array 0 .kArray [.number 2 .kNumber (toDouble 10), .string 3 .kString ['x']], 4) ∧
    Node.Push (Node.ofInt toDouble 0 10) (Node.ofInt toDouble 0 10) 1 = none := by
  have hkind : self.kind_ ≠ .kArray := by
    intro h
    rw [Node.IsArray, h] at hk
    cases hk
  refine ⟨fun hap hws hwr => ?_, fun h => node_push_alias hs hr hkind h next, rfl, rfl⟩
  obtain ⟨c0, c1, n, h1, h2, h3, h4, h5, h6, h7, _⟩ := node_push_promote hs hr hkind hap next
  rw [CopyData_eq hws] at h4
  rw [CopyData_eq hwr] at h5
  refine ⟨c0, c1, n, h1, ?_, rfl, rfl, rfl, rfl, h4, h5, ?_, h6, h7⟩
  · refine .array _ _ fun q hq => ?_
    simp only [List.mem_cons, List.mem_singleton, List.not_mem_nil, or_false] at hq
    rcases hq with h | h
    · rw [h]; exact h2
    · rw [h]; exact h3
  · simp only [Node.value, Node.value.elements, h4, h5]

/-- A witness for C18: the Object `{ "a": null }` at address 0, its child at address 1,
with the Bool `true` at address 2 pushed, and with its own child pushed. -/
theorem C18_witness :
    (Node.object 0 .kObject [(['a'], .null 1 .kNull)] : Node (List Char)).Consistent ∧
    (Node.bool 2 .kBool true : Node (List Char)).Consistent ∧
    (Node.object 0 .kObject [(['a'], .null 1 .kNull)] : Node (List Char)).IsArray = false ∧
    Node.Apart (Node.object 0 .kObject [(['a'], .null 1 .kNull)] : Node (List Char))
      (Node.bool 2 .kBool true) ∧
    (∃ c0 c1 n,
      Node.Push (Node.object 0 .kObject [(['a'], .null 1 .kNull)] : Node (List Char))
        (Node.bool 2 .kBool true) 3 =
        some (.array (Node.object 0 .kObject [(['a'], .null 1 .kNull)] :
          Node (List Char)).addr .kArray [c0, c1], n) ∧
      (Node.array (Node.object 0 .kObject [(['a'], .null 1 .kNull)] :
        Node (List Char)).addr .kArray [c0, c1]).Consistent ∧
      (Node.array (Node.object 0 .kObject [(['a'], .null 1 .kNull)] :
        Node (List Char)).addr .kArray [c0, c1]).IsArray = true ∧
      Node.Size (.array (Node.object 0 .kObject [(['a'], .null 1 .kNull)] :
        Node (List Char)).addr .kArray [c0, c1]) = some 2 ∧
      Node.atIndex (.array (Node.object 0 .kObject [(['a'], .null 1 .kNull)] :
        Node (List Char)).addr .kArray [c0, c1]) 0 = some (.ok c0) ∧
      Node.atIndex (.array (Node.object 0 .kObject [(['a'], .null 1 .kNull)] :
        Node (List Char)).addr .kArray [c0, c1]) 1 = some (.ok c1) ∧
      c0.value = (Node.object 0 .kObject [(['a'], .null 1 .kNull)] : Node (List Char)).value ∧
      c1.value = (Node.bool 2 .kBool true : Node (List Char)).value ∧
      Node.value (.array (Node.object 0 .kObject [(['a'], .null 1 .kNull)] :
        Node (List Char)).addr .kArray [c0, c1]) =
        .array [(Node.object 0 .kObject [(['a'], .null 1 .kNull)] : Node (List Char)).value,
          (Node.bool 2 .kBool true : Node (List Char)).value] ∧
      c0.addr = 3 ∧ 3 < c1.addr) ∧
    Node.Push (Node.object 0 .kObject [(['a'], .null 1 .kNull)] : Node (List Char))
      (Node.bool 2 .kBool true) 3 =
      some (.array 0 .kArray [.object 3 .kObject [(['a'], .null 4 .kNull)],
        .bool 5 .kBool true], 6) ∧
    Node.Push (Node.object 0 .kObject [(['a'], .null 1 .kNull)] : Node (List Char))
      (Node.null 1 .kNull) 3 = none :=
  have h1 : (Node.object 0 .kObject [(['a'], .null 1 .kNull)] : Node (List Char)).Consistent :=
    .object 0 _ (fun p hp => by rw [List.mem_singleton.1 hp]; exact .null 1)
  have h2 : WellFormed (Json.object [(['a'], .null)] : Json (List Char)) :=
    WellFormed.object _ (List.pairwise_singleton _ _) (fun p hp => by
      rw [List.mem_singleton.mp hp]
      exact WellFormed.null)
  ⟨h1, .bool 2 true, rfl, by decide,
    (C18_push_promotes (fun _ => []) (.object 0 .kObject [(['a'], .null 1 .kNull)])
      (.bool 2 .kBool true) 3 h1 (.bool 2 true) rfl).1 (by decide) h2 (WellFormed.bool _),
    rfl,
    (C18_push_promotes (fun _ => []) (.object 0 .kObject [(['a'], .null 1 .kNull)])
      (.null 1 .kNull) 3 h1 (.null 1) rfl).2.1 (Or.inr (Or.inl (by decide)))⟩

/-- C20 (what the code does). `AddProperty`, over the objects in memory; `self` and `val`
are consistent trees.  For every receiver that is not an Object the call fails with the
add-property OperationError before anything is written.  For an Object whose value is the
map `m`, and `val` an object of its own (no part of `self`, not containing it, its
addresses in use before `next`, its Objects maps), the call returns and leaves `self` an
Object in which the key maps to the value of `val` (inserted if the key was absent,
written over the old value if it was present) and every other key is mapped as before.
Where `val` is the receiver itself, the behaviour is undefined: the slot `(*this)[key]`
is destroyed, takes the kind Object, and is then read as a part of `val` with a null
`data_`; so for `o.AddProperty("b", o)`.  A `val` below the slot is deleted before it is
read (`o.AddProperty("a", o["a"]["x"])`), a `val` below another entry is copied
(`o.AddProperty("b", o["a"])`). -/
theorem C20_add_property {D : Type} (self val : Node D) (key : List Char) (next : Nat)
    (hs : self.Consistent) (hv : val.Consistent) :
    (self.IsObject = false →
      Node.AddProperty self key val next =
        some (.error (.IllegalOperation .kAddProperty self.DataTypeName none))) ∧
    (self.IsObject = true → Node.Apart self val → (∀ x ∈ val.addrs, x < next) →
      WellFormed val.value →
      ∃ m out n m2, self.value = .object m ∧
        Node.AddProperty self key val next = some (.ok (out, n)) ∧
        out.Consistent ∧ out.addr = self.addr ∧ out.IsObject = true ∧
        out.value = .object m2 ∧
        ObjectData.find (c_str key) m2 = some val.value ∧
        (∀ k2, k2 ≠ c_str key → ObjectData.find k2 m2 = ObjectData.find k2 m) ∧
        (ObjectData.Sorted m → ObjectData.Sorted m2) ∧
        ((ObjectData.find (c_str key) m).isSome = true → m2.map Prod.fst = m.map Prod.fst) ∧
        ((ObjectData.find (c_str key) m).isSome = false →
          m2 = ObjectData.insert (c_str key) val.value m)) ∧
    (self.IsObject = true → val.addr = self.addr → self.addr ∉ self.descendants →
      self.addr < next → Node.AddProperty self key val next = none) ∧
    (∀ d : D,
      Node.AddProperty (.object 0 .kObject [(['a'], .number 1 .kNumber d)]) ['b']
        (.object 0 .kObject [(['a'], .number 1 .kNumber d)]) 2 = none ∧
      Node.AddProperty
        (.object 0 .kObject [(['a'], .object 1 .kObject [(['x'], .number 2 .kNumber d)])]) ['a']
        (.number 2 .kNumber d) 3 = none ∧
      Node.AddProperty (.object 0 .kObject [(['a'], .number 1 .kNumber d)]) ['b']
        (.number 1 .kNumber d) 2 =
        some (.ok (.object 0 .kObject [(['a'], .number 1 .kNumber d),
          (['b'], .number 2 .kNumber d)], 3))) := by
  refine ⟨fun h => ?_, fun ho hap hfresh hw => ?_, fun ho hval hroot hnext => ?_,
    fun d => ⟨rfl, rfl, rfl⟩⟩
  · cases hs with
    | object a m hm => simp [Node.IsObject, Node.kind_] at h
    | null a => rfl
    | number a d => rfl
    | string a s => rfl
    | bool a b => rfl
    | array a l hl => rfl
  · obtain ⟨_, _, _, _, _, _, hobj⟩ := consistent_payload hs
    obtain ⟨m, hm, hch⟩ := hobj ho
    have hap2 : Node.Apart (.object self.addr .kObject m) val := by
      rw [← hm]; exact hap
    obtain ⟨out, n, h1, h2, h3, h4, _, h7, _⟩ :=
      node_addProperty_object hch hv key next hap2 hfresh
    rw [← hm] at h1 h7
    obtain ⟨m2, g1, g2, g3, g4, g5, g6⟩ :=
      assignAtKey_object (Node.value.entries m) (c_str key) fun slot => slot.assign val.value
    have hval : self.value = .object (Node.value.entries m) := by rw [hm]; rfl
    have hadd : Json.AddProperty self.value key val.value = .ok (.object m2) := by
      rw [hval]
      exact g1
    have hout : out.value = .object m2 := by
      rw [hadd] at h7
      injection h7 with h7
      exact h7.symm
    have hcopy := CopyData_eq hw
    refine ⟨_, out, n, m2, hval, h1, h2, h3, ?_, hout, ?_, g3, g4, g5, ?_⟩
    · rw [Node.IsObject, h4]
      rfl
    · rw [g2]
      exact congrArg some hcopy
    · intro hf
      rw [g6 hf]
      simp only [Json.assign, hcopy]
  · obtain ⟨_, _, _, _, _, _, hobj⟩ := consistent_payload hs
    obtain ⟨m, hm, hch⟩ := hobj ho
    have hroot2 : self.addr ∉ Node.descendants.entries m := by
      intro h
      apply hroot
      rw [hm]
      exact h
    rw [hm]
    exact node_addProperty_alias hch key next hval hroot2 hnext

/-- A witness for C20: the Object `{ "a": null }` at address 0, its child at address 1,
with the key `b` added as the Bool `true` at address 2; `AddProperty` on an Array; and the
Object added to itself. -/
theorem C20_witness :
    (Node.object 0 .kObject [(['a'], .null 1 .kNull)] : Node (List Char)).Consistent ∧
    (Node.bool 2 .kBool true : Node (List Char)).Consistent ∧
    Node.Apart (Node.object 0 .kObject [(['a'], .null 1 .kNull)] : Node (List Char))
      (Node.bool 2 .kBool true) ∧
    (∃ m out n m2,
      (Node.object 0 .kObject [(['a'], .null 1 .kNull)] : Node (List Char)).value =
        .object m ∧
      Node.AddProperty (Node.object 0 .kObject [(['a'], .null 1 .kNull)] : Node (List Char))
        ['b'] (Node.bool 2 .kBool true) 3 = some (.ok (out, n)) ∧
      out.Consistent ∧
      out.addr = (Node.object 0 .kObject [(['a'], .null 1 .kNull)] : Node (List Char)).addr ∧
      out.IsObject = true ∧ out.value = .object m2 ∧
      ObjectData.find (c_str ['b']) m2 =
        some (Node.bool 2 .kBool true : Node (List Char)).value ∧
      (∀ k2, k2 ≠ c_str ['b'] → ObjectData.find k2 m2 = ObjectData.find k2 m) ∧
      (ObjectData.Sorted m → ObjectData.Sorted m2) ∧
      ((ObjectData.find (c_str ['b']) m).isSome = true → m2.map Prod.fst = m.map Prod.fst) ∧
      ((ObjectData.find (c_str ['b']) m).isSome = false →
        m2 = ObjectData.insert (c_str ['b'])
          (Node.bool 2 .kBool true : Node (List Char)).value m)) ∧
    Node.AddProperty (Node.object 0 .kObject [(['a'], .null 1 .kNull)] : Node (List Char))
      ['b'] (Node.bool 2 .kBool true) 3 =
      some (.ok (.object 0 .kObject [(['a'], .null 1 .kNull), (['b'], .bool 3 .kBool true)],
        4)) ∧
    Node.AddProperty (Node.array 0 .kArray [] : Node (List Char)) ['b']
      (Node.bool 2 .kBool true) 3 =
      some (.error (.IllegalOperation .kAddProperty
        (Node.array 0 .kArray [] : Node (List Char)).DataTypeName none)) ∧
    Node.AddProperty (Node.object 0 .kObject [(['a'], .null 1 .kNull)] : Node (List Char))
      ['b'] (Node.object 0 .kObject [(['a'], .null 1 .kNull)]) 3 = none :=
  have h1 : (Node.object 0 .kObject [(['a'], .null 1 .kNull)] : Node (List Char)).Consistent :=
    .object 0 _ (fun p hp => by rw [List.mem_singleton.1 hp]; exact .null 1)
  ⟨h1, .bool 2 true, by decide,
    (C20_add_property (.object 0 .kObject [(['a'], .null 1 .kNull)]) (.bool 2 .kBool true)
      ['b'] 3 h1 (.bool 2 true)).2.1 rfl (by decide) (by decide) (WellFormed.bool _),
    rfl,
    (C20_add_property (.array 0 .kArray []) (.bool 2 .kBool true) ['b'] 3
      (.array 0 _ (fun c hc => by cases hc)) (.bool 2 true)).1 rfl,
    (C20_add_property (.object 0 .kObject [(['a'], .null 1 .kNull)])
      (.object 0 .kObject [(['a'], .null 1 .kNull)]) ['b'] 3 h1 h1).2.2.1 rfl rfl
      (by decide) (by decide)⟩

/-- C31 (what the code does). `AddProperty` on an Array receiver fails with the
add-property OperationError before anything is written; so for
`Parse("[1, 2, 3]")` with `name` added.  At the `return` of `what()` of that exception the
stream `oss` holds `OperationError: Illegal add property opeartion on Array`: the switch
of `IllegalOperationException::what` writes `add property` for `kAddProperty`, so that
the text of the second example in the documentation of `AddProperty`,
`OperationError: Illegal add opeartion on Array`, is not in the stream.  What `what()`
returns is `oss.str().c_str()`, a pointer into a temporary that is destroyed before the
caller has it, so that no read of the message is defined. -/
theorem C31_add_property_on_array_message {D : Type} (atof : List Char → D) :
    (∀ (a : ArrayData D) (key : List Char) (val : Json D),
      (Json.array a).AddProperty key val =
        .error (.IllegalOperation .kAddProperty "Array".data none)) ∧
    (∀ (a : Nat) (l : List (Node D)) (key : List Char) (val : Node D) (next : Nat),
      Node.AddProperty (.array a .kArray l) key val next =
        some (.error (.IllegalOperation .kAddProperty "Array".data none))) ∧
    Exception.what.oss (.IllegalOperation .kAddProperty "Array".data none) =
      some "OperationError: Illegal add property opeartion on Array".data ∧
    Exception.what.oss (.IllegalOperation .kAddProperty "Array".data none) ≠
      some "OperationError: Illegal add opeartion on Array".data ∧
    Exception.what (.IllegalOperation .kAddProperty "Array".data none) =
      some CharPtr.dangling ∧
    (Exception.what (.IllegalOperation .kAddProperty "Array".data none)).bind CharPtr.read =
      none ∧
    (∃ st, Parse atof ['[', '1', ',', ' ', '2', ',', ' ', '3', ']'] =
        .ok (.array [.number (atof ['1']), .number (atof ['2']), .number (atof ['3'])]) st ∧
      (Json.array [.number (atof ['1']), .number (atof ['2']),
          .number (atof ['3'])]).AddProperty ['n', 'a', 'm', 'e']
          (Json.ofCStr ['G', 'g', 'i', 'c', 'c', 'i']) =
        .error (.IllegalOperation .kAddProperty "Array".data none)) := by
  refine ⟨fun a key val => rfl, fun a l key val next => rfl, by decide, by decide, by decide,
    by decide, ⟨_, rfl, rfl⟩⟩

theorem find_mem_keys {D : Type} {k : List Char} {x : Json D} :
    ∀ {m : ObjectData D}, ObjectData.find k m = some x → ∃ p ∈ m, p.1 = k := by
  intro m
  induction m with
  | nil => intro h; simp [ObjectData.find] at h
  | cons q rest ih =>
    intro h
    obtain ⟨k2, v2⟩ := q
    simp only [ObjectData.find] at h
    split at h
    · rename_i hk
      exact ⟨(k2, v2), List.mem_cons_self _ _, hk⟩
    · obtain ⟨p, hp, hpk⟩ := ih h
      exact ⟨p, List.mem_cons_of_mem _ hp, hpk⟩

theorem find_insert_present {D : Type} {k : List Char} (v : Json D) {x : Json D} :
    ∀ {m : ObjectData D}, ObjectData.Sorted m → ObjectData.find k m = some x →
      ObjectData.find k (ObjectData.insert k v m) = some x := by
  intro m
  induction m with
  | nil => intro _ h; simp [ObjectData.find] at h
  | cons q rest ih =>
    intro hs h
    obtain ⟨k2, v2⟩ := q
    have hs2 := List.pairwise_cons.1 hs
    by_cases hk : k2 = k
    · subst hk
      simp only [ObjectData.insert, strLt_irrefl]
      exact h
    · have hr : ObjectData.find k rest = some x := by
        simpa [ObjectData.find, hk] using h
      obtain ⟨p, hp, hpk⟩ := find_mem_keys hr
      have hlt : strLt k2 k = true := by
        have := hs2.1 p hp
        rw [hpk] at this
        exact this
      simp only [ObjectData.insert, strLt_asymm hlt, hlt, if_true, ObjectData.find, hk,
        if_false]
      simpa using ih hs2.2 hr

theorem find_insertPairs {D : Type} (k : List Char) :
    ∀ (ps : List (List Char × Json D)) (obj : ObjectData D), ObjectData.Sorted obj →
      ObjectData.find k (insertPairs obj ps) =
        match ObjectData.find k obj with
        | some x => some x
        | none => (ps.find? fun p => decide (p.1 = k)).map Prod.snd := by
  intro ps
  induction ps with
  | nil =>
    intro obj _
    have h0 : insertPairs obj [] = obj := rfl
    rw [h0]
    cases h : ObjectData.find k obj with
    | some x => rfl
    | none => rfl
  | cons p rest ih =>
    intro obj hs
    obtain ⟨pk, pv⟩ := p
    have hstep : insertPairs obj ((pk, pv) :: rest) =
        insertPairs (ObjectData.insert pk pv obj) rest := rfl
    rw [hstep, ih _ (insert_sorted pk pv hs)]
    by_cases hk : pk = k
    · subst hk
      cases h : ObjectData.find pk obj with
      | some x =>
        rw [find_insert_present pv hs h]
      | none =>
        rw [find_insert_absent pv (find_eq_none h)]
        simp [List.find?_cons]
    · have hne : k ≠ pk := fun h => hk h.symm
      rw [find_insert_other pv obj hne]
      cases h : ObjectData.find k obj with
      | some x => rfl
      | none => simp [List.find?_cons, hk]

/-- C34. Duplicate keys: the first occurrence wins.  Let an object be written from the
pairs `l`, each the body of a key that `Parse` accepts between quotes and the text of a
value that `Parse` reads as the value given, whatever keys repeat.  Then `Parse` of the
object text succeeds, and the Object maps every key to the value of the first pair of the
text with that key: a later pair with the same key changes nothing
(`std::map::insert` does not overwrite).  The same holds with whitespace around every
token.  `Parse("{\"a\":1,\"a\":2}")` is the Object with `a` mapped to 1, on which
`AddProperty("a", 2)` leaves `a` mapped to 2: `AddProperty` overwrites. -/
theorem C34_first_duplicate_key_wins {D : Type} (atof : List Char → D)
    (l : List (List Char × List Char × Json D))
    (hk : ∀ p ∈ l, CStr p.1 ∧ ∃ v st, Parse atof (dquote :: (p.1 ++ [dquote])) = .ok v st)
    (hv : ∀ p ∈ l, CStr p.2.1 ∧ ∃ st, Parse atof p.2.1 = .ok p.2.2 st) :
    (∃ (m : ObjectData D) (st : Assist),
      Parse atof (objectText (l.map fun p => (p.1, p.2.1))) = .ok (.object m) st ∧
      ObjectData.Sorted m ∧
      (∀ k, ObjectData.find k m = (l.find? fun p => decide (p.1 = k)).map fun p => p.2.2) ∧
      (∀ (a b c : List (List Char × List Char × Json D)) (p q : List Char × List Char × Json D),
        l = a ++ p :: (b ++ q :: c) → (∀ x ∈ a, x.1 ≠ p.1) → q.1 = p.1 →
        ObjectData.find p.1 m = some p.2.2)) ∧
    (∀ (first : Member D) (rest : List (Member D)) (pre post : List Char),
      (∀ m ∈ first :: rest, Ws m.kpre ∧ StringBody m.key ∧ Ws m.kpost ∧ Ws m.elem.pre ∧
        Ws m.elem.post) →
      (∀ m ∈ first :: rest, Denotes atof m.elem.lex m.elem.val) → Ws pre → Ws post →
      ∃ (m : ObjectData D) (st : Assist),
        Parse atof (pre ++ ('{' :: (first.text ++ (restText (rest.map Member.text) ++ ['}'])) ++
          post)) = .ok (.object m) st ∧
        ∀ k, ObjectData.find k m =
          ((first :: rest).find? fun x => decide (x.key = k)).map fun x => x.elem.val) ∧
    (∃ st, Parse atof
          ['{', dquote, 'a', dquote, ':', '1', ',', dquote, 'a', dquote, ':', '2', '}'] =
        .ok (.object [(['a'], .number (atof ['1']))]) st ∧
      (Json.object [(['a'], .number (atof ['1']))]).AddProperty ['a'] (.number (atof ['2'])) =
        .ok (.object [(['a'], .number (atof ['2']))])) := by
  refine ⟨?_, ?_, ⟨_, rfl, rfl⟩⟩
  · obtain ⟨st, hp⟩ := Parse_objectText atof l hk hv
    have hfind : ∀ k, ObjectData.find k (insertPairs [] (l.map fun p => (p.1, p.2.2))) =
        (l.find? fun p => decide (p.1 = k)).map fun p => p.2.2 := by
      intro k
      rw [find_insertPairs k _ [] List.Pairwise.nil]
      simp only [ObjectData.find, List.find?_map, Option.map_map]
      rfl
    refine ⟨_, st, hp, insertPairs_sorted _ List.Pairwise.nil, hfind, ?_⟩
    intro a b c p q hl ha _
    rw [hfind, hl, List.find?_append]
    have hnone : (a.find? fun x => decide (x.1 = p.1)) = none := by
      rw [List.find?_eq_none]
      intro x hx
      simpa using ha x hx
    rw [hnone]
    simp [List.find?_cons]
  · intro first rest pre post hw hd hpre hpost
    have hden := Denotes.object first rest hw hd
    have hc : CStr (pre ++ ('{' :: (first.text ++ (restText (rest.map Member.text) ++ ['}'])) ++
        post)) := CStr_append hpre.ws_cstr (CStr_append hden.cstr hpost.ws_cstr)
    obtain ⟨tok, hp⟩ := Parse_fwd atof hc rfl hpre hpost hden
    refine ⟨_, _, hp, fun k => ?_⟩
    rw [insertAll_eq_insertPairs, find_insertPairs k _ [] List.Pairwise.nil]
    simp only [ObjectData.find, List.find?_map, Option.map_map]
    rfl

/-- A witness for C34: the object written from the pairs `a` with 1 and `a` with 2. -/
theorem C34_witness :
    ∃ (m : ObjectData (List Char)) (st : Assist),
      Parse (fun t => t)
        (objectText ([((['a'] : List Char), (['1'] : List Char), (Json.number ['1'] : Json (List Char))),
          (['a'], ['2'], Json.number ['2'])].map
          fun p => (p.1, p.2.1))) = .ok (.object m) st ∧
      ObjectData.Sorted m ∧
      (∀ k, ObjectData.find k m =
        ([((['a'] : List Char), (['1'] : List Char), (Json.number ['1'] : Json (List Char))),
          (['a'], ['2'], Json.number ['2'])].find?
          fun p => decide (p.1 = k)).map fun p => p.2.2) ∧
      (∀ (a b c : List (List Char × List Char × Json (List Char)))
        (p q : List Char × List Char × Json (List Char)),
        [((['a'] : List Char), (['1'] : List Char), (Json.number ['1'] : Json (List Char))),
          (['a'], ['2'], Json.number ['2'])] = a ++ p :: (b ++ q :: c) →
        (∀ x ∈ a, x.1 ≠ p.1) → q.1 = p.1 → ObjectData.find p.1 m = some p.2.2) :=
  (C34_first_duplicate_key_wins (fun t => t)
    [(['a'], ['1'], Json.number ['1']), (['a'], ['2'], Json.number ['2'])]
    (by
      intro p hp
      simp only [List.mem_cons, List.mem_singleton, List.not_mem_nil, or_false] at hp
      rcases hp with rfl | rfl
      · exact ⟨by unfold CStr; decide, _, _, rfl⟩
      · exact ⟨by unfold CStr; decide, _, _, rfl⟩)
    (by
      intro p hp
      simp only [List.mem_cons, List.mem_singleton, List.not_mem_nil, or_false] at hp
      rcases hp with rfl | rfl
      · exact ⟨by unfold CStr; decide, _, rfl⟩
      · exact ⟨by unfold CStr; decide, _, rfl⟩)).1

theorem node_erasePtr_split {D : Type} (ref : Nat) (c : Node D) (post : List (Node D))
    (hc : c.addr = ref) :
    ∀ pre : List (Node D), (∀ x ∈ pre, x.addr ≠ ref) →
      Node.erasePtr ref (pre ++ c :: post) = pre ++ post := by
  intro pre
  induction pre with
  | nil => intro _; simp [Node.erasePtr, hc]
  | cons x rest ih =>
    intro h
    have hx : x.addr ≠ ref := h x (List.mem_cons_self _ _)
    have hi := ih fun y hy => h y (List.mem_cons_of_mem _ hy)
    show Node.erasePtr ref (x :: (rest ++ c :: post)) = x :: (rest ++ post)
    simp only [Node.erasePtr, hx, if_false, hi]

theorem node_erasePtr_none {D : Type} (ref : Nat) :
    ∀ l : List (Node D), (∀ x ∈ l, x.addr ≠ ref) → Node.erasePtr ref l = l := by
  intro l
  induction l with
  | nil => intro _; rfl
  | cons x rest ih =>
    intro h
    have hx : x.addr ≠ ref := h x (List.mem_cons_self _ _)
    simp only [Node.erasePtr, hx, if_false]
    rw [ih fun y hy => h y (List.mem_cons_of_mem _ hy)]

theorem nodeMap_erasePtr_split {D : Type} (ref : Nat) (k : List Char) (c : Node D)
    (post : NodeMap D) (hc : c.addr = ref) :
    ∀ pre : NodeMap D, (∀ x ∈ pre, x.2.addr ≠ ref) →
      NodeMap.erasePtr ref (pre ++ (k, c) :: post) = pre ++ post := by
  intro pre
  induction pre with
  | nil => intro _; simp [NodeMap.erasePtr, hc]
  | cons x rest ih =>
    intro h
    obtain ⟨k2, c2⟩ := x
    have hx : c2.addr ≠ ref := h (k2, c2) (List.mem_cons_self _ _)
    have hi := ih fun y hy => h y (List.mem_cons_of_mem _ hy)
    show NodeMap.erasePtr ref ((k2, c2) :: (rest ++ (k, c) :: post)) = (k2, c2) :: (rest ++ post)
    simp only [NodeMap.erasePtr, hx, if_false, hi]

theorem nodeMap_erasePtr_none {D : Type} (ref : Nat) :
    ∀ m : NodeMap D, (∀ x ∈ m, x.2.addr ≠ ref) → NodeMap.erasePtr ref m = m := by
  intro m
  induction m with
  | nil => intro _; rfl
  | cons x rest ih =>
    intro h
    obtain ⟨k2, c2⟩ := x
    have hx : c2.addr ≠ ref := h (k2, c2) (List.mem_cons_self _ _)
    simp only [NodeMap.erasePtr, hx, if_false]
    rw [ih fun y hy => h y (List.mem_cons_of_mem _ hy)]

theorem node_erasePtr_filter {D : Type} (ref : Nat) :
    ∀ l : List (Node D), (l.map Node.addr).Nodup →
      Node.erasePtr ref l = l.filter fun x => decide (x.addr ≠ ref) := by
  intro l
  induction l with
  | nil => intro _; rfl
  | cons x rest ih =>
    intro h
    rw [List.map_cons, List.nodup_cons] at h
    by_cases hx : x.addr = ref
    · have hrest : ∀ y ∈ rest, y.addr ≠ ref := by
        intro y hy he
        exact h.1 (by rw [hx, ← he]; exact List.mem_map_of_mem _ hy)
      have hf : rest.filter (fun x => decide (x.addr ≠ ref)) = rest :=
        List.filter_eq_self.2 fun y hy => by simpa using hrest y hy
      rw [List.filter_cons, hf]
      simp [Node.erasePtr, hx]
    · simp [Node.erasePtr, hx, List.filter_cons, ih h.2]

theorem nodeMap_erasePtr_filter {D : Type} (ref : Nat) :
    ∀ m : NodeMap D, (m.map fun p => p.2.addr).Nodup →
      NodeMap.erasePtr ref m = m.filter fun p => decide (p.2.addr ≠ ref) := by
  intro m
  induction m with
  | nil => intro _; rfl
  | cons x rest ih =>
    intro h
    obtain ⟨k2, c2⟩ := x
    rw [List.map_cons, List.nodup_cons] at h
    by_cases hx : c2.addr = ref
    · have hrest : ∀ y ∈ rest, y.2.addr ≠ ref := by
        intro y hy he
        exact h.1 (by
          rw [hx, ← he]
          exact List.mem_map_of_mem (fun p : List Char × Node D => p.2.addr) hy)
      have hf : rest.filter (fun p => decide (p.2.addr ≠ ref)) = rest :=
        List.filter_eq_self.2 fun y hy => by simpa using hrest y hy
      rw [List.filter_cons, hf]
      simp [NodeMap.erasePtr, hx]
    · simp [NodeMap.erasePtr, hx, List.filter_cons, ih h.2]

theorem node_findPtr_split {D : Type} (ref : Nat) (c : Node D) (post : List (Node D))
    (hc : c.addr = ref) :
    ∀ pre : List (Node D), (∀ x ∈ pre, x.addr ≠ ref) →
      Node.findPtr ref (pre ++ c :: post) = some c := by
  intro pre
  induction pre with
  | nil => intro _; simp [Node.findPtr, hc]
  | cons x rest ih =>
    intro h
    have hx : x.addr ≠ ref := h x (List.mem_cons_self _ _)
    show Node.findPtr ref (x :: (rest ++ c :: post)) = some c
    simp only [Node.findPtr, hx, if_false]
    exact ih fun y hy => h y (List.mem_cons_of_mem _ hy)

theorem node_findPtr_none {D : Type} (ref : Nat) :
    ∀ l : List (Node D), (∀ x ∈ l, x.addr ≠ ref) → Node.findPtr ref l = none := by
  intro l
  induction l with
  | nil => intro _; rfl
  | cons x rest ih =>
    intro h
    have hx : x.addr ≠ ref := h x (List.mem_cons_self _ _)
    simp only [Node.findPtr, hx, if_false]
    exact ih fun y hy => h y (List.mem_cons_of_mem _ hy)

theorem nodeMap_findPtr_split {D : Type} (ref : Nat) (k : List Char) (c : Node D)
    (post : NodeMap D) (hc : c.addr = ref) :
    ∀ pre : NodeMap D, (∀ x ∈ pre, x.2.addr ≠ ref) →
      NodeMap.findPtr ref (pre ++ (k, c) :: post) = some c := by
  intro pre
  induction pre with
  | nil => intro _; simp [NodeMap.findPtr, hc]
  | cons x rest ih =>
    intro h
    obtain ⟨k2, c2⟩ := x
    have hx : c2.addr ≠ ref := h (k2, c2) (List.mem_cons_self _ _)
    show NodeMap.findPtr ref ((k2, c2) :: (rest ++ (k, c) :: post)) = some c
    simp only [NodeMap.findPtr, hx, if_false]
    exact ih fun y hy => h y (List.mem_cons_of_mem _ hy)

theorem nodeMap_findPtr_none {D : Type} (ref : Nat) :
    ∀ m : NodeMap D, (∀ x ∈ m, x.2.addr ≠ ref) → NodeMap.findPtr ref m = none := by
  intro m
  induction m with
  | nil => intro _; rfl
  | cons x rest ih =>
    intro h
    obtain ⟨k2, c2⟩ := x
    have hx : c2.addr ≠ ref := h (k2, c2) (List.mem_cons_self _ _)
    simp only [NodeMap.findPtr, hx, if_false]
    exact ih fun y hy => h y (List.mem_cons_of_mem _ hy)

/-- C33. Remove by identity.  For every receiver that is neither an Object nor an Array,
`Remove(Json*)` fails with the remove OperationError.  For an Array or an Object (a
consistent tree in memory), the call returns normally and leaves a consistent receiver.
If an immediate child is the node at the address `ref`, that child leaves the container
and the other children stay in their order, with their keys; the child is not deleted and
not written: after the call the object at `ref` is the child as it was, with its kind, its
payload and so its whole subtree, a consistent tree of the same value.  If no immediate
child is at `ref` (a child with the same content at another address, or a node deeper in
the tree), the receiver is as before and no object left it.  With the addresses of the
children distinct, the children left are exactly those at another address.  In the
example of the header, `birthday` is the node that `json["birthday"]` hands out; after
`json.Remove(&birthday)` the Object holds `id` and `name` only and `birthday` is still
the Array of 1991, 11 and 10. -/
theorem C33_remove_by_identity {D : Type} (atof : List Char → D)
    (self : Node D) (ref : Nat) (hs : self.Consistent) :
    (self.IsObject = false → self.IsArray = false →
      Node.RemovePtr self ref =
        some (.error (.IllegalOperation .kRemove self.DataTypeName none))) ∧
    (self.IsArray = true → ∃ l out gone, self = .array self.addr .kArray l ∧
      Node.RemovePtr self ref = some (.ok (out, gone)) ∧ out.Consistent ∧
      (∀ (pre post : List (Node D)) (c : Node D), l = pre ++ c :: post → c.addr = ref →
        (∀ x ∈ pre, x.addr ≠ ref) →
        out = .array self.addr .kArray (pre ++ post) ∧ gone = some c ∧ c.Consistent) ∧
      ((l.map Node.addr).Nodup →
        out = .array self.addr .kArray (l.filter fun x => decide (x.addr ≠ ref))) ∧
      ((∀ x ∈ l, x.addr ≠ ref) → out = self ∧ gone = none) ∧
      (∀ c, gone = some c → c ∈ l ∧ c.addr = ref ∧ c.Consistent)) ∧
    (self.IsObject = true → ∃ m out gone, self = .object self.addr .kObject m ∧
      Node.RemovePtr self ref = some (.ok (out, gone)) ∧ out.Consistent ∧
      (∀ (pre post : NodeMap D) (k : List Char) (c : Node D), m = pre ++ (k, c) :: post →
        c.addr = ref → (∀ x ∈ pre, x.2.addr ≠ ref) →
        out = .object self.addr .kObject (pre ++ post) ∧ gone = some c ∧ c.Consistent) ∧
      ((m.map fun p => p.2.addr).Nodup →
        out = .object self.addr .kObject (m.filter fun p => decide (p.2.addr ≠ ref))) ∧
      ((∀ x ∈ m, x.2.addr ≠ ref) → out = self ∧ gone = none) ∧
      (∀ c, gone = some c → (∃ k, (k, c) ∈ m) ∧ c.addr = ref ∧ c.Consistent)) ∧
    (∃ st : Assist,
      Parse atof
          ['{', dquote, 'i', 'd', dquote, ':', '1', '2', '3', '4', ',', ' ', dquote, 'n', 'a',
          'm', 'e', dquote, ':', ' ', dquote, 'G', 'g', 'i', 'c', 'c', 'i', dquote, ',', ' ',
          dquote, 'b', 'i', 'r', 't', 'h', 'd', 'a', 'y', dquote, ':', ' ', '[', '1', '9', '9',
          '1', ',', ' ', '1', '1', ',', ' ', '1', '0', ']', '}'] =
        .ok (.object [(['b', 'i', 'r', 't', 'h', 'd', 'a', 'y'],
          .array [.number (atof ['1', '9', '9', '1']), .number (atof ['1', '1']),
            .number (atof ['1', '0'])]),
        (['i', 'd'], .number (atof ['1', '2', '3', '4'])),
        (['n', 'a', 'm', 'e'], .string ['G', 'g', 'i', 'c', 'c', 'i'])]) st) ∧
    (∀ json birthday : Node D,
      json = .object 0 .kObject [(['b', 'i', 'r', 't', 'h', 'd', 'a', 'y'], birthday),
        (['i', 'd'], .number 5 .kNumber (atof ['1', '2', '3', '4'])),
        (['n', 'a', 'm', 'e'], .string 6 .kString ['G', 'g', 'i', 'c', 'c', 'i'])] →
      birthday = .array 1 .kArray [.number 2 .kNumber (atof ['1', '9', '9', '1']),
        .number 3 .kNumber (atof ['1', '1']), .number 4 .kNumber (atof ['1', '0'])] →
      json.value = .object [(['b', 'i', 'r', 't', 'h', 'd', 'a', 'y'],
          .array [.number (atof ['1', '9', '9', '1']), .number (atof ['1', '1']),
            .number (atof ['1', '0'])]),
        (['i', 'd'], .number (atof ['1', '2', '3', '4'])),
        (['n', 'a', 'm', 'e'], .string ['G', 'g', 'i', 'c', 'c', 'i'])] ∧
      Node.atKey json ['b', 'i', 'r', 't', 'h', 'd', 'a', 'y'] 7 =
        some (.ok (birthday, json, 7)) ∧
      ∃ after, Node.RemovePtr json birthday.addr = some (.ok (after, some birthday)) ∧
        after = .object 0 .kObject
          [(['i', 'd'], .number 5 .kNumber (atof ['1', '2', '3', '4'])),
          (['n', 'a', 'm', 'e'], .string 6 .kString ['G', 'g', 'i', 'c', 'c', 'i'])] ∧
        after.value = .object [(['i', 'd'], .number (atof ['1', '2', '3', '4'])),
          (['n', 'a', 'm', 'e'], .string ['G', 'g', 'i', 'c', 'c', 'i'])] ∧
        birthday.value = .array [.number (atof ['1', '9', '9', '1']),
          .number (atof ['1', '1']), .number (atof ['1', '0'])] ∧
        birthday.Consistent) := by
  obtain ⟨_, _, _, _, _, harr, hobj⟩ := consistent_payload hs
  refine ⟨?_, ?_, ?_, ⟨_, rfl⟩, ?_⟩
  · intro h1 h2
    cases hs with
    | null a => rfl
    | number a d => rfl
    | string a s => rfl
    | bool a b => rfl
    | object a m h => cases h1
    | array a l h => cases h2
  · intro h
    obtain ⟨l, hl, hch⟩ := harr h
    have hrun : Node.RemovePtr self ref =
        some (.ok (.array self.addr .kArray (Node.erasePtr ref l), Node.findPtr ref l)) := by
      rw [hl]; rfl
    refine ⟨l, _, _, hl, hrun,
      .array _ _ fun q hq => hch q (node_mem_erasePtr ref l q hq), ?_, ?_, ?_, ?_⟩
    · intro pre post c hsplit hc hpre
      rw [hsplit, node_erasePtr_split ref c post hc pre hpre,
        node_findPtr_split ref c post hc pre hpre]
      exact ⟨rfl, rfl, hch c (by rw [hsplit]; simp)⟩
    · intro hnd
      rw [node_erasePtr_filter ref l hnd]
    · intro hno
      rw [node_erasePtr_none ref l hno, node_findPtr_none ref l hno]
      exact ⟨hl.symm, rfl⟩
    · intro c hc
      obtain ⟨h1, h2⟩ := node_findPtr_mem ref l c hc
      exact ⟨h2, h1, hch c h2⟩
  · intro h
    obtain ⟨m, hm, hch⟩ := hobj h
    have hrun : Node.RemovePtr self ref =
        some (.ok (.object self.addr .kObject (NodeMap.erasePtr ref m),
          NodeMap.findPtr ref m)) := by
      rw [hm]; rfl
    refine ⟨m, _, _, hm, hrun,
      .object _ _ fun q hq => hch q (nodeMap_mem_erasePtr ref m q hq), ?_, ?_, ?_, ?_⟩
    · intro pre post k c hsplit hc hpre
      rw [hsplit, nodeMap_erasePtr_split ref k c post hc pre hpre,
        nodeMap_findPtr_split ref k c post hc pre hpre]
      exact ⟨rfl, rfl, hch (k, c) (by rw [hsplit]; simp)⟩
    · intro hnd
      rw [nodeMap_erasePtr_filter ref m hnd]
    · intro hno
      rw [nodeMap_erasePtr_none ref m hno, nodeMap_findPtr_none ref m hno]
      exact ⟨hm.symm, rfl⟩
    · intro c hc
      obtain ⟨h1, k, h2⟩ := nodeMap_findPtr_mem ref m c hc
      exact ⟨⟨k, h2⟩, h1, hch _ h2⟩
  · intro json birthday hj hb
    subst hj hb
    refine ⟨rfl, rfl, _, rfl, rfl, rfl, rfl, ?_⟩
    refine .array 1 _ fun c hc => ?_
    simp only [List.mem_cons, List.mem_singleton, List.not_mem_nil, or_false] at hc
    rcases hc with hc | hc | hc
    · rw [hc]; exact .number 2 _
    · rw [hc]; exact .number 3 _
    · rw [hc]; exact .number 4 _

/-- A witness for C33: the Array `[ null, true ]` at address 0 with its children at
addresses 1 and 2, and the pointer to the node at address 2, the Bool `true`: it leaves
the Array and is after the call the Bool `true` it was. -/
theorem C33_witness :
    (Node.array 0 .kArray [.null 1 .kNull, .bool 2 .kBool true] : Node (List Char)).Consistent ∧
    Node.RemovePtr (Node.array 0 .kArray [.null 1 .kNull, .bool 2 .kBool true] :
      Node (List Char)) 2 =
      some (.ok (.array 0 .kArray [.null 1 .kNull], some (.bool 2 .kBool true))) ∧
    ∃ l out gone, (Node.array 0 .kArray [.null 1 .kNull, .bool 2 .kBool true] : Node (List Char)) = .array (Node.array 0 .kArray [.null 1 .kNull, .bool 2 .kBool true] : Node (List Char)).addr .kArray l ∧
      Node.RemovePtr (Node.array 0 .kArray [.null 1 .kNull, .bool 2 .kBool true] : Node (List Char)) 2 = some (.ok (out, gone)) ∧ out.Consistent ∧
      (∀ (pre post : List (Node (List Char))) (c : Node (List Char)), l = pre ++ c :: post →
        c.addr = 2 → (∀ x ∈ pre, x.addr ≠ 2) →
        out = .array (Node.array 0 .kArray [.null 1 .kNull, .bool 2 .kBool true] : Node (List Char)).addr .kArray (pre ++ post) ∧ gone = some c ∧ c.Consistent) ∧
      ((l.map Node.addr).Nodup →
        out = .array (Node.array 0 .kArray [.null 1 .kNull, .bool 2 .kBool true] : Node (List Char)).addr .kArray (l.filter fun x => decide (x.addr ≠ 2))) ∧
      ((∀ x ∈ l, x.addr ≠ 2) → out = (Node.array 0 .kArray [.null 1 .kNull, .bool 2 .kBool true] : Node (List Char)) ∧ gone = none) ∧
      (∀ c, gone = some c → c ∈ l ∧ c.addr = 2 ∧ c.Consistent) :=
  ⟨.array 0 _ (fun c hc => by
      simp only [List.mem_cons, List.mem_singleton, List.not_mem_nil, or_false] at hc
      rcases hc with hc | hc
      · rw [hc]; exact .null 1
      · rw [hc]; exact .bool 2 true),
    rfl,
    (C33_remove_by_identity (fun t : List Char => t)
      (.array 0 .kArray [.null 1 .kNull, .bool 2 .kBool true]) 2
      (.array 0 _ (fun c hc => by
        simp only [List.mem_cons, List.mem_singleton, List.not_mem_nil, or_false] at hc
        rcases hc with hc | hc
        · rw [hc]; exact .null 1
        · rw [hc]; exact .bool 2 true))).2.1 rfl⟩

theorem extends_refl {α : Type} (r : Outcome α) : Outcome.Extends r r := Or.inr rfl

theorem extends_eq {α : Type} {r1 r2 : Outcome α} (h : Outcome.Extends r1 r2)
    (hne : r1 ≠ .outOfFuel) : r2 = r1 := by
  rcases h with h | h
  · exact absurd h hne
  · exact h

theorem extends_andThen {α β : Type} {r1 r2 : Outcome α} {f1 f2 : α → Assist → Outcome β}
    (h : Outcome.Extends r1 r2) (hf : ∀ a st, Outcome.Extends (f1 a st) (f2 a st)) :
    Outcome.Extends (r1.andThen f1) (r2.andThen f2) := by
  rcases h with h | h
  · left; rw [h]; rfl
  · rw [h]
    cases r1 with
    | ok a st => exact hf a st
    | thrown e st => exact Or.inr rfl
    | outOfFuel => exact Or.inl rfl

theorem extends_catchRethrow {α : Type} {r1 r2 : Outcome α} (h : Outcome.Extends r1 r2) :
    Outcome.Extends r1.catchRethrow r2.catchRethrow := by
  rcases h with h | h
  · left; rw [h]; rfl
  · rw [h]; exact Or.inr rfl

theorem SkipWhitespaces_extends :
    ∀ (fuel fuel2 : Nat), fuel ≤ fuel2 → ∀ st : Assist,
      Outcome.Extends (SkipWhitespaces fuel st) (SkipWhitespaces fuel2 st) := by
  intro fuel
  induction fuel with
  | zero => intro _ _ _; exact Or.inl rfl
  | succ n ih =>
    intro fuel2 h st
    obtain ⟨m, rfl⟩ : ∃ m, fuel2 = m + 1 := ⟨fuel2 - 1, by omega⟩
    simp only [SkipWhitespaces]
    refine extends_andThen (extends_refl _) fun ch st => ?_
    split
    · exact ih m (by omega) st
    · exact extends_refl _

theorem digits_extends :
    ∀ (fuel fuel2 : Nat), fuel ≤ fuel2 → ∀ st : Assist,
      Outcome.Extends (ConsumeNumber.digits fuel st) (ConsumeNumber.digits fuel2 st) := by
  intro fuel
  induction fuel with
  | zero => intro _ _ _; exact Or.inl rfl
  | succ n ih =>
    intro fuel2 h st
    obtain ⟨m, rfl⟩ : ∃ m, fuel2 = m + 1 := ⟨fuel2 - 1, by omega⟩
    simp only [ConsumeNumber.digits]
    refine extends_andThen (extends_refl _) fun ch st => ?_
    split
    · exact extends_refl _
    · exact ih m (by omega) _

theorem fraction_extends :
    ∀ (fuel fuel2 : Nat), fuel ≤ fuel2 → ∀ st : Assist,
      Outcome.Extends (ConsumeNumber.fraction fuel st) (ConsumeNumber.fraction fuel2 st) := by
  intro fuel
  induction fuel with
  | zero => intro _ _ _; exact Or.inl rfl
  | succ n ih =>
    intro fuel2 h st
    obtain ⟨m, rfl⟩ : ∃ m, fuel2 = m + 1 := ⟨fuel2 - 1, by omega⟩
    simp only [ConsumeNumber.fraction]
    refine extends_andThen (extends_refl _) fun ch st => ?_
    split
    · exact extends_refl _
    · exact ih m (by omega) _

theorem integer_extends {fuel fuel2 : Nat} (h : fuel ≤ fuel2) (st : Assist) :
    Outcome.Extends (ConsumeNumber.integer fuel st) (ConsumeNumber.integer fuel2 st) := by
  simp only [ConsumeNumber.integer]
  split
  · exact extends_refl _
  · split
    · exact extends_refl _
    · exact digits_extends _ _ h _

theorem point_extends {fuel fuel2 : Nat} (h : fuel ≤ fuel2) (st : Assist) :
    Outcome.Extends (ConsumeNumber.point fuel st) (ConsumeNumber.point fuel2 st) := by
  simp only [ConsumeNumber.point]
  refine extends_andThen (extends_refl _) fun c st => ?_
  split
  · exact extends_refl _
  · split
    · refine extends_andThen (extends_refl _) fun c st => ?_
      split
      · exact extends_refl _
      · exact fraction_extends _ _ h _
    · exact extends_refl _

theorem exponent_extends {fuel fuel2 : Nat} (h : fuel ≤ fuel2) (st : Assist) :
    Outcome.Extends (ConsumeNumber.exponent fuel st) (ConsumeNumber.exponent fuel2 st) := by
  simp only [ConsumeNumber.exponent]
  split
  · refine extends_andThen (extends_refl _) fun c st => ?_
    refine extends_andThen (extends_refl _) fun c st => ?_
    refine extends_andThen (extends_refl _) fun c st => ?_
    split
    · exact extends_refl _
    · exact digits_extends _ _ h _
  · exact extends_refl _

theorem ConsumeNumber_extends {D : Type} (atof : List Char → D) {fuel fuel2 : Nat}
    (h : fuel ≤ fuel2) (st : Assist) :
    Outcome.Extends (ConsumeNumber atof fuel st) (ConsumeNumber atof fuel2 st) := by
  simp only [ConsumeNumber]
  refine extends_andThen (extends_refl _) fun _ st => ?_
  refine extends_andThen (integer_extends h _) fun _ st => ?_
  refine extends_andThen (point_extends h _) fun _ st => ?_
  refine extends_andThen (exponent_extends h _) fun _ st => ?_
  exact extends_refl _

theorem stringLoop_extends :
    ∀ (fuel fuel2 : Nat), fuel ≤ fuel2 → ∀ st : Assist,
      Outcome.Extends (ConsumeString.loop fuel st) (ConsumeString.loop fuel2 st) := by
  intro fuel
  induction fuel with
  | zero => intro _ _ _; exact Or.inl rfl
  | succ n ih =>
    intro fuel2 h st
    obtain ⟨m, rfl⟩ : ∃ m, fuel2 = m + 1 := ⟨fuel2 - 1, by omega⟩
    simp only [ConsumeString.loop]
    refine extends_andThen (extends_refl _) fun ch st => ?_
    split
    · exact extends_refl _
    · split
      · refine extends_andThen (extends_refl _) fun _ st => ?_
        refine extends_andThen (extends_refl _) fun _ st => ?_
        exact ih m (by omega) _
      · split
        · exact extends_refl _
        · exact ih m (by omega) _

theorem ConsumeString_extends {D : Type} {fuel fuel2 : Nat} (h : fuel ≤ fuel2) (st : Assist) :
    Outcome.Extends (ConsumeString fuel st : Outcome (Json D)) (ConsumeString fuel2 st) := by
  simp only [ConsumeString]
  refine extends_andThen (SkipWhitespaces_extends _ _ h _) fun _ st => ?_
  refine extends_andThen (extends_refl _) fun c st => ?_
  split
  · exact extends_refl _
  · refine extends_andThen (stringLoop_extends _ _ h _) fun _ st => ?_
    exact extends_refl _

theorem ConsumePair_extends {D : Type} {V V2 : Assist → Outcome (Json D)}
    (hV : ∀ st, Outcome.Extends (V st) (V2 st)) {fuel fuel2 : Nat} (h : fuel ≤ fuel2)
    (st : Assist) :
    Outcome.Extends (ConsumePair V fuel st) (ConsumePair V2 fuel2 st) := by
  simp only [ConsumePair]
  refine extends_andThen (ConsumeString_extends h _) fun keyJson st => ?_
  split
  · exact extends_refl _
  · refine extends_andThen (SkipWhitespaces_extends _ _ h _) fun _ st => ?_
    refine extends_andThen (extends_refl _) fun _ st => ?_
    refine extends_andThen (hV _) fun _ st => ?_
    exact extends_refl _

theorem objectLoop_extends {D : Type} {V V2 : Assist → Outcome (Json D)}
    (hV : ∀ st, Outcome.Extends (V st) (V2 st)) {fuel fuel2 : Nat} (h : fuel ≤ fuel2) :
    ∀ (n n2 : Nat), n ≤ n2 → ∀ (obj : ObjectData D) (st : Assist),
      Outcome.Extends (ConsumeObject.loop V fuel n obj st)
        (ConsumeObject.loop V2 fuel2 n2 obj st) := by
  intro n
  induction n with
  | zero => intro _ _ _ _; exact Or.inl rfl
  | succ n ih =>
    intro n2 hn obj st
    obtain ⟨m, rfl⟩ : ∃ m, n2 = m + 1 := ⟨n2 - 1, by omega⟩
    simp only [ConsumeObject.loop]
    refine extends_andThen (extends_refl _) fun ch st => ?_
    split
    · exact extends_refl _
    · split
      · refine extends_andThen (extends_catchRethrow (ConsumePair_extends hV h _)) fun p st => ?_
        exact ih m (by omega) _ _
      · exact extends_refl _

theorem ConsumeObject_extends {D : Type} {V V2 : Assist → Outcome (Json D)}
    (hV : ∀ st, Outcome.Extends (V st) (V2 st)) {fuel fuel2 : Nat} (h : fuel ≤ fuel2)
    (st : Assist) :
    Outcome.Extends (ConsumeObject V fuel st) (ConsumeObject V2 fuel2 st) := by
  simp only [ConsumeObject]
  refine extends_andThen (extends_refl _) fun c st => ?_
  split
  · exact extends_refl _
  · refine extends_andThen (SkipWhitespaces_extends _ _ h _) fun _ st => ?_
    refine extends_andThen (extends_refl _) fun c st => ?_
    split
    · exact extends_refl _
    · refine extends_andThen (extends_catchRethrow (ConsumePair_extends hV h _)) fun p st => ?_
      refine extends_andThen (objectLoop_extends hV h _ _ h _ _) fun obj st => ?_
      exact extends_refl _

theorem arrayLoop_extends {D : Type} {V V2 : Assist → Outcome (Json D)}
    (hV : ∀ st, Outcome.Extends (V st) (V2 st)) :
    ∀ (n n2 : Nat), n ≤ n2 → ∀ (arr : ArrayData D) (st : Assist),
      Outcome.Extends (ConsumeArray.loop V n arr st) (ConsumeArray.loop V2 n2 arr st) := by
  intro n
  induction n with
  | zero => intro _ _ _ _; exact Or.inl rfl
  | succ n ih =>
    intro n2 hn arr st
    obtain ⟨m, rfl⟩ : ∃ m, n2 = m + 1 := ⟨n2 - 1, by omega⟩
    simp only [ConsumeArray.loop]
    refine extends_andThen (extends_refl _) fun ch st => ?_
    split
    · exact extends_refl _
    · split
      · refine extends_andThen (extends_catchRethrow (hV _)) fun v st => ?_
        exact ih m (by omega) _ _
      · exact extends_refl _

theorem ConsumeArray_extends {D : Type} {V V2 : Assist → Outcome (Json D)}
    (hV : ∀ st, Outcome.Extends (V st) (V2 st)) {fuel fuel2 : Nat} (h : fuel ≤ fuel2)
    (st : Assist) :
    Outcome.Extends (ConsumeArray V fuel st) (ConsumeArray V2 fuel2 st) := by
  simp only [ConsumeArray]
  refine extends_andThen (extends_refl _) fun c st => ?_
  split
  · exact extends_refl _
  · refine extends_andThen (SkipWhitespaces_extends _ _ h _) fun _ st => ?_
    refine extends_andThen (extends_refl _) fun c st => ?_
    split
    · exact extends_refl _
    · refine extends_andThen (extends_catchRethrow (hV _)) fun v st => ?_
      refine extends_andThen (arrayLoop_extends hV _ _ h _ _) fun arr st => ?_
      exact extends_refl _

theorem consumer_extends {D : Type} (atof : List Char → D)
    {V V2 : Assist → Outcome (Json D)} (hV : ∀ st, Outcome.Extends (V st) (V2 st))
    {fuel fuel2 : Nat} (h : fuel ≤ fuel2) (st : Assist) :
    Outcome.Extends (ConsumeValue.consumer atof V fuel st)
      (ConsumeValue.consumer atof V2 fuel2 st) := by
  simp only [ConsumeValue.consumer]
  refine extends_andThen (SkipWhitespaces_extends _ _ h _) fun _ st => ?_
  refine extends_andThen (extends_refl _) fun kind st => ?_
  cases kind with
  | kNumber => exact ConsumeNumber_extends atof h _
  | kString => exact ConsumeString_extends h _
  | kBool => exact extends_refl _
  | kNull => exact extends_refl _
  | kObject => exact ConsumeObject_extends hV h _
  | kArray => exact ConsumeArray_extends hV h _

theorem finish_extends {D : Type} {fuel fuel2 : Nat} (h : fuel ≤ fuel2) (sect : Bool)
    (json : Json D) (st : Assist) :
    Outcome.Extends (ConsumeValue.finish fuel sect json st)
      (ConsumeValue.finish fuel2 sect json st) := by
  simp only [ConsumeValue.finish]
  refine extends_andThen ?_ fun _ st => ?_
  · split
    · refine extends_andThen (SkipWhitespaces_extends _ _ h _) fun _ st => ?_
      exact extends_refl _
    · exact extends_refl _
  · refine extends_andThen ?_ fun _ st => extends_refl _
    split
    · exact SkipWhitespaces_extends _ _ h _
    · exact extends_refl _

theorem ConsumeValue_extends {D : Type} (atof : List Char → D) :
    ∀ (fuel fuel2 : Nat), fuel ≤ fuel2 → ∀ (sect : Bool) (st : Assist),
      Outcome.Extends (ConsumeValue atof fuel sect st) (ConsumeValue atof fuel2 sect st) := by
  intro fuel
  induction fuel with
  | zero => intro _ _ _ _; exact Or.inl rfl
  | succ n ih =>
    intro fuel2 h sect st
    obtain ⟨m, rfl⟩ : ∃ m, fuel2 = m + 1 := ⟨fuel2 - 1, by omega⟩
    simp only [ConsumeValue]
    refine extends_andThen
      (consumer_extends atof (fun st => ih m (by omega) true st) (by omega) _) fun json st => ?_
    exact finish_extends (by omega) _ _ _

theorem Parse_settled {D : Type} (atof : List Char → D) {s : List Char} (hc : CStr s) :
    (∃ v st, Parse atof s = .ok v st) ∨
      ∃ c p st, Parse atof s = .thrown (.UnexpectedToken c p) st := by
  rcases Parse_back atof hc with ⟨pre, lex, post, v, tok, -, -, -, -, h⟩ | ⟨p, tok, -, -, h⟩
  · exact Or.inl ⟨v, _, h⟩
  · exact Or.inr ⟨_, _, _, h⟩

theorem ConsumeValue_progress {D : Type} (atof : List Char → D) {s : List Char} (hc : CStr s)
    (fuel k : Nat) (ch : Char) (tok : List Char) (hk : k ≤ s.length) {v : Json D}
    {st2 : Assist} (h : ConsumeValue atof fuel true (cur s k ch tok) = .ok v st2) :
    (cur s k ch tok).pos < st2.pos ∧ st2.pos < (s.length : Int) := by
  have hext := ConsumeValue_extends atof fuel (fuel + s.length + 1 + 1) (by omega) true
    (cur s k ch tok)
  have hbig := extends_eq hext (by rw [h]; exact fun e => by cases e)
  rw [h] at hbig
  have hVB : ValueBack atof (ConsumeValue atof (fuel + s.length + 1 + 1) true) s k :=
    ValueBack_of_ConsumerBack (consumerBack atof (fuel + s.length + 1)) hc (by omega)
  rcases hVB k ch tok (le_refl _) hk with ⟨e, r, ch2, tok2, -, -, hden, hdrop, hrun⟩ | hthr
  · rw [hbig] at hrun
    injection hrun with _ hst
    obtain ⟨c, t, hlex, -⟩ := hden.head
    have hlen : 1 ≤ e.text.length := by
      simp [Element.text, hlex]
      omega
    have hle : k + e.text.length ≤ s.length := by
      have := congrArg List.length hdrop
      simp only [List.length_drop, List.length_append] at this
      omega
    rw [hst]
    simp only [cur]
    omega
  · exact (hthr.not_ok hbig).elim

theorem nested_denotes {D : Type} (atof : List Char → D) :
    ∀ n : Nat, ∃ v : Json D,
      Denotes atof (List.replicate (n + 1) '[' ++ List.replicate (n + 1) ']') v := by
  intro n
  induction n with
  | zero => exact ⟨_, Denotes.emptyArray [] (fun c hc => by cases hc)⟩
  | succ n ih =>
    obtain ⟨v, hv⟩ := ih
    have h : Denotes atof _ _ := Denotes.array
      ⟨[], List.replicate (n + 1) '[' ++ List.replicate (n + 1) ']', [], v⟩ []
      (fun e he => by
        rw [List.mem_singleton.1 he]
        exact ⟨fun c hc => (by cases hc), fun c hc => (by cases hc)⟩)
      (fun e he => by
        rw [List.mem_singleton.1 he]
        exact hv)
    have ht : List.replicate (n + 1 + 1) '[' ++ List.replicate (n + 1 + 1) ']' =
        '[' :: ((Element.text (⟨[], List.replicate (n + 1) '[' ++ List.replicate (n + 1) ']',
          [], v⟩ : Element D)) ++ (restText (([] : List (Element D)).map Element.text) ++
            [']'])) := by
      simp only [Element.text, List.map_nil, restText, List.nil_append, List.append_nil]
      rw [List.replicate_succ (n := n + 1), List.replicate_succ' (n := n + 1)]
      simp
    rw [ht]
    exact ⟨_, h⟩

/-- C32. `Json::Parse` terminates on every text, with a value or with a SyntaxError.
In the embedding the loops and the recursion spend fuel, and `Parse` runs with the
fuel `length + 2`: on every C string the outcome is a value or an
`UnexpectedTokenException`, never the exhaustion of the fuel, and every larger fuel gives
the same outcome, so this is the outcome of the loops of the code.  The reason is
progress: every `NextCharacter` that returns moves the cursor forward by one (each
iteration of a loop starts with one), and every call of `ConsumeValue` for an element or
a member that returns leaves the cursor behind where it started, inside the text.  The
nesting depth is not bounded: `n + 1` opening brackets followed by `n + 1` closing ones
are parsed for every `n`. -/
theorem C32_parse_terminates {D : Type} (atof : List Char → D) (s : List Char)
    (hc : CStr s) :
    ((∃ v st, Parse atof s = .ok v st) ∨
      ∃ c p st, Parse atof s = .thrown (.UnexpectedToken c p) st) ∧
    (∀ fuel : Nat, s.length + 2 ≤ fuel →
      ConsumeValue atof fuel false (Assist.init s) = Parse atof s) ∧
    (∀ (st st2 : Assist) (c : Char), NextCharacter st = .ok c st2 → st2.pos = st.pos + 1) ∧
    (∀ (fuel k : Nat) (ch : Char) (tok : List Char) (v : Json D) (st2 : Assist),
      k ≤ s.length → ConsumeValue atof fuel true (cur s k ch tok) = .ok v st2 →
      (cur s k ch tok).pos < st2.pos ∧ st2.pos < (s.length : Int)) ∧
    (∀ n : Nat, ∃ v st,
      Parse atof (List.replicate (n + 1) '[' ++ List.replicate (n + 1) ']') = .ok v st) := by
  have hset := Parse_settled atof hc
  refine ⟨hset, ?_, ?_, ?_, ?_⟩
  · intro fuel hf
    have hext := ConsumeValue_extends atof (s.length + 2) fuel hf false (Assist.init s)
    refine extends_eq hext ?_
    intro he
    have hp : Parse atof s = .outOfFuel := he
    rcases hset with ⟨v, st, h⟩ | ⟨c, p, st, h⟩ <;> rw [hp] at h <;> cases h
  · intro st st2 c h
    simp only [NextCharacter] at h
    split at h
    · cases h
    · injection h with _ hst
      rw [← hst]
  · intro fuel k ch tok v st2 hk h
    exact ConsumeValue_progress atof hc fuel k ch tok hk h
  · intro n
    obtain ⟨v, hv⟩ := nested_denotes atof n
    have hcs : CStr (List.replicate (n + 1) '[' ++ List.replicate (n + 1) ']') := hv.cstr
    have hsplit : List.replicate (n + 1) '[' ++ List.replicate (n + 1) ']' =
        [] ++ ((List.replicate (n + 1) '[' ++ List.replicate (n + 1) ']') ++ []) := by simp
    obtain ⟨tok, hp⟩ := Parse_fwd atof hcs hsplit
      (fun c hc => by cases hc) (fun c hc => by cases hc) hv
    exact ⟨v, _, hp⟩

/-- A witness for C32: the text `[1]`. -/
theorem C32_witness :
    (∃ (v : Json (List Char)) (st : Assist),
      Parse (fun t => t) ['[', '1', ']'] = .ok v st) ∨
      ∃ c p st, Parse (fun t : List Char => t) ['[', '1', ']'] =
        .thrown (.UnexpectedToken c p) st :=
  (C32_parse_terminates (fun t : List Char => t) ['[', '1', ']']
    (by unfold CStr; decide)).1

theorem agrees_ok {α : Type} {Q : α → Assist → Prop} {a : α} {st : Assist} (h : Q a st) :
    Watched.Agrees Q (some (.ok a st)) (.ok a st) := by
  refine ⟨rfl, fun a2 st2 he => ?_⟩
  injection he with h1 h2
  rw [← h1, ← h2]
  exact h

theorem agrees_unexpected {α : Type} {Q : α → Assist → Prop} (st : Assist) :
    Watched.Agrees Q (some (UnexpectedToken st)) (UnexpectedToken st) :=
  ⟨rfl, fun _ _ he => by cases he⟩

theorem agrees_thrown {α : Type} {Q : α → Assist → Prop} (e : Exception) (st : Assist) :
    Watched.Agrees Q (some (.thrown e st)) (.thrown e st) :=
  ⟨rfl, fun _ _ he => by cases he⟩

theorem agrees_outOfFuel {α : Type} {Q : α → Assist → Prop} :
    Watched.Agrees Q (some .outOfFuel) (.outOfFuel : Outcome α) :=
  ⟨rfl, fun _ _ he => by cases he⟩

theorem agrees_andThen {α β : Type} {Q : α → Assist → Prop} {Q2 : β → Assist → Prop}
    {w : Option (Outcome α)} {r : Outcome α} {fw : α → Assist → Option (Outcome β)}
    {f : α → Assist → Outcome β} (h : Watched.Agrees Q w r)
    (hf : ∀ a st, Q a st → Watched.Agrees Q2 (fw a st) (f a st)) :
    Watched.Agrees Q2 (Watched.andThen w fw) (r.andThen f) := by
  obtain ⟨hw, hq⟩ := h
  rw [hw]
  cases r with
  | ok a st => exact hf a st (hq a st rfl)
  | thrown e st => exact agrees_thrown e st
  | outOfFuel => exact agrees_outOfFuel

theorem agrees_catchRethrow {α : Type} {Q : α → Assist → Prop} {w : Option (Outcome α)}
    {r : Outcome α} (h : Watched.Agrees Q w r) :
    Watched.Agrees Q (Watched.catchRethrow w) r.catchRethrow := by
  obtain ⟨hw, hq⟩ := h
  rw [hw]
  cases r with
  | ok a st => exact ⟨rfl, hq⟩
  | thrown e st => exact ⟨rfl, fun _ _ he => by cases he⟩
  | outOfFuel => exact ⟨rfl, fun _ _ he => by cases he⟩

theorem agrees_weaken {α : Type} {Q Q2 : α → Assist → Prop} {w : Option (Outcome α)}
    {r : Outcome α} (h : Watched.Agrees Q w r) (hq : ∀ a st, Q a st → Q2 a st) :
    Watched.Agrees Q2 w r :=
  ⟨h.1, fun a st he => hq a st (h.2 a st he)⟩

theorem agrees_moved {α : Type} {Q : α → Assist → Prop} {src : List Char} {st : Assist}
    {k : Assist → Option (Outcome α)} {r : Outcome α} (hb : Watched.Before src st)
    (h : Watched.Agrees Q (k st) r) : Watched.Agrees Q (Watched.moved st k) r := by
  obtain ⟨h1, h2, h3⟩ := hb
  have : ¬(st.pos < -1 ∨ st.pos > (st.source.length : Int)) := by
    rw [h1]; omega
  simp only [Watched.moved, this, if_false]
  exact h

theorem charAt_ne_NUL {src : List Char} (hc : CStr src) {p : Int} (h0 : 0 ≤ p)
    (h1 : p < (src.length : Int)) : charAt src p ≠ NUL := by
  obtain ⟨n, rfl⟩ := Int.eq_ofNat_of_zero_le h0
  rw [charAt_nat]
  exact peek_lt_ne_NUL hc (by omega)

theorem charAt_length (src : List Char) : charAt src (src.length : Int) = NUL := by
  rw [charAt_nat]
  exact peek_ge (le_refl _)

theorem before_of_after {src : List Char} {st : Assist} (h : Watched.After src st)
    (hne : st.character ≠ NUL) : Watched.Before src st := by
  obtain ⟨h1, h2, h3, h4⟩ := h
  refine ⟨h1, by omega, ?_⟩
  rcases lt_or_eq_of_le h3 with h | h
  · exact h
  · rw [h4, h, charAt_length] at hne
    exact absurd rfl hne

theorem before_retract {src : List Char} {st : Assist} (h : Watched.After src st) :
    Watched.Before src (Retract st) := by
  obtain ⟨h1, h2, h3, _⟩ := h
  exact ⟨h1, by simp only [Retract]; omega, by simp only [Retract]; omega⟩

theorem before_stepBack {src : List Char} {st : Assist} (h : Watched.After src st) :
    Watched.Before src (StepBack st) := by
  obtain ⟨h1, h2, h3, _⟩ := h
  exact ⟨h1, by simp only [StepBack]; omega, by simp only [StepBack]; omega⟩

theorem after_concat {src : List Char} {st : Assist} (h : Watched.After src st) :
    Watched.After src (Concat st) := h

theorem before_concat {src : List Char} {st : Assist} (h : Watched.Before src st) :
    Watched.Before src (Concat st) := h

theorem agrees_next {src : List Char} (hc : CStr src) {st : Assist}
    (hb : Watched.Before src st) :
    Watched.Agrees (fun c st2 => Watched.After src st2 ∧ c = st2.character)
      (Watched.NextCharacter st) (NextCharacter st) := by
  obtain ⟨h1, h2, h3⟩ := hb
  have hg : ¬(st.pos ≥ 0 ∧ charAt st.source st.pos = NUL) := by
    rintro ⟨g1, g2⟩
    rw [h1] at g2
    exact charAt_ne_NUL hc g1 h3 g2
  have hr : ¬(st.pos + 1 < 0 ∨ st.pos + 1 > (st.source.length : Int)) := by
    rw [h1]; omega
  simp only [Watched.NextCharacter, NextCharacter, hg, hr, if_false]
  refine agrees_ok ⟨⟨h1, ?_, ?_, ?_⟩, rfl⟩
  · show 0 ≤ st.pos + 1
    omega
  · show st.pos + 1 ≤ (src.length : Int)
    omega
  · show charAt st.source (st.pos + 1) = charAt src (st.pos + 1)
    rw [h1]

theorem agrees_SkipWhitespaces {src : List Char} (hc : CStr src) :
    ∀ (fuel : Nat) (st : Assist), Watched.Before src st →
      Watched.Agrees (fun _ st2 => Watched.Before src st2)
        (Watched.SkipWhitespaces fuel st) (SkipWhitespaces fuel st) := by
  intro fuel
  induction fuel with
  | zero => intro _ _; exact agrees_outOfFuel
  | succ n ih =>
    intro st hb
    simp only [Watched.SkipWhitespaces, SkipWhitespaces]
    refine agrees_andThen (agrees_next hc hb) fun ch st2 h => ?_
    obtain ⟨ha, hch⟩ := h
    split
    · rename_i hw
      refine ih st2 (before_of_after ha ?_)
      rw [← hch]
      rintro rfl
      rw [isWhitespace_NUL] at hw
      cases hw
    · exact agrees_moved (before_stepBack ha) (agrees_ok (before_stepBack ha))

theorem agrees_ConsumeSpecific {src : List Char} (hc : CStr src) :
    ∀ (str : List Char), (∀ c ∈ str, c ≠ NUL) → ∀ st : Assist, Watched.Before src st →
      Watched.Agrees (fun _ st2 => Watched.Before src st2)
        (Watched.ConsumeSpecific str st) (ConsumeSpecific str st) := by
  intro str
  induction str with
  | nil => intro _ st hb; exact agrees_ok hb
  | cons c rest ih =>
    intro hs st hb
    simp only [Watched.ConsumeSpecific, ConsumeSpecific]
    refine agrees_andThen (agrees_next hc hb) fun ch st2 h => ?_
    obtain ⟨ha, hch⟩ := h
    split
    · exact agrees_unexpected st2
    · rename_i he
      have hcc : c = ch := by
        by_contra hne
        exact he hne
      refine ih (fun x hx => hs x (List.mem_cons_of_mem _ hx)) st2 (before_of_after ha ?_)
      rw [← hch, ← hcc]
      exact hs c (List.mem_cons_self _ _)

theorem agrees_KindDetect {src : List Char} (hc : CStr src) {st : Assist}
    (hb : Watched.Before src st) :
    Watched.Agrees (fun _ st2 => Watched.Before src st2)
      (Watched.KindDetect st) (KindDetect st) := by
  simp only [Watched.KindDetect, KindDetect]
  refine agrees_andThen (agrees_next hc hb) fun ch st2 h => ?_
  exact agrees_moved (before_retract h.1) (agrees_ok (before_retract h.1))

theorem agrees_digits {src : List Char} (hc : CStr src) :
    ∀ (fuel : Nat) (st : Assist), Watched.Before src st →
      Watched.Agrees (fun _ st2 => Watched.Before src st2)
        (Watched.ConsumeNumber.digits fuel st) (ConsumeNumber.digits fuel st) := by
  intro fuel
  induction fuel with
  | zero => intro _ _; exact agrees_outOfFuel
  | succ n ih =>
    intro st hb
    simp only [Watched.ConsumeNumber.digits, ConsumeNumber.digits]
    refine agrees_andThen (agrees_next hc hb) fun ch st2 h => ?_
    obtain ⟨ha, hch⟩ := h
    split
    · exact agrees_moved (before_retract ha) (agrees_ok (before_retract ha))
    · rename_i hd
      refine ih _ (before_concat (before_of_after ha ?_))
      rw [← hch]
      rintro rfl
      simp [isdigit_NUL] at hd

theorem agrees_fraction {src : List Char} (hc : CStr src) :
    ∀ (fuel : Nat) (st : Assist), Watched.Before src st →
      Watched.Agrees (fun _ st2 => Watched.After src st2)
        (Watched.ConsumeNumber.fraction fuel st) (ConsumeNumber.fraction fuel st) := by
  intro fuel
  induction fuel with
  | zero => intro _ _; exact agrees_outOfFuel
  | succ n ih =>
    intro st hb
    simp only [Watched.ConsumeNumber.fraction, ConsumeNumber.fraction]
    refine agrees_andThen (agrees_next hc hb) fun ch st2 h => ?_
    obtain ⟨ha, hch⟩ := h
    split
    · exact agrees_ok ha
    · rename_i hd
      refine ih _ (before_concat (before_of_after ha ?_))
      intro hn
      rw [hn] at hd
      simp [isdigit_NUL] at hd

theorem agrees_sign {src : List Char} (hc : CStr src) {st : Assist}
    (hb : Watched.Before src st) :
    Watched.Agrees (fun _ st2 => Watched.After src st2)
      (Watched.ConsumeNumber.sign st) (ConsumeNumber.sign st) := by
  simp only [Watched.ConsumeNumber.sign, ConsumeNumber.sign]
  refine agrees_andThen (agrees_next hc hb) fun ch st2 h => ?_
  obtain ⟨ha, hch⟩ := h
  split
  · rename_i hm
    have hne : st2.character ≠ NUL := by rw [← hm]; decide
    refine agrees_andThen (agrees_next hc (before_concat (before_of_after ha hne)))
      fun _ st3 h3 => agrees_ok h3.1
  · exact agrees_ok ha

theorem agrees_integer {src : List Char} (hc : CStr src) (fuel : Nat) {st : Assist}
    (ha : Watched.After src st) :
    Watched.Agrees (fun _ st2 => Watched.Before src st2)
      (Watched.ConsumeNumber.integer fuel st) (ConsumeNumber.integer fuel st) := by
  simp only [Watched.ConsumeNumber.integer, ConsumeNumber.integer]
  split
  · exact agrees_unexpected st
  · rename_i hd
    have hne : st.character ≠ NUL := by
      intro hn
      rw [hn] at hd
      simp [isdigit_NUL] at hd
    have hb : Watched.Before src (Concat st) := before_concat (before_of_after ha hne)
    split
    · exact agrees_ok hb
    · exact agrees_digits hc fuel _ hb

theorem agrees_point {src : List Char} (hc : CStr src) (fuel : Nat) {st : Assist}
    (hb : Watched.Before src st) :
    Watched.Agrees (fun _ st2 => Watched.After src st2)
      (Watched.ConsumeNumber.point fuel st) (ConsumeNumber.point fuel st) := by
  simp only [Watched.ConsumeNumber.point, ConsumeNumber.point]
  refine agrees_andThen (agrees_next hc hb) fun ch st2 h => ?_
  obtain ⟨ha, hch⟩ := h
  split
  · exact agrees_unexpected st2
  · split
    · rename_i hp
      have hne : st2.character ≠ NUL := by rw [← hp]; decide
      refine agrees_andThen (agrees_next hc (before_concat (before_of_after ha hne)))
        fun c3 st3 h3 => ?_
      obtain ⟨ha3, hc3⟩ := h3
      split
      · exact agrees_unexpected st3
      · rename_i hd
        refine agrees_fraction hc fuel _ (before_concat (before_of_after ha3 ?_))
        rw [← hc3]
        rintro rfl
        simp [isdigit_NUL] at hd
    · exact agrees_ok ha

theorem agrees_exponent {src : List Char} (hc : CStr src) (fuel : Nat) {st : Assist}
    (ha : Watched.After src st) :
    Watched.Agrees (fun _ st2 => Watched.Before src st2)
      (Watched.ConsumeNumber.exponent fuel st) (ConsumeNumber.exponent fuel st) := by
  simp only [Watched.ConsumeNumber.exponent, ConsumeNumber.exponent]
  split
  · rename_i he
    have hne : st.character ≠ NUL := by
      rcases he with he | he <;> rw [← he] <;> decide
    refine agrees_andThen (agrees_next hc (before_concat (before_of_after ha hne)))
      fun c2 st2 h2 => ?_
    obtain ⟨ha2, hc2⟩ := h2
    refine agrees_andThen (Q := fun _ st3 => Watched.Before src st3) ?_ fun _ st3 hb3 => ?_
    · split
      · rename_i hs
        have hne2 : st2.character ≠ NUL := by
          rcases hs with hs | hs <;> rw [← hs] <;> decide
        exact agrees_ok (before_concat (before_of_after ha2 hne2))
      · split
        · exact agrees_moved (before_retract ha2) (agrees_ok (before_retract ha2))
        · exact agrees_unexpected st2
    · refine agrees_andThen (agrees_next hc hb3) fun c4 st4 h4 => ?_
      obtain ⟨ha4, hc4⟩ := h4
      split
      · exact agrees_unexpected st4
      · rename_i hd
        refine agrees_digits hc fuel _ (before_concat (before_of_after ha4 ?_))
        rw [← hc4]
        rintro rfl
        simp [isdigit_NUL] at hd
  · exact agrees_moved (before_retract ha) (agrees_ok (before_retract ha))

theorem agrees_ConsumeNumber {D : Type} (atof : List Char → D) {src : List Char}
    (hc : CStr src) (fuel : Nat) {st : Assist} (hb : Watched.Before src st) :
    Watched.Agrees (fun _ st2 => Watched.Before src st2)
      (Watched.ConsumeNumber atof fuel st) (ConsumeNumber atof fuel st) := by
  simp only [Watched.ConsumeNumber, ConsumeNumber]
  have hb0 : Watched.Before src { st with token := [] } := hb
  refine agrees_andThen (agrees_sign hc hb0) fun _ st2 h2 => ?_
  refine agrees_andThen (agrees_integer hc fuel h2) fun _ st3 h3 => ?_
  refine agrees_andThen (agrees_point hc fuel h3) fun _ st4 h4 => ?_
  refine agrees_andThen (agrees_exponent hc fuel h4) fun _ st5 h5 => ?_
  exact agrees_ok h5

theorem agrees_hex {src : List Char} (hc : CStr src) :
    ∀ (n : Nat) (st : Assist), Watched.Before src st →
      Watched.Agrees (fun _ st2 => Watched.Before src st2)
        (Watched.ConsumeString.hex n st) (ConsumeString.hex n st) := by
  intro n
  induction n with
  | zero => intro st hb; exact agrees_ok hb
  | succ n ih =>
    intro st hb
    simp only [Watched.ConsumeString.hex, ConsumeString.hex]
    refine agrees_andThen (agrees_next hc hb) fun ch st2 h => ?_
    obtain ⟨ha, hch⟩ := h
    split
    · exact agrees_unexpected st2
    · rename_i hd
      refine ih _ (before_concat (before_of_after ha ?_))
      rw [← hch]
      rintro rfl
      simp [isxdigit_NUL] at hd

theorem agrees_escape {src : List Char} (hc : CStr src) {st : Assist}
    (ha : Watched.After src st) :
    Watched.Agrees (fun _ st2 => Watched.Before src st2)
      (Watched.ConsumeString.escape st) (ConsumeString.escape st) := by
  simp only [Watched.ConsumeString.escape, ConsumeString.escape]
  split
  · rename_i he
    have hne : st.character ≠ NUL := by
      rcases he with he | he | he | he | he | he | he | he <;> rw [he] <;> decide
    exact agrees_ok (before_concat (before_of_after ha hne))
  · split
    · rename_i hu
      have hne : st.character ≠ NUL := by rw [hu]; decide
      exact agrees_hex hc 4 _ (before_concat (before_of_after ha hne))
    · exact agrees_unexpected st

theorem agrees_stringLoop {src : List Char} (hc : CStr src) :
    ∀ (fuel : Nat) (st : Assist), Watched.Before src st →
      Watched.Agrees (fun _ st2 => Watched.Before src st2)
        (Watched.ConsumeString.loop fuel st) (ConsumeString.loop fuel st) := by
  intro fuel
  induction fuel with
  | zero => intro _ _; exact agrees_outOfFuel
  | succ n ih =>
    intro st hb
    simp only [Watched.ConsumeString.loop, ConsumeString.loop]
    refine agrees_andThen (agrees_next hc hb) fun ch st2 h => ?_
    obtain ⟨ha, hch⟩ := h
    split
    · rename_i hq
      refine agrees_ok (before_of_after ha ?_)
      rw [← hch, ← hq]
      decide
    · split
      · rename_i hbs
        have hne : st2.character ≠ NUL := by rw [← hbs]; decide
        refine agrees_andThen (agrees_next hc (before_concat (before_of_after ha hne)))
          fun _ st3 h3 => ?_
        refine agrees_andThen (agrees_escape hc h3.1) fun _ st4 h4 => ?_
        exact ih st4 h4
      · split
        · exact agrees_unexpected st2
        · rename_i hcn
          refine ih _ (before_concat (before_of_after ha ?_))
          intro hn
          rw [hn] at hcn
          simp [iscntrl_NUL] at hcn

theorem agrees_ConsumeString {D : Type} {src : List Char} (hc : CStr src) (fuel : Nat)
    {st : Assist} (hb : Watched.Before src st) :
    Watched.Agrees (fun _ st2 => Watched.Before src st2)
      (Watched.ConsumeString fuel st : Option (Outcome (Json D))) (ConsumeString fuel st) := by
  simp only [Watched.ConsumeString, ConsumeString]
  refine agrees_andThen (agrees_SkipWhitespaces hc fuel st hb) fun _ st2 h2 => ?_
  refine agrees_andThen (agrees_next hc h2) fun ch st3 h3 => ?_
  obtain ⟨ha, hch⟩ := h3
  split
  · exact agrees_unexpected st3
  · rename_i hq
    have hne : st3.character ≠ NUL := by
      have : dquote = ch := by
        by_contra hne
        exact hq hne
      rw [← hch, ← this]
      decide
    refine agrees_andThen
      (agrees_stringLoop hc fuel { st3 with token := [] } (before_of_after ha hne))
      fun _ st4 h4 => ?_
    exact agrees_ok h4

theorem agrees_ConsumeBool {D : Type} {src : List Char} (hc : CStr src) {st : Assist}
    (hb : Watched.Before src st) :
    Watched.Agrees (fun _ st2 => Watched.Before src st2)
      (Watched.ConsumeBool st : Option (Outcome (Json D))) (ConsumeBool st) := by
  simp only [Watched.ConsumeBool, ConsumeBool]
  refine agrees_andThen (agrees_next hc hb) fun ch st2 h => ?_
  refine agrees_moved (before_retract h.1) ?_
  split
  · refine agrees_andThen
      (agrees_ConsumeSpecific hc _ (by decide) _ (before_retract h.1)) fun _ st3 h3 => ?_
    exact agrees_ok h3
  · refine agrees_andThen
      (agrees_ConsumeSpecific hc _ (by decide) _ (before_retract h.1)) fun _ st3 h3 => ?_
    exact agrees_ok h3

theorem agrees_ConsumeNull {D : Type} {src : List Char} (hc : CStr src) {st : Assist}
    (hb : Watched.Before src st) :
    Watched.Agrees (fun _ st2 => Watched.Before src st2)
      (Watched.ConsumeNull st : Option (Outcome (Json D))) (ConsumeNull st) := by
  simp only [Watched.ConsumeNull, ConsumeNull]
  refine agrees_andThen (agrees_ConsumeSpecific hc _ (by decide) _ hb) fun _ st3 h3 => ?_
  exact agrees_ok h3

theorem agrees_ConsumePair {D : Type} {src : List Char} (hc : CStr src)
    {VW : Assist → Option (Outcome (Json D))} {V : Assist → Outcome (Json D)}
    (hV : ∀ st, Watched.Before src st →
      Watched.Agrees (fun _ st2 => Watched.Before src st2) (VW st) (V st))
    (fuel : Nat) {st : Assist} (hb : Watched.Before src st) :
    Watched.Agrees (fun _ st2 => Watched.Before src st2)
      (Watched.ConsumePair VW fuel st) (ConsumePair V fuel st) := by
  simp only [Watched.ConsumePair, ConsumePair]
  refine agrees_andThen (agrees_ConsumeString hc fuel hb) fun keyJson st2 h2 => ?_
  cases keyJson.toStdString with
  | error e => exact agrees_thrown _ _
  | ok key =>
    refine agrees_andThen (agrees_SkipWhitespaces hc fuel st2 h2) fun _ st3 h3 => ?_
    refine agrees_andThen (agrees_ConsumeSpecific hc _ (by decide) _ h3) fun _ st4 h4 => ?_
    refine agrees_andThen (hV st4 h4) fun _ st5 h5 => ?_
    exact agrees_ok h5

theorem agrees_objectLoop {D : Type} {src : List Char} (hc : CStr src)
    {VW : Assist → Option (Outcome (Json D))} {V : Assist → Outcome (Json D)}
    (hV : ∀ st, Watched.Before src st →
      Watched.Agrees (fun _ st2 => Watched.Before src st2) (VW st) (V st))
    (fuel : Nat) :
    ∀ (n : Nat) (obj : ObjectData D) (st : Assist), Watched.Before src st →
      Watched.Agrees (fun _ st2 => Watched.Before src st2)
        (Watched.ConsumeObject.loop VW fuel n obj st) (ConsumeObject.loop V fuel n obj st) := by
  intro n
  induction n with
  | zero => intro _ _ _; exact agrees_outOfFuel
  | succ n ih =>
    intro obj st hb
    simp only [Watched.ConsumeObject.loop, ConsumeObject.loop]
    refine agrees_andThen (agrees_next hc hb) fun ch st2 h => ?_
    obtain ⟨ha, hch⟩ := h
    split
    · rename_i hq
      refine agrees_ok (before_of_after ha ?_)
      rw [← hch, ← hq]
      decide
    · split
      · rename_i hcm
        have hne : st2.character ≠ NUL := by rw [← hcm]; decide
        refine agrees_andThen
          (agrees_catchRethrow (agrees_ConsumePair hc hV fuel (before_of_after ha hne)))
          fun p st3 h3 => ?_
        exact ih _ st3 h3
      · exact agrees_unexpected st2

theorem agrees_ConsumeObject {D : Type} {src : List Char} (hc : CStr src)
    {VW : Assist → Option (Outcome (Json D))} {V : Assist → Outcome (Json D)}
    (hV : ∀ st, Watched.Before src st →
      Watched.Agrees (fun _ st2 => Watched.Before src st2) (VW st) (V st))
    (fuel : Nat) {st : Assist} (hb : Watched.Before src st) :
    Watched.Agrees (fun _ st2 => Watched.Before src st2)
      (Watched.ConsumeObject VW fuel st) (ConsumeObject V fuel st) := by
  simp only [Watched.ConsumeObject, ConsumeObject]
  refine agrees_andThen (agrees_next hc hb) fun ch st2 h => ?_
  obtain ⟨ha, hch⟩ := h
  split
  · exact agrees_unexpected st2
  · rename_i hq
    have hne : st2.character ≠ NUL := by
      have : '{' = ch := by
        by_contra hne
        exact hq hne
      rw [← hch, ← this]
      decide
    refine agrees_andThen (agrees_SkipWhitespaces hc fuel st2 (before_of_after ha hne))
      fun _ st3 h3 => ?_
    refine agrees_andThen (agrees_next hc h3) fun c4 st4 h4 => ?_
    obtain ⟨ha4, hc4⟩ := h4
    split
    · rename_i hq4
      refine agrees_ok (before_of_after ha4 ?_)
      rw [← hc4, ← hq4]
      decide
    · refine agrees_andThen (Q := fun _ st5 => Watched.Before src st5) ?_ fun p st5 h5 => ?_
      · exact agrees_moved (before_retract ha4)
          (agrees_catchRethrow (agrees_ConsumePair hc hV fuel (before_retract ha4)))
      · refine agrees_andThen (agrees_objectLoop hc hV fuel fuel _ st5 h5) fun obj st6 h6 => ?_
        exact agrees_ok h6

theorem agrees_arrayLoop {D : Type} {src : List Char} (hc : CStr src)
    {VW : Assist → Option (Outcome (Json D))} {V : Assist → Outcome (Json D)}
    (hV : ∀ st, Watched.Before src st →
      Watched.Agrees (fun _ st2 => Watched.Before src st2) (VW st) (V st)) :
    ∀ (n : Nat) (arr : ArrayData D) (st : Assist), Watched.Before src st →
      Watched.Agrees (fun _ st2 => Watched.Before src st2)
        (Watched.ConsumeArray.loop VW n arr st) (ConsumeArray.loop V n arr st) := by
  intro n
  induction n with
  | zero => intro _ _ _; exact agrees_outOfFuel
  | succ n ih =>
    intro arr st hb
    simp only [Watched.ConsumeArray.loop, ConsumeArray.loop]
    refine agrees_andThen (agrees_next hc hb) fun ch st2 h => ?_
    obtain ⟨ha, hch⟩ := h
    split
    · rename_i hq
      refine agrees_ok (before_of_after ha ?_)
      rw [← hch, ← hq]
      decide
    · split
      · rename_i hcm
        have hne : st2.character ≠ NUL := by rw [← hcm]; decide
        refine agrees_andThen (agrees_catchRethrow (hV st2 (before_of_after ha hne)))
          fun v st3 h3 => ?_
        exact ih _ st3 h3
      · exact agrees_unexpected st2

theorem agrees_ConsumeArray {D : Type} {src : List Char} (hc : CStr src)
    {VW : Assist → Option (Outcome (Json D))} {V : Assist → Outcome (Json D)}
    (hV : ∀ st, Watched.Before src st →
      Watched.Agrees (fun _ st2 => Watched.Before src st2) (VW st) (V st))
    (fuel : Nat) {st : Assist} (hb : Watched.Before src st) :
    Watched.Agrees (fun _ st2 => Watched.Before src st2)
      (Watched.ConsumeArray VW fuel st) (ConsumeArray V fuel st) := by
  simp only [Watched.ConsumeArray, ConsumeArray]
  refine agrees_andThen (agrees_next hc hb) fun ch st2 h => ?_
  obtain ⟨ha, hch⟩ := h
  split
  · exact agrees_unexpected st2
  · rename_i hq
    have hne : st2.character ≠ NUL := by
      have : '[' = ch := by
        by_contra hne
        exact hq hne
      rw [← hch, ← this]
      decide
    refine agrees_andThen (agrees_SkipWhitespaces hc fuel st2 (before_of_after ha hne))
      fun _ st3 h3 => ?_
    refine agrees_andThen (agrees_next hc h3) fun c4 st4 h4 => ?_
    obtain ⟨ha4, hc4⟩ := h4
    split
    · rename_i hq4
      refine agrees_ok (before_of_after ha4 ?_)
      rw [← hc4, ← hq4]
      decide
    · refine agrees_andThen (Q := fun _ st5 => Watched.Before src st5) ?_ fun v st5 h5 => ?_
      · exact agrees_moved (before_retract ha4)
          (agrees_catchRethrow (hV _ (before_retract ha4)))
      · refine agrees_andThen (agrees_arrayLoop hc hV fuel _ st5 h5) fun arr st6 h6 => ?_
        exact agrees_ok h6

theorem agrees_consumer {D : Type} (atof : List Char → D) {src : List Char} (hc : CStr src)
    {VW : Assist → Option (Outcome (Json D))} {V : Assist → Outcome (Json D)}
    (hV : ∀ st, Watched.Before src st →
      Watched.Agrees (fun _ st2 => Watched.Before src st2) (VW st) (V st))
    (fuel : Nat) {st : Assist} (hb : Watched.Before src st) :
    Watched.Agrees (fun _ st2 => Watched.Before src st2)
      (Watched.ConsumeValue.consumer atof VW fuel st) (ConsumeValue.consumer atof V fuel st) := by
  simp only [Watched.ConsumeValue.consumer, ConsumeValue.consumer]
  refine agrees_andThen (agrees_SkipWhitespaces hc fuel st hb) fun _ st2 h2 => ?_
  refine agrees_andThen (agrees_KindDetect hc h2) fun kind st3 h3 => ?_
  cases kind with
  | kNumber => exact agrees_ConsumeNumber atof hc fuel h3
  | kString => exact agrees_ConsumeString hc fuel h3
  | kBool => exact agrees_ConsumeBool hc h3
  | kNull => exact agrees_ConsumeNull hc h3
  | kObject => exact agrees_ConsumeObject hc hV fuel h3
  | kArray => exact agrees_ConsumeArray hc hV fuel h3

theorem agrees_finish {D : Type} {src : List Char} (hc : CStr src) (fuel : Nat) (sect : Bool)
    (json : Json D) {st : Assist} (hb : Watched.Before src st) :
    Watched.Agrees (fun _ st2 => sect = true → Watched.Before src st2)
      (Watched.ConsumeValue.finish fuel sect json st) (ConsumeValue.finish fuel sect json st) := by
  simp only [Watched.ConsumeValue.finish, ConsumeValue.finish]
  cases sect with
  | true =>
    refine agrees_andThen (Q := fun _ st2 => Watched.Before src st2) ?_ fun _ st2 h2 => ?_
    · exact agrees_ok hb
    · refine agrees_andThen (agrees_SkipWhitespaces hc fuel st2 h2) fun _ st3 h3 => ?_
      exact agrees_ok fun _ => h3
  | false =>
    refine agrees_andThen (Q := fun _ _ => True) ?_ fun _ st2 _ => ?_
    · split
      · refine agrees_andThen (agrees_SkipWhitespaces hc fuel st hb) fun _ st3 h3 => ?_
        refine agrees_andThen (agrees_next hc h3) fun _ st4 _ => ?_
        split
        · exact agrees_unexpected st4
        · exact agrees_ok trivial
      · exact agrees_ok trivial
    · refine agrees_andThen (Q := fun _ _ => True) (agrees_ok trivial) fun _ st3 _ => ?_
      exact agrees_ok fun h => by cases h

theorem agrees_ConsumeValue {D : Type} (atof : List Char → D) {src : List Char}
    (hc : CStr src) :
    ∀ (fuel : Nat) (sect : Bool) (st : Assist), Watched.Before src st →
      Watched.Agrees (fun _ st2 => sect = true → Watched.Before src st2)
        (Watched.ConsumeValue atof fuel sect st) (ConsumeValue atof fuel sect st) := by
  intro fuel
  induction fuel with
  | zero => intro _ _ _; exact agrees_outOfFuel
  | succ n ih =>
    intro sect st hb
    simp only [Watched.ConsumeValue, ConsumeValue]
    refine agrees_andThen
      (agrees_consumer atof hc (fun st2 h2 => agrees_weaken (ih true st2 h2) fun _ _ h => h rfl)
        (n + 1) hb) fun json st2 h2 => ?_
    exact agrees_finish hc (n + 1) sect json h2

theorem agrees_Parse {D : Type} (atof : List Char → D) {s : List Char} (hc : CStr s) :
    Watched.Parse atof s = some (Parse atof s) :=
  (agrees_ConsumeValue atof hc (s.length + 2) false (Assist.init s)
    ⟨rfl, by simp [Assist.init], by simp only [Assist.init]; omega⟩).1

/-- C35. Cursor safety.  `Watched.Parse` is `Parse` with a watch on the cursor: each member
of `Assist` is run as the code has it, but the run stops (`none`) as soon as
`NextCharacter` takes its end-of-input guard, reads at an index outside `0 .. length`, or
a `pos--` leaves the cursor outside `-1 .. length`.  For every C string `s` the watched
run of `Parse(s)` is the run of `Parse(s)` itself: the watch never stops it, so at every
step the cursor is in `-1 .. length(s)`, every read is at an index in `0 .. length(s)`,
and the guard is never taken.  A run that returns a value ends with the cursor on the
terminator, and a run that throws ends with the cursor on the offending character, at an
index in `0 .. length(s)`. -/
theorem C35_cursor_safety {D : Type} (atof : List Char → D) (s : List Char) (hc : CStr s) :
    Watched.Parse atof s = some (Parse atof s) ∧
    (Assist.init s).pos = -1 ∧
    (∀ st : Assist, st.pos ≥ 0 ∧ charAt st.source st.pos = NUL →
      Watched.NextCharacter st = none) ∧
    (∀ st : Assist, (st.pos + 1 < 0 ∨ st.pos + 1 > (st.source.length : Int)) →
      Watched.NextCharacter st = none) ∧
    (∀ (st st2 : Assist) (c : Char), Watched.NextCharacter st = some (.ok c st2) →
      NextCharacter st = .ok c st2 ∧ st2.pos = st.pos + 1 ∧
        c = charAt st.source (st.pos + 1)) ∧
    (∀ (α : Type) (st : Assist) (k : Assist → Option (Outcome α)),
      (st.pos < -1 ∨ st.pos > (st.source.length : Int)) → Watched.moved st k = none) ∧
    (∀ (v : Json D) (st : Assist), Parse atof s = .ok v st → st.pos = (s.length : Int)) ∧
    (∀ (e : Exception) (st : Assist), Parse atof s = .thrown e st →
      0 ≤ st.pos ∧ st.pos ≤ (s.length : Int) ∧ e = .UnexpectedToken (charAt s st.pos) st.pos) := by
  refine ⟨agrees_Parse atof hc, rfl, ?_, ?_, ?_, ?_, ?_, ?_⟩
  · intro st h
    simp only [Watched.NextCharacter, h, and_self, if_true]
  · intro st h
    simp only [Watched.NextCharacter]
    split
    · rfl
    · rfl
  · intro st st2 c h
    simp only [Watched.NextCharacter] at h
    split at h
    · cases h
    · rename_i hg
      split at h
      · cases h
      · injection h with h
        injection h with h1 h2
        refine ⟨?_, ?_, h1.symm⟩
        · simp only [NextCharacter, hg, if_false]
          rw [← h1, ← h2]
        · rw [← h2]
  · intro α st k h
    simp only [Watched.moved, h, if_true]
  · intro v st h
    rcases Parse_back atof hc with ⟨pre, lex, post, v2, tok, -, -, -, -, h2⟩ | hthr
    · rw [h] at h2
      injection h2 with _ hst
      rw [hst]
      simp only [cur]
      omega
    · exact (hthr.not_ok h).elim
  · intro e st h
    rcases Parse_back atof hc with ⟨pre, lex, post, v2, tok, -, -, -, -, h2⟩ | ⟨p, tok, -, hp, h2⟩
    · rw [h] at h2
      cases h2
    · rw [h] at h2
      injection h2 with he hst
      rw [hst, he]
      have hpos : (cur s (p + 1) (peek s p) tok).pos = (p : Int) := by
        simp only [cur]
        omega
      rw [hpos, charAt_nat]
      exact ⟨by omega, by omega, rfl⟩

/-- A witness for C35: the text `[1]`. -/
theorem C35_witness :
    Watched.Parse (fun t : List Char => t) ['[', '1', ']'] =
      some (Parse (fun t : List Char => t) ['[', '1', ']']) :=
  (C35_cursor_safety (fun t : List Char => t) ['[', '1', ']'] (by unfold CStr; decide)).1

end ggicci
